import Mathlib

/-!
# A verification development for the segmented deque of `fast_io`

The embedded code is `include/fast_io_dsal/impl/deque.h`.

Modelling conventions.

* `B` is `block_elements_v<T>`, the number of elements of a block.
* A block of element storage is a list of cells; a cell is `none` while it has
  never been constructed.  Blocks are named by the order in which the allocator
  handed them out, so a fresh block is different from every earlier one.
* An element pointer `T *` is a block name with an offset; the null pointer is
  `none`.  Forming a pointer in front of a block is a fault.
* The control array is a list of slots; a slot is `none` while nothing was
  stored in it.  The four block cursors are slot numbers counted from
  `block_ctrl_begin_`; the null control array is the empty list (every
  allocated control array has at least four slots).
* `fast_terminate()` is `Fault.terminate`; a read or write outside the storage,
  through a null pointer or of a slot or cell that was never written is
  `Fault.undefined`.
* `size_t` and `ptrdiff_t` are `Nat` and `Int`.  A pointer difference that the
  source casts to `size_t` is taken between ordered pointers of one array and is
  a natural subtraction.  The unsigned `calc_pos` and `calc_cap` add a caller
  supplied number and wrap modulo `2 ^ 64`.
* The allocator always succeeds.  A destructor call ends the lifetime of an
  object and leaves its storage allocated: the model appends the call to the
  log `destroyed` and keeps the last value in the cell, so which objects were
  destroyed is read off the log and not off the cells.  Deallocations are
  recorded in the log `freed` in the same way.
* The allocator decides where a block lies: `placed` lists the addresses it gave
  to the blocks, in the order in which it handed them out and counted in cells;
  a block beyond the list lies at `spread b`, apart from every other.  The
  address of a pointer is `place blk + off`.  Two pointers compare equal with
  `==` when their addresses are equal, so the pointer one past the end of a
  block equals the pointer to the first cell of a block that lies right behind
  it.
* The trailing arguments `ts...` of `construct_` are a value of `ctor_src`.  The
  three statements of `construct_` are `construct_first_`, `construct_more_` and
  `construct_rem_`; the fill of one block is `construct_full` or
  `construct_part`.  An iterator pair refers to a source deque, which is a value
  of its own.
-/

namespace fast_io

/-- Outcome of an operation that leaves the defined behaviour. -/
inductive Fault where
  | terminate
  | undefined
deriving DecidableEq, Repr

/-- Result of running a piece of the embedded code. -/
abbrev Res (σ : Type) : Type := Except Fault σ

/-- Element pointer: block name and offset inside the block. -/
structure Ptr where
  blk : Nat
  off : Nat
deriving DecidableEq, Repr

/-- Pointer addition `p + n`. -/
def Ptr.add (p : Ptr) (n : Nat) : Ptr := ⟨p.blk, p.off + n⟩

/-- Pointer decrement `p - 1`; a pointer in front of the block does not exist. -/
def Ptr.pred (p : Ptr) : Res Ptr :=
  if p.off = 0 then .error .undefined else .ok ⟨p.blk, p.off - 1⟩

/-- The non-null pointer held by a cursor. -/
def nn (p : Option Ptr) : Res Ptr :=
  match p with
  | some q => .ok q
  | none => .error .undefined

/-- Pointer difference `a - b` cast to `size_t`, for cursors of one block (null minus null is 0). -/
def ptr_diff (a b : Option Ptr) : Nat :=
  match a, b with
  | some p, some q => p.off - q.off
  | _, _ => 0

/-- Value of `block_elements_v<T>` for an element type of the given size. -/
def block_elements_v (sizeofT : Nat) : Nat :=
  if 16 > 4096 / sizeofT then 16 else 4096 / sizeofT

/-- Number of values of `size_t`. -/
def SIZE_RANGE : Nat := 2 ^ 64

/-- The placement of an allocator that leaves a gap behind every block: the block named `b`
lies at the address `(b + 1) * 8192`, and no block has more than 4096 cells. -/
def spread (b : Nat) : Nat := (b + 1) * 8192

/-- The twelve cursors of the deque together with the storage they point into, and the
addresses at which the allocator has placed the blocks. -/
structure deque (α : Type) where
  blocks : List (List (Option α)) := []
  freed : List Nat := []
  destroyed : List Ptr := []
  ctrl_allocs : Nat := 0
  ctrl_frees : Nat := 0
  ctrl : List (Option Nat) := []
  block_alloc_begin_ : Nat := 0
  block_alloc_end_ : Nat := 0
  block_elem_begin_ : Nat := 0
  block_elem_end_ : Nat := 0
  elem_begin_first_ : Option Ptr := none
  elem_begin_begin_ : Option Ptr := none
  elem_begin_end_ : Option Ptr := none
  elem_end_begin_ : Option Ptr := none
  elem_end_end_ : Option Ptr := none
  elem_end_last_ : Option Ptr := none
  placed : List Nat := []

namespace deque

variable {α : Type}

/-- Slot number of `block_ctrl_end_`. -/
def block_ctrl_end_ (d : deque α) : Nat := d.ctrl.length

/-- Read of a control slot `*p`. -/
def slot (cs : List (Option Nat)) (k : Nat) : Res Nat :=
  match cs[k]? with
  | some (some b) => .ok b
  | _ => .error .undefined

/-- Start address of the block stored in a control slot. -/
def slot_ptr (cs : List (Option Nat)) (k : Nat) : Res Ptr :=
  match slot cs k with
  | .ok b => .ok ⟨b, 0⟩
  | .error e => .error e

/-- Write of a control slot `*p = b`. -/
def set_slot (cs : List (Option Nat)) (k : Nat) (b : Nat) : Res (List (Option Nat)) :=
  if k < cs.length then .ok (cs.set k (some b)) else .error .undefined

/-- Address of the block named `b`, counted in cells: the address the allocator gave it, or
the address of the placement `spread` when none is recorded. -/
def place (d : deque α) (b : Nat) : Nat :=
  match d.placed[b]? with
  | some a => a
  | none => spread b

/-- Address of a pointer, counted in cells; the null pointer has none. -/
def addr (d : deque α) (p : Option Ptr) : Option Nat :=
  match p with
  | some q => some (d.place q.blk + q.off)
  | none => none

/-- Read of an element `*p`. -/
def read (d : deque α) (p : Ptr) : Res α :=
  match d.blocks[p.blk]? with
  | some cells =>
    match cells[p.off]? with
    | some (some v) => .ok v
    | _ => .error .undefined
  | none => .error .undefined

/-- Store of an element through `p` (`construct_at` and assignment). -/
def write (d : deque α) (p : Ptr) (v : α) : Res (deque α) :=
  match d.blocks[p.blk]? with
  | some cells =>
    if p.off < cells.length then
      .ok { d with blocks := d.blocks.set p.blk (cells.set p.off (some v)) }
    else .error .undefined
  | none => .error .undefined

/-- Model of `std::destroy_at(p)`: the destructor call is appended to the log
`destroyed`.  The storage of the object stays allocated and the cell keeps its
last value; a statement about which objects are alive is made on the log. -/
def destroy_at (d : deque α) (p : Option Ptr) : Res (deque α) :=
  match p with
  | some q => .ok { d with destroyed := d.destroyed ++ [q] }
  | none => .error .undefined

/-- Model of `dealloc_block_`, which records the block as released. -/
def dealloc_block_ (d : deque α) (b : Nat) : deque α :=
  { d with freed := d.freed ++ [b] }

/-- Model of `alloc_block_`; the new block gets the next name and `B` raw cells. -/
def alloc_block_ (B : Nat) (d : deque α) : Nat × deque α :=
  (d.blocks.length, { d with blocks := d.blocks ++ [List.replicate B none] })

/-- Model of `dealloc_ctrl_`, which releases the control array unless it is null. -/
def dealloc_ctrl_ (d : deque α) : deque α :=
  if d.block_ctrl_end_ ≠ 0 then { d with ctrl_frees := d.ctrl_frees + 1 } else d

/-- Setter `elem_begin_(begin, end, first)`. -/
def elem_begin_ (d : deque α) (b e f : Option Ptr) : deque α :=
  { d with elem_begin_begin_ := b, elem_begin_end_ := e, elem_begin_first_ := f }

/-- Setter `elem_end_(begin, end, last)`. -/
def elem_end_ (d : deque α) (b e l : Option Ptr) : deque α :=
  { d with elem_end_begin_ := b, elem_end_end_ := e, elem_end_last_ := l }

/-- Number of element blocks, `block_elem_size_()`. -/
def block_elem_size_ (d : deque α) : Nat := d.block_elem_end_ - d.block_elem_begin_

/-- Number of control slots, `block_ctrl_size_()`. -/
def block_ctrl_size_ (d : deque α) : Nat := d.block_ctrl_end_

/-- Number of owned blocks, `block_alloc_size_()`. -/
def block_alloc_size_ (d : deque α) : Nat := d.block_alloc_end_ - d.block_alloc_begin_

/-- Member `empty()`. -/
def empty (d : deque α) : Bool := d.elem_begin_begin_.isNone

/-- Member `size()`. -/
def size (B : Nat) (d : deque α) : Nat :=
  let block_size := d.block_elem_size_
  let r0 := 0
  let r1 := if block_size ≠ 0 then r0 + ptr_diff d.elem_begin_end_ d.elem_begin_begin_ else r0
  let r2 := if block_size > 2 then r1 + (block_size - 2) * B else r1
  let r3 := if block_size > 1 then r2 + ptr_diff d.elem_end_end_ d.elem_end_begin_ else r2
  r3

/-- Member `max_size()`. -/
def max_size : Nat := (SIZE_RANGE - 1) / 2

/-- Contract of `std::ranges::rotate(first, middle, last)` on the slots of an array. -/
def rotate_slots (cs : List (Option Nat)) (first middle last : Nat) :
    Res (List (Option Nat)) :=
  if first ≤ middle ∧ middle ≤ last ∧ last ≤ cs.length then
    .ok (cs.take first ++ ((cs.drop middle).take (last - middle)
      ++ (cs.drop first).take (middle - first)) ++ cs.drop last)
  else .error .undefined

/-- Contract of `std::ranges::copy(first, last, out)` from the slots of `src` into `dst` at
slot `pos`, and of `copy_backward` whose output range starts at `pos`. -/
def copy_slots (src : List (Option Nat)) (first last : Nat) (dst : List (Option Nat))
    (pos : Nat) : Res (List (Option Nat)) :=
  if first ≤ last ∧ last ≤ src.length ∧ pos + (last - first) ≤ dst.length then
    .ok (dst.take pos ++ (src.drop first).take (last - first) ++ dst.drop (pos + (last - first)))
  else .error .undefined

/-- Constructor of `ctrl_alloc_`: a fresh control array, its size rounded up to a multiple of 4. -/
def ctrl_alloc_ (ctrl_size : Nat) : List (Option Nat) :=
  let size := (ctrl_size + (4 - 1)) / 4 * 4
  List.replicate size none

/-- Member `align_alloc_as_ctrl_back_`. -/
def align_alloc_as_ctrl_back_ (d : deque α) : Res (deque α) := do
  let cs ← copy_slots d.ctrl d.block_alloc_begin_ d.block_alloc_end_ d.ctrl 0
  let block_size := d.block_alloc_size_
  .ok { d with ctrl := cs, block_alloc_begin_ := 0, block_alloc_end_ := 0 + block_size }

/-- Member `align_alloc_as_ctrl_front_`. -/
def align_alloc_as_ctrl_front_ (d : deque α) : Res (deque α) := do
  let block_size := d.block_alloc_size_
  if d.block_ctrl_end_ < block_size then .error .undefined else
  let cs ← copy_slots d.ctrl d.block_alloc_begin_ d.block_alloc_end_ d.ctrl
    (d.block_ctrl_end_ - block_size)
  .ok { d with ctrl := cs, block_alloc_end_ := d.block_ctrl_end_,
               block_alloc_begin_ := d.block_ctrl_end_ - block_size }

/-- Member `align_elem_as_alloc_back_`. -/
def align_elem_as_alloc_back_ (d : deque α) : Res (deque α) := do
  let cs ← rotate_slots d.ctrl d.block_alloc_begin_ d.block_elem_begin_ d.block_elem_end_
  let block_size := d.block_elem_size_
  .ok { d with ctrl := cs, block_elem_begin_ := d.block_alloc_begin_,
               block_elem_end_ := d.block_alloc_begin_ + block_size }

/-- Member `align_elem_as_alloc_front_`. -/
def align_elem_as_alloc_front_ (d : deque α) : Res (deque α) := do
  let cs ← rotate_slots d.ctrl d.block_elem_begin_ d.block_elem_end_ d.block_alloc_end_
  let block_size := d.block_elem_size_
  if d.block_alloc_end_ < block_size then .error .undefined else
  .ok { d with ctrl := cs, block_elem_end_ := d.block_alloc_end_,
               block_elem_begin_ := d.block_alloc_end_ - block_size }

/-- Member `align_elem_alloc_as_ctrl_back_(ctrl_begin)`.  The array that starts at
`ctrl_begin` is `target`; `none` stands for the control array of the deque itself. -/
def align_elem_alloc_as_ctrl_back_ (d : deque α) (target : Option (List (Option Nat))) :
    Res (deque α) := do
  let d ← d.align_elem_as_alloc_back_
  let alloc_block_size := d.block_alloc_size_
  let elem_block_size := d.block_elem_size_
  let cs ← copy_slots d.ctrl d.block_alloc_begin_ d.block_alloc_end_ (target.getD d.ctrl) 0
  .ok { d with ctrl := cs, block_alloc_begin_ := 0, block_alloc_end_ := 0 + alloc_block_size,
               block_elem_begin_ := 0, block_elem_end_ := 0 + elem_block_size }

/-- Member `align_elem_alloc_as_ctrl_front_(ctrl_end)`.  The array that ends at `ctrl_end`
is `target`; `none` stands for the control array of the deque itself. -/
def align_elem_alloc_as_ctrl_front_ (d : deque α) (target : Option (List (Option Nat))) :
    Res (deque α) := do
  let d ← d.align_elem_as_alloc_front_
  let alloc_block_size := d.block_alloc_size_
  let elem_block_size := d.block_elem_size_
  let t := target.getD d.ctrl
  if t.length < alloc_block_size ∨ t.length < elem_block_size then .error .undefined else
  let cs ← copy_slots d.ctrl d.block_alloc_begin_ d.block_alloc_end_ t
    (t.length - alloc_block_size)
  .ok { d with ctrl := cs, block_alloc_end_ := t.length,
               block_alloc_begin_ := t.length - alloc_block_size,
               block_elem_end_ := t.length,
               block_elem_begin_ := t.length - elem_block_size }

/-- Member `ctrl_alloc_::replace_ctrl`. -/
def replace_ctrl (d : deque α) (cs : List (Option Nat)) : deque α :=
  { d with ctrl := cs, block_alloc_begin_ := 0, block_alloc_end_ := 0,
           block_elem_begin_ := 0, block_elem_end_ := 0 }

/-- Member `ctrl_alloc_::replace_ctrl_back`: the old control array is released after its
owned slots were carried to the start of the new one. -/
def replace_ctrl_back (d : deque α) (cs : List (Option Nat)) : Res (deque α) := do
  let d1 ← d.align_elem_alloc_as_ctrl_back_ (some cs)
  let d2 := dealloc_ctrl_ { d1 with ctrl := d.ctrl }
  .ok { d2 with ctrl := d1.ctrl }

/-- Member `ctrl_alloc_::replace_ctrl_front`. -/
def replace_ctrl_front (d : deque α) (cs : List (Option Nat)) : Res (deque α) := do
  let d1 ← d.align_elem_alloc_as_ctrl_front_ (some cs)
  let d2 := dealloc_ctrl_ { d1 with ctrl := d.ctrl }
  .ok { d2 with ctrl := d1.ctrl }

/-- Allocation of a control array by `ctrl_alloc_ const ctrl{*this, n}`. -/
def new_ctrl (d : deque α) (n : Nat) : List (Option Nat) × deque α :=
  (ctrl_alloc_ n, { d with ctrl_allocs := d.ctrl_allocs + 1 })

/-- Loop of `extent_block_front_uncond_`. -/
def extent_front_loop (B : Nat) : Nat → deque α → Res (deque α)
  | 0, d => .ok d
  | n + 1, d =>
    if d.block_alloc_begin_ = 0 then .error .undefined else
    let k := d.block_alloc_begin_ - 1
    let (b, d1) := alloc_block_ B d
    match set_slot d1.ctrl k b with
    | .ok cs => extent_front_loop B n { d1 with ctrl := cs, block_alloc_begin_ := k }
    | .error e => .error e

/-- Member `extent_block_front_uncond_`. -/
def extent_block_front_uncond_ (B : Nat) (d : deque α) (block_size : Nat) : Res (deque α) :=
  if ¬ (d.block_alloc_begin_ ≠ 0) then .error .terminate
  else if d.ctrl.length = 0 then .error .terminate
  else extent_front_loop B block_size d

/-- Loop of `extent_block_back_uncond_`. -/
def extent_back_loop (B : Nat) : Nat → deque α → Res (deque α)
  | 0, d => .ok d
  | n + 1, d =>
    let (b, d1) := alloc_block_ B d
    match set_slot d1.ctrl d1.block_alloc_end_ b with
    | .ok cs => extent_back_loop B n { d1 with ctrl := cs, block_alloc_end_ := d1.block_alloc_end_ + 1 }
    | .error e => .error e

/-- Member `extent_block_back_uncond_`. -/
def extent_block_back_uncond_ (B : Nat) (d : deque α) (block_size : Nat) : Res (deque α) :=
  if ¬ (d.block_alloc_end_ ≠ d.block_ctrl_end_) then .error .terminate
  else if d.ctrl.length = 0 then .error .terminate
  else extent_back_loop B block_size d

/-- Member `reallocate_control_block_for_back_expansion_`. -/
def reallocate_control_block_for_back_expansion_ (B : Nat) (d : deque α) (add_block_size : Nat) :
    Res (deque α) := do
  let (cs, d) := d.new_ctrl (d.block_alloc_size_ + add_block_size)
  let d ← d.replace_ctrl_back cs
  extent_block_back_uncond_ B d add_block_size

/-- Member `reserve_back_`. -/
def reserve_back_ (B : Nat) (d : deque α) (add_elem_size : Nat) : Res (deque α) := do
  let head_block_cap := (d.block_elem_begin_ - d.block_alloc_begin_) * B
  let tail_block_cap := (d.block_alloc_end_ - d.block_elem_end_) * B
  let tail_cap := ptr_diff d.elem_end_last_ d.elem_end_end_
  let non_move_cap := tail_block_cap + tail_cap
  if non_move_cap ≥ add_elem_size then .ok d else
  let move_cap := head_block_cap + non_move_cap
  if move_cap ≥ add_elem_size then d.align_elem_as_alloc_back_ else
  let add_block_size := (add_elem_size - move_cap + B - 1) / B
  let ctrl_cap := ((d.block_alloc_begin_ - 0) + (d.block_ctrl_end_ - d.block_alloc_end_)) * B
    + move_cap
  let d ←
    if ctrl_cap ≥ add_elem_size then do
      let d ← d.align_elem_alloc_as_ctrl_back_ none
      extent_block_back_uncond_ B d add_block_size
    else
      reallocate_control_block_for_back_expansion_ B d add_block_size
  extent_block_back_uncond_ B d add_block_size

/-- Member `reserve_one_back_`. -/
def reserve_one_back_ (B : Nat) (d : deque α) : Res (deque α) := do
  if d.block_alloc_end_ ≠ d.block_elem_end_ then .ok d else
  if d.block_elem_begin_ ≠ d.block_alloc_begin_ then d.align_elem_as_alloc_back_ else
  let d ←
    if (d.block_alloc_begin_ - 0) + (d.block_ctrl_end_ - d.block_alloc_end_) ≠ 0 then
      d.align_elem_alloc_as_ctrl_back_ none
    else
      let (cs, d) := d.new_ctrl (d.block_alloc_size_ + 1)
      d.replace_ctrl_back cs
  extent_block_back_uncond_ B d 1

/-- Member `reserve_front_`. -/
def reserve_front_ (B : Nat) (d : deque α) (add_elem_size : Nat) : Res (deque α) := do
  let head_block_alloc_cap := (d.block_elem_begin_ - d.block_alloc_begin_) * B
  let tail_block_alloc_cap := (d.block_alloc_end_ - d.block_elem_end_) * B
  let head_cap := ptr_diff d.elem_begin_begin_ d.elem_begin_first_
  let non_move_cap := head_block_alloc_cap + head_cap
  if non_move_cap ≥ add_elem_size then .ok d else
  let move_cap := non_move_cap + tail_block_alloc_cap
  if move_cap ≥ add_elem_size then d.align_elem_as_alloc_front_ else
  let add_block_size := (add_elem_size - move_cap + B - 1) / B
  let ctrl_cap := ((d.block_alloc_begin_ - 0) + (d.block_ctrl_end_ - d.block_alloc_end_)) * B
    + move_cap
  let d ←
    if ctrl_cap ≥ add_elem_size then
      d.align_elem_alloc_as_ctrl_front_ none
    else
      let (cs, d) := d.new_ctrl (d.block_alloc_size_ + add_block_size)
      d.replace_ctrl_front cs
  extent_block_front_uncond_ B d add_block_size

/-- Member `reserve_one_front_`. -/
def reserve_one_front_ (B : Nat) (d : deque α) : Res (deque α) := do
  if d.block_elem_begin_ ≠ d.block_alloc_begin_ then .ok d else
  if d.block_alloc_end_ ≠ d.block_elem_end_ then d.align_elem_as_alloc_front_ else
  let d ←
    if (d.block_alloc_begin_ - 0) + (d.block_ctrl_end_ - d.block_alloc_end_) ≠ 0 then
      d.align_elem_alloc_as_ctrl_front_ none
    else
      let (cs, d) := d.new_ctrl (d.block_alloc_size_ + 1)
      d.replace_ctrl_front cs
  extent_block_front_uncond_ B d 1

/-- Member `emplace_back_pre_`; the reference it returns is the pointer `end`. -/
def emplace_back_pre_ (d : deque α) (block_size : Nat) (v : α) : Res (deque α) := do
  let endp ← nn d.elem_end_end_
  let d ← d.write endp v
  let d := { d with elem_end_end_ := some (endp.add 1) }
  let d := if block_size = 1 then { d with elem_begin_end_ := some (endp.add 1) } else d
  .ok d

/-- Member `emplace_back_post_`. -/
def emplace_back_post_ (B : Nat) (d : deque α) (block_size : Nat) (v : α) : Res (deque α) := do
  let beginp ← slot_ptr d.ctrl d.block_elem_end_
  let d ← d.write beginp v
  let d := d.elem_end_ (some beginp) (some (beginp.add 1)) (some (beginp.add B))
  let d := { d with block_elem_end_ := d.block_elem_end_ + 1 }
  let d := if block_size = 0 then
    d.elem_begin_ (some beginp) (some (beginp.add 1)) (some beginp) else d
  .ok d

/-- Member `emplace_back`. -/
def emplace_back (B : Nat) (d : deque α) (v : α) : Res (deque α) := do
  let block_size := d.block_elem_size_
  if d.elem_end_end_ ≠ d.elem_end_last_ then
    d.emplace_back_pre_ block_size v
  else
    let d ← reserve_one_back_ B d
    emplace_back_post_ B d block_size v

/-- Member `emplace_back_noalloc_`. -/
def emplace_back_noalloc_ (B : Nat) (d : deque α) (v : α) : Res (deque α) := do
  let block_size := d.block_elem_size_
  if d.elem_end_end_ ≠ d.elem_end_last_ then
    d.emplace_back_pre_ block_size v
  else
    emplace_back_post_ B d block_size v

/-- Member `emplace_front_pre_`. -/
def emplace_front_pre_ (d : deque α) (block_size : Nat) (v : α) : Res (deque α) := do
  let p ← nn d.elem_begin_begin_
  let beginp ← p.pred
  let d ← d.write beginp v
  let d := { d with elem_begin_begin_ := some beginp }
  let d := if block_size = 1 then { d with elem_end_begin_ := some beginp } else d
  .ok d

/-- Member `emplace_front_post_`. -/
def emplace_front_post_ (B : Nat) (d : deque α) (block_size : Nat) (v : α) : Res (deque α) := do
  if d.block_elem_begin_ = 0 then .error .undefined else
  let block := d.block_elem_begin_ - 1
  let first ← slot_ptr d.ctrl block
  let endp := first.add B
  let last ← endp.pred
  let d ← d.write last v
  let d := d.elem_begin_ (some last) (some endp) (some first)
  let d := { d with block_elem_begin_ := d.block_elem_begin_ - 1 }
  let d := if block_size = 0 then d.elem_end_ (some last) (some endp) (some endp) else d
  .ok d

/-- Member `emplace_front`. -/
def emplace_front (B : Nat) (d : deque α) (v : α) : Res (deque α) := do
  let block_size := d.block_elem_size_
  if d.elem_begin_begin_ ≠ d.elem_begin_first_ then
    d.emplace_front_pre_ block_size v
  else
    let d ← reserve_one_front_ B d
    emplace_front_post_ B d block_size v

/-- Member `emplace_front_noalloc_`. -/
def emplace_front_noalloc_ (B : Nat) (d : deque α) (v : α) : Res (deque α) := do
  let block_size := d.block_elem_size_
  if d.elem_begin_begin_ ≠ d.elem_begin_first_ then
    d.emplace_front_pre_ block_size v
  else
    emplace_front_post_ B d block_size v

/-- Member `pop_back`. -/
def pop_back (B : Nat) (d : deque α) : Res (deque α) := do
  if d.empty then .error .terminate else
  let e ← nn d.elem_end_end_
  let e ← e.pred
  let d := { d with elem_end_end_ := some e }
  let d ← d.destroy_at d.elem_end_begin_
  if d.elem_end_end_ = d.elem_end_begin_ then
    if d.block_elem_end_ = 0 then .error .undefined else
    let d := { d with block_elem_end_ := d.block_elem_end_ - 1 }
    let block_size := d.block_elem_size_
    if block_size = 1 then
      .ok (d.elem_end_ d.elem_begin_begin_ d.elem_begin_end_ d.elem_begin_end_)
    else if block_size ≠ 0 then
      if d.block_elem_end_ = 0 then .error .undefined else
      let beginp ← slot_ptr d.ctrl (d.block_elem_end_ - 1)
      let last := beginp.add B
      .ok (d.elem_end_ (some beginp) (some last) (some last))
    else
      .ok ((d.elem_begin_ none none none).elem_end_ none none none)
  else if d.block_elem_size_ = 1 then
    let p ← nn d.elem_begin_end_
    let p ← p.pred
    .ok { d with elem_begin_end_ := some p }
  else .ok d

/-- Member `pop_front`. -/
def pop_front (B : Nat) (d : deque α) : Res (deque α) := do
  if d.empty then .error .terminate else
  let d ← d.destroy_at d.elem_begin_begin_
  let b ← nn d.elem_begin_begin_
  let d := { d with elem_begin_begin_ := some (b.add 1) }
  if d.elem_begin_end_ = d.elem_begin_begin_ then
    let d := { d with block_elem_begin_ := d.block_elem_begin_ + 1 }
    let block_size := d.block_elem_size_
    if block_size = 1 then
      .ok (d.elem_begin_ d.elem_end_begin_ d.elem_end_end_ d.elem_end_begin_)
    else if block_size ≠ 0 then
      let beginp ← slot_ptr d.ctrl d.block_elem_begin_
      let last := beginp.add B
      .ok (d.elem_begin_ (some beginp) (some last) (some beginp))
    else
      .ok ((d.elem_begin_ none none none).elem_end_ none none none)
  else if d.block_elem_size_ = 1 then
    let p ← nn d.elem_end_begin_
    .ok { d with elem_end_begin_ := some (p.add 1) }
  else .ok d

/-- Member `front()`, as the value it refers to. -/
def front (d : deque α) : Res α := do
  if d.empty then .error .terminate else
  let p ← nn d.elem_begin_begin_
  d.read p

/-- Member `back()`, as the pointer it refers to. -/
def back_ptr (d : deque α) : Res Ptr := do
  if d.empty then .error .terminate else
  let p ← nn d.elem_end_end_
  p.pred

/-- Member `back()`, as the value it refers to. -/
def back (d : deque α) : Res α := do
  let p ← d.back_ptr
  d.read p

/-- The fields of the `pos_t` returned by `calc_pos`. -/
structure pos_t (ι : Type) where
  block_step : ι
  elem_step : ι

/-- The fields of the `cap_t` returned by `calc_cap`. -/
structure cap_t where
  block_size : Nat
  full_blocks : Nat
  rem_elems : Nat

/-- Function `calc_cap`; the sum `size + block_elems - 1` wraps. -/
def calc_cap (B size : Nat) : cap_t :=
  ⟨(size + B - 1) % SIZE_RANGE / B, size / B, size % B⟩

/-- Function `calc_pos` on `ptrdiff_t`; `/` and `%` truncate toward zero. -/
def calc_pos_signed (B : Nat) (front_size pos : Int) : pos_t Int :=
  let block_elems : Int := B
  if pos ≥ 0 then
    let new_pos := pos + front_size
    ⟨Int.tdiv new_pos block_elems, Int.tmod new_pos block_elems⟩
  else
    let new_pos := pos + front_size - block_elems + 1
    ⟨Int.tdiv new_pos block_elems, Int.tmod new_pos block_elems - 1 + block_elems⟩

/-- Function `calc_pos` on `size_t`; the sum wraps. -/
def calc_pos (B : Nat) (front_size pos : Nat) : pos_t Nat :=
  let new_pos := (pos + front_size) % SIZE_RANGE
  ⟨new_pos / B, new_pos % B⟩

/-- Pointer comparison `p < q` inside one block. -/
def ptr_lt (p : Ptr) (q : Option Ptr) : Res Bool :=
  match q with
  | some r => if p.blk = r.blk then .ok (decide (p.off < r.off)) else .error .undefined
  | none => .error .undefined

/-- Member `operator[]`, as the pointer it refers to. -/
def index_ptr (B : Nat) (d : deque α) (pos : Nat) : Res Ptr := do
  let front_size := ptr_diff d.elem_begin_begin_ d.elem_begin_first_
  let r := calc_pos B front_size pos
  let target_block := d.block_elem_begin_ + r.block_step
  let check_block := decide (target_block < d.block_elem_end_)
  let check_elem ←
    if target_block + 1 = d.block_elem_end_ then do
      let base ← slot_ptr d.ctrl target_block
      ptr_lt (base.add r.elem_step) d.elem_end_end_
    else .ok true
  if ¬ (check_block ∧ check_elem) then .error .terminate else
  let base ← slot_ptr d.ctrl target_block
  .ok (base.add r.elem_step)

/-- Member `operator[]`, as the value it refers to. -/
def index (B : Nat) (d : deque α) (pos : Nat) : Res α := do
  let p ← index_ptr B d pos
  d.read p

end deque

/-- The four fields of `deque_iterator`. -/
structure deque_iterator where
  block_elem_curr_ : Option Nat
  block_elem_end_ : Option Nat
  elem_begin_ : Option Ptr
  elem_curr_ : Option Ptr
deriving DecidableEq, Repr

namespace deque_iterator

variable {α : Type}

/-- Iterator `operator==`, which compares the element pointers: `elem_curr_ ==
other.elem_curr_` is a comparison of addresses in the storage of `d`. -/
def eq (d : deque α) (a b : deque_iterator) : Bool :=
  decide (d.addr a.elem_curr_ = d.addr b.elem_curr_)

/-- The test `elem_curr_ == elem_begin_ + block_elements_v<T>` of the iterator. -/
def at_block_end (B : Nat) (it : deque_iterator) : Res Bool := do
  let b ← nn it.elem_begin_
  let c ← nn it.elem_curr_
  .ok (decide (c = b.add B))

/-- Iterator `operator*`, as the pointer it refers to. -/
def deref_ptr (B : Nat) (it : deque_iterator) : Res Ptr := do
  let e ← it.at_block_end B
  if e then .error .terminate else nn it.elem_curr_

/-- Iterator `operator*`, as the value it refers to. -/
def deref (B : Nat) (d : deque α) (it : deque_iterator) : Res α := do
  let p ← it.deref_ptr B
  d.read p

/-- Iterator pre-increment `operator++`. -/
def inc (B : Nat) (d : deque α) (it : deque_iterator) : Res deque_iterator := do
  let e ← it.at_block_end B
  if e then .error .terminate else
  let c ← nn it.elem_curr_
  let it := { it with elem_curr_ := some (c.add 1) }
  let e ← it.at_block_end B
  if e then
    match it.block_elem_curr_ with
    | some k =>
      if some (k + 1) ≠ it.block_elem_end_ then
        let base ← deque.slot_ptr d.ctrl (k + 1)
        .ok { it with block_elem_curr_ := some (k + 1), elem_begin_ := some base,
                      elem_curr_ := some base }
      else .ok it
    | none => .error .undefined
  else .ok it

/-- Iterator pre-decrement `operator--`. -/
def dec (B : Nat) (d : deque α) (it : deque_iterator) : Res deque_iterator := do
  let it ←
    if it.elem_curr_ = it.elem_begin_ then
      match it.block_elem_curr_ with
      | some (k + 1) =>
        let base ← deque.slot_ptr d.ctrl k
        (.ok { it with block_elem_curr_ := some k, elem_begin_ := some base,
                       elem_curr_ := some (base.add B) } : Res deque_iterator)
      | _ => .error .undefined
    else .ok it
  let c ← nn it.elem_curr_
  let c ← c.pred
  .ok { it with elem_curr_ := some c }

/-- Signed pointer difference `elem_curr_ - elem_begin_` of an iterator. -/
def in_block_offset (it : deque_iterator) : Int :=
  match it.elem_curr_, it.elem_begin_ with
  | some p, some q => (p.off : Int) - (q.off : Int)
  | _, _ => 0

/-- Member `plus_and_assign_`. -/
def plus_and_assign_ (B : Nat) (d : deque α) (it : deque_iterator) (pos : Int) :
    Res deque_iterator := do
  if pos ≠ 0 then
    let r := deque.calc_pos_signed B it.in_block_offset pos
    match it.block_elem_curr_, it.block_elem_end_ with
    | some curr, some bend =>
      let target_block : Int := (curr : Int) + r.block_step
      if target_block < (bend : Int) then
        if target_block < 0 then .error .undefined else
        let base ← deque.slot_ptr d.ctrl target_block.toNat
        if r.elem_step < 0 then .error .undefined else
        .ok { it with block_elem_curr_ := some target_block.toNat, elem_begin_ := some base,
                      elem_curr_ := some (base.add r.elem_step.toNat) }
      else
        if ¬ (target_block = (bend : Int)) then .error .terminate else
        if ¬ (r.elem_step = 0) then .error .terminate else
        if bend = 0 then .error .undefined else
        let base ← deque.slot_ptr d.ctrl (bend - 1)
        .ok { it with block_elem_curr_ := some (bend - 1), elem_begin_ := some base,
                      elem_curr_ := some (base.add B) }
    | _, _ => .error .undefined
  else .ok it

/-- Iterator difference `lhs - rhs`. -/
def diff (B : Nat) (lhs rhs : deque_iterator) : Res Int :=
  if ¬ (lhs.block_elem_end_ = rhs.block_elem_end_) then .error .terminate else
  let block_size : Int :=
    match lhs.block_elem_curr_, rhs.block_elem_curr_ with
    | some a, some b => (a : Int) - (b : Int)
    | _, _ => 0
  .ok (block_size * (B : Int) + lhs.in_block_offset - rhs.in_block_offset)

end deque_iterator

namespace deque

variable {α : Type}

/-- Member `begin()`. -/
def begin_ (d : deque α) : Res deque_iterator := do
  if d.block_elem_size_ = 0 then .ok ⟨none, none, none, none⟩ else
  let base ← slot_ptr d.ctrl d.block_elem_begin_
  .ok ⟨some d.block_elem_begin_, some d.block_elem_end_, some base, d.elem_begin_begin_⟩

/-- Member `end()`. -/
def end_ (d : deque α) : Res deque_iterator := do
  if d.block_elem_size_ = 0 then .ok ⟨none, none, none, none⟩ else
  let base ← slot_ptr d.ctrl (d.block_elem_end_ - 1)
  .ok ⟨some (d.block_elem_end_ - 1), some d.block_elem_end_, some base, d.elem_end_end_⟩

/-- Destructor calls on the raw range `[b, e)` of one block. -/
def destroy_span (d : deque α) (b e : Option Ptr) : deque α :=
  match b, e with
  | some p, some q =>
    { d with destroyed := d.destroyed ++ (List.range (q.off - p.off)).map (fun i => p.add i) }
  | _, _ => d

/-- Destructor calls on the full blocks held by the slots `[k, k + n)`. -/
def destroy_blocks (B : Nat) : Nat → Nat → deque α → Res (deque α)
  | 0, _, d => .ok d
  | n + 1, k, d =>
    match slot_ptr d.ctrl k with
    | .ok base => destroy_blocks B n (k + 1) (d.destroy_span (some base) (some (base.add B)))
    | .error e => .error e

/-- Member `destroy_elems_()`; `trivial` selects the overload for a trivially destructible
element type, which does nothing. -/
def destroy_elems_ (B : Nat) (trivial : Bool) (d : deque α) : Res (deque α) := do
  if trivial then .ok d else
  let block_size := d.block_elem_size_
  let d := if block_size ≠ 0 then d.destroy_span d.elem_begin_begin_ d.elem_begin_end_ else d
  let d ← if block_size > 2 then destroy_blocks B (block_size - 2) (d.block_elem_begin_ + 1) d
          else .ok d
  let d := if block_size > 1 then d.destroy_span d.elem_end_begin_ d.elem_end_end_ else d
  .ok d

/-- Member `clear()`. -/
def clear (B : Nat) (trivial : Bool) (d : deque α) : Res (deque α) := do
  let d ← destroy_elems_ B trivial d
  let d := { d with block_elem_begin_ := d.block_alloc_begin_,
                    block_elem_end_ := d.block_alloc_begin_ }
  let d := d.elem_begin_ none none none
  .ok (d.elem_end_ none none none)

/-- Release of the blocks held by the slots `[k, k + n)`. -/
def dealloc_slots : Nat → Nat → deque α → Res (deque α)
  | 0, _, d => .ok d
  | n + 1, k, d =>
    match slot d.ctrl k with
    | .ok b => dealloc_slots n (k + 1) (d.dealloc_block_ b)
    | .error e => .error e

/-- Member `shrink_to_fit()`. -/
def shrink_to_fit (d : deque α) : Res (deque α) := do
  if d.block_alloc_size_ ≠ 0 then
    let d ← dealloc_slots (d.block_elem_begin_ - d.block_alloc_begin_) d.block_alloc_begin_ d
    let d := { d with block_alloc_begin_ := d.block_elem_begin_ }
    let d ← dealloc_slots (d.block_alloc_end_ - d.block_elem_end_) d.block_elem_end_ d
    .ok { d with block_alloc_end_ := d.block_elem_end_ }
  else .ok d

/-- Member `extent_block_`. -/
def extent_block_ (B : Nat) (d : deque α) (new_block_size : Nat) : Res (deque α) := do
  if new_block_size ≠ 0 then
    let ctrl_block_size := d.block_ctrl_size_
    let alloc_block_size := d.block_alloc_size_
    if ctrl_block_size = 0 then
      let (cs, d) := d.new_ctrl new_block_size
      let d := d.replace_ctrl cs
      extent_block_back_uncond_ B d new_block_size
    else if alloc_block_size ≥ new_block_size then .ok d
    else
      let d ←
        if ctrl_block_size < new_block_size then
          let (cs, d) := d.new_ctrl new_block_size
          d.replace_ctrl_back cs
        else d.align_alloc_as_ctrl_back_
      extent_block_back_uncond_ B d (new_block_size - alloc_block_size)
  else .ok d

/-- The trailing arguments `ts...` of `construct_`: none (value initialisation), one value,
or a pair of iterators of a source deque. -/
inductive ctor_src (α : Type) where
  | value_init
  | fill (t : α)
  | range (src : deque α) (first last : deque_iterator)

/-- Contract of `uninitialized_fill(p, p + n, v)`. -/
def uninitialized_fill (v : α) : Nat → deque α → Ptr → Res (deque α)
  | 0, d, _ => .ok d
  | n + 1, d, p =>
    match d.write p v with
    | .ok d1 => uninitialized_fill v n d1 (p.add 1)
    | .error e => .error e

/-- Contract of `uninitialized_copy(it, unreachable_sentinel, p, p + n)`. -/
def uninitialized_copy_n (B : Nat) (src : deque α) :
    Nat → deque α → deque_iterator → Ptr → Res (deque α)
  | 0, d, _, _ => .ok d
  | n + 1, d, it, p =>
    match it.deref B src with
    | .ok v =>
      match d.write p v with
      | .ok d1 =>
        match it.inc B src with
        | .ok it1 => uninitialized_copy_n B src n d1 it1 (p.add 1)
        | .error e => .error e
      | .error e => .error e
    | .error e => .error e

/-- Contract of `uninitialized_copy(it, last, p, unreachable_sentinel)`.  The first argument
bounds the number of steps; a step beyond the end of the block is a fault of its own. -/
def uninitialized_copy_until (B : Nat) (src : deque α) (last : deque_iterator) :
    Nat → deque α → deque_iterator → Ptr → Res (deque α)
  | 0, d, it, _ => if it.eq src last then .ok d else .error .undefined
  | n + 1, d, it, p =>
    if it.eq src last then .ok d else
    match it.deref B src with
    | .ok v =>
      match d.write p v with
      | .ok d1 =>
        match it.inc B src with
        | .ok it1 => uninitialized_copy_until B src last n d1 it1 (p.add 1)
        | .error e => .error e
      | .error e => .error e
    | .error e => .error e

/-- One full block of `construct_`: the fill of `[begin, begin + B)` and, for an iterator
pair, `src_begin += block_elements_v<T>`. -/
def construct_full [Inhabited α] (B : Nat) (d : deque α) (beginp : Ptr) (ts : ctor_src α) :
    Res (deque α × ctor_src α) :=
  match ts with
  | .value_init => do
    let d ← uninitialized_fill default B d beginp
    .ok (d, .value_init)
  | .fill t => do
    let d ← uninitialized_fill t B d beginp
    .ok (d, .fill t)
  | .range src first last => do
    let d ← uninitialized_copy_n B src B d first beginp
    let first ← first.plus_and_assign_ B src (B : Int)
    .ok (d, .range src first last)

/-- The partial block of `construct_`: the fill of `[begin, begin + rem_elems)` and, for an
iterator pair, the copy of `[src_begin, src_end)`. -/
def construct_part [Inhabited α] (B : Nat) (d : deque α) (beginp : Ptr) (rem_elems : Nat)
    (ts : ctor_src α) : Res (deque α) :=
  match ts with
  | .value_init => uninitialized_fill default rem_elems d beginp
  | .fill t => uninitialized_fill t rem_elems d beginp
  | .range src first last => uninitialized_copy_until B src last B d first beginp

/-- The loop of `construct_` over the full blocks after the first. -/
def construct_loop [Inhabited α] (B : Nat) : Nat → deque α → ctor_src α →
    Res (deque α × ctor_src α)
  | 0, d, ts => .ok (d, ts)
  | n + 1, d, ts =>
    match slot_ptr d.ctrl d.block_elem_end_ with
    | .ok beginp =>
      match construct_full B d beginp ts with
      | .ok (d1, ts1) =>
        let d2 := d1.elem_end_ (some beginp) (some (beginp.add B)) d1.elem_end_last_
        construct_loop B n { d2 with block_elem_end_ := d2.block_elem_end_ + 1 } ts1
      | .error e => .error e
    | .error e => .error e

/-- The first statement of `construct_`, `if (full_blocks) { ... }`: the first full block. -/
def construct_first_ [Inhabited α] (B : Nat) (d : deque α) (full_blocks : Nat)
    (ts : ctor_src α) : Res (deque α × ctor_src α) :=
  if full_blocks ≠ 0 then do
    let beginp ← slot_ptr d.ctrl d.block_elem_end_
    let endp := beginp.add B
    let (d, ts) ← construct_full B d beginp ts
    let d := d.elem_begin_ (some beginp) (some endp) (some beginp)
    let d := d.elem_end_ (some beginp) (some endp) (some endp)
    .ok ({ d with block_elem_end_ := d.block_elem_end_ + 1 }, ts)
  else .ok (d, ts)

/-- The second statement of `construct_`, `if (full_blocks > 1) { ... }`: the further full
blocks. -/
def construct_more_ [Inhabited α] (B : Nat) (d : deque α) (full_blocks : Nat)
    (ts : ctor_src α) : Res (deque α × ctor_src α) :=
  if full_blocks > 1 then do
    let (d, ts) ← construct_loop B (full_blocks - 1) d ts
    .ok ({ d with elem_end_last_ := d.elem_end_end_ }, ts)
  else .ok (d, ts)

/-- The third statement of `construct_`, `if (rem_elems) { ... }`: the partial block. -/
def construct_rem_ [Inhabited α] (B : Nat) (d : deque α) (full_blocks rem_elems : Nat)
    (ts : ctor_src α) : Res (deque α) :=
  if rem_elems ≠ 0 then do
    let beginp ← slot_ptr d.ctrl d.block_elem_end_
    let endp := beginp.add rem_elems
    let d ← construct_part B d beginp rem_elems ts
    let d := d.elem_end_ (some beginp) (some endp) (some (beginp.add B))
    let d := if full_blocks = 0 then d.elem_begin_ (some beginp) (some endp) (some beginp) else d
    .ok { d with block_elem_end_ := d.block_elem_end_ + 1 }
  else .ok d

/-- Member `construct_`: its three statements in sequence. -/
def construct_ [Inhabited α] (B : Nat) (d : deque α) (full_blocks rem_elems : Nat)
    (ts : ctor_src α) : Res (deque α) := do
  let (d, ts) ← construct_first_ B d full_blocks ts
  let (d, ts) ← construct_more_ B d full_blocks ts
  construct_rem_ B d full_blocks rem_elems ts

/-- Cast `static_cast<size_t>(z)` of a `ptrdiff_t`. -/
def to_size_t (z : Int) : Nat := (z % (SIZE_RANGE : Int)).toNat

/-- Member `from_range_noguard_(first, last)` for a pair of random access iterators. -/
def from_range_noguard_ [Inhabited α] (B : Nat) (d : deque α) (src : deque α)
    (first last : deque_iterator) : Res (deque α) := do
  if ¬ first.eq src last then
    let n ← deque_iterator.diff B last first
    let cap := calc_cap B (to_size_t n)
    let d ← extent_block_ B d cap.block_size
    construct_ B d cap.full_blocks cap.rem_elems (.range src first last)
  else .ok d

/-- Constructor `deque(count)`. -/
def mk_count [Inhabited α] (B : Nat) (count : Nat) : Res (deque α) := do
  let cap := calc_cap B count
  let d ← extent_block_ B ({} : deque α) cap.block_size
  construct_ B d cap.full_blocks cap.rem_elems .value_init

/-- Constructor `deque(count, t)`. -/
def mk_fill [Inhabited α] (B : Nat) (count : Nat) (t : α) : Res (deque α) := do
  let cap := calc_cap B count
  let d ← extent_block_ B ({} : deque α) cap.block_size
  construct_ B d cap.full_blocks cap.rem_elems (.fill t)

/-- Constructor `deque(first, last)` from a pair of iterators of the deque `src`. -/
def mk_range [Inhabited α] (B : Nat) (src : deque α) (first last : deque_iterator) :
    Res (deque α) :=
  from_range_noguard_ B ({} : deque α) src first last

/-- Copy constructor `deque(deque const &other)`. -/
def mk_copy [Inhabited α] (B : Nat) (other : deque α) : Res (deque α) := do
  if ¬ other.empty then
    let first ← other.begin_
    let last ← other.end_
    from_range_noguard_ B ({} : deque α) other first last
  else .ok {}

/-- Member `assign(count, value)`. -/
def assign [Inhabited α] (B : Nat) (trivial : Bool) (d : deque α) (count : Nat) (value : α) :
    Res (deque α) := do
  let d ← clear B trivial d
  if count ≠ 0 then
    let cap := calc_cap B count
    let d ← extent_block_ B d cap.block_size
    construct_ B d cap.full_blocks cap.rem_elems (.fill value)
  else .ok d

/-- Member `assign(first, last)` for a pair of iterators of the deque `src`. -/
def assign_range [Inhabited α] (B : Nat) (trivial : Bool) (d : deque α) (src : deque α)
    (first last : deque_iterator) : Res (deque α) := do
  let d ← clear B trivial d
  from_range_noguard_ B d src first last

/-- Copy assignment `operator=(deque const &other)`; `none` stands for `other` being the
deque itself. -/
def operator_assign [Inhabited α] (B : Nat) (trivial : Bool) (d : deque α)
    (other : Option (deque α)) : Res (deque α) :=
  match other with
  | some o => do
    let first ← o.begin_
    let last ← o.end_
    assign_range B trivial d o first last
  | none => .ok d

/-- The loop of `pop_back` calls in `resize_shrink_`, with a counter of type `size_t`. -/
def pop_back_loop (B : Nat) : Nat → deque α → Res (deque α)
  | 0, d => .ok d
  | n + 1, d =>
    if d.empty then .error .terminate else
    match pop_back B d with
    | .ok d1 => pop_back_loop B n d1
    | .error e => .error e

/-- Member `resize_shrink_`. -/
def resize_shrink_ (B : Nat) (trivial : Bool) (d : deque α) (old_size new_size : Nat) :
    Res (deque α) := do
  if old_size < new_size then .error .terminate else
  if trivial then
    let r := calc_pos B (ptr_diff d.elem_begin_begin_ d.elem_begin_first_) new_size
    if r.block_step = 0 then
      let beginp ← nn d.elem_begin_first_
      let d := d.elem_end_ d.elem_begin_begin_ (some (beginp.add r.elem_step))
        (some (beginp.add B))
      let d := { d with block_elem_end_ := d.block_elem_begin_ + 1 }
      .ok (d.elem_begin_ d.elem_begin_begin_ (some (beginp.add r.elem_step)) (some beginp))
    else
      let target_block := d.block_elem_begin_ + r.block_step
      let beginp ← slot_ptr d.ctrl target_block
      let d := d.elem_end_ (some beginp) (some (beginp.add r.elem_step)) (some (beginp.add B))
      .ok { d with block_elem_end_ := target_block + 1 }
  else
    pop_back_loop B (old_size - new_size) d

/-- The loop of `emplace_back_noalloc_` calls in `resize_unified_`. -/
def emplace_back_loop (B : Nat) (v : α) : Nat → deque α → Res (deque α)
  | 0, d => .ok d
  | n + 1, d =>
    match emplace_back_noalloc_ B d v with
    | .ok d1 => emplace_back_loop B v n d1
    | .error e => .error e

/-- Member `resize_unified_`; `v` is the value every new element is constructed from. -/
def resize_unified_ (B : Nat) (trivial : Bool) (d : deque α) (new_size : Nat) (v : α) :
    Res (deque α) := do
  let old_size := d.size B
  if new_size < old_size then
    resize_shrink_ B trivial d old_size new_size
  else
    let diff := new_size - old_size
    let d ← reserve_back_ B d diff
    emplace_back_loop B v diff d

/-- Member `resize(new_size)`. -/
def resize [Inhabited α] (B : Nat) (trivial : Bool) (d : deque α) (new_size : Nat) :
    Res (deque α) :=
  if new_size = 0 then clear B trivial d else resize_unified_ B trivial d new_size default

/-- Member `resize(new_size, t)`. -/
def resize_fill (B : Nat) (trivial : Bool) (d : deque α) (new_size : Nat) (t : α) :
    Res (deque α) :=
  if new_size = 0 then clear B trivial d else resize_unified_ B trivial d new_size t

/-- Contract of `std::ranges::move_backward(first, first + n, d_last)` on the cells of blocks:
the elements are moved last to first. -/
def move_backward (first : Ptr) (d_last : Ptr) : Nat → deque α → Res (deque α)
  | 0, d => .ok d
  | n + 1, d =>
    if d_last.off < n + 1 then .error .undefined else
    match d.read (first.add n) with
    | .ok v =>
      match d.write ⟨d_last.blk, d_last.off - 1⟩ v with
      | .ok d1 => move_backward first ⟨d_last.blk, d_last.off - 1⟩ n d1
      | .error e => .error e
    | .error e => .error e

/-- Contract of `std::ranges::move(first, first + n, d_first)` on the cells of blocks:
the elements are moved first to last. -/
def move_forward : Nat → Ptr → Ptr → deque α → Res (deque α)
  | 0, _, _, d => .ok d
  | n + 1, first, d_first, d =>
    match d.read first with
    | .ok v =>
      match d.write d_first v with
      | .ok d1 => move_forward n (first.add 1) (d_first.add 1) d1
      | .error e => .error e
    | .error e => .error e

/-- The loop of `back_emplace_` over the blocks strictly between the target block and the
last block; `k` is `target_block_end` and the first argument the number of blocks left. -/
def back_emplace_loop (B : Nat) : Nat → Nat → Ptr → deque α → Res (Ptr × deque α)
  | 0, _, last_elem, d => .ok (last_elem, d)
  | n + 1, k, last_elem, d => do
    if k = 0 then .error .undefined else
    let k := k - 1
    let target_begin ← slot_ptr d.ctrl k
    let target_end := target_begin.add B
    let tl ← target_end.pred
    let v ← d.read tl
    let d ← d.write last_elem v
    let d ← move_backward target_begin target_end (tl.off - target_begin.off) d
    back_emplace_loop B n k target_begin d

/-- Member `back_emplace_`. -/
def back_emplace_ (B : Nat) (d : deque α) (block_curr : Nat) (elem_curr : Ptr) :
    Res (deque α) := do
  let block_end := d.block_elem_end_
  let block_size := (block_end - block_curr) - 1
  let last_elem ← nn d.elem_end_begin_
  let endp ← nn d.elem_end_end_
  let bk ← d.back
  let d ← emplace_back_noalloc_ B d bk
  let d ←
    if block_size > 0 then do
      let e1 ← endp.pred
      move_backward last_elem endp (e1.off - last_elem.off) d
    else .ok d
  let (last_elem, d) ←
    if block_size > 1 then
      back_emplace_loop B ((block_end - 1) - (block_curr + 1)) (block_end - 1) last_elem d
    else .ok (last_elem, d)
  let (endp, d) ←
    if block_end - 1 ≠ block_curr then do
      let base ← slot_ptr d.ctrl block_curr
      let endp := base.add B
      let e1 ← endp.pred
      let v ← d.read e1
      let d ← d.write last_elem v
      (.ok (endp, d) : Res (Ptr × deque α))
    else .ok (endp, d)
  let e1 ← endp.pred
  move_backward elem_curr endp (e1.off - elem_curr.off) d

/-- The loop of `front_emplace_` over the blocks strictly between the first block and the
target block; `k` is `target_block_begin`. -/
def front_emplace_loop (B : Nat) : Nat → Nat → Ptr → deque α → Res (Ptr × deque α)
  | 0, _, last_elem_end, d => .ok (last_elem_end, d)
  | n + 1, k, last_elem_end, d => do
    let beginp ← slot_ptr d.ctrl k
    let endp := beginp.add B
    let v ← d.read beginp
    let tl ← last_elem_end.pred
    let d ← d.write tl v
    let d ← move_forward (endp.off - (beginp.add 1).off) (beginp.add 1) beginp d
    front_emplace_loop B n (k + 1) endp d

/-- Member `front_emplace_`. -/
def front_emplace_ (B : Nat) (d : deque α) (block_curr : Nat) (elem_curr : Ptr) :
    Res (deque α) := do
  let block_begin := d.block_elem_begin_
  let block_size := block_curr - block_begin
  let last_elem_begin ← nn d.elem_begin_begin_
  let last_elem_end ← nn d.elem_begin_end_
  let fr ← d.front
  let d ← emplace_front_noalloc_ B d fr
  let last_elem_end := if block_begin = block_curr then elem_curr else last_elem_end
  let d ← move_forward (last_elem_end.off - (last_elem_begin.add 1).off) (last_elem_begin.add 1)
    last_elem_begin d
  let (last_elem_end, d) ←
    if block_size > 1 then
      front_emplace_loop B (block_curr - (block_begin + 1)) (block_begin + 1) last_elem_end d
    else .ok (last_elem_end, d)
  if block_size > 0 then
    let beginp ← slot_ptr d.ctrl block_curr
    if elem_curr ≠ beginp then
      let v ← d.read beginp
      let tl ← last_elem_end.pred
      let d ← d.write tl v
      move_forward (elem_curr.off - (beginp.add 1).off) (beginp.add 1) beginp d
    else .ok d
  else .ok d

/-- Member `emplace(pos, args...)`; `v` is the element constructed from `args`.  The result
is the returned iterator and the deque. -/
def emplace (B : Nat) (d : deque α) (pos : deque_iterator) (v : α) :
    Res (deque_iterator × deque α) := do
  let begin_pre ← d.begin_
  let end_pre ← d.end_
  if pos.eq d end_pre then
    let d ← emplace_back B d v
    let e ← d.end_
    let it ← e.plus_and_assign_ B d (-1)
    .ok (it, d)
  else if pos.eq d begin_pre then
    let d ← emplace_front B d v
    let it ← d.begin_
    .ok (it, d)
  else
    let bd ← deque_iterator.diff B end_pre pos
    let fd ← deque_iterator.diff B pos begin_pre
    let back_diff := to_size_t bd
    let front_diff := to_size_t fd
    if back_diff ≤ front_diff ∨ (d.block_elem_size_ = 1 ∧ d.elem_end_end_ ≠ d.elem_end_last_) then
      let d ← reserve_back_ B d 2
      let d ← emplace_back_noalloc_ B d v
      let b ← d.begin_
      let new_pos ← b.plus_and_assign_ B d (front_diff : Int)
      let bc ← match new_pos.block_elem_curr_ with
        | some k => (.ok k : Res Nat)
        | none => .error .undefined
      let ec ← nn new_pos.elem_curr_
      let d ← back_emplace_ B d bc ec
      let bk ← d.back
      let tp ← new_pos.deref_ptr B
      let d ← d.write tp bk
      let d ← pop_back B d
      .ok (new_pos, d)
    else
      let d ← reserve_front_ B d 2
      let d ← emplace_front_noalloc_ B d v
      let e ← d.end_
      let new_pos ← e.plus_and_assign_ B d (-(back_diff : Int))
      let bc ← match new_pos.block_elem_curr_ with
        | some k => (.ok k : Res Nat)
        | none => .error .undefined
      let ec ← nn new_pos.elem_curr_
      let d ← front_emplace_ B d bc ec
      let new_pos ← new_pos.dec B d
      let fr ← d.front
      let tp ← new_pos.deref_ptr B
      let d ← d.write tp fr
      let d ← pop_front B d
      .ok (new_pos, d)

end deque

end fast_io

/-!
## Algorithms on iterators, ranges, `erase` and `insert`

* The standard algorithms that the source calls on iterators of the deque
  (`std::ranges::move`, `move_backward`, `rotate`, `reverse`) are modelled by their
  contracts, through the iterator operations of the deque: the iterators are random access
  with a sized sentinel, so a range `[first, last)` has `last - first` elements.
* An input range is the list of its elements, with the category of its iterators and whether
  it is a sized range; both select the overload of `append_range_noguard_` and
  `prepend_range_noguard_` at compile time.
* The counter `auto i = 0` of `pop_back_n_` has type `int`; its overflow is a fault.
-/

namespace fast_io

/-- The largest value `INT_MAX` of the type `int`. -/
def INT_MAX : Nat := 2 ^ 31 - 1

/-- The category of the iterators of an input range, as far as it selects an overload; a
forward iterator selects what an input iterator does. -/
inductive iter_kind where
  | input
  | bidirectional
  | random_access
deriving DecidableEq, Repr

namespace deque

variable {α : Type}

/-- Contract of `std::ranges::move(first, first + n, result)` on iterators of the deque: the
elements are moved first to last. -/
def iter_move (B : Nat) : Nat → deque_iterator → deque_iterator → deque α → Res (deque α)
  | 0, _, _, d => .ok d
  | n + 1, first, result, d => do
    let v ← first.deref B d
    let p ← result.deref_ptr B
    let d ← d.write p v
    let first ← first.inc B d
    let result ← result.inc B d
    iter_move B n first result d

/-- Contract of `std::ranges::move(first, last, result)` on iterators of the deque. -/
def iter_move_range (B : Nat) (d : deque α) (first last result : deque_iterator) :
    Res (deque α) := do
  let n ← deque_iterator.diff B last first
  iter_move B n.toNat first result d

/-- Contract of `std::ranges::move_backward(last - n, last, result)` on iterators of the
deque: the elements are moved last to first, each after a decrement of both iterators. -/
def iter_move_backward (B : Nat) :
    Nat → deque_iterator → deque_iterator → deque α → Res (deque α)
  | 0, _, _, d => .ok d
  | n + 1, last, result, d => do
    let last ← last.dec B d
    let result ← result.dec B d
    let v ← last.deref B d
    let p ← result.deref_ptr B
    let d ← d.write p v
    iter_move_backward B n last result d

/-- Contract of `std::ranges::move_backward(first, last, result)` on iterators of the
deque. -/
def iter_move_backward_range (B : Nat) (d : deque α) (first last result : deque_iterator) :
    Res (deque α) := do
  let n ← deque_iterator.diff B last first
  iter_move_backward B n.toNat last result d

/-- The values of the `n` elements from the iterator on. -/
def iter_read (B : Nat) (d : deque α) : Nat → deque_iterator → Res (List α)
  | 0, _ => .ok []
  | n + 1, it => do
    let v ← it.deref B d
    let it ← it.inc B d
    let vs ← iter_read B d n it
    .ok (v :: vs)

/-- Assignment of the values to the elements from the iterator on. -/
def iter_write (B : Nat) : List α → deque_iterator → deque α → Res (deque α)
  | [], _, d => .ok d
  | v :: vs, it, d => do
    let p ← it.deref_ptr B
    let d ← d.write p v
    let it ← it.inc B d
    iter_write B vs it d

/-- Contract of `std::ranges::rotate(first, middle, last)` on iterators of the deque: the
elements of `[middle, last)` come first, then those of `[first, middle)`. -/
def iter_rotate (B : Nat) (d : deque α) (first middle last : deque_iterator) :
    Res (deque α) := do
  let n1 ← deque_iterator.diff B middle first
  let n2 ← deque_iterator.diff B last middle
  let xs ← iter_read B d n1.toNat first
  let ys ← iter_read B d n2.toNat middle
  iter_write B (ys ++ xs) first d

/-- Contract of `std::ranges::reverse(first, last)` on iterators of the deque. -/
def iter_reverse (B : Nat) (d : deque α) (first last : deque_iterator) : Res (deque α) := do
  let n ← deque_iterator.diff B last first
  let xs ← iter_read B d n.toNat first
  iter_write B xs.reverse first d

/-- The loop of `pop_back_n_`: `r` iterations are left and `i` is the value of the counter
`auto i = 0`, of type `int`, whose increment past `INT_MAX` is a fault. -/
def pop_back_n_loop (B : Nat) : Nat → Nat → deque α → Res (deque α)
  | 0, _, d => .ok d
  | r + 1, i, d =>
    if d.empty then .error .terminate else
    match pop_back B d with
    | .ok d1 => if i + 1 > INT_MAX then .error .undefined else pop_back_n_loop B r (i + 1) d1
    | .error e => .error e

/-- Member `pop_back_n_`. -/
def pop_back_n_ (B : Nat) (d : deque α) (count : Nat) : Res (deque α) :=
  pop_back_n_loop B count 0 d

/-- Member `pop_front_n_`; its counter has type `size_t`. -/
def pop_front_n_ (B : Nat) : Nat → deque α → Res (deque α)
  | 0, d => .ok d
  | n + 1, d =>
    if d.empty then .error .terminate else
    match pop_front B d with
    | .ok d1 => pop_front_n_ B n d1
    | .error e => .error e

/-- Member `erase(pos)`.  The result is the returned iterator and the deque. -/
def erase (B : Nat) (d : deque α) (pos : deque_iterator) : Res (deque_iterator × deque α) := do
  let begin_pre ← d.begin_
  let end_pre ← d.end_
  if pos.eq d begin_pre then
    let d ← pop_front B d
    let it ← d.begin_
    .ok (it, d)
  else
    let pos1 ← pos.plus_and_assign_ B d 1
    if pos1.eq d end_pre then
      let d ← pop_back B d
      let it ← d.end_
      .ok (it, d)
    else
      let back_diff ← deque_iterator.diff B end_pre pos
      let front_diff ← deque_iterator.diff B pos begin_pre
      if back_diff ≤ front_diff then
        let first ← pos.plus_and_assign_ B d 1
        let last ← d.end_
        let d ← iter_move_range B d first last pos
        let d ← pop_back B d
        let b ← d.begin_
        let it ← b.plus_and_assign_ B d front_diff
        .ok (it, d)
      else
        let first ← d.begin_
        let d_last ← pos.plus_and_assign_ B d 1
        let d ← iter_move_backward_range B d first pos d_last
        let d ← pop_front B d
        let b ← d.begin_
        let it ← b.plus_and_assign_ B d front_diff
        .ok (it, d)

/-- Member `erase(first, last)`.  The result is the returned iterator and the deque. -/
def erase_range (B : Nat) (d : deque α) (first last : deque_iterator) :
    Res (deque_iterator × deque α) := do
  let begin_pre ← d.begin_
  let end_pre ← d.end_
  if first.eq d begin_pre then
    let n ← deque_iterator.diff B last first
    let d ← pop_front_n_ B (to_size_t n) d
    let it ← d.begin_
    .ok (it, d)
  else if last.eq d end_pre then
    let n ← deque_iterator.diff B last first
    let d ← pop_back_n_ B d (to_size_t n)
    let it ← d.end_
    .ok (it, d)
  else
    let back_diff ← deque_iterator.diff B end_pre last
    let front_diff ← deque_iterator.diff B first begin_pre
    if back_diff ≤ front_diff then
      let e ← d.end_
      let d ← iter_move_range B d last e first
      let n ← deque_iterator.diff B last first
      let d ← pop_back_n_ B d (to_size_t n)
      let b ← d.begin_
      let it ← b.plus_and_assign_ B d front_diff
      .ok (it, d)
    else
      let b ← d.begin_
      let d ← iter_move_backward_range B d b first last
      let n ← deque_iterator.diff B last first
      let d ← pop_front_n_ B (to_size_t n) d
      let b ← d.begin_
      let it ← b.plus_and_assign_ B d front_diff
      .ok (it, d)

/-- The loop `for (; first != last; ++first) emplace_back(*first)`. -/
def emplace_back_each (B : Nat) : List α → deque α → Res (deque α)
  | [], d => .ok d
  | v :: vs, d =>
    match emplace_back B d v with
    | .ok d1 => emplace_back_each B vs d1
    | .error e => .error e

/-- The loop `for (; first != last; ++first) emplace_back_noalloc_(*first)`. -/
def emplace_back_noalloc_each (B : Nat) : List α → deque α → Res (deque α)
  | [], d => .ok d
  | v :: vs, d =>
    match emplace_back_noalloc_ B d v with
    | .ok d1 => emplace_back_noalloc_each B vs d1
    | .error e => .error e

/-- The loop of `emplace_front` calls over the values in the order given. -/
def emplace_front_each (B : Nat) : List α → deque α → Res (deque α)
  | [], d => .ok d
  | v :: vs, d =>
    match emplace_front B d v with
    | .ok d1 => emplace_front_each B vs d1
    | .error e => .error e

/-- The loop of `emplace_front_noalloc_` calls over the values in the order given. -/
def emplace_front_noalloc_each (B : Nat) : List α → deque α → Res (deque α)
  | [], d => .ok d
  | v :: vs, d =>
    match emplace_front_noalloc_ B d v with
    | .ok d1 => emplace_front_noalloc_each B vs d1
    | .error e => .error e

/-- Member `append_range_noguard_(first, last)`: the overload for a pair of random access
iterators reserves first, the overload for input iterators does not. -/
def append_iter_noguard_ (B : Nat) (d : deque α) (k : iter_kind) (R : List α) :
    Res (deque α) :=
  match k with
  | .random_access => do
    let d ← reserve_back_ B d R.length
    emplace_back_noalloc_each B R d
  | _ => emplace_back_each B R d

/-- Member `append_range_noguard_(rg)`. -/
def append_range_noguard_ (B : Nat) (d : deque α) (sized : Bool) (k : iter_kind)
    (R : List α) : Res (deque α) := do
  if R.isEmpty then .ok d
  else if sized then
    let d ← reserve_back_ B d R.length
    emplace_back_noalloc_each B R d
  else append_iter_noguard_ B d k R

/-- The iterator `begin() + n`. -/
def begin_plus (B : Nat) (d : deque α) (n : Int) : Res deque_iterator := do
  let b ← d.begin_
  b.plus_and_assign_ B d n

/-- Member `prepend_range_noguard_(first, last)`: the overload for input iterators pushes
first to last and reverses, the overload for bidirectional iterators walks backwards, the
overload for random access iterators reserves and walks backwards. -/
def prepend_iter_noguard_ (B : Nat) (d : deque α) (k : iter_kind) (R : List α) :
    Res (deque α) :=
  match k with
  | .input => do
    let old_size := d.size B
    let d ← emplace_front_each B R d
    let b ← d.begin_
    let m ← begin_plus B d ((d.size B - old_size : Nat) : Int)
    iter_reverse B d b m
  | .bidirectional => emplace_front_each B R.reverse d
  | .random_access => do
    let d ← reserve_front_ B d R.length
    emplace_front_noalloc_each B R.reverse d

/-- Member `prepend_range_noguard_(rg)`. -/
def prepend_range_noguard_ (B : Nat) (d : deque α) (sized : Bool) (k : iter_kind)
    (R : List α) : Res (deque α) := do
  if R.isEmpty then .ok d
  else if sized ∧ k ≠ .input then
    let d ← reserve_front_ B d R.length
    emplace_front_noalloc_each B R.reverse d
  else if k ≠ .input then prepend_iter_noguard_ B d k R
  else if sized then
    let count := R.length
    let d ← reserve_front_ B d count
    let d ← emplace_front_noalloc_each B R d
    let b ← d.begin_
    let m ← begin_plus B d (count : Int)
    iter_reverse B d b m
  else prepend_iter_noguard_ B d k R

/-- Member `append_range(rg)`; the guard acts on an exception only. -/
def append_range (B : Nat) (d : deque α) (sized : Bool) (k : iter_kind) (R : List α) :
    Res (deque α) :=
  append_range_noguard_ B d sized k R

/-- Member `prepend_range(rg)`; the guard acts on an exception only. -/
def prepend_range (B : Nat) (d : deque α) (sized : Bool) (k : iter_kind) (R : List α) :
    Res (deque α) :=
  prepend_range_noguard_ B d sized k R

/-- The part of `insert(pos, first, last)` and `insert_range(pos, rg)` after the elements
were appended by `app` or prepended by `pre`. -/
def insert_with (B : Nat) (d : deque α) (pos : deque_iterator)
    (app pre : deque α → Res (deque α)) : Res (deque_iterator × deque α) := do
  let begin_pre ← d.begin_
  let end_pre ← d.end_
  if pos.eq d end_pre then
    let old_size := d.size B
    let d ← app d
    let it ← begin_plus B d (old_size : Int)
    .ok (it, d)
  else if pos.eq d begin_pre then
    let d ← pre d
    let it ← d.begin_
    .ok (it, d)
  else
    let back_diff ← deque_iterator.diff B end_pre pos
    let front_diff ← deque_iterator.diff B pos begin_pre
    if back_diff ≤ front_diff then
      let old_size := d.size B
      let d ← app d
      let first ← begin_plus B d front_diff
      let middle ← begin_plus B d (old_size : Int)
      let last ← d.end_
      let d ← iter_rotate B d first middle last
      let it ← begin_plus B d front_diff
      .ok (it, d)
    else
      let old_size := d.size B
      let d ← pre d
      let count := d.size B - old_size
      let first ← d.begin_
      let middle ← begin_plus B d (count : Int)
      let last ← begin_plus B d ((count : Int) + front_diff)
      let d ← iter_rotate B d first middle last
      let it ← begin_plus B d front_diff
      .ok (it, d)

/-- Member `insert(pos, first, last)` for a pair of iterators of category `k` over the
elements `R`. -/
def insert (B : Nat) (d : deque α) (pos : deque_iterator) (k : iter_kind) (R : List α) :
    Res (deque_iterator × deque α) :=
  if R.isEmpty then .ok (pos, d)
  else insert_with B d pos (fun d => append_iter_noguard_ B d k R)
    (fun d => prepend_iter_noguard_ B d k R)

/-- Member `insert_range(pos, rg)`. -/
def insert_range (B : Nat) (d : deque α) (pos : deque_iterator) (sized : Bool)
    (k : iter_kind) (R : List α) : Res (deque_iterator × deque α) :=
  if R.isEmpty then .ok (pos, d)
  else insert_with B d pos (fun d => append_range_noguard_ B d sized k R)
    (fun d => prepend_range_noguard_ B d sized k R)

end deque

end fast_io

/-!
## Move construction, comparison, and the allocator as a parameter

* `swap` exchanges the twelve cursors.  A cursor points into the storage of the record it is
  part of, so the storage and its logs change places together with the cursors.
* The loop of `operator==` runs while `first != last`; its model takes a bound on the number
  of iterations and returns `none` when the bound is reached.
* The allocator adapter is not part of the embedded code.  Where a failure of the allocator
  is the subject, the allocator is a parameter: the number of requests it still grants.  A
  refused request leaves the member as an exception, and the model records the state of the
  deque at that point.
-/

namespace fast_io

/-- Outcome of a member under an allocator that grants a given number of requests: it
returned, with the number of requests the allocator still grants, or a refused request left
it as an exception with the deque in the given state, or it left the defined behaviour. -/
inductive Attempt (α : Type) where
  | returned (grant : Nat) (d : deque α)
  | bad_alloc (d : deque α)
  | fault (f : Fault)

namespace deque

variable {α : Type}

/-- Member `swap`. -/
def swap (d other : deque α) : deque α × deque α :=
  ({ blocks := other.blocks, freed := other.freed, destroyed := other.destroyed,
     ctrl_allocs := other.ctrl_allocs, ctrl_frees := other.ctrl_frees,
     ctrl := other.ctrl,
     block_alloc_begin_ := other.block_alloc_begin_,
     block_alloc_end_ := other.block_alloc_end_,
     block_elem_begin_ := other.block_elem_begin_,
     block_elem_end_ := other.block_elem_end_,
     elem_begin_first_ := other.elem_begin_first_,
     elem_begin_begin_ := other.elem_begin_begin_,
     elem_begin_end_ := other.elem_begin_end_,
     elem_end_begin_ := other.elem_end_begin_,
     elem_end_end_ := other.elem_end_end_,
     elem_end_last_ := other.elem_end_last_,
     placed := other.placed },
   { blocks := d.blocks, freed := d.freed, destroyed := d.destroyed,
     ctrl_allocs := d.ctrl_allocs, ctrl_frees := d.ctrl_frees,
     ctrl := d.ctrl,
     block_alloc_begin_ := d.block_alloc_begin_,
     block_alloc_end_ := d.block_alloc_end_,
     block_elem_begin_ := d.block_elem_begin_,
     block_elem_end_ := d.block_elem_end_,
     elem_begin_first_ := d.elem_begin_first_,
     elem_begin_begin_ := d.elem_begin_begin_,
     elem_begin_end_ := d.elem_begin_end_,
     elem_end_begin_ := d.elem_end_begin_,
     elem_end_end_ := d.elem_end_end_,
     elem_end_last_ := d.elem_end_last_,
     placed := d.placed })

/-- Constructor `deque(deque &&other)`, which runs `other.swap(*this)` on the
default-initialised members.  The result is the new deque and `other` afterwards. -/
def mk_move (other : deque α) : deque α × deque α :=
  let r := swap other ({} : deque α)
  (r.2, r.1)

/-- The loop of `operator==`, from the iterators `first` over `lhs` and `first1` over `rhs`;
at most `fuel` tests of `first != last` are made. -/
def equal_loop [DecidableEq α] (B : Nat) (lhs rhs : deque α) (last : deque_iterator) :
    Nat → deque_iterator → deque_iterator → Option (Res Bool)
  | 0, _, _ => none
  | fuel + 1, first, first1 =>
    if first.eq lhs last then some (.ok true) else
    match first.deref B lhs, first1.deref B rhs with
    | .ok x, .ok y =>
      if x ≠ y then some (.ok false) else
      match first.inc B lhs, first1.inc B rhs with
      | .ok f, .ok f1 => equal_loop B lhs rhs last fuel f f1
      | .error e, _ => some (.error e)
      | _, .error e => some (.error e)
    | .error e, _ => some (.error e)
    | _, .error e => some (.error e)

/-- The function `operator==` on two deques. -/
def operator_eq [DecidableEq α] (B : Nat) (fuel : Nat) (lhs rhs : deque α) :
    Option (Res Bool) :=
  let s := lhs.size B
  if s ≠ rhs.size B then some (.ok false)
  else if s ≠ 0 then
    match lhs.begin_, lhs.end_, rhs.begin_ with
    | .ok first, .ok last, .ok first1 => equal_loop B lhs rhs last fuel first first1
    | .error e, _, _ => some (.error e)
    | _, .error e, _ => some (.error e)
    | _, _, .error e => some (.error e)
  else some (.ok true)

/-- Loop of `extent_block_back_uncond_` under an allocator that may fail: `alloc_block_()` is
called before the store to `*block_alloc_end_`. -/
def extent_back_loop_try (B : Nat) : Nat → Nat → deque α → Attempt α
  | 0, grant, d => .returned grant d
  | n + 1, grant, d =>
    match grant with
    | 0 => .bad_alloc d
    | g + 1 =>
      let (b, d1) := alloc_block_ B d
      match set_slot d1.ctrl d1.block_alloc_end_ b with
      | .ok cs =>
        extent_back_loop_try B n g
          { d1 with ctrl := cs, block_alloc_end_ := d1.block_alloc_end_ + 1 }
      | .error e => .fault e

/-- Member `extent_block_back_uncond_` under an allocator that may fail. -/
def extent_block_back_uncond_try (B : Nat) (grant : Nat) (d : deque α) (block_size : Nat) :
    Attempt α :=
  if ¬ (d.block_alloc_end_ ≠ d.block_ctrl_end_) then .fault .terminate
  else if d.ctrl.length = 0 then .fault .terminate
  else extent_back_loop_try B block_size grant d

/-- Loop of `extent_block_front_uncond_` under an allocator that may fail:
`--block_alloc_begin_` is a statement of its own in front of the call of `alloc_block_()`. -/
def extent_front_loop_try (B : Nat) : Nat → Nat → deque α → Attempt α
  | 0, grant, d => .returned grant d
  | n + 1, grant, d =>
    if d.block_alloc_begin_ = 0 then .fault .undefined else
    let k := d.block_alloc_begin_ - 1
    let d := { d with block_alloc_begin_ := k }
    match grant with
    | 0 => .bad_alloc d
    | g + 1 =>
      let (b, d1) := alloc_block_ B d
      match set_slot d1.ctrl k b with
      | .ok cs => extent_front_loop_try B n g { d1 with ctrl := cs }
      | .error e => .fault e

/-- Member `extent_block_front_uncond_` under an allocator that may fail. -/
def extent_block_front_uncond_try (B : Nat) (grant : Nat) (d : deque α) (block_size : Nat) :
    Attempt α :=
  if ¬ (d.block_alloc_begin_ ≠ 0) then .fault .terminate
  else if d.ctrl.length = 0 then .fault .terminate
  else extent_front_loop_try B block_size grant d

/-- Member `reserve_one_back_` under an allocator that may fail; the constructor of
`ctrl_alloc_` asks for the control array before anything is changed. -/
def reserve_one_back_try (B : Nat) (grant : Nat) (d : deque α) : Attempt α :=
  if d.block_alloc_end_ ≠ d.block_elem_end_ then .returned grant d else
  if d.block_elem_begin_ ≠ d.block_alloc_begin_ then
    match d.align_elem_as_alloc_back_ with
    | .ok d1 => .returned grant d1
    | .error e => .fault e
  else
    if (d.block_alloc_begin_ - 0) + (d.block_ctrl_end_ - d.block_alloc_end_) ≠ 0 then
      match d.align_elem_alloc_as_ctrl_back_ none with
      | .ok d1 => extent_block_back_uncond_try B grant d1 1
      | .error e => .fault e
    else
      match grant with
      | 0 => .bad_alloc d
      | g + 1 =>
        let (cs, d1) := d.new_ctrl (d.block_alloc_size_ + 1)
        match d1.replace_ctrl_back cs with
        | .ok d2 => extent_block_back_uncond_try B g d2 1
        | .error e => .fault e

/-- Member `reserve_one_front_` under an allocator that may fail. -/
def reserve_one_front_try (B : Nat) (grant : Nat) (d : deque α) : Attempt α :=
  if d.block_elem_begin_ ≠ d.block_alloc_begin_ then .returned grant d else
  if d.block_alloc_end_ ≠ d.block_elem_end_ then
    match d.align_elem_as_alloc_front_ with
    | .ok d1 => .returned grant d1
    | .error e => .fault e
  else
    if (d.block_alloc_begin_ - 0) + (d.block_ctrl_end_ - d.block_alloc_end_) ≠ 0 then
      match d.align_elem_alloc_as_ctrl_front_ none with
      | .ok d1 => extent_block_front_uncond_try B grant d1 1
      | .error e => .fault e
    else
      match grant with
      | 0 => .bad_alloc d
      | g + 1 =>
        let (cs, d1) := d.new_ctrl (d.block_alloc_size_ + 1)
        match d1.replace_ctrl_front cs with
        | .ok d2 => extent_block_front_uncond_try B g d2 1
        | .error e => .fault e

/-- Member `emplace_back` under an allocator that may fail. -/
def emplace_back_try (B : Nat) (grant : Nat) (d : deque α) (v : α) : Attempt α :=
  let block_size := d.block_elem_size_
  if d.elem_end_end_ ≠ d.elem_end_last_ then
    match d.emplace_back_pre_ block_size v with
    | .ok d1 => .returned grant d1
    | .error e => .fault e
  else
    match reserve_one_back_try B grant d with
    | .returned g d1 =>
      match emplace_back_post_ B d1 block_size v with
      | .ok d2 => .returned g d2
      | .error e => .fault e
    | .bad_alloc d1 => .bad_alloc d1
    | .fault e => .fault e

/-- Member `emplace_front` under an allocator that may fail. -/
def emplace_front_try (B : Nat) (grant : Nat) (d : deque α) (v : α) : Attempt α :=
  let block_size := d.block_elem_size_
  if d.elem_begin_begin_ ≠ d.elem_begin_first_ then
    match d.emplace_front_pre_ block_size v with
    | .ok d1 => .returned grant d1
    | .error e => .fault e
  else
    match reserve_one_front_try B grant d with
    | .returned g d1 =>
      match emplace_front_post_ B d1 block_size v with
      | .ok d2 => .returned g d2
      | .error e => .fault e
    | .bad_alloc d1 => .bad_alloc d1
    | .fault e => .fault e

end deque

namespace deque_iterator

/-- Comparison `p < q` of two pointers of one array or block; a null pointer is not below a
null pointer. -/
def ptr_below (p q : Option Ptr) : Res Bool :=
  match p, q with
  | some a, some b => if a.blk = b.blk then .ok (decide (a.off < b.off)) else .error .undefined
  | none, none => .ok false
  | _, _ => .error .undefined

/-- Comparison `p < q` of two pointers into the control array. -/
def slot_below (p q : Option Nat) : Res Bool :=
  match p, q with
  | some a, some b => .ok (decide (a < b))
  | none, none => .ok false
  | _, _ => .error .undefined

/-- Iterator `operator<=>`. -/
def cmp (a b : deque_iterator) : Res Ordering := do
  if ¬ (a.block_elem_end_ = b.block_elem_end_) then .error .terminate else
  if (← slot_below a.block_elem_curr_ b.block_elem_curr_) then .ok .lt else
  if (← slot_below b.block_elem_curr_ a.block_elem_curr_) then .ok .gt else
  if (← ptr_below a.elem_curr_ b.elem_curr_) then .ok .lt else
  if (← ptr_below b.elem_curr_ a.elem_curr_) then .ok .gt else
  .ok .eq

/-- Iterator `operator-=`. -/
def minus_assign {α : Type} (B : Nat) (d : deque α) (it : deque_iterator) (pos : Int) :
    Res deque_iterator :=
  it.plus_and_assign_ B d (-pos)

end deque_iterator

/-- The state in which an attempt leaves the deque; the default-constructed deque stands
for a fault. -/
def Attempt.state {α : Type} : Attempt α → deque α
  | .returned _ d => d
  | .bad_alloc d => d
  | .fault _ => {}

end fast_io

namespace fast_io

namespace deque

variable {α : Type}

/-- The six in-block cursors of a state in which the blocks `[elem_begin, elem_end)` hold the
sequence `s` from offset `lo` of the first block up to offset `hi` of the last one. -/
structure Live (B : Nat) (d : deque α) (s : List α) (lo hi bf bl : Nat) : Prop where
  blocks_pos : d.block_elem_begin_ < d.block_elem_end_
  slot_first : d.ctrl[d.block_elem_begin_]? = some (some bf)
  slot_last : d.ctrl[d.block_elem_end_ - 1]? = some (some bl)
  lo_lt : lo < B
  hi_pos : 0 < hi
  hi_le : hi ≤ B
  len_pos : 0 < s.length
  len_eq : lo + s.length = (d.block_elem_end_ - d.block_elem_begin_ - 1) * B + hi
  first : d.elem_begin_first_ = some ⟨bf, 0⟩
  fbegin : d.elem_begin_begin_ = some ⟨bf, lo⟩
  fend : d.elem_begin_end_ =
    some ⟨bf, if d.block_elem_end_ - d.block_elem_begin_ = 1 then hi else B⟩
  bbegin : d.elem_end_begin_ =
    some ⟨bl, if d.block_elem_end_ - d.block_elem_begin_ = 1 then lo else 0⟩
  bend : d.elem_end_end_ = some ⟨bl, hi⟩
  blast : d.elem_end_last_ = some ⟨bl, B⟩
  elems : ∀ i (h : i < s.length), ∃ b,
    d.ctrl[d.block_elem_begin_ + (lo + i) / B]? = some (some b) ∧
    d.read ⟨b, (lo + i) % B⟩ = .ok s[i]

/-- The state of a deque without elements: no element block and six null cursors. -/
structure Null (d : deque α) : Prop where
  blocks_eq : d.block_elem_begin_ = d.block_elem_end_
  first : d.elem_begin_first_ = none
  fbegin : d.elem_begin_begin_ = none
  fend : d.elem_begin_end_ = none
  bbegin : d.elem_end_begin_ = none
  bend : d.elem_end_end_ = none
  blast : d.elem_end_last_ = none

/-- The control part of the data model: the order of the block cursors, and the slots of
`[alloc_begin, alloc_end)` hold pairwise distinct blocks of `B` cells. -/
structure Ctl (B : Nat) (d : deque α) : Prop where
  ab_le : d.block_alloc_begin_ ≤ d.block_elem_begin_
  be_le : d.block_elem_begin_ ≤ d.block_elem_end_
  ee_le : d.block_elem_end_ ≤ d.block_alloc_end_
  ae_le : d.block_alloc_end_ ≤ d.ctrl.length
  owned : ∀ k, d.block_alloc_begin_ ≤ k → k < d.block_alloc_end_ →
    ∃ b cells, d.ctrl[k]? = some (some b) ∧ d.blocks[b]? = some cells ∧ cells.length = B
  inj : ∀ k k', d.block_alloc_begin_ ≤ k → k < d.block_alloc_end_ →
    d.block_alloc_begin_ ≤ k' → k' < d.block_alloc_end_ → d.ctrl[k]? = d.ctrl[k']? → k = k'

/-- Representation invariant: the data model of the deque, for a state that holds the
element sequence `s`. -/
structure Rep (B : Nat) (d : deque α) (s : List α) : Prop where
  ctl : Ctl B d
  shape : (s = [] ∧ Null d) ∨ ∃ lo hi bf bl, Live B d s lo hi bf bl

/-- Relation between two states of which the second holds the same element blocks, in the
same order, and the same six in-block cursors as the first: what a shift of the control
array or the acquisition of a block may change. -/
structure Moved (d d' : deque α) : Prop where
  count : d'.block_elem_end_ - d'.block_elem_begin_ = d.block_elem_end_ - d.block_elem_begin_
  slots : ∀ j, j < d.block_elem_end_ - d.block_elem_begin_ →
    d'.ctrl[d'.block_elem_begin_ + j]? = d.ctrl[d.block_elem_begin_ + j]?
  blocks : ∀ (b : Nat) (cells : List (Option α)), d.blocks[b]? = some cells →
    d'.blocks[b]? = some cells
  first : d'.elem_begin_first_ = d.elem_begin_first_
  fbegin : d'.elem_begin_begin_ = d.elem_begin_begin_
  fend : d'.elem_begin_end_ = d.elem_begin_end_
  bbegin : d'.elem_end_begin_ = d.elem_end_begin_
  bend : d'.elem_end_end_ = d.elem_end_end_
  blast : d'.elem_end_last_ = d.elem_end_last_

/-- The deque holds the element sequence `s`: `size()` is its length and `d[i]` is its
`i`-th element. -/
def Holds (B : Nat) (d : deque α) (s : List α) : Prop :=
  d.size B = s.length ∧ ∀ i (h : i < s.length), d.index B i = .ok s[i]

/-- The allocator has placed the element blocks apart: two of them do not overlap. -/
def Placed (B : Nat) (d : deque α) : Prop :=
  ∀ k k' b b', d.block_elem_begin_ ≤ k → k < d.block_elem_end_ →
    d.block_elem_begin_ ≤ k' → k' < d.block_elem_end_ →
    d.ctrl[k]? = some (some b) → d.ctrl[k']? = some (some b') → b ≠ b' →
    d.place b + B ≤ d.place b' ∨ d.place b' + B ≤ d.place b

/-- No element block begins at the address at which a full last element block ends, the
address that `end()` holds then. -/
def EndApart (B : Nat) (d : deque α) : Prop :=
  ∀ k b bl, d.block_elem_begin_ ≤ k → k < d.block_elem_end_ →
    d.ctrl[k]? = some (some b) → d.elem_end_end_ = some ⟨bl, B⟩ →
    d.place b ≠ d.place bl + B

/-- States reachable from a deque made by the default constructor or by a sized constructor
`deque(count)`, `deque(count, v)` with `count + B` inside the range of `size_t`, through `emplace_back` (`push_back`), `emplace_front`
(`push_front`), `pop_back`, `pop_front`, `clear` and `shrink_to_fit`, with the blocks at the
addresses of any allocator: none of these operations reads an address. -/
inductive Reachable (B : Nat) : deque α → Prop where
  | init : Reachable B {}
  | placed {d : deque α} (pl : List Nat) : Reachable B d → Reachable B { d with placed := pl }
  | mk_count [Inhabited α] (count : Nat) {d : deque α} :
      count + B ≤ SIZE_RANGE → mk_count B count = .ok d → Reachable B d
  | mk_fill [Inhabited α] (count : Nat) (v : α) {d : deque α} :
      count + B ≤ SIZE_RANGE → mk_fill B count v = .ok d → Reachable B d
  | emplace_back {d d' : deque α} (x : α) :
      Reachable B d → emplace_back B d x = .ok d' → Reachable B d'
  | emplace_front {d d' : deque α} (x : α) :
      Reachable B d → emplace_front B d x = .ok d' → Reachable B d'
  | pop_back {d d' : deque α} : Reachable B d → pop_back B d = .ok d' → Reachable B d'
  | pop_front {d d' : deque α} : Reachable B d → pop_front B d = .ok d' → Reachable B d'
  | clear {d d' : deque α} (trivial : Bool) :
      Reachable B d → clear B trivial d = .ok d' → Reachable B d'
  | shrink_to_fit {d d' : deque α} : Reachable B d → shrink_to_fit d = .ok d' → Reachable B d'

/-- A call of one of the four end operations. -/
inductive EndOp (α : Type) where
  | emplace_back (x : α)
  | emplace_front (x : α)
  | pop_back
  | pop_front

/-- The effect of one end operation. -/
def run_op (B : Nat) (d : deque α) : EndOp α → Res (deque α)
  | .emplace_back x => emplace_back B d x
  | .emplace_front x => emplace_front B d x
  | .pop_back => pop_back B d
  | .pop_front => pop_front B d

/-- The effect of a sequence of end operations, first to last. -/
def run_ops (B : Nat) : List (EndOp α) → deque α → Res (deque α)
  | [], d => .ok d
  | op :: ops, d =>
    match run_op B d op with
    | .ok d1 => run_ops B ops d1
    | .error e => .error e

/-- Number of pushes in a sequence of end operations. -/
def push_count : List (EndOp α) → Nat
  | [] => 0
  | .emplace_back _ :: ops => push_count ops + 1
  | .emplace_front _ :: ops => push_count ops + 1
  | _ :: ops => push_count ops

/-- Number of pops in a sequence of end operations. -/
def pop_count : List (EndOp α) → Nat
  | [] => 0
  | .pop_back :: ops => pop_count ops + 1
  | .pop_front :: ops => pop_count ops + 1
  | _ :: ops => pop_count ops

/-- Every pop of the sequence meets a non-empty deque, when the sequence starts from a deque
of `n` elements. -/
def pops_legal : Nat → List (EndOp α) → Bool
  | _, [] => true
  | n, .emplace_back _ :: ops => pops_legal (n + 1) ops
  | n, .emplace_front _ :: ops => pops_legal (n + 1) ops
  | 0, .pop_back :: _ => false
  | 0, .pop_front :: _ => false
  | n + 1, .pop_back :: ops => pops_legal n ops
  | n + 1, .pop_front :: ops => pops_legal n ops

/-- The element count of the data model, in the words of the specification:
`(front_end - front_begin) + max(0, block_count - 2) * B + (back_end - back_begin)` for
`block_count >= 2`, `front_end - front_begin` for `block_count == 1`, and 0 otherwise. -/
def cursor_count (B : Nat) (d : deque α) : Nat :=
  let block_count := d.block_elem_end_ - d.block_elem_begin_
  if block_count ≥ 2 then
    ptr_diff d.elem_begin_end_ d.elem_begin_begin_ + max 0 (block_count - 2) * B
      + ptr_diff d.elem_end_end_ d.elem_end_begin_
  else if block_count = 1 then ptr_diff d.elem_begin_end_ d.elem_begin_begin_
  else 0

/-- All six in-block cursors are null. -/
def cursors_null (d : deque α) : Prop :=
  d.elem_begin_first_ = none ∧ d.elem_begin_begin_ = none ∧ d.elem_begin_end_ = none ∧
  d.elem_end_begin_ = none ∧ d.elem_end_end_ = none ∧ d.elem_end_last_ = none

/-- The state an operation ends in; the default-constructed deque stands for a fault. -/
def state_of (r : Res (deque α)) : deque α :=
  match r with
  | .ok d => d
  | .error _ => {}

/-- A deque of `block_elements_v 256 = 16` elements per block that holds `[1, 2]`, built by
`push_front(1)` and `push_back(2)`. -/
def sample_12 : deque Nat :=
  state_of (emplace_back 16 (state_of (emplace_front 16 {} 1)) 2)

/-- A deque of 16 elements per block that holds `[1, 2]` at the start of one block, built by
`push_back(1)` and `push_back(2)`. -/
def sample_12_back : deque Nat :=
  state_of (emplace_back 16 (state_of (emplace_back 16 {} 1)) 2)

/-- The calls `push_back(0)`, ..., `push_back(n - 1)`, in this order. -/
def push_back_range (B : Nat) : Nat → deque Nat → Res (deque Nat)
  | 0, d => .ok d
  | n + 1, d =>
    match push_back_range B n d with
    | .ok d1 => emplace_back B d1 n
    | .error e => .error e

/-- The calls `push_front(100)`, ..., `push_front(100 + n - 1)`, in this order. -/
def push_front_range (B : Nat) : Nat → deque Nat → Res (deque Nat)
  | 0, d => .ok d
  | n + 1, d =>
    match push_front_range B n d with
    | .ok d1 => emplace_front B d1 (100 + n)
    | .error e => .error e

/-- A deque of 16 elements per block that holds 34 elements in four blocks, one element in
the first and one in the last block, built by `push_back(0)`, ..., `push_back(16)` and
`push_front(100)`, ..., `push_front(116)`. -/
def sample_34 : deque Nat :=
  state_of (push_front_range 16 17 (state_of (push_back_range 16 17 {})))

/-- The deque `sample_34` after `pop_back()` and `pop_front()`: 32 elements in two full
blocks between two spare blocks. -/
def sample_spare : deque Nat :=
  state_of (pop_front 16 (state_of (pop_back 16 sample_34)))

/-- A deque of 16 elements per block, on an allocator that places the blocks one behind the
other, at the addresses 16, 32 and 48, that holds 32 elements in two full blocks, built by `push_back(0)`, ...,
`push_back(15)` and `push_front(100)`, ..., `push_front(115)`: the second block that was
allocated is the first element block and begins where the last element block ends. -/
def sample_adjacent_32 : deque Nat :=
  state_of (push_front_range 16 16 (state_of (push_back_range 16 16 { placed := [16, 32, 48] })))

/-- A deque of 16 elements per block, on an allocator that places the blocks one behind the
other, at the addresses 16, 32 and 48, that holds 48 elements in three full blocks, built by `push_back(0)`, ...,
`push_back(15)` and `push_front(100)`, ..., `push_front(131)`: the middle element block
begins where the last element block ends. -/
def sample_adjacent_48 : deque Nat :=
  state_of (push_front_range 16 32 (state_of (push_back_range 16 16 { placed := [16, 32, 48] })))

/-- The deque `sample_adjacent_32` after `pop_front()` and `push_front(7)`: the same layout
and the same elements but for the first one. -/
def sample_adjacent_32b : deque Nat :=
  state_of (emplace_front 16 (state_of (pop_front 16 sample_adjacent_32)) 7)

/-- The iterator `begin() + p`. -/
def iterator_at (B : Nat) (d : deque α) (p : Nat) : Res deque_iterator :=
  match d.begin_ with
  | .ok it => it.plus_and_assign_ B d (p : Int)
  | .error e => .error e

/-- The call `emplace(begin() + p, v)`. -/
def emplace_at (B : Nat) (d : deque α) (p : Nat) (v : α) : Res (deque_iterator × deque α) :=
  match iterator_at B d p with
  | .ok pos => emplace B d pos v
  | .error e => .error e

/-- The iterator `it` of the deque `d`, in a state that holds `s` from offset `lo` of the first
block up to offset `hi` of the last block `bl`, stands at index `j`: at the element `s[j]`, or
at `end()` for `j = s.length`. -/
def IterAt (B : Nat) (d : deque α) (s : List α) (lo hi bl j : Nat) (it : deque_iterator) :
    Prop :=
  (j < s.length ∧ ∃ b, d.ctrl[d.block_elem_begin_ + (lo + j) / B]? = some (some b) ∧
    it = ⟨some (d.block_elem_begin_ + (lo + j) / B), some d.block_elem_end_,
      some ⟨b, 0⟩, some ⟨b, (lo + j) % B⟩⟩) ∨
  (j = s.length ∧
    it = ⟨some (d.block_elem_end_ - 1), some d.block_elem_end_, some ⟨bl, 0⟩, some ⟨bl, hi⟩⟩)

/-- The state `d1` is the state `d` after stores of the values `u` to the cells
`[o, o + u.length)` of block `b`. -/
structure Wrote (d d1 : deque α) (b o : Nat) (u : List α) : Prop where
  same : ∃ bs, d1 = { d with blocks := bs }
  lens : ∀ (b1 : Nat) (cells : List (Option α)), d.blocks[b1]? = some cells →
    ∃ cells1 : List (Option α), d1.blocks[b1]? = some cells1 ∧ cells1.length = cells.length
  hit : ∀ i (h : i < u.length), d1.read ⟨b, o + i⟩ = .ok u[i]
  miss : ∀ q : Ptr, (q.blk ≠ b ∨ q.off < o ∨ o + u.length ≤ q.off) → d1.read q = d.read q

/-- The trailing arguments `ts` of `construct_` stand for the element sequence `t`: copies of
the default value, copies of one value, or the elements of a source deque from the iterator
`first` up to `last = end()`. -/
def Yields [Inhabited α] (B : Nat) : ctor_src α → List α → Prop
  | .value_init, t => t = List.replicate t.length default
  | .fill v, t => t = List.replicate t.length v
  | .range src first last, t => ∃ s lo hi bf bl j, Ctl B src ∧ Live B src s lo hi bf bl ∧
      Placed B src ∧ EndApart B src ∧
      IterAt B src s lo hi bl j first ∧ IterAt B src s lo hi bl s.length last ∧
      j ≤ s.length ∧ t = s.drop j

/-- State of `construct_` on the way: the blocks from `elem_begin` on hold the sequence `t`
from offset 0, and the control array and the owned range are those of the state `d0` at the
call. -/
structure Filled (B : Nat) (d0 d : deque α) (t : List α) : Prop where
  ctl : Ctl B d
  ctrl_eq : d.ctrl = d0.ctrl
  ab_eq : d.block_alloc_begin_ = d0.block_alloc_begin_
  ae_eq : d.block_alloc_end_ = d0.block_alloc_end_
  eb_eq : d.block_elem_begin_ = d0.block_elem_begin_
  elems : ∀ i (h : i < t.length), ∃ b,
    d.ctrl[d.block_elem_begin_ + i / B]? = some (some b) ∧ d.read ⟨b, i % B⟩ = .ok t[i]

/-- The in-block cursors of `construct_` after a full block: the front cursors span the
first block `bf`, the back cursors span the last block `bl`. -/
structure FullEnds (B : Nat) (d : deque α) (bf bl : Nat) : Prop where
  slot_first : d.ctrl[d.block_elem_begin_]? = some (some bf)
  slot_last : d.ctrl[d.block_elem_end_ - 1]? = some (some bl)
  first : d.elem_begin_first_ = some ⟨bf, 0⟩
  fbegin : d.elem_begin_begin_ = some ⟨bf, 0⟩
  fend : d.elem_begin_end_ = some ⟨bf, B⟩
  bbegin : d.elem_end_begin_ = some ⟨bl, 0⟩
  bend : d.elem_end_end_ = some ⟨bl, B⟩

/-- The layout of a deque made by a sized constructor, in the words of the specification:
`block_count == ceil(count / B)`, written as `count <= block_count * B < count + B`;
`front_begin == front_first`; `back_last == back_begin + B`; and, when no full block was
produced, the front cursors and the back cursors span the same block.  The cursors of a
deque with elements are not null. -/
def sized_layout (B count : Nat) (d : deque α) : Prop :=
  (count ≤ (d.block_elem_end_ - d.block_elem_begin_) * B ∧
    (d.block_elem_end_ - d.block_elem_begin_) * B < count + B) ∧
  d.elem_begin_begin_ = d.elem_begin_first_ ∧
  d.elem_end_last_ = d.elem_end_begin_.map (fun p => p.add B) ∧
  (count ≠ 0 → d.elem_begin_first_ ≠ none ∧ d.elem_end_begin_ ≠ none) ∧
  (count / B = 0 →
    d.elem_begin_begin_ = d.elem_end_begin_ ∧ d.elem_begin_end_ = d.elem_end_end_)

/-- The iterator after `n` pre-increments. -/
def inc_n (B : Nat) (d : deque α) : Nat → deque_iterator → Res deque_iterator
  | 0, it => .ok it
  | n + 1, it =>
    match it.inc B d with
    | .ok it1 => inc_n B d n it1
    | .error e => .error e

/-- The iterator after `n` pre-decrements. -/
def dec_n (B : Nat) (d : deque α) : Nat → deque_iterator → Res deque_iterator
  | 0, it => .ok it
  | n + 1, it =>
    match it.dec B d with
    | .ok it1 => dec_n B d n it1
    | .error e => .error e

/-- The blocks held by the control slots `[k, k + n)`, in the order of the slots. -/
def slot_blocks (cs : List (Option Nat)) (k n : Nat) : List Nat :=
  (List.range n).filterMap (fun i => (cs[k + i]?).join)

/-- The blocks of the two slack strips `[alloc_begin, elem_begin)` and
`[elem_end, alloc_end)`, in the order of their slots. -/
def slack_blocks (d : deque α) : List Nat :=
  slot_blocks d.ctrl d.block_alloc_begin_ (d.block_elem_begin_ - d.block_alloc_begin_) ++
    slot_blocks d.ctrl d.block_elem_end_ (d.block_alloc_end_ - d.block_elem_end_)

/-- The blocks of the element range `[elem_begin, elem_end)`, in the order of their slots. -/
def elem_blocks (d : deque α) : List Nat :=
  slot_blocks d.ctrl d.block_elem_begin_ (d.block_elem_end_ - d.block_elem_begin_)

/-- The blocks held by the owned slots `[alloc_begin, alloc_end)`, in the order of the
slots. -/
def alloc_blocks (d : deque α) : List Nat :=
  slot_blocks d.ctrl d.block_alloc_begin_ (d.block_alloc_end_ - d.block_alloc_begin_)

/-- Ownership of the blocks: the blocks held by the owned slots together with the released
blocks are the blocks the allocator handed out, each of them once.  So the owned slots hold
pairwise distinct blocks, none of them released, and no block is lost. -/
def Owns (d : deque α) : Prop :=
  (alloc_blocks d ++ d.freed).Perm (List.range d.blocks.length)

/-- Relation between two states of which the second holds, in as many owned slots, blocks
that the owned slots of the first hold, and saw no call of the block allocator: what a
shift or a rotation of the control array or a store to an element may change. -/
structure Shuffled (d d' : deque α) : Prop where
  sub : ∀ k, d'.block_alloc_begin_ ≤ k → k < d'.block_alloc_end_ →
    ∃ k0, d.block_alloc_begin_ ≤ k0 ∧ k0 < d.block_alloc_end_ ∧ d'.ctrl[k]? = d.ctrl[k0]?
  count : d'.block_alloc_end_ - d'.block_alloc_begin_
    = d.block_alloc_end_ - d.block_alloc_begin_
  blocks_len : d'.blocks.length = d.blocks.length
  freed : d'.freed = d.freed

/-- Relation between two states of which the second has the control array, the owned range,
the release log, the number of blocks and the counters of control arrays of the first: what
a member may change that neither shifts the control array nor calls an allocator. -/
structure Quiet (d d' : deque α) : Prop where
  ctrl : d'.ctrl = d.ctrl
  ab : d'.block_alloc_begin_ = d.block_alloc_begin_
  ae : d'.block_alloc_end_ = d.block_alloc_end_
  blocks_len : d'.blocks.length = d.blocks.length
  freed : d'.freed = d.freed
  allocs : d'.ctrl_allocs = d.ctrl_allocs
  frees : d'.ctrl_frees = d.ctrl_frees

/-- The list `t1` is the list `t` after the elements of the indices `a + 1`, ..., `a + n`
moved down by one, first to last: the element of index `a` is overwritten and the one of index
`a + n` stays where it was. -/
structure ShiftedDown (t t1 : List α) (a n : Nat) : Prop where
  len : t1.length = t.length
  keep : ∀ i, i < a ∨ a + n ≤ i → t1[i]? = t[i]?
  move : ∀ i, a ≤ i → i < a + n → t1[i]? = t[i + 1]?

/-- The list `t1` is the list `t` after the elements of the indices `a`, ..., `a + n - 1`
moved up by one, last to first: the element of index `a + n` is overwritten and the one of
index `a` stays where it was. -/
structure ShiftedUp (t t1 : List α) (a n : Nat) : Prop where
  len : t1.length = t.length
  keep : ∀ i, i ≤ a ∨ a + n < i → t1[i]? = t[i]?
  move : ∀ i, a ≤ i → i < a + n → t1[i + 1]? = t[i]?

end deque

end fast_io

namespace fast_io


/-! ## Arithmetic of flat positions -/

theorem div_mod_of_eq {B q r a : Nat} (h : a = q * B + r) (hr : r < B) :
    a / B = q ∧ a % B = r := by
  have hB : 0 < B := by omega
  subst h
  constructor
  · rw [Nat.add_comm, Nat.add_mul_div_right _ _ hB, Nat.div_eq_of_lt hr]; omega
  · rw [Nat.add_comm, Nat.add_mul_mod_self_right, Nat.mod_eq_of_lt hr]

theorem div_lt_of_lt_mul {B a n : Nat} (hB : 0 < B) (h : a < n * B) : a / B < n :=
  (Nat.div_lt_iff_lt_mul hB).2 h

theorem pred_mul_add {n B : Nat} (hn : 0 < n) : (n - 1) * B + B = n * B := by
  obtain ⟨m, rfl⟩ : ∃ m, n = m + 1 := ⟨n - 1, by omega⟩
  simp [Nat.succ_mul]

theorem div_mul_add_mod (a B : Nat) : a / B * B + a % B = a := by
  rw [Nat.mul_comm]; exact Nat.div_add_mod a B

/-- A flat position below `q * B + r` lies in an earlier block or in block `q` below `r`. -/
theorem flat_lt_cases {B a q r : Nat} (hB : 0 < B) (h : a < q * B + r) (hr : r ≤ B) :
    a / B < q ∨ (a / B = q ∧ a % B < r) := by
  have h1 := div_mul_add_mod a B
  have h2 : a % B < B := Nat.mod_lt _ hB
  by_cases hq : a / B < q
  · exact Or.inl hq
  · right
    have hge : q ≤ a / B := by omega
    have hmul : q * B ≤ a / B * B := Nat.mul_le_mul_right B hge
    by_cases he : a / B = q
    · refine ⟨he, ?_⟩
      rw [he] at h1; omega
    · exfalso
      have hge1 : q + 1 ≤ a / B := by omega
      have hmul1 : (q + 1) * B ≤ a / B * B := Nat.mul_le_mul_right B hge1
      rw [Nat.succ_mul] at hmul1
      omega

theorem flat_ne {B a b : Nat} (h : a ≠ b) : a / B ≠ b / B ∨ a % B ≠ b % B := by
  by_contra hc
  simp only [not_or, not_not] at hc
  have h1 := div_mul_add_mod a B
  have h2 := div_mul_add_mod b B
  rw [hc.1, hc.2] at h1
  omega

end fast_io

namespace fast_io

namespace deque

variable {α : Type}

@[simp] theorem bind_ok {β γ : Type} (a : β) (f : β → Res γ) :
    ((Except.ok a : Res β) >>= f) = f a := rfl

@[simp] theorem bind_error {β γ : Type} (e : Fault) (f : β → Res γ) :
    ((Except.error e : Res β) >>= f) = Except.error e := rfl

@[simp] theorem pure_eq_ok {β : Type} (a : β) : (pure a : Res β) = Except.ok a := rfl

theorem Ctl.ctl_init (B : Nat) : Ctl B ({} : deque α) where
  ab_le := Nat.le_refl _
  be_le := Nat.le_refl _
  ee_le := Nat.le_refl _
  ae_le := Nat.le_refl _
  owned := by intro k h1 h2; exact absurd h2 (by simp)
  inj := by intro k k' h1 h2; exact absurd h2 (by simp)

theorem Rep.rep_init (B : Nat) : Rep B ({} : deque α) [] :=
  ⟨Ctl.ctl_init B, Or.inl ⟨rfl, ⟨rfl, rfl, rfl, rfl, rfl, rfl, rfl⟩⟩⟩

theorem Live.live_size_eq {B : Nat} {d : deque α} {s : List α} {lo hi bf bl : Nat}
    (h : Live B d s lo hi bf bl) : d.size B = s.length := by
  have h1 := h.blocks_pos
  have h2 := h.len_eq
  have h3 := h.lo_lt
  have h4 := h.hi_le
  unfold size block_elem_size_
  simp only [h.fend, h.fbegin, h.bend, h.bbegin, ptr_diff]
  generalize hn : d.block_elem_end_ - d.block_elem_begin_ = n at *
  have hn0 : n ≠ 0 := by omega
  by_cases hn1 : n = 1
  · subst hn1
    simp at h2 ⊢
    omega
  · by_cases hn2 : n = 2
    · subst hn2
      simp at h2 ⊢
      omega
    · have hgt : 2 < n := by omega
      have e : (n - 1) * B = (n - 2) * B + B := by
        have := @pred_mul_add (n - 1) B (by omega)
        rw [← this]
        congr 2
      rw [e] at h2
      rw [if_pos hn0, if_pos hgt, if_pos (by omega : n > 1), if_neg hn1, if_neg hn1]
      omega

theorem Null.null_size_eq {B : Nat} {d : deque α} (h : Null d) : d.size B = 0 := by
  unfold size block_elem_size_
  simp [h.blocks_eq]

theorem Rep.size_eq {B : Nat} {d : deque α} {s : List α} (h : Rep B d s) :
    d.size B = s.length := by
  rcases h.shape with ⟨rfl, hn⟩ | ⟨lo, hi, bf, bl, hl⟩
  · simpa using hn.null_size_eq
  · exact hl.live_size_eq

theorem Rep.empty_iff {B : Nat} {d : deque α} {s : List α} (h : Rep B d s) :
    d.empty = true ↔ s = [] := by
  rcases h.shape with ⟨rfl, hn⟩ | ⟨lo, hi, bf, bl, hl⟩
  · simp [empty, hn.fbegin]
  · have := hl.len_pos
    simp [empty, hl.fbegin]
    intro h; subst h; simp at this

theorem Live.slot_lt {B : Nat} {d : deque α} {s : List α} {lo hi bf bl : Nat}
    (h : Live B d s lo hi bf bl) (hB : 0 < B) (i : Nat) (hi' : i < s.length) :
    (lo + i) / B < d.block_elem_end_ - d.block_elem_begin_ ∧
    ((lo + i) / B = d.block_elem_end_ - d.block_elem_begin_ - 1 → (lo + i) % B < hi) := by
  have h1 := h.blocks_pos
  have h2 := h.len_eq
  have hlt : lo + i < (d.block_elem_end_ - d.block_elem_begin_ - 1) * B + hi := by omega
  rcases flat_lt_cases hB hlt h.hi_le with hc | ⟨hc1, hc2⟩
  · exact ⟨by omega, fun he => by omega⟩
  · exact ⟨by omega, fun _ => hc2⟩

theorem Rep.index_eq {B : Nat} {d : deque α} {s : List α} (h : Rep B d s) (hB : 0 < B)
    (hfit : s.length + B ≤ SIZE_RANGE) (i : Nat) (hi' : i < s.length) :
    d.index B i = .ok s[i] := by
  rcases h.shape with ⟨rfl, _⟩ | ⟨lo, hi, bf, bl, hl⟩
  · simp at hi'
  · obtain ⟨b, hb1, hb2⟩ := hl.elems i hi'
    obtain ⟨hs1, hs2⟩ := hl.slot_lt hB i hi'
    have hlo := hl.lo_lt
    have hpos := hl.blocks_pos
    have hmod : (i + lo) % SIZE_RANGE = lo + i := by
      rw [Nat.mod_eq_of_lt (by omega)]; omega
    have hnot : ¬ d.block_elem_end_ ≤ d.block_elem_begin_ + (lo + i) / B := by omega
    unfold index index_ptr
    simp only [hl.fbegin, hl.first, ptr_diff, calc_pos, Nat.sub_zero, hmod]
    by_cases hlast : d.block_elem_begin_ + (lo + i) / B + 1 = d.block_elem_end_
    · have hk : d.block_elem_begin_ + (lo + i) / B = d.block_elem_end_ - 1 := by omega
      have hbl : b = bl := by
        rw [hk, hl.slot_last] at hb1
        injection hb1 with hb1; injection hb1 with hb1; exact hb1.symm
      subst hbl
      have hlt := hs2 (by omega)
      simp [hlast, slot_ptr, slot, hb1, hl.bend, ptr_lt, Ptr.add, hlt, hb2, hnot]
    · simp [hlast, slot_ptr, slot, hb1, Ptr.add, hb2, hnot]

end deque

end fast_io

namespace fast_io

namespace deque

variable {α : Type}

/-! ## Element storage -/

theorem write_eq (d : deque α) (p : Ptr) (v : α) (cells : List (Option α))
    (h1 : d.blocks[p.blk]? = some cells) (h2 : p.off < cells.length) :
    d.write p v = .ok { d with blocks := d.blocks.set p.blk (cells.set p.off (some v)) } := by
  simp [write, h1, h2]

theorem read_poke (d : deque α) (p q : Ptr) (v : α) (cells : List (Option α))
    (h1 : d.blocks[p.blk]? = some cells) (h2 : p.off < cells.length) :
    read { d with blocks := d.blocks.set p.blk (cells.set p.off (some v)) } q
      = if q = p then .ok v else d.read q := by
  have hlen : p.blk < d.blocks.length := by
    by_contra hc
    rw [List.getElem?_eq_none (by omega)] at h1
    cases h1
  unfold read
  simp only [List.getElem?_set]
  by_cases hb : p.blk = q.blk
  · simp only [hb, if_true]
    rw [hb] at hlen h1
    simp only [hlen, if_true, h1, List.getElem?_set]
    by_cases ho : p.off = q.off
    · have : q = p := by
        cases p; cases q; simp_all
      have hq : q.off < cells.length := by omega
      simp [ho, this, hq]
    · have : q ≠ p := by
        intro hc; subst hc; exact ho rfl
      simp [ho, this]
  · have : q ≠ p := by
      intro hc; subst hc; exact hb rfl
    simp [hb, this]

theorem blocks_poke (d : deque α) (p : Ptr) (v : α) (cells : List (Option α))
    (h1 : d.blocks[p.blk]? = some cells) (b : Nat) (cs : List (Option α))
    (hb : d.blocks[b]? = some cs) :
    ∃ cs', (d.blocks.set p.blk (cells.set p.off (some v)))[b]? = some cs' ∧
      cs'.length = cs.length := by
  have hlen : p.blk < d.blocks.length := by
    by_contra hc
    rw [List.getElem?_eq_none (by omega)] at h1
    cases h1
  rw [List.getElem?_set]
  by_cases hpb : p.blk = b
  · subst hpb
    rw [h1] at hb
    injection hb with hb
    subst hb
    exact ⟨cells.set p.off (some v), by simp [hlen], by simp⟩
  · exact ⟨cs, by simp [hpb, hb], rfl⟩

/-- A change of the element storage that keeps every block and its length, and of the six
in-block cursors, keeps the control part of the data model. -/
theorem Ctl.of_frame {B : Nat} {d d' : deque α} (h : Ctl B d)
    (hc : d'.ctrl = d.ctrl) (hab : d'.block_alloc_begin_ = d.block_alloc_begin_)
    (hae : d'.block_alloc_end_ = d.block_alloc_end_)
    (heb : d'.block_elem_begin_ = d.block_elem_begin_)
    (hee : d'.block_elem_end_ = d.block_elem_end_)
    (hbl : ∀ (b : Nat) (cs : List (Option α)), d.blocks[b]? = some cs →
      ∃ cs' : List (Option α), d'.blocks[b]? = some cs' ∧ cs'.length = cs.length) :
    Ctl B d' where
  ab_le := by rw [hab, heb]; exact h.ab_le
  be_le := by rw [heb, hee]; exact h.be_le
  ee_le := by rw [hee, hae]; exact h.ee_le
  ae_le := by rw [hae, hc]; exact h.ae_le
  owned := by
    intro k h1 h2
    rw [hab] at h1; rw [hae] at h2
    obtain ⟨b, cells, hk, hb, hl⟩ := h.owned k h1 h2
    obtain ⟨cs', hb', hl'⟩ := hbl b cells hb
    exact ⟨b, cs', by rw [hc]; exact hk, hb', by omega⟩
  inj := by
    intro k k' h1 h2 h3 h4 he
    rw [hab] at h1 h3; rw [hae] at h2 h4; rw [hc] at he
    exact h.inj k k' h1 h2 h3 h4 he

theorem Ctl.block_of_slot {B : Nat} {d : deque α} (h : Ctl B d) {k b : Nat}
    (h1 : d.block_alloc_begin_ ≤ k) (h2 : k < d.block_alloc_end_)
    (hk : d.ctrl[k]? = some (some b)) :
    ∃ cells, d.blocks[b]? = some cells ∧ cells.length = B := by
  obtain ⟨b', cells, hk', hb, hl⟩ := h.owned k h1 h2
  rw [hk] at hk'
  injection hk' with hk'; injection hk' with hk'
  subst hk'
  exact ⟨cells, hb, hl⟩

theorem Ctl.slot_inj {B : Nat} {d : deque α} (h : Ctl B d) (k k' : Nat) {b : Nat}
    (h1 : d.block_alloc_begin_ ≤ k) (h2 : k < d.block_alloc_end_)
    (h3 : d.block_alloc_begin_ ≤ k') (h4 : k' < d.block_alloc_end_)
    (hk : d.ctrl[k]? = some (some b)) (hk' : d.ctrl[k']? = some (some b)) : k = k' :=
  h.inj k k' h1 h2 h3 h4 (by rw [hk, hk'])

/-- The cell of a live element is not the cell at the end of the live range. -/
theorem Live.loc_ne_end {B : Nat} {d : deque α} {s : List α} {lo hi bf bl : Nat}
    (hc : Ctl B d) (h : Live B d s lo hi bf bl) (hB : 0 < B) (i : Nat) (hi' : i < s.length)
    (b : Nat) (hb : d.ctrl[d.block_elem_begin_ + (lo + i) / B]? = some (some b)) :
    (⟨b, (lo + i) % B⟩ : Ptr) ≠ ⟨bl, hi⟩ := by
  obtain ⟨hs1, hs2⟩ := h.slot_lt hB i hi'
  have h1 := hc.ab_le
  have h2 := hc.ee_le
  have h3 := h.blocks_pos
  generalize (lo + i) / B = q at *
  generalize (lo + i) % B = r at *
  intro he
  injection he with he1 he2
  subst he1
  have g1 : d.block_alloc_begin_ ≤ d.block_elem_begin_ + q := by omega
  have g2 : d.block_elem_begin_ + q < d.block_alloc_end_ := by omega
  have g3 : d.block_alloc_begin_ ≤ d.block_elem_end_ - 1 := by omega
  have g4 : d.block_elem_end_ - 1 < d.block_alloc_end_ := by omega
  have e1 := hc.slot_inj _ _ g1 g2 g3 g4 hb h.slot_last
  have e2 := hs2 (by omega)
  omega

end deque

end fast_io

namespace fast_io

namespace deque

variable {α : Type}

/-! ## The placement of the blocks -/

theorem Ctl.re_placed {B : Nat} {d : deque α} (h : Ctl B d) (pl : List Nat) :
    Ctl B { d with placed := pl } :=
  ⟨h.ab_le, h.be_le, h.ee_le, h.ae_le, h.owned, h.inj⟩

theorem Null.null_re_placed {d : deque α} (h : Null d) (pl : List Nat) :
    Null { d with placed := pl } :=
  ⟨h.blocks_eq, h.first, h.fbegin, h.fend, h.bbegin, h.bend, h.blast⟩

theorem Live.live_re_placed {B : Nat} {d : deque α} {s : List α} {lo hi bf bl : Nat}
    (h : Live B d s lo hi bf bl) (pl : List Nat) :
    Live B { d with placed := pl } s lo hi bf bl :=
  ⟨h.blocks_pos, h.slot_first, h.slot_last, h.lo_lt, h.hi_pos, h.hi_le, h.len_pos, h.len_eq,
    h.first, h.fbegin, h.fend, h.bbegin, h.bend, h.blast, h.elems⟩

/-- The data model does not depend on where the blocks lie. -/
theorem Rep.rep_re_placed {B : Nat} {d : deque α} {s : List α} (h : Rep B d s) (pl : List Nat) :
    Rep B { d with placed := pl } s := by
  refine ⟨h.ctl.re_placed pl, ?_⟩
  rcases h.shape with ⟨e, hn⟩ | ⟨lo, hi, bf, bl, hl⟩
  · exact Or.inl ⟨e, hn.null_re_placed pl⟩
  · exact Or.inr ⟨lo, hi, bf, bl, hl.live_re_placed pl⟩

/-- A last element block with a free cell ends at no address that `end()` holds. -/
theorem Live.end_apart_of_room {B : Nat} {d : deque α} {s : List α} {lo hi bf bl : Nat}
    (hl : Live B d s lo hi bf bl) (h : hi < B) : EndApart B d := by
  intro k b bl1 _ _ _ he
  rw [hl.bend] at he
  injection he with he
  injection he with _ he
  omega

end deque

end fast_io

namespace fast_io

namespace deque

variable {α : Type}

/-! ## The control array -/

theorem rotate_slots_spec (cs : List (Option Nat)) (f m l : Nat)
    (h : f ≤ m ∧ m ≤ l ∧ l ≤ cs.length) :
    ∃ cs', rotate_slots cs f m l = .ok cs' ∧ cs'.length = cs.length ∧
      ∀ k, cs'[k]? = if k < f then cs[k]? else if k < f + (l - m) then cs[k + (m - f)]?
        else if k < l then cs[k - (l - m)]? else cs[k]? := by
  refine ⟨cs.take f ++ ((cs.drop m).take (l - m) ++ (cs.drop f).take (m - f)) ++ cs.drop l,
    by unfold rotate_slots; rw [if_pos h], ?_, ?_⟩ <;> obtain ⟨h1, h2, h3⟩ := h
  · simp only [List.length_append, List.length_take, List.length_drop]
    omega
  · intro k
    simp only [List.getElem?_append, List.length_append, List.length_take, List.length_drop,
      List.getElem?_take, List.getElem?_drop]
    split_ifs <;> first | rfl | omega | (congr 1; omega)

theorem copy_slots_spec (src : List (Option Nat)) (f l : Nat) (dst : List (Option Nat))
    (pos : Nat) (h : f ≤ l ∧ l ≤ src.length ∧ pos + (l - f) ≤ dst.length) :
    ∃ cs', copy_slots src f l dst pos = .ok cs' ∧ cs'.length = dst.length ∧
      ∀ k, cs'[k]? = if pos ≤ k ∧ k < pos + (l - f) then src[f + (k - pos)]? else dst[k]? := by
  refine ⟨dst.take pos ++ (src.drop f).take (l - f) ++ dst.drop (pos + (l - f)),
    by unfold copy_slots; rw [if_pos h], ?_, ?_⟩ <;> obtain ⟨h1, h2, h3⟩ := h
  · simp only [List.length_append, List.length_take, List.length_drop]
    omega
  · intro k
    simp only [List.getElem?_append, List.length_append, List.length_take, List.length_drop,
      List.getElem?_take, List.getElem?_drop]
    split_ifs <;> first | rfl | omega | (congr 1; omega)

theorem Moved.refl (d : deque α) : Moved d d :=
  ⟨rfl, fun _ _ => rfl, fun _ _ h => h, rfl, rfl, rfl, rfl, rfl, rfl⟩

theorem Moved.trans {d d' d'' : deque α} (h1 : Moved d d') (h2 : Moved d' d'') :
    Moved d d'' where
  count := by rw [h2.count, h1.count]
  slots := by
    intro j hj
    rw [h2.slots j (by rw [h1.count]; exact hj), h1.slots j hj]
  blocks := fun b cells h => h2.blocks b cells (h1.blocks b cells h)
  first := by rw [h2.first, h1.first]
  fbegin := by rw [h2.fbegin, h1.fbegin]
  fend := by rw [h2.fend, h1.fend]
  bbegin := by rw [h2.bbegin, h1.bbegin]
  bend := by rw [h2.bend, h1.bend]
  blast := by rw [h2.blast, h1.blast]

theorem Moved.read {d d' : deque α} (h : Moved d d') {q : Ptr} {v : α}
    (hr : d.read q = .ok v) : d'.read q = .ok v := by
  unfold deque.read at hr ⊢
  cases hb : d.blocks[q.blk]? with
  | none => simp [hb] at hr
  | some cells =>
    rw [h.blocks _ _ hb]
    simpa [hb] using hr

theorem Moved.null {d d' : deque α} (h : Moved d d') (hn : Null d)
    (hle : d'.block_elem_begin_ ≤ d'.block_elem_end_) : Null d' where
  blocks_eq := by
    have := h.count
    have := hn.blocks_eq
    omega
  first := by rw [h.first, hn.first]
  fbegin := by rw [h.fbegin, hn.fbegin]
  fend := by rw [h.fend, hn.fend]
  bbegin := by rw [h.bbegin, hn.bbegin]
  bend := by rw [h.bend, hn.bend]
  blast := by rw [h.blast, hn.blast]

theorem Moved.live {B : Nat} {d d' : deque α} {s : List α} {lo hi bf bl : Nat}
    (h : Moved d d') (hl : Live B d s lo hi bf bl) (hB : 0 < B)
    (hle : d'.block_elem_begin_ ≤ d'.block_elem_end_) : Live B d' s lo hi bf bl := by
  have hcount := h.count
  have hpos := hl.blocks_pos
  have e0 := h.slots 0 (by omega)
  have e1 := h.slots (d.block_elem_end_ - d.block_elem_begin_ - 1) (by omega)
  have k1 : d'.block_elem_begin_ + (d.block_elem_end_ - d.block_elem_begin_ - 1)
      = d'.block_elem_end_ - 1 := by omega
  have k2 : d.block_elem_begin_ + (d.block_elem_end_ - d.block_elem_begin_ - 1)
      = d.block_elem_end_ - 1 := by omega
  rw [k1, k2] at e1
  exact {
    blocks_pos := by omega
    slot_first := by simpa [hl.slot_first] using e0
    slot_last := by rw [e1]; exact hl.slot_last
    lo_lt := hl.lo_lt
    hi_pos := hl.hi_pos
    hi_le := hl.hi_le
    len_pos := hl.len_pos
    len_eq := by rw [hcount]; exact hl.len_eq
    first := by rw [h.first]; exact hl.first
    fbegin := by rw [h.fbegin]; exact hl.fbegin
    fend := by rw [h.fend, hcount]; exact hl.fend
    bbegin := by rw [h.bbegin, hcount]; exact hl.bbegin
    bend := by rw [h.bend]; exact hl.bend
    blast := by rw [h.blast]; exact hl.blast
    elems := by
      intro i hi'
      obtain ⟨b, hb1, hb2⟩ := hl.elems i hi'
      obtain ⟨hs1, _⟩ := hl.slot_lt hB i hi'
      exact ⟨b, by rw [h.slots _ hs1]; exact hb1, h.read hb2⟩ }

theorem Moved.rep_of_moved {B : Nat} {d d' : deque α} {s : List α} (h : Moved d d') (hr : Rep B d s)
    (hB : 0 < B) (hc : Ctl B d') : Rep B d' s := by
  refine ⟨hc, ?_⟩
  rcases hr.shape with ⟨rfl, hn⟩ | ⟨lo, hi, bf, bl, hl⟩
  · exact Or.inl ⟨rfl, h.null hn hc.be_le⟩
  · exact Or.inr ⟨lo, hi, bf, bl, h.live hl hB hc.be_le⟩

/-- A rearrangement of the owned slots keeps the control part of the data model. -/
theorem Ctl.of_perm {B : Nat} {d d' : deque α} (h : Ctl B d) (π : Nat → Nat)
    (hab : d'.block_alloc_begin_ ≤ d'.block_elem_begin_)
    (hbe : d'.block_elem_begin_ ≤ d'.block_elem_end_)
    (hea : d'.block_elem_end_ ≤ d'.block_alloc_end_)
    (hae : d'.block_alloc_end_ ≤ d'.ctrl.length)
    (hπ : ∀ k, d'.block_alloc_begin_ ≤ k → k < d'.block_alloc_end_ →
      d.block_alloc_begin_ ≤ π k ∧ π k < d.block_alloc_end_ ∧ d'.ctrl[k]? = d.ctrl[π k]?)
    (hinj : ∀ k k', d'.block_alloc_begin_ ≤ k → k < d'.block_alloc_end_ →
      d'.block_alloc_begin_ ≤ k' → k' < d'.block_alloc_end_ → π k = π k' → k = k')
    (hbl : ∀ (b : Nat) (cs : List (Option α)), d.blocks[b]? = some cs →
      ∃ cs' : List (Option α), d'.blocks[b]? = some cs' ∧ cs'.length = cs.length) :
    Ctl B d' where
  ab_le := hab
  be_le := hbe
  ee_le := hea
  ae_le := hae
  owned := by
    intro k h1 h2
    obtain ⟨p1, p2, p3⟩ := hπ k h1 h2
    obtain ⟨b, cells, hk, hb, hl⟩ := h.owned (π k) p1 p2
    obtain ⟨cs', hb', hl'⟩ := hbl b cells hb
    exact ⟨b, cs', by rw [p3]; exact hk, hb', by omega⟩
  inj := by
    intro k k' h1 h2 h3 h4 he
    obtain ⟨p1, p2, p3⟩ := hπ k h1 h2
    obtain ⟨q1, q2, q3⟩ := hπ k' h3 h4
    rw [p3, q3] at he
    exact hinj k k' h1 h2 h3 h4 (h.inj _ _ p1 p2 q1 q2 he)

theorem align_elem_as_alloc_back_spec {B : Nat} {d : deque α} (hc : Ctl B d) :
    ∃ d', d.align_elem_as_alloc_back_ = .ok d' ∧ Ctl B d' ∧ Moved d d' ∧
      d'.block_elem_begin_ = d.block_alloc_begin_ ∧
      d'.block_alloc_begin_ = d.block_alloc_begin_ ∧
      d'.block_alloc_end_ = d.block_alloc_end_ ∧
      d'.ctrl.length = d.ctrl.length ∧ d'.blocks = d.blocks := by
  have h1 := hc.ab_le
  have h2 := hc.be_le
  have h3 := hc.ee_le
  have h4 := hc.ae_le
  obtain ⟨cs', e1, e2, e3⟩ := rotate_slots_spec d.ctrl d.block_alloc_begin_ d.block_elem_begin_
    d.block_elem_end_ ⟨h1, h2, by omega⟩
  unfold align_elem_as_alloc_back_
  simp only [e1, bind_ok, block_elem_size_]
  refine ⟨_, rfl, ?_, ?_, rfl, rfl, rfl, e2, rfl⟩
  · refine Ctl.of_perm hc
      (fun k => if k < d.block_alloc_begin_ + (d.block_elem_end_ - d.block_elem_begin_)
        then k + (d.block_elem_begin_ - d.block_alloc_begin_)
        else if k < d.block_elem_end_ then k - (d.block_elem_end_ - d.block_elem_begin_) else k)
      (Nat.le_refl _) (by simp) (by simp; omega) (by simp; omega) ?_ ?_ (fun b cs hb => ⟨cs, hb, rfl⟩)
    · intro k k1 k2
      simp only at k1 k2 ⊢
      rw [e3 k]
      split_ifs <;> refine ⟨by omega, by omega, ?_⟩ <;> first | rfl | omega
    · intro k k' k1 k2 k3 k4
      simp only at k1 k2 k3 k4 ⊢
      split_ifs <;> omega
  · exact {
      count := by simp
      slots := by
        intro j hj
        simp only
        rw [e3]
        rw [if_neg (by omega), if_pos (by omega)]
        congr 1; omega
      blocks := fun _ _ h => h
      first := rfl, fbegin := rfl, fend := rfl, bbegin := rfl, bend := rfl, blast := rfl }

theorem align_elem_as_alloc_front_spec {B : Nat} {d : deque α} (hc : Ctl B d) :
    ∃ d', d.align_elem_as_alloc_front_ = .ok d' ∧ Ctl B d' ∧ Moved d d' ∧
      d'.block_elem_end_ = d.block_alloc_end_ ∧
      d'.block_alloc_begin_ = d.block_alloc_begin_ ∧
      d'.block_alloc_end_ = d.block_alloc_end_ ∧
      d'.ctrl.length = d.ctrl.length ∧ d'.blocks = d.blocks := by
  have h1 := hc.ab_le
  have h2 := hc.be_le
  have h3 := hc.ee_le
  have h4 := hc.ae_le
  obtain ⟨cs', e1, e2, e3⟩ := rotate_slots_spec d.ctrl d.block_elem_begin_ d.block_elem_end_
    d.block_alloc_end_ ⟨h2, h3, h4⟩
  unfold align_elem_as_alloc_front_
  have hnot : ¬ d.block_alloc_end_ < d.block_elem_end_ - d.block_elem_begin_ := by omega
  simp only [e1, bind_ok, block_elem_size_, hnot, if_false]
  refine ⟨_, rfl, ?_, ?_, rfl, rfl, rfl, e2, rfl⟩
  · refine Ctl.of_perm hc
      (fun k => if k < d.block_elem_begin_ then k
        else if k < d.block_elem_begin_ + (d.block_alloc_end_ - d.block_elem_end_)
        then k + (d.block_elem_end_ - d.block_elem_begin_)
        else if k < d.block_alloc_end_ then k - (d.block_alloc_end_ - d.block_elem_end_) else k)
      (by simp; omega) (by simp) (Nat.le_refl _) (by simp; omega) ?_ ?_
      (fun b cs hb => ⟨cs, hb, rfl⟩)
    · intro k k1 k2
      simp only at k1 k2 ⊢
      rw [e3 k]
      split_ifs <;> refine ⟨by omega, by omega, ?_⟩ <;> rfl
    · intro k k' k1 k2 k3 k4
      simp only at k1 k2 k3 k4 ⊢
      split_ifs <;> omega
  · exact {
      count := by simp; omega
      slots := by
        intro j hj
        simp only
        rw [e3]
        rw [if_neg (by omega), if_neg (by omega), if_pos (by omega)]
        congr 1; omega
      blocks := fun _ _ h => h
      first := rfl, fbegin := rfl, fend := rfl, bbegin := rfl, bend := rfl, blast := rfl }

theorem align_elem_alloc_as_ctrl_back_spec {B : Nat} {d : deque α} (hc : Ctl B d)
    (target : Option (List (Option Nat)))
    (ht : d.block_alloc_end_ - d.block_alloc_begin_ ≤ (target.getD d.ctrl).length) :
    ∃ d', d.align_elem_alloc_as_ctrl_back_ target = .ok d' ∧ Ctl B d' ∧ Moved d d' ∧
      d'.block_elem_begin_ = 0 ∧ d'.block_alloc_begin_ = 0 ∧
      d'.block_elem_end_ = d.block_elem_end_ - d.block_elem_begin_ ∧
      d'.block_alloc_end_ = d.block_alloc_end_ - d.block_alloc_begin_ ∧
      d'.ctrl.length = (target.getD d.ctrl).length ∧ d'.blocks = d.blocks := by
  obtain ⟨d1, a1, a2, a3, a4, a5, a6, a7, a8⟩ := align_elem_as_alloc_back_spec hc
  have h1 := a2.ab_le
  have h2 := a2.be_le
  have h3 := a2.ee_le
  have h4 := a2.ae_le
  have hcount := a3.count
  have ht' : d1.block_alloc_end_ - d1.block_alloc_begin_ ≤ (target.getD d1.ctrl).length := by
    cases target with
    | none => simp only [Option.getD_none] at ht ⊢; omega
    | some t => simp only [Option.getD_some] at ht ⊢; omega
  have hlen : (target.getD d1.ctrl).length = (target.getD d.ctrl).length := by
    cases target with
    | none => simpa using a7
    | some t => rfl
  obtain ⟨cs', e1, e2, e3⟩ := copy_slots_spec d1.ctrl d1.block_alloc_begin_ d1.block_alloc_end_
    (target.getD d1.ctrl) 0 ⟨by omega, h4, by omega⟩
  unfold align_elem_alloc_as_ctrl_back_
  simp only [a1, bind_ok, e1, block_alloc_size_, block_elem_size_, Nat.zero_add]
  refine ⟨_, rfl, ?_, a3.trans ?_, rfl, rfl, by simp only; omega, by simp only; omega,
    by simp only; omega, a8⟩
  · refine Ctl.of_perm a2 (fun k => d1.block_alloc_begin_ + k)
      (Nat.le_refl _) (by simp) (by simp; omega) (by simp only; omega) ?_ ?_
      (fun b cs hb => ⟨cs, hb, rfl⟩)
    · intro k k1 k2
      simp only at k1 k2 ⊢
      rw [e3 k, if_pos (by omega)]
      exact ⟨by omega, by omega, by simp⟩
    · intro k k' k1 k2 k3 k4
      simp only
      omega
  · exact {
      count := by simp
      slots := by
        intro j hj
        simp only [Nat.zero_add]
        rw [e3, if_pos (by omega)]
        congr 1; omega
      blocks := fun _ _ h => h
      first := rfl, fbegin := rfl, fend := rfl, bbegin := rfl, bend := rfl, blast := rfl }

theorem align_elem_alloc_as_ctrl_front_spec {B : Nat} {d : deque α} (hc : Ctl B d)
    (target : Option (List (Option Nat)))
    (ht : d.block_alloc_end_ - d.block_alloc_begin_ ≤ (target.getD d.ctrl).length) :
    ∃ d', d.align_elem_alloc_as_ctrl_front_ target = .ok d' ∧ Ctl B d' ∧ Moved d d' ∧
      d'.block_elem_end_ = d'.ctrl.length ∧ d'.block_alloc_end_ = d'.ctrl.length ∧
      d'.block_elem_begin_ = d'.ctrl.length - (d.block_elem_end_ - d.block_elem_begin_) ∧
      d'.block_alloc_begin_ = d'.ctrl.length - (d.block_alloc_end_ - d.block_alloc_begin_) ∧
      d'.ctrl.length = (target.getD d.ctrl).length ∧ d'.blocks = d.blocks := by
  obtain ⟨d1, a1, a2, a3, a4, a5, a6, a7, a8⟩ := align_elem_as_alloc_front_spec hc
  have h1 := a2.ab_le
  have h2 := a2.be_le
  have h3 := a2.ee_le
  have h4 := a2.ae_le
  have hcount := a3.count
  have g1 := hc.ab_le
  have g2 := hc.be_le
  have g3 := hc.ee_le
  have ht' : d1.block_alloc_end_ - d1.block_alloc_begin_ ≤ (target.getD d1.ctrl).length := by
    cases target with
    | none => simp only [Option.getD_none] at ht ⊢; omega
    | some t => simp only [Option.getD_some] at ht ⊢; omega
  have hlen : (target.getD d1.ctrl).length = (target.getD d.ctrl).length := by
    cases target with
    | none => simpa using a7
    | some t => rfl
  generalize htg : target.getD d1.ctrl = t at *
  obtain ⟨cs', e1, e2, e3⟩ := copy_slots_spec d1.ctrl d1.block_alloc_begin_ d1.block_alloc_end_
    t (t.length - (d1.block_alloc_end_ - d1.block_alloc_begin_)) ⟨by omega, h4, by omega⟩
  unfold align_elem_alloc_as_ctrl_front_
  have hnot : ¬ (t.length < d1.block_alloc_end_ - d1.block_alloc_begin_ ∨
      t.length < d1.block_elem_end_ - d1.block_elem_begin_) := by omega
  simp only [a1, bind_ok, htg, block_alloc_size_, block_elem_size_, hnot, if_false, e1]
  refine ⟨_, rfl, ?_, a3.trans ?_, by simp only; omega, by simp only; omega,
    by simp only; omega, by simp only; omega, by simp only; omega, a8⟩
  · refine Ctl.of_perm a2
      (fun k => d1.block_alloc_begin_ +
        (k - (t.length - (d1.block_alloc_end_ - d1.block_alloc_begin_))))
      (by simp only; omega) (by simp only; omega) (Nat.le_refl _) (by simp only; omega) ?_ ?_
      (fun b cs hb => ⟨cs, hb, rfl⟩)
    · intro k k1 k2
      simp only at k1 k2 ⊢
      rw [e3 k, if_pos (by omega)]
      exact ⟨by omega, by omega, rfl⟩
    · intro k k' k1 k2 k3 k4
      simp only at k1 k2 k3 k4 ⊢
      omega
  · exact {
      count := by simp only; omega
      slots := by
        intro j hj
        simp only
        rw [e3, if_pos (by omega)]
        congr 1; omega
      blocks := fun _ _ h => h
      first := rfl, fbegin := rfl, fend := rfl, bbegin := rfl, bend := rfl, blast := rfl }

theorem lt_length_of_getElem? {β : Type} {l : List β} {k : Nat} {x : β}
    (h : l[k]? = some x) : k < l.length := by
  by_contra hc
  rw [List.getElem?_eq_none (by omega)] at h
  cases h

/-- The acquisition of one fresh block in a free slot `k` next to the owned slots. -/
theorem Ctl.ctl_grow {B : Nat} {d : deque α} (hc : Ctl B d) (k ab' ae' : Nat)
    (hk : k < d.ctrl.length)
    (hside : (k = d.block_alloc_end_ ∧ ab' = d.block_alloc_begin_ ∧ ae' = k + 1) ∨
      (k + 1 = d.block_alloc_begin_ ∧ ab' = k ∧ ae' = d.block_alloc_end_)) :
    Ctl B { d with blocks := d.blocks ++ [List.replicate B none],
                   ctrl := d.ctrl.set k (some d.blocks.length),
                   block_alloc_begin_ := ab', block_alloc_end_ := ae' } := by
  have h1 := hc.ab_le
  have h2 := hc.be_le
  have h3 := hc.ee_le
  have h4 := hc.ae_le
  have hold : ∀ j, d.block_alloc_begin_ ≤ j → j < d.block_alloc_end_ →
      ∃ b cells, (d.ctrl.set k (some d.blocks.length))[j]? = some (some b) ∧
        d.ctrl[j]? = some (some b) ∧ b < d.blocks.length ∧
        (d.blocks ++ [List.replicate B none])[b]? = some cells ∧ cells.length = B := by
    intro j j1 j2
    obtain ⟨b, cells, hj, hb, hl⟩ := hc.owned j j1 j2
    have hlt := lt_length_of_getElem? hb
    refine ⟨b, cells, ?_, hj, hlt, ?_, hl⟩
    · rw [List.getElem?_set, if_neg (by omega)]; exact hj
    · rw [List.getElem?_append_left hlt]; exact hb
  have hnew : (d.ctrl.set k (some d.blocks.length))[k]? = some (some d.blocks.length) := by
    rw [List.getElem?_set]; simp [hk]
  exact {
    ab_le := by simp only; omega
    be_le := h2
    ee_le := by simp only; omega
    ae_le := by simp only [List.length_set]; omega
    owned := by
      intro j j1 j2
      simp only at j1 j2 ⊢
      by_cases hjk : j = k
      · subst hjk
        exact ⟨d.blocks.length, List.replicate B none, hnew,
          by rw [List.getElem?_append_right (Nat.le_refl _)]; simp, by simp⟩
      · obtain ⟨b, cells, q1, _, _, q4, q5⟩ := hold j (by omega) (by omega)
        exact ⟨b, cells, q1, q4, q5⟩
    inj := by
      intro j j' j1 j2 j3 j4 he
      simp only at j1 j2 j3 j4 he
      by_cases hjk : j = k
      · by_cases hjk' : j' = k
        · omega
        · exfalso
          obtain ⟨b, cells, q1, _, q3, _, _⟩ := hold j' (by omega) (by omega)
          subst hjk
          rw [hnew, q1] at he
          injection he with he; injection he with he
          omega
      · by_cases hjk' : j' = k
        · exfalso
          obtain ⟨b, cells, q1, _, q3, _, _⟩ := hold j (by omega) (by omega)
          subst hjk'
          rw [hnew, q1] at he
          injection he with he; injection he with he
          omega
        · obtain ⟨b, cells, q1, q2, _, _, _⟩ := hold j (by omega) (by omega)
          obtain ⟨b', cells', r1, r2, _, _, _⟩ := hold j' (by omega) (by omega)
          rw [q1, r1] at he
          injection he with he; injection he with he
          subst he
          exact hc.slot_inj _ _ (by omega) (by omega) (by omega) (by omega) q2 r2 }

theorem Moved.moved_grow {B : Nat} {d : deque α} (hc : Ctl B d) (k ab' ae' : Nat)
    (hside : k = d.block_alloc_end_ ∨ k + 1 = d.block_alloc_begin_) :
    Moved d { d with blocks := d.blocks ++ [List.replicate B none],
                     ctrl := d.ctrl.set k (some d.blocks.length),
                     block_alloc_begin_ := ab', block_alloc_end_ := ae' } := by
  have h1 := hc.ab_le
  have h2 := hc.be_le
  have h3 := hc.ee_le
  exact {
    count := rfl
    slots := by
      intro j hj
      simp only
      rw [List.getElem?_set, if_neg (by omega)]
    blocks := by
      intro b cells hb
      simp only
      rw [List.getElem?_append_left (lt_length_of_getElem? hb)]; exact hb
    first := rfl, fbegin := rfl, fend := rfl, bbegin := rfl, bend := rfl, blast := rfl }

theorem extent_back_loop_spec {B : Nat} (n : Nat) : ∀ {d : deque α}, Ctl B d →
    d.block_alloc_end_ + n ≤ d.ctrl.length →
    ∃ d', extent_back_loop B n d = .ok d' ∧ Ctl B d' ∧ Moved d d' ∧
      d'.block_alloc_end_ = d.block_alloc_end_ + n ∧
      d'.block_alloc_begin_ = d.block_alloc_begin_ ∧
      d'.block_elem_begin_ = d.block_elem_begin_ ∧
      d'.block_elem_end_ = d.block_elem_end_ ∧
      d'.ctrl.length = d.ctrl.length := by
  induction n with
  | zero =>
    intro d hc _
    exact ⟨d, rfl, hc, Moved.refl d, rfl, rfl, rfl, rfl, rfl⟩
  | succ n ih =>
    intro d hc hroom
    have hk : d.block_alloc_end_ < d.ctrl.length := by omega
    have hc1 := hc.ctl_grow d.block_alloc_end_ d.block_alloc_begin_ (d.block_alloc_end_ + 1) hk
      (Or.inl ⟨rfl, rfl, rfl⟩)
    have hm1 := Moved.moved_grow hc d.block_alloc_end_ d.block_alloc_begin_ (d.block_alloc_end_ + 1)
      (Or.inl rfl)
    obtain ⟨d', e1, e2, e3, e4, e5, e6, e7, e8⟩ := ih hc1 (by simp only [List.length_set]; omega)
    refine ⟨d', ?_, e2, hm1.trans e3, by rw [e4]; simp only; omega, e5, e6, e7,
      by rw [e8]; simp⟩
    unfold extent_back_loop
    simp only [alloc_block_, set_slot, hk, if_true]
    exact e1

theorem extent_front_loop_spec {B : Nat} (n : Nat) : ∀ {d : deque α}, Ctl B d →
    n ≤ d.block_alloc_begin_ →
    ∃ d', extent_front_loop B n d = .ok d' ∧ Ctl B d' ∧ Moved d d' ∧
      d'.block_alloc_begin_ = d.block_alloc_begin_ - n ∧
      d'.block_alloc_end_ = d.block_alloc_end_ ∧
      d'.block_elem_begin_ = d.block_elem_begin_ ∧
      d'.block_elem_end_ = d.block_elem_end_ ∧
      d'.ctrl.length = d.ctrl.length := by
  induction n with
  | zero =>
    intro d hc _
    exact ⟨d, rfl, hc, Moved.refl d, rfl, rfl, rfl, rfl, rfl⟩
  | succ n ih =>
    intro d hc hroom
    have h1 := hc.ab_le
    have h2 := hc.be_le
    have h3 := hc.ee_le
    have h4 := hc.ae_le
    have hk : d.block_alloc_begin_ - 1 < d.ctrl.length := by omega
    have hc1 := hc.ctl_grow (d.block_alloc_begin_ - 1) (d.block_alloc_begin_ - 1) d.block_alloc_end_
      hk (Or.inr ⟨by omega, rfl, rfl⟩)
    have hm1 := Moved.moved_grow hc (d.block_alloc_begin_ - 1) (d.block_alloc_begin_ - 1)
      d.block_alloc_end_ (Or.inr (by omega))
    obtain ⟨d', e1, e2, e3, e4, e5, e6, e7, e8⟩ := ih hc1 (by simp only; omega)
    refine ⟨d', ?_, e2, hm1.trans e3, by rw [e4]; simp only; omega, e5, e6, e7,
      by rw [e8]; simp⟩
    unfold extent_front_loop
    have hne : ¬ d.block_alloc_begin_ = 0 := by omega
    simp only [alloc_block_, set_slot, hk, if_true, hne, if_false]
    exact e1

theorem extent_block_back_uncond_spec {B : Nat} {d : deque α} (hc : Ctl B d) (n : Nat)
    (hn : 0 < n) (hroom : d.block_alloc_end_ + n ≤ d.ctrl.length) :
    ∃ d', extent_block_back_uncond_ B d n = .ok d' ∧ Ctl B d' ∧ Moved d d' ∧
      d'.block_alloc_end_ = d.block_alloc_end_ + n ∧
      d'.block_alloc_begin_ = d.block_alloc_begin_ ∧
      d'.block_elem_begin_ = d.block_elem_begin_ ∧
      d'.block_elem_end_ = d.block_elem_end_ ∧
      d'.ctrl.length = d.ctrl.length := by
  obtain ⟨d', e⟩ := extent_back_loop_spec n hc hroom
  refine ⟨d', ?_, e.2⟩
  unfold extent_block_back_uncond_ block_ctrl_end_
  have h1 : d.block_alloc_end_ ≠ d.ctrl.length := by omega
  have h2 : ¬ d.ctrl.length = 0 := by omega
  simp only [h1, ne_eq, not_false_eq_true, not_true_eq_false, if_false, h2]
  exact e.1

theorem extent_block_front_uncond_spec {B : Nat} {d : deque α} (hc : Ctl B d) (n : Nat)
    (hn : 0 < n) (hroom : n ≤ d.block_alloc_begin_) :
    ∃ d', extent_block_front_uncond_ B d n = .ok d' ∧ Ctl B d' ∧ Moved d d' ∧
      d'.block_alloc_begin_ = d.block_alloc_begin_ - n ∧
      d'.block_alloc_end_ = d.block_alloc_end_ ∧
      d'.block_elem_begin_ = d.block_elem_begin_ ∧
      d'.block_elem_end_ = d.block_elem_end_ ∧
      d'.ctrl.length = d.ctrl.length := by
  obtain ⟨d', e⟩ := extent_front_loop_spec n hc hroom
  refine ⟨d', ?_, e.2⟩
  have g1 := hc.ab_le
  have g2 := hc.be_le
  have g3 := hc.ee_le
  have g4 := hc.ae_le
  unfold extent_block_front_uncond_
  have h1 : d.block_alloc_begin_ ≠ 0 := by omega
  have h2 : ¬ d.ctrl.length = 0 := by omega
  simp only [h1, ne_eq, not_false_eq_true, not_true_eq_false, if_false, h2]
  exact e.1

theorem ctrl_alloc_length (n : Nat) : (ctrl_alloc_ n).length = (n + 3) / 4 * 4 := by
  simp [ctrl_alloc_]

theorem ctrl_alloc_ge (n : Nat) : n ≤ (ctrl_alloc_ n).length := by
  rw [ctrl_alloc_length]; omega

/-- A change of the allocation counters alone. -/
theorem Ctl.ctl_of_counters {B : Nat} {d : deque α} (hc : Ctl B d) (a f : Nat) :
    Ctl B { d with ctrl_allocs := a, ctrl_frees := f } :=
  Ctl.of_frame hc rfl rfl rfl rfl rfl (fun _ cs hb => ⟨cs, hb, rfl⟩)

theorem Moved.moved_of_counters (d : deque α) (a f : Nat) :
    Moved d { d with ctrl_allocs := a, ctrl_frees := f } :=
  ⟨rfl, fun _ _ => rfl, fun _ _ h => h, rfl, rfl, rfl, rfl, rfl, rfl⟩

theorem replace_ctrl_back_spec {B : Nat} {d : deque α} (hc : Ctl B d)
    (t : List (Option Nat)) (ht : d.block_alloc_end_ - d.block_alloc_begin_ ≤ t.length) :
    ∃ d', d.replace_ctrl_back t = .ok d' ∧ Ctl B d' ∧ Moved d d' ∧
      d'.block_elem_begin_ = 0 ∧ d'.block_alloc_begin_ = 0 ∧
      d'.block_elem_end_ = d.block_elem_end_ - d.block_elem_begin_ ∧
      d'.block_alloc_end_ = d.block_alloc_end_ - d.block_alloc_begin_ ∧
      d'.ctrl.length = t.length := by
  obtain ⟨d1, a1, a2, a3, a4, a5, a6, a7, a8, a9⟩ :=
    align_elem_alloc_as_ctrl_back_spec hc (some t) (by simpa using ht)
  unfold replace_ctrl_back
  simp only [a1, bind_ok, dealloc_ctrl_, block_ctrl_end_]
  have hc' : ∀ f, Ctl B { d1 with ctrl_frees := f } := fun f => by
    have := a2.ctl_of_counters d1.ctrl_allocs f
    exact this
  have hm' : ∀ f, Moved d { d1 with ctrl_frees := f } := fun f => by
    have := Moved.moved_of_counters d1 d1.ctrl_allocs f
    exact a3.trans this
  by_cases hz : d.ctrl.length = 0
  · simp only [hz, ne_eq, not_true_eq_false, if_false]
    exact ⟨_, rfl, a2, a3, a4, a5, a6, a7, by simpa using a8⟩
  · simp only [hz, ne_eq, not_false_eq_true, if_true]
    exact ⟨_, rfl, hc' _, hm' _, a4, a5, a6, a7, by simpa using a8⟩

theorem replace_ctrl_front_spec {B : Nat} {d : deque α} (hc : Ctl B d)
    (t : List (Option Nat)) (ht : d.block_alloc_end_ - d.block_alloc_begin_ ≤ t.length) :
    ∃ d', d.replace_ctrl_front t = .ok d' ∧ Ctl B d' ∧ Moved d d' ∧
      d'.block_elem_end_ = t.length ∧ d'.block_alloc_end_ = t.length ∧
      d'.block_elem_begin_ = t.length - (d.block_elem_end_ - d.block_elem_begin_) ∧
      d'.block_alloc_begin_ = t.length - (d.block_alloc_end_ - d.block_alloc_begin_) ∧
      d'.ctrl.length = t.length := by
  obtain ⟨d1, a1, a2, a3, a4, a5, a6, a7, a8, a9⟩ :=
    align_elem_alloc_as_ctrl_front_spec hc (some t) (by simpa using ht)
  have a8' : d1.ctrl.length = t.length := by simpa using a8
  rw [a8'] at a4 a5 a6 a7
  unfold replace_ctrl_front
  simp only [a1, bind_ok, dealloc_ctrl_, block_ctrl_end_]
  have hc' : ∀ f, Ctl B { d1 with ctrl_frees := f } := fun f => by
    have := a2.ctl_of_counters d1.ctrl_allocs f
    exact this
  have hm' : ∀ f, Moved d { d1 with ctrl_frees := f } := fun f => by
    have := Moved.moved_of_counters d1 d1.ctrl_allocs f
    exact a3.trans this
  by_cases hz : d.ctrl.length = 0
  · simp only [hz, ne_eq, not_true_eq_false, if_false]
    exact ⟨_, rfl, a2, a3, a4, a5, a6, a7, a8'⟩
  · simp only [hz, ne_eq, not_false_eq_true, if_true]
    exact ⟨_, rfl, hc' _, hm' _, a4, a5, a6, a7, a8'⟩

theorem reserve_one_back_spec {B : Nat} {d : deque α} (hc : Ctl B d) :
    ∃ d', reserve_one_back_ B d = .ok d' ∧ Ctl B d' ∧ Moved d d' ∧
      d'.block_elem_end_ < d'.block_alloc_end_ := by
  have h1 := hc.ab_le
  have h2 := hc.be_le
  have h3 := hc.ee_le
  have h4 := hc.ae_le
  unfold reserve_one_back_
  by_cases c1 : d.block_alloc_end_ ≠ d.block_elem_end_
  · rw [if_pos c1]
    exact ⟨d, rfl, hc, Moved.refl d, by omega⟩
  · rw [if_neg c1]
    by_cases c2 : d.block_elem_begin_ ≠ d.block_alloc_begin_
    · rw [if_pos c2]
      obtain ⟨d', e1, e2, e3, e4, e5, e6, e7, e8⟩ := align_elem_as_alloc_back_spec hc
      have := e3.count
      have := e2.be_le
      exact ⟨d', e1, e2, e3, by omega⟩
    · rw [if_neg c2]
      by_cases c3 : (d.block_alloc_begin_ - 0) + (d.block_ctrl_end_ - d.block_alloc_end_) ≠ 0
      · rw [if_pos c3]
        unfold block_ctrl_end_ at c3
        obtain ⟨d1, e1, e2, e3, e4, e5, e6, e7, e8, e9⟩ :=
          align_elem_alloc_as_ctrl_back_spec hc none (by simp only [Option.getD_none]; omega)
        simp only [Option.getD_none] at e8
        obtain ⟨d2, f1, f2, f3, f4, f5, f6, f7, f8⟩ :=
          extent_block_back_uncond_spec e2 1 (by omega) (by omega)
        simp only [e1, bind_ok]
        exact ⟨d2, f1, f2, e3.trans f3, by omega⟩
      · rw [if_neg c3]
        unfold block_ctrl_end_ at c3
        have hge := ctrl_alloc_ge (d.block_alloc_size_ + 1)
        unfold block_alloc_size_ at hge
        have hcn : Ctl B { d with ctrl_allocs := d.ctrl_allocs + 1 } :=
          hc.ctl_of_counters _ d.ctrl_frees
        have hmn : Moved d { d with ctrl_allocs := d.ctrl_allocs + 1 } :=
          Moved.moved_of_counters d _ d.ctrl_frees
        obtain ⟨d1, e1, e2, e3, e4, e5, e6, e7, e8⟩ :=
          replace_ctrl_back_spec hcn (ctrl_alloc_ (d.block_alloc_end_ - d.block_alloc_begin_ + 1))
            (by simp only; omega)
        simp only at e6 e7
        obtain ⟨d2, f1, f2, f3, f4, f5, f6, f7, f8⟩ :=
          extent_block_back_uncond_spec e2 1 (by omega) (by omega)
        simp only [new_ctrl, block_alloc_size_, e1, bind_ok]
        exact ⟨d2, f1, f2, (hmn.trans e3).trans f3, by omega⟩

theorem reserve_one_front_spec {B : Nat} {d : deque α} (hc : Ctl B d) :
    ∃ d', reserve_one_front_ B d = .ok d' ∧ Ctl B d' ∧ Moved d d' ∧
      d'.block_alloc_begin_ < d'.block_elem_begin_ := by
  have h1 := hc.ab_le
  have h2 := hc.be_le
  have h3 := hc.ee_le
  have h4 := hc.ae_le
  unfold reserve_one_front_
  by_cases c1 : d.block_elem_begin_ ≠ d.block_alloc_begin_
  · rw [if_pos c1]
    exact ⟨d, rfl, hc, Moved.refl d, by omega⟩
  · rw [if_neg c1]
    by_cases c2 : d.block_alloc_end_ ≠ d.block_elem_end_
    · rw [if_pos c2]
      obtain ⟨d', e1, e2, e3, e4, e5, e6, e7, e8⟩ := align_elem_as_alloc_front_spec hc
      have := e3.count
      have := e2.be_le
      exact ⟨d', e1, e2, e3, by omega⟩
    · rw [if_neg c2]
      by_cases c3 : (d.block_alloc_begin_ - 0) + (d.block_ctrl_end_ - d.block_alloc_end_) ≠ 0
      · rw [if_pos c3]
        unfold block_ctrl_end_ at c3
        obtain ⟨d1, e1, e2, e3, e4, e5, e6, e7, e8, e9⟩ :=
          align_elem_alloc_as_ctrl_front_spec hc none (by simp only [Option.getD_none]; omega)
        simp only [Option.getD_none] at e8
        obtain ⟨d2, f1, f2, f3, f4, f5, f6, f7, f8⟩ :=
          extent_block_front_uncond_spec e2 1 (by omega) (by omega)
        simp only [e1, bind_ok]
        exact ⟨d2, f1, f2, e3.trans f3, by omega⟩
      · rw [if_neg c3]
        unfold block_ctrl_end_ at c3
        have hge := ctrl_alloc_ge (d.block_alloc_size_ + 1)
        unfold block_alloc_size_ at hge
        have hcn : Ctl B { d with ctrl_allocs := d.ctrl_allocs + 1 } :=
          hc.ctl_of_counters _ d.ctrl_frees
        have hmn : Moved d { d with ctrl_allocs := d.ctrl_allocs + 1 } :=
          Moved.moved_of_counters d _ d.ctrl_frees
        obtain ⟨d1, e1, e2, e3, e4, e5, e6, e7, e8⟩ :=
          replace_ctrl_front_spec hcn
            (ctrl_alloc_ (d.block_alloc_end_ - d.block_alloc_begin_ + 1)) (by simp only; omega)
        simp only at e6 e7
        obtain ⟨d2, f1, f2, f3, f4, f5, f6, f7, f8⟩ :=
          extent_block_front_uncond_spec e2 1 (by omega) (by omega)
        simp only [new_ctrl, block_alloc_size_, e1, bind_ok]
        exact ⟨d2, f1, f2, (hmn.trans e3).trans f3, by omega⟩

end deque

end fast_io

namespace fast_io

namespace deque

variable {α : Type}

/-! ## `emplace_back` -/

theorem getElem_append_one_left {s : List α} {x : α} {i : Nat} (h : i < s.length)
    (h2 : i < (s ++ [x]).length) : (s ++ [x])[i] = s[i] := by
  simp [List.getElem_append, h]

theorem emplace_back_pre_spec {B : Nat} {d : deque α} {s : List α} {lo hi bf bl : Nat}
    (hB : 0 < B) (hc : Ctl B d) (hl : Live B d s lo hi bf bl) (hhi : hi < B) (x : α) :
    ∃ d', d.emplace_back_pre_ d.block_elem_size_ x = .ok d' ∧ Ctl B d' ∧
      Live B d' (s ++ [x]) lo (hi + 1) bf bl := by
  have hpos := hl.blocks_pos
  have hab := hc.ab_le
  have hee := hc.ee_le
  obtain ⟨cells, hcells, hclen⟩ := hc.block_of_slot (k := d.block_elem_end_ - 1)
    (by omega) (by omega) hl.slot_last
  have hw := write_eq d ⟨bl, hi⟩ x cells hcells (by simp; omega)
  have hframe : ∀ (b : Nat) (cs : List (Option α)), d.blocks[b]? = some cs →
      ∃ cs' : List (Option α),
        (d.blocks.set bl (cells.set hi (some x)))[b]? = some cs' ∧ cs'.length = cs.length :=
    fun b cs hb => blocks_poke d ⟨bl, hi⟩ x cells hcells b cs hb
  have helems : ∀ (d' : deque α), d'.ctrl = d.ctrl → d'.block_elem_begin_ = d.block_elem_begin_ →
      d'.blocks = d.blocks.set bl (cells.set hi (some x)) →
      ∀ i (h : i < (s ++ [x]).length), ∃ b,
        d'.ctrl[d'.block_elem_begin_ + (lo + i) / B]? = some (some b) ∧
        d'.read ⟨b, (lo + i) % B⟩ = .ok (s ++ [x])[i] := by
    intro d' e1 e2 e3 i hi'
    have hrd : ∀ q : Ptr, d'.read q = if q = ⟨bl, hi⟩ then .ok x else d.read q := by
      intro q
      have := read_poke d ⟨bl, hi⟩ q x cells hcells (by simp; omega)
      simp only [read, e3] at this ⊢
      exact this
    rw [e1, e2]
    by_cases hlt : i < s.length
    · obtain ⟨b, hb1, hb2⟩ := hl.elems i hlt
      refine ⟨b, hb1, ?_⟩
      rw [hrd, if_neg (hl.loc_ne_end hc hB i hlt b hb1), hb2, getElem_append_one_left hlt]
    · have hi2 : i = s.length := by simp at hi'; omega
      subst hi2
      have hle := hl.len_eq
      obtain ⟨q1, q2⟩ := div_mod_of_eq hle hhi
      refine ⟨bl, ?_, ?_⟩
      · rw [q1]
        have : d.block_elem_begin_ + (d.block_elem_end_ - d.block_elem_begin_ - 1)
            = d.block_elem_end_ - 1 := by omega
        rw [this]; exact hl.slot_last
      · rw [q2, hrd]; simp
  unfold emplace_back_pre_
  simp only [hl.bend, nn, bind_ok, hw, Ptr.add]
  by_cases hn : d.block_elem_size_ = 1
  · have hn' : d.block_elem_end_ - d.block_elem_begin_ = 1 := hn
    have hbfl : bf = bl := by
      have h1 := hl.slot_first
      have h2 := hl.slot_last
      have : d.block_elem_end_ - 1 = d.block_elem_begin_ := by omega
      rw [this, h1] at h2
      injection h2 with h2; injection h2 with h2
    simp only [hn, if_true]
    refine ⟨_, rfl, Ctl.of_frame hc rfl rfl rfl rfl rfl hframe, ?_⟩
    exact {
      blocks_pos := hl.blocks_pos
      slot_first := hl.slot_first
      slot_last := hl.slot_last
      lo_lt := hl.lo_lt
      hi_pos := by omega
      hi_le := by omega
      len_pos := by simp
      len_eq := by have := hl.len_eq; simp at this ⊢; omega
      first := hl.first
      fbegin := hl.fbegin
      fend := by simp [hn', hbfl]
      bbegin := hl.bbegin
      bend := rfl
      blast := hl.blast
      elems := helems _ rfl rfl rfl }
  · have hn' : ¬ d.block_elem_end_ - d.block_elem_begin_ = 1 := hn
    simp only [hn, if_false]
    refine ⟨_, rfl, Ctl.of_frame hc rfl rfl rfl rfl rfl hframe, ?_⟩
    exact {
      blocks_pos := hl.blocks_pos
      slot_first := hl.slot_first
      slot_last := hl.slot_last
      lo_lt := hl.lo_lt
      hi_pos := by omega
      hi_le := by omega
      len_pos := by simp
      len_eq := by have := hl.len_eq; simp at this ⊢; omega
      first := hl.first
      fbegin := hl.fbegin
      fend := by have := hl.fend; simp [hn'] at this ⊢; exact this
      bbegin := hl.bbegin
      bend := rfl
      blast := hl.blast
      elems := helems _ rfl rfl rfl }

theorem emplace_back_post_spec {B : Nat} {d : deque α} {s : List α}
    (hB : 0 < B) (hc : Ctl B d) (hsp : d.block_elem_end_ < d.block_alloc_end_) (x : α)
    (hs : (s = [] ∧ Null d) ∨ ∃ lo bf bl, Live B d s lo B bf bl) :
    ∃ d', emplace_back_post_ B d d.block_elem_size_ x = .ok d' ∧ Rep B d' (s ++ [x]) := by
  have hab := hc.ab_le
  have hbe := hc.be_le
  obtain ⟨bn, cells, hslot, hcells, hclen⟩ := hc.owned d.block_elem_end_ (by omega) hsp
  have hw := write_eq d ⟨bn, 0⟩ x cells hcells (by simp; omega)
  have hframe : ∀ (b : Nat) (cs : List (Option α)), d.blocks[b]? = some cs →
      ∃ cs' : List (Option α),
        (d.blocks.set bn (cells.set 0 (some x)))[b]? = some cs' ∧ cs'.length = cs.length :=
    fun b cs hb => blocks_poke d ⟨bn, 0⟩ x cells hcells b cs hb
  have hrd : ∀ d' : deque α, d'.blocks = d.blocks.set bn (cells.set 0 (some x)) →
      ∀ q : Ptr, d'.read q = if q = ⟨bn, 0⟩ then .ok x else d.read q := by
    intro d' e3 q
    have := read_poke d ⟨bn, 0⟩ q x cells hcells (by simp; omega)
    simp only [read, e3] at this ⊢
    exact this
  have hctl : ∀ d' : deque α, d'.ctrl = d.ctrl → d'.block_alloc_begin_ = d.block_alloc_begin_ →
      d'.block_alloc_end_ = d.block_alloc_end_ → d'.block_elem_begin_ = d.block_elem_begin_ →
      d'.block_elem_end_ = d.block_elem_end_ + 1 →
      d'.blocks = d.blocks.set bn (cells.set 0 (some x)) → Ctl B d' := by
    intro d' e1 e2 e3 e4 e5 e6
    have hee := hc.ee_le
    have hae := hc.ae_le
    refine Ctl.of_perm hc id (by rw [e2, e4]; exact hab) (by omega) (by omega)
      (by rw [e3, e1]; exact hae) ?_ (fun _ _ _ _ _ _ h => h) ?_
    · intro k k1 k2
      rw [e2] at k1; rw [e3] at k2
      exact ⟨k1, k2, by rw [e1]; rfl⟩
    · intro b cs hb
      rw [e6]; exact hframe b cs hb
  unfold emplace_back_post_
  simp only [slot_ptr, slot, hslot, bind_ok, hw, Ptr.add, elem_end_, elem_begin_, Nat.zero_add]
  rcases hs with ⟨rfl, hn⟩ | ⟨lo, bf, bl, hl⟩
  · have hz : d.block_elem_size_ = 0 := by
      unfold block_elem_size_; have := hn.blocks_eq; omega
    simp only [hz, if_true]
    refine ⟨_, rfl, hctl _ rfl rfl rfl rfl rfl rfl, Or.inr ⟨0, 1, bn, bn, ?_⟩⟩
    have heq := hn.blocks_eq
    exact {
      blocks_pos := by simp only; omega
      slot_first := by simp only; rw [heq]; exact hslot
      slot_last := by simp only [Nat.add_sub_cancel]; exact hslot
      lo_lt := hB
      hi_pos := by omega
      hi_le := by omega
      len_pos := by simp
      len_eq := by simp only [List.nil_append, List.length_singleton]; rw [heq]; simp
      first := rfl
      fbegin := rfl
      fend := by simp only; rw [heq]; simp
      bbegin := by simp only; rw [heq]; simp
      bend := rfl
      blast := rfl
      elems := by
        intro i hi'
        have hi0 : i = 0 := by simp at hi'; omega
        subst hi0
        refine ⟨bn, ?_, ?_⟩
        · simp only [Nat.add_zero, Nat.zero_div]; rw [heq]; exact hslot
        · simp only [Nat.add_zero, Nat.zero_mod]; rw [hrd _ rfl]; simp }
  · have hpos := hl.blocks_pos
    have hz : ¬ d.block_elem_size_ = 0 := by
      unfold block_elem_size_; omega
    simp only [hz, if_false]
    refine ⟨_, rfl, hctl _ rfl rfl rfl rfl rfl rfl, Or.inr ⟨lo, 1, bf, bn, ?_⟩⟩
    have hlen := hl.len_eq
    have hmul := @pred_mul_add (d.block_elem_end_ - d.block_elem_begin_) B (by omega)
    have hn1 : d.block_elem_end_ + 1 - d.block_elem_begin_ - 1
        = d.block_elem_end_ - d.block_elem_begin_ := by omega
    have hne1 : ¬ d.block_elem_end_ + 1 - d.block_elem_begin_ = 1 := by omega
    exact {
      blocks_pos := by simp only; omega
      slot_first := hl.slot_first
      slot_last := by simp only [Nat.add_sub_cancel]; exact hslot
      lo_lt := hl.lo_lt
      hi_pos := by omega
      hi_le := by omega
      len_pos := by simp
      len_eq := by
        simp only [List.length_append, List.length_singleton, hn1]
        omega
      first := hl.first
      fbegin := hl.fbegin
      fend := by
        have := hl.fend
        simp only [hne1, if_false]
        rw [this]; split <;> rfl
      bbegin := by simp only [hne1, if_false]
      bend := rfl
      blast := rfl
      elems := by
        intro i hi'
        simp only
        by_cases hlt : i < s.length
        · obtain ⟨b, hb1, hb2⟩ := hl.elems i hlt
          obtain ⟨hs1, _⟩ := hl.slot_lt hB i hlt
          refine ⟨b, hb1, ?_⟩
          have hne : (⟨b, (lo + i) % B⟩ : Ptr) ≠ ⟨bn, 0⟩ := by
            intro he
            injection he with he1 he2
            subst he1
            have hee := hc.ee_le
            generalize (lo + i) / B = q at *
            have := hc.slot_inj (d.block_elem_begin_ + q) d.block_elem_end_
              (by omega) (by omega) (by omega) (by omega) hb1 hslot
            omega
          rw [hrd _ rfl, if_neg hne, hb2, getElem_append_one_left hlt]
        · have hi2 : i = s.length := by simp at hi'; omega
          subst hi2
          have hle : lo + s.length = (d.block_elem_end_ - d.block_elem_begin_) * B + 0 := by
            omega
          obtain ⟨q1, q2⟩ := div_mod_of_eq hle hB
          refine ⟨bn, ?_, ?_⟩
          · rw [q1]
            have : d.block_elem_begin_ + (d.block_elem_end_ - d.block_elem_begin_)
                = d.block_elem_end_ := by omega
            rw [this]; exact hslot
          · rw [q2, hrd _ rfl]; simp }

theorem emplace_back_spec {B : Nat} {d : deque α} {s : List α} (hB : 0 < B)
    (hr : Rep B d s) (x : α) :
    ∃ d', emplace_back B d x = .ok d' ∧ Rep B d' (s ++ [x]) := by
  unfold emplace_back
  rcases hr.shape with ⟨rfl, hn⟩ | ⟨lo, hi, bf, bl, hl⟩
  · have hne : ¬ d.elem_end_end_ ≠ d.elem_end_last_ := by
      rw [hn.bend, hn.blast]; simp
    rw [if_neg hne]
    obtain ⟨d1, e1, e2, e3, e4⟩ := reserve_one_back_spec hr.ctl
    simp only [e1, bind_ok]
    have hcount : d.block_elem_size_ = d1.block_elem_size_ := by
      unfold block_elem_size_; exact e3.count.symm
    rw [hcount]
    exact emplace_back_post_spec hB e2 e4 x (Or.inl ⟨rfl, e3.null hn e2.be_le⟩)
  · by_cases hfull : hi = B
    · subst hfull
      have hne : ¬ d.elem_end_end_ ≠ d.elem_end_last_ := by
        rw [hl.bend, hl.blast]; simp
      rw [if_neg hne]
      obtain ⟨d1, e1, e2, e3, e4⟩ := reserve_one_back_spec hr.ctl
      simp only [e1, bind_ok]
      have hcount : d.block_elem_size_ = d1.block_elem_size_ := by
        unfold block_elem_size_; exact e3.count.symm
      rw [hcount]
      exact emplace_back_post_spec hB e2 e4 x (Or.inr ⟨lo, bf, bl, e3.live hl hB e2.be_le⟩)
    · have hlt : hi < B := by have := hl.hi_le; omega
      have hne : d.elem_end_end_ ≠ d.elem_end_last_ := by
        rw [hl.bend, hl.blast]
        intro he; injection he with he; injection he with _ he; omega
      rw [if_pos hne]
      obtain ⟨d', e1, e2, e3⟩ := emplace_back_pre_spec hB hr.ctl hl hlt x
      exact ⟨d', e1, e2, Or.inr ⟨lo, hi + 1, bf, bl, e3⟩⟩

end deque

end fast_io

namespace fast_io

namespace deque

variable {α : Type}

/-! ## `emplace_front` -/

theorem mod_of_div_zero {a B : Nat} (h : a / B = 0) : a % B = a := by
  have := div_mul_add_mod a B
  rw [h] at this
  omega

theorem emplace_front_pre_spec {B : Nat} {d : deque α} {s : List α} {lo hi bf bl : Nat}
    (hB : 0 < B) (hc : Ctl B d) (hl : Live B d s lo hi bf bl) (hlo : 0 < lo) (x : α) :
    ∃ d', d.emplace_front_pre_ d.block_elem_size_ x = .ok d' ∧ Ctl B d' ∧
      Live B d' (x :: s) (lo - 1) hi bf bl := by
  have hpos := hl.blocks_pos
  have hab := hc.ab_le
  have hee := hc.ee_le
  have hlolt := hl.lo_lt
  obtain ⟨cells, hcells, hclen⟩ := hc.block_of_slot (k := d.block_elem_begin_)
    (by omega) (by omega) hl.slot_first
  have hw := write_eq d ⟨bf, lo - 1⟩ x cells hcells (by simp; omega)
  have hframe : ∀ (b : Nat) (cs : List (Option α)), d.blocks[b]? = some cs →
      ∃ cs' : List (Option α),
        (d.blocks.set bf (cells.set (lo - 1) (some x)))[b]? = some cs' ∧
          cs'.length = cs.length :=
    fun b cs hb => blocks_poke d ⟨bf, lo - 1⟩ x cells hcells b cs hb
  have helems : ∀ (d' : deque α), d'.ctrl = d.ctrl → d'.block_elem_begin_ = d.block_elem_begin_ →
      d'.blocks = d.blocks.set bf (cells.set (lo - 1) (some x)) →
      ∀ i (h : i < (x :: s).length), ∃ b,
        d'.ctrl[d'.block_elem_begin_ + (lo - 1 + i) / B]? = some (some b) ∧
        d'.read ⟨b, (lo - 1 + i) % B⟩ = .ok (x :: s)[i] := by
    intro d' e1 e2 e3 i hi'
    have hrd : ∀ q : Ptr, d'.read q = if q = ⟨bf, lo - 1⟩ then .ok x else d.read q := by
      intro q
      have := read_poke d ⟨bf, lo - 1⟩ q x cells hcells (by simp; omega)
      simp only [read, e3] at this ⊢
      exact this
    rw [e1, e2]
    cases i with
    | zero =>
      refine ⟨bf, ?_, ?_⟩
      · rw [Nat.add_zero, Nat.div_eq_of_lt (by omega)]; exact hl.slot_first
      · rw [Nat.add_zero, Nat.mod_eq_of_lt (by omega), hrd]; simp
    | succ j =>
      have hj : j < s.length := by simp at hi'; omega
      obtain ⟨b, hb1, hb2⟩ := hl.elems j hj
      obtain ⟨hs1, _⟩ := hl.slot_lt hB j hj
      have hidx : lo - 1 + (j + 1) = lo + j := by omega
      rw [hidx]
      refine ⟨b, hb1, ?_⟩
      have hne : (⟨b, (lo + j) % B⟩ : Ptr) ≠ ⟨bf, lo - 1⟩ := by
        intro he
        injection he with he1 he2
        subst he1
        have hq : (lo + j) / B = 0 := by
          generalize (lo + j) / B = q at *
          have := hc.slot_inj (d.block_elem_begin_ + q) d.block_elem_begin_
            (by omega) (by omega) (by omega) (by omega) hb1 hl.slot_first
          omega
        rw [mod_of_div_zero hq] at he2
        omega
      rw [hrd, if_neg hne, hb2]
      simp
  unfold emplace_front_pre_
  have hp : (⟨bf, lo⟩ : Ptr).pred = .ok ⟨bf, lo - 1⟩ := by
    simp [Ptr.pred]; omega
  simp only [hl.fbegin, nn, bind_ok, hp, hw]
  by_cases hn : d.block_elem_size_ = 1
  · have hn' : d.block_elem_end_ - d.block_elem_begin_ = 1 := hn
    have hbfl : bf = bl := by
      have h1 := hl.slot_first
      have h2 := hl.slot_last
      have : d.block_elem_end_ - 1 = d.block_elem_begin_ := by omega
      rw [this, h1] at h2
      injection h2 with h2; injection h2 with h2
    simp only [hn, if_true]
    refine ⟨_, rfl, Ctl.of_frame hc rfl rfl rfl rfl rfl hframe, ?_⟩
    exact {
      blocks_pos := hl.blocks_pos
      slot_first := hl.slot_first
      slot_last := hl.slot_last
      lo_lt := by omega
      hi_pos := hl.hi_pos
      hi_le := hl.hi_le
      len_pos := by simp
      len_eq := by have := hl.len_eq; simp at this ⊢; omega
      first := hl.first
      fbegin := rfl
      fend := hl.fend
      bbegin := by simp [hn', hbfl]
      bend := hl.bend
      blast := hl.blast
      elems := helems _ rfl rfl rfl }
  · have hn' : ¬ d.block_elem_end_ - d.block_elem_begin_ = 1 := hn
    simp only [hn, if_false]
    refine ⟨_, rfl, Ctl.of_frame hc rfl rfl rfl rfl rfl hframe, ?_⟩
    exact {
      blocks_pos := hl.blocks_pos
      slot_first := hl.slot_first
      slot_last := hl.slot_last
      lo_lt := by omega
      hi_pos := hl.hi_pos
      hi_le := hl.hi_le
      len_pos := by simp
      len_eq := by have := hl.len_eq; simp at this ⊢; omega
      first := hl.first
      fbegin := rfl
      fend := hl.fend
      bbegin := by have := hl.bbegin; simp [hn'] at this ⊢; exact this
      bend := hl.bend
      blast := hl.blast
      elems := helems _ rfl rfl rfl }

theorem emplace_front_post_spec {B : Nat} {d : deque α} {s : List α}
    (hB : 0 < B) (hc : Ctl B d) (hsp : d.block_alloc_begin_ < d.block_elem_begin_) (x : α)
    (hs : (s = [] ∧ Null d) ∨ ∃ hi bf bl, Live B d s 0 hi bf bl) :
    ∃ d', emplace_front_post_ B d d.block_elem_size_ x = .ok d' ∧ Rep B d' (x :: s) := by
  have hab := hc.ab_le
  have hbe := hc.be_le
  have hee := hc.ee_le
  have hae := hc.ae_le
  obtain ⟨bn, cells, hslot, hcells, hclen⟩ := hc.owned (d.block_elem_begin_ - 1)
    (by omega) (by omega)
  have hw := write_eq d ⟨bn, B - 1⟩ x cells hcells (by simp; omega)
  have hframe : ∀ (b : Nat) (cs : List (Option α)), d.blocks[b]? = some cs →
      ∃ cs' : List (Option α),
        (d.blocks.set bn (cells.set (B - 1) (some x)))[b]? = some cs' ∧
          cs'.length = cs.length :=
    fun b cs hb => blocks_poke d ⟨bn, B - 1⟩ x cells hcells b cs hb
  have hrd : ∀ d' : deque α, d'.blocks = d.blocks.set bn (cells.set (B - 1) (some x)) →
      ∀ q : Ptr, d'.read q = if q = ⟨bn, B - 1⟩ then .ok x else d.read q := by
    intro d' e3 q
    have := read_poke d ⟨bn, B - 1⟩ q x cells hcells (by simp; omega)
    simp only [read, e3] at this ⊢
    exact this
  have hctl : ∀ d' : deque α, d'.ctrl = d.ctrl → d'.block_alloc_begin_ = d.block_alloc_begin_ →
      d'.block_alloc_end_ = d.block_alloc_end_ →
      d'.block_elem_begin_ = d.block_elem_begin_ - 1 →
      d'.block_elem_end_ = d.block_elem_end_ →
      d'.blocks = d.blocks.set bn (cells.set (B - 1) (some x)) → Ctl B d' := by
    intro d' e1 e2 e3 e4 e5 e6
    refine Ctl.of_perm hc id (by omega) (by omega) (by omega)
      (by rw [e3, e1]; exact hae) ?_ (fun _ _ _ _ _ _ h => h) ?_
    · intro k k1 k2
      rw [e2] at k1; rw [e3] at k2
      exact ⟨k1, k2, by rw [e1]; rfl⟩
    · intro b cs hb
      rw [e6]; exact hframe b cs hb
  unfold emplace_front_post_
  have hne0 : ¬ d.block_elem_begin_ = 0 := by omega
  have hp : (⟨bn, 0 + B⟩ : Ptr).pred = .ok ⟨bn, B - 1⟩ := by
    simp [Ptr.pred]; omega
  simp only [hne0, if_false, slot_ptr, slot, hslot, bind_ok, Ptr.add, hp, hw, elem_end_,
    elem_begin_]
  have hidx0 : d.block_elem_begin_ - 1 + (B - 1 + 0) / B = d.block_elem_begin_ - 1 := by
    rw [Nat.add_zero, Nat.div_eq_of_lt (by omega)]; rfl
  have hmod0 : (B - 1 + 0) % B = B - 1 := by
    rw [Nat.add_zero, Nat.mod_eq_of_lt (by omega)]
  rcases hs with ⟨rfl, hn⟩ | ⟨hi, bf, bl, hl⟩
  · have hz : d.block_elem_size_ = 0 := by
      unfold block_elem_size_; have := hn.blocks_eq; omega
    simp only [hz, if_true]
    refine ⟨_, rfl, hctl _ rfl rfl rfl rfl rfl rfl, Or.inr ⟨B - 1, B, bn, bn, ?_⟩⟩
    have heq := hn.blocks_eq
    have hn1 : d.block_elem_end_ - (d.block_elem_begin_ - 1) = 1 := by omega
    exact {
      blocks_pos := by simp only; omega
      slot_first := hslot
      slot_last := by simp only; rw [← heq]; exact hslot
      lo_lt := by omega
      hi_pos := hB
      hi_le := Nat.le_refl _
      len_pos := by simp
      len_eq := by simp only [List.length_singleton, hn1]; omega
      first := by simp
      fbegin := rfl
      fend := by simp [hn1]
      bbegin := by simp [hn1]
      bend := by simp
      blast := by simp
      elems := by
        intro i hi'
        have hi0 : i = 0 := by simp at hi'; omega
        subst hi0
        simp only
        refine ⟨bn, ?_, ?_⟩
        · rw [hidx0]; exact hslot
        · rw [hmod0, hrd _ rfl]; simp }
  · have hpos := hl.blocks_pos
    have hz : ¬ d.block_elem_size_ = 0 := by
      unfold block_elem_size_; omega
    simp only [hz, if_false]
    refine ⟨_, rfl, hctl _ rfl rfl rfl rfl rfl rfl, Or.inr ⟨B - 1, hi, bn, bl, ?_⟩⟩
    have hlen := hl.len_eq
    have hmul := @pred_mul_add (d.block_elem_end_ - d.block_elem_begin_) B (by omega)
    have hn1 : d.block_elem_end_ - (d.block_elem_begin_ - 1) - 1
        = d.block_elem_end_ - d.block_elem_begin_ := by omega
    have hne1 : ¬ d.block_elem_end_ - (d.block_elem_begin_ - 1) = 1 := by omega
    exact {
      blocks_pos := by simp only; omega
      slot_first := hslot
      slot_last := hl.slot_last
      lo_lt := by omega
      hi_pos := hl.hi_pos
      hi_le := hl.hi_le
      len_pos := by simp
      len_eq := by
        simp only [List.length_cons, hn1]
        omega
      first := by simp
      fbegin := rfl
      fend := by simp [hne1]
      bbegin := by
        have := hl.bbegin
        simp only [hne1, if_false]
        rw [this]; split <;> rfl
      bend := hl.bend
      blast := hl.blast
      elems := by
        intro i hi'
        simp only
        cases i with
        | zero =>
          refine ⟨bn, ?_, ?_⟩
          · rw [hidx0]; exact hslot
          · rw [hmod0, hrd _ rfl]; simp
        | succ j =>
          have hj : j < s.length := by simp at hi'; omega
          obtain ⟨b, hb1, hb2⟩ := hl.elems j hj
          obtain ⟨hs1, _⟩ := hl.slot_lt hB j hj
          have hidx : B - 1 + (j + 1) = (0 + j) + B := by omega
          rw [hidx, Nat.add_div_right _ hB, Nat.add_mod_right]
          have hk : d.block_elem_begin_ - 1 + ((0 + j) / B + 1)
              = d.block_elem_begin_ + (0 + j) / B := by omega
          rw [hk]
          refine ⟨b, hb1, ?_⟩
          have hne : (⟨b, (0 + j) % B⟩ : Ptr) ≠ ⟨bn, B - 1⟩ := by
            intro he
            injection he with he1 he2
            subst he1
            generalize (0 + j) / B = q at *
            have := hc.slot_inj (d.block_elem_begin_ + q) (d.block_elem_begin_ - 1)
              (by omega) (by omega) (by omega) (by omega) hb1 hslot
            omega
          rw [hrd _ rfl, if_neg hne, hb2]
          simp }

theorem emplace_front_spec {B : Nat} {d : deque α} {s : List α} (hB : 0 < B)
    (hr : Rep B d s) (x : α) :
    ∃ d', emplace_front B d x = .ok d' ∧ Rep B d' (x :: s) := by
  unfold emplace_front
  rcases hr.shape with ⟨rfl, hn⟩ | ⟨lo, hi, bf, bl, hl⟩
  · have hne : ¬ d.elem_begin_begin_ ≠ d.elem_begin_first_ := by
      rw [hn.fbegin, hn.first]; simp
    rw [if_neg hne]
    obtain ⟨d1, e1, e2, e3, e4⟩ := reserve_one_front_spec hr.ctl
    simp only [e1, bind_ok]
    have hcount : d.block_elem_size_ = d1.block_elem_size_ := by
      unfold block_elem_size_; exact e3.count.symm
    rw [hcount]
    exact emplace_front_post_spec hB e2 e4 x (Or.inl ⟨rfl, e3.null hn e2.be_le⟩)
  · by_cases hzero : lo = 0
    · subst hzero
      have hne : ¬ d.elem_begin_begin_ ≠ d.elem_begin_first_ := by
        rw [hl.fbegin, hl.first]; simp
      rw [if_neg hne]
      obtain ⟨d1, e1, e2, e3, e4⟩ := reserve_one_front_spec hr.ctl
      simp only [e1, bind_ok]
      have hcount : d.block_elem_size_ = d1.block_elem_size_ := by
        unfold block_elem_size_; exact e3.count.symm
      rw [hcount]
      exact emplace_front_post_spec hB e2 e4 x (Or.inr ⟨hi, bf, bl, e3.live hl hB e2.be_le⟩)
    · have hne : d.elem_begin_begin_ ≠ d.elem_begin_first_ := by
        rw [hl.fbegin, hl.first]
        intro he; injection he with he; injection he with _ he
        exact hzero he
      rw [if_pos hne]
      obtain ⟨d', e1, e2, e3⟩ := emplace_front_pre_spec hB hr.ctl hl (by omega) x
      exact ⟨d', e1, e2, Or.inr ⟨lo - 1, hi, bf, bl, e3⟩⟩

end deque

end fast_io

namespace fast_io

namespace deque

variable {α : Type}

/-! ## `pop_back` and `pop_front` -/

theorem read_congr {d d' : deque α} (h : d'.blocks = d.blocks) (q : Ptr) :
    d'.read q = d.read q := by
  unfold read; rw [h]

/-- A change of the element cursors that keeps the element blocks inside the owned range
keeps the control part of the data model. -/
theorem Ctl.of_cursors {B : Nat} {d d' : deque α} (hc : Ctl B d)
    (e1 : d'.ctrl = d.ctrl) (e2 : d'.blocks = d.blocks)
    (e3 : d'.block_alloc_begin_ = d.block_alloc_begin_)
    (e4 : d'.block_alloc_end_ = d.block_alloc_end_)
    (h1 : d'.block_alloc_begin_ ≤ d'.block_elem_begin_)
    (h2 : d'.block_elem_begin_ ≤ d'.block_elem_end_)
    (h3 : d'.block_elem_end_ ≤ d'.block_alloc_end_) : Ctl B d' := by
  have hae := hc.ae_le
  refine Ctl.of_perm hc id h1 h2 h3 (by rw [e4, e1]; exact hae) ?_ (fun _ _ _ _ _ _ h => h) ?_
  · intro k k1 k2
    rw [e3] at k1; rw [e4] at k2
    exact ⟨k1, k2, by rw [e1]; rfl⟩
  · intro b cs hb
    exact ⟨cs, by rw [e2]; exact hb, rfl⟩

theorem pop_back_spec {B : Nat} {d : deque α} {s : List α} (hB : 0 < B)
    (hr : Rep B d s) (hne : s ≠ []) :
    ∃ d', pop_back B d = .ok d' ∧ Rep B d' s.dropLast := by
  rcases hr.shape with ⟨rfl, _⟩ | ⟨lo, hi, bf, bl, hl⟩
  · exact absurd rfl hne
  have hc := hr.ctl
  have hab := hc.ab_le
  have hee := hc.ee_le
  have hpos := hl.blocks_pos
  have hlen := hl.len_eq
  have hlo := hl.lo_lt
  have hhi := hl.hi_le
  have hhp := hl.hi_pos
  have hlp := hl.len_pos
  have hdl : s.dropLast.length = s.length - 1 := by simp
  have helems : ∀ (d' : deque α), d'.ctrl = d.ctrl →
      d'.block_elem_begin_ = d.block_elem_begin_ → d'.blocks = d.blocks →
      ∀ i (h : i < s.dropLast.length), ∃ b,
        d'.ctrl[d'.block_elem_begin_ + (lo + i) / B]? = some (some b) ∧
        d'.read ⟨b, (lo + i) % B⟩ = .ok s.dropLast[i] := by
    intro d' e1 e2 e3 i hi'
    have hi2 : i < s.length := by omega
    obtain ⟨b, hb1, hb2⟩ := hl.elems i hi2
    refine ⟨b, by rw [e1, e2]; exact hb1, ?_⟩
    rw [read_congr e3, hb2]
    simp
  have hemp : d.empty = false := by simp [empty, hl.fbegin]
  have hp : (⟨bl, hi⟩ : Ptr).pred = .ok ⟨bl, hi - 1⟩ := by
    simp [Ptr.pred]; omega
  unfold pop_back
  simp only [hemp, Bool.false_eq_true, if_false, hl.bend, nn, bind_ok, hp, destroy_at, hl.bbegin]
  by_cases hn1 : d.block_elem_end_ - d.block_elem_begin_ = 1
  · -- a single block
    have hbfl : bf = bl := by
      have h1 := hl.slot_first
      have h2 := hl.slot_last
      have : d.block_elem_end_ - 1 = d.block_elem_begin_ := by omega
      rw [this, h1] at h2
      injection h2 with h2; injection h2 with h2
    subst hbfl
    simp only [hn1, if_true] at hlen ⊢
    by_cases hlast : hi - 1 = lo
    · have hs1 : s.dropLast = [] := by
        apply List.eq_nil_of_length_eq_zero; simp at hlen; omega
      have hcond : (some (⟨bf, hi - 1⟩ : Ptr)) = some ⟨bf, lo⟩ := by rw [hlast]
      have hne0 : ¬ d.block_elem_end_ = 0 := by omega
      have hbs : ¬ (d.block_elem_end_ - 1 - d.block_elem_begin_ = 1) := by omega
      have hbs0 : ¬ (d.block_elem_end_ - 1 - d.block_elem_begin_ ≠ 0) := by omega
      simp only [hcond, if_true, hne0, if_false, block_elem_size_, hbs, hbs0, elem_begin_,
        elem_end_]
      refine ⟨_, rfl, Ctl.of_cursors hc rfl rfl rfl rfl (by simp only; omega)
        (by simp only; omega) (by simp only; omega), Or.inl ⟨hs1, ?_⟩⟩
      exact ⟨by simp only; omega, rfl, rfl, rfl, rfl, rfl, rfl⟩
    · have hcond : ¬ (some (⟨bf, hi - 1⟩ : Ptr)) = some ⟨bf, lo⟩ := by
        intro he; injection he with he; injection he with _ he; exact hlast he
      have hbs : d.block_elem_size_ = 1 := hn1
      have hp2 : (⟨bf, hi⟩ : Ptr).pred = .ok ⟨bf, hi - 1⟩ := hp
      simp only [hcond, if_false, block_elem_size_, hn1, if_true, hl.fend, nn, bind_ok, hp2]
      refine ⟨_, rfl, Ctl.of_cursors hc rfl rfl rfl rfl hab (by simp only; omega) hee,
        Or.inr ⟨lo, hi - 1, bf, bf, ?_⟩⟩
      simp at hlen
      exact {
        blocks_pos := hpos
        slot_first := hl.slot_first
        slot_last := hl.slot_last
        lo_lt := hlo
        hi_pos := by omega
        hi_le := by omega
        len_pos := by omega
        len_eq := by simp only [hdl, hn1]; omega
        first := hl.first
        fbegin := hl.fbegin
        fend := by simp [hn1]
        bbegin := by simp [hn1]
        bend := rfl
        blast := hl.blast
        elems := helems _ rfl rfl rfl }
  · -- several blocks
    simp only [hn1, if_false] at hlen ⊢
    have hmul := @pred_mul_add (d.block_elem_end_ - d.block_elem_begin_ - 1) B (by omega)
    by_cases hlast : hi = 1
    · subst hlast
      have hne0 : ¬ d.block_elem_end_ = 0 := by omega
      have hne1 : ¬ d.block_elem_end_ - 1 = 0 := by omega
      simp only [Nat.sub_self, if_true, hne0, if_false, block_elem_size_, elem_end_]
      obtain ⟨bp, cellsp, hslotp, _, _⟩ := hc.owned (d.block_elem_end_ - 1 - 1)
        (by omega) (by omega)
      by_cases hn2 : d.block_elem_end_ - 1 - d.block_elem_begin_ = 1
      · have hbp : bp = bf := by
          have h1 := hl.slot_first
          have : d.block_elem_end_ - 1 - 1 = d.block_elem_begin_ := by omega
          rw [this, h1] at hslotp
          injection hslotp with h2; injection h2 with h2; exact h2.symm
        subst hbp
        simp only [hn2, if_true, hl.fbegin, hl.fend, hn1, if_false]
        refine ⟨_, rfl, Ctl.of_cursors hc rfl rfl rfl rfl hab (by simp only; omega)
          (by simp only; omega), Or.inr ⟨lo, B, bp, bp, ?_⟩⟩
        have e2 : d.block_elem_end_ - d.block_elem_begin_ - 1 = 1 := by omega
        rw [e2] at hlen
        exact {
          blocks_pos := by simp only; omega
          slot_first := hl.slot_first
          slot_last := hslotp
          lo_lt := hlo
          hi_pos := hB
          hi_le := Nat.le_refl _
          len_pos := by omega
          len_eq := by simp only [hdl, hn2]; omega
          first := hl.first
          fbegin := rfl
          fend := by simp [hn2, hl.fend, hn1]
          bbegin := by simp [hn2]
          bend := rfl
          blast := rfl
          elems := helems _ rfl rfl rfl }
      · have hn0 : d.block_elem_end_ - 1 - d.block_elem_begin_ ≠ 0 := by omega
        simp only [hn2, if_false, hn0, ne_eq, not_false_eq_true, if_true, hne1, slot_ptr, slot,
          hslotp, bind_ok, Ptr.add, Nat.zero_add]
        refine ⟨_, rfl, Ctl.of_cursors hc rfl rfl rfl rfl hab (by simp only; omega)
          (by simp only; omega), Or.inr ⟨lo, B, bf, bp, ?_⟩⟩
        have hmul2 := @pred_mul_add (d.block_elem_end_ - 1 - d.block_elem_begin_ - 1) B
          (by omega)
        have e1 : d.block_elem_end_ - d.block_elem_begin_ - 1 - 1
            = d.block_elem_end_ - 1 - d.block_elem_begin_ - 1 := by omega
        rw [e1] at hmul
        have e2 : d.block_elem_end_ - d.block_elem_begin_ - 1
            = d.block_elem_end_ - 1 - d.block_elem_begin_ := by omega
        rw [e2] at hlen hmul
        exact {
          blocks_pos := by simp only; omega
          slot_first := hl.slot_first
          slot_last := hslotp
          lo_lt := hlo
          hi_pos := hB
          hi_le := Nat.le_refl _
          len_pos := by omega
          len_eq := by simp only [hdl]; omega
          first := hl.first
          fbegin := hl.fbegin
          fend := by simp [hn2, hl.fend, hn1]
          bbegin := by simp [hn2]
          bend := rfl
          blast := rfl
          elems := helems _ rfl rfl rfl }
    · have hcond : ¬ (some (⟨bl, hi - 1⟩ : Ptr)) = some ⟨bl, 0⟩ := by
        intro he; injection he with he; injection he with _ he; omega
      simp only [hcond, if_false, block_elem_size_, hn1]
      refine ⟨_, rfl, Ctl.of_cursors hc rfl rfl rfl rfl hab (by simp only; omega) hee,
        Or.inr ⟨lo, hi - 1, bf, bl, ?_⟩⟩
      exact {
        blocks_pos := hpos
        slot_first := hl.slot_first
        slot_last := hl.slot_last
        lo_lt := hlo
        hi_pos := by omega
        hi_le := by omega
        len_pos := by omega
        len_eq := by simp only [hdl]; omega
        first := hl.first
        fbegin := hl.fbegin
        fend := by
          have := hl.fend
          simp only [hn1, if_false] at this ⊢
          exact this
        bbegin := by simp [hn1]
        bend := rfl
        blast := hl.blast
        elems := helems _ rfl rfl rfl }

theorem pop_front_spec {B : Nat} {d : deque α} {s : List α} (hB : 0 < B)
    (hr : Rep B d s) (hne : s ≠ []) :
    ∃ d', pop_front B d = .ok d' ∧ Rep B d' s.tail := by
  rcases hr.shape with ⟨rfl, _⟩ | ⟨lo, hi, bf, bl, hl⟩
  · exact absurd rfl hne
  have hc := hr.ctl
  have hab := hc.ab_le
  have hee := hc.ee_le
  have hpos := hl.blocks_pos
  have hlen := hl.len_eq
  have hlo := hl.lo_lt
  have hhi := hl.hi_le
  have hhp := hl.hi_pos
  have hlp := hl.len_pos
  have htl : s.tail.length = s.length - 1 := by simp
  have hget : ∀ i (h : i < s.tail.length) (h2 : i + 1 < s.length), s.tail[i] = s[i + 1] := by
    intro i h h2
    cases s with
    | nil => simp at hlp
    | cons a t => simp
  -- elements when the first block stays
  have helems : ∀ (d' : deque α), d'.ctrl = d.ctrl →
      d'.block_elem_begin_ = d.block_elem_begin_ → d'.blocks = d.blocks →
      ∀ i (h : i < s.tail.length), ∃ b,
        d'.ctrl[d'.block_elem_begin_ + (lo + 1 + i) / B]? = some (some b) ∧
        d'.read ⟨b, (lo + 1 + i) % B⟩ = .ok s.tail[i] := by
    intro d' e1 e2 e3 i hi'
    have hi2 : i + 1 < s.length := by omega
    obtain ⟨b, hb1, hb2⟩ := hl.elems (i + 1) hi2
    have hidx : lo + 1 + i = lo + (i + 1) := by omega
    rw [hidx]
    refine ⟨b, by rw [e1, e2]; exact hb1, ?_⟩
    rw [read_congr e3, hb2, hget i hi' hi2]
  -- elements when the first block is given up
  have helems2 : lo + 1 = B → ∀ (d' : deque α), d'.ctrl = d.ctrl →
      d'.block_elem_begin_ = d.block_elem_begin_ + 1 → d'.blocks = d.blocks →
      ∀ i (h : i < s.tail.length), ∃ b,
        d'.ctrl[d'.block_elem_begin_ + (0 + i) / B]? = some (some b) ∧
        d'.read ⟨b, (0 + i) % B⟩ = .ok s.tail[i] := by
    intro hfull d' e1 e2 e3 i hi'
    have hi2 : i + 1 < s.length := by omega
    obtain ⟨b, hb1, hb2⟩ := hl.elems (i + 1) hi2
    have hidx : lo + (i + 1) = (0 + i) + B := by omega
    rw [hidx, Nat.add_div_right _ hB] at hb1
    rw [hidx, Nat.add_mod_right] at hb2
    have hk : d.block_elem_begin_ + ((0 + i) / B + 1) = d.block_elem_begin_ + 1 + (0 + i) / B := by
      omega
    rw [hk] at hb1
    refine ⟨b, by rw [e1, e2]; exact hb1, ?_⟩
    rw [read_congr e3, hb2, hget i hi' hi2]
  have hemp : d.empty = false := by simp [empty, hl.fbegin]
  unfold pop_front
  simp only [hemp, Bool.false_eq_true, if_false, destroy_at, hl.fbegin, bind_ok, nn, Ptr.add]
  by_cases hn1 : d.block_elem_end_ - d.block_elem_begin_ = 1
  · -- a single block
    have hbfl : bf = bl := by
      have h1 := hl.slot_first
      have h2 := hl.slot_last
      have : d.block_elem_end_ - 1 = d.block_elem_begin_ := by omega
      rw [this, h1] at h2
      injection h2 with h2; injection h2 with h2
    subst hbfl
    simp only [hn1, if_true] at hlen
    simp only [hl.fend, hn1, if_true]
    simp at hlen
    by_cases hlast : hi = lo + 1
    · have hs1 : s.tail = [] := by
        apply List.eq_nil_of_length_eq_zero; omega
      have hbs : ¬ (d.block_elem_end_ - (d.block_elem_begin_ + 1) = 1) := by omega
      have hbs0 : ¬ (d.block_elem_end_ - (d.block_elem_begin_ + 1) ≠ 0) := by omega
      simp only [hlast, if_true, block_elem_size_, hbs, if_false, hbs0, elem_begin_, elem_end_]
      refine ⟨_, rfl, Ctl.of_cursors hc rfl rfl rfl rfl (by simp only; omega)
        (by simp only; omega) (by simp only; omega), Or.inl ⟨hs1, ?_⟩⟩
      exact ⟨by simp only; omega, rfl, rfl, rfl, rfl, rfl, rfl⟩
    · have hcond : ¬ (some (⟨bf, hi⟩ : Ptr)) = some ⟨bf, lo + 1⟩ := by
        intro he; injection he with he; injection he with _ he; exact hlast he
      simp only [hcond, if_false, block_elem_size_, hn1, if_true, hl.bbegin, nn, bind_ok,
        Ptr.add]
      refine ⟨_, rfl, Ctl.of_cursors hc rfl rfl rfl rfl hab (by simp only; omega) hee,
        Or.inr ⟨lo + 1, hi, bf, bf, ?_⟩⟩
      exact {
        blocks_pos := hpos
        slot_first := hl.slot_first
        slot_last := hl.slot_last
        lo_lt := by omega
        hi_pos := hhp
        hi_le := hhi
        len_pos := by omega
        len_eq := by simp only [htl, hn1]; omega
        first := hl.first
        fbegin := rfl
        fend := by simp [hn1]
        bbegin := by simp [hn1]
        bend := hl.bend
        blast := hl.blast
        elems := helems _ rfl rfl rfl }
  · -- several blocks
    simp only [hl.fend, hn1, if_false]
    have hmul := @pred_mul_add (d.block_elem_end_ - d.block_elem_begin_ - 1) B (by omega)
    by_cases hlast : lo + 1 = B
    · have hcond : (some (⟨bf, B⟩ : Ptr)) = some ⟨bf, lo + 1⟩ := by rw [hlast]
      simp only [hcond, if_true, block_elem_size_, elem_begin_]
      obtain ⟨bp, cellsp, hslotp, _, _⟩ := hc.owned (d.block_elem_begin_ + 1)
        (by omega) (by omega)
      by_cases hn2 : d.block_elem_end_ - (d.block_elem_begin_ + 1) = 1
      · have hbp : bp = bl := by
          have h1 := hl.slot_last
          have : d.block_elem_end_ - 1 = d.block_elem_begin_ + 1 := by omega
          rw [this, hslotp] at h1
          injection h1 with h2; injection h2 with h2
        subst hbp
        simp only [hn2, if_true, hl.bbegin, hl.bend, hn1, if_false]
        refine ⟨_, rfl, Ctl.of_cursors hc rfl rfl rfl rfl (by simp only; omega)
          (by simp only; omega) hee, Or.inr ⟨0, hi, bp, bp, ?_⟩⟩
        have e2 : d.block_elem_end_ - d.block_elem_begin_ - 1 = 1 := by omega
        rw [e2] at hlen
        exact {
          blocks_pos := by simp only; omega
          slot_first := hslotp
          slot_last := hl.slot_last
          lo_lt := hB
          hi_pos := hhp
          hi_le := hhi
          len_pos := by omega
          len_eq := by simp only [htl, hn2]; omega
          first := rfl
          fbegin := rfl
          fend := by simp [hn2]
          bbegin := by simp [hn2, hl.bbegin, hn1]
          bend := rfl
          blast := hl.blast
          elems := helems2 hlast _ rfl rfl rfl }
      · have hn0 : d.block_elem_end_ - (d.block_elem_begin_ + 1) ≠ 0 := by omega
        simp only [hn2, if_false, hn0, ne_eq, not_false_eq_true, if_true, slot_ptr, slot,
          hslotp, bind_ok, Ptr.add, Nat.zero_add]
        refine ⟨_, rfl, Ctl.of_cursors hc rfl rfl rfl rfl (by simp only; omega)
          (by simp only; omega) hee, Or.inr ⟨0, hi, bp, bl, ?_⟩⟩
        have e1 : d.block_elem_end_ - (d.block_elem_begin_ + 1) - 1
            = d.block_elem_end_ - d.block_elem_begin_ - 1 - 1 := by omega
        exact {
          blocks_pos := by simp only; omega
          slot_first := hslotp
          slot_last := hl.slot_last
          lo_lt := hB
          hi_pos := hhp
          hi_le := hhi
          len_pos := by omega
          len_eq := by simp only [htl, e1]; omega
          first := rfl
          fbegin := rfl
          fend := by simp [hn2]
          bbegin := by simp [hn2, hl.bbegin, hn1]
          bend := hl.bend
          blast := hl.blast
          elems := helems2 hlast _ rfl rfl rfl }
    · have hcond : ¬ (some (⟨bf, B⟩ : Ptr)) = some ⟨bf, lo + 1⟩ := by
        intro he; injection he with he; injection he with _ he; omega
      simp only [hcond, if_false, block_elem_size_, hn1]
      refine ⟨_, rfl, Ctl.of_cursors hc rfl rfl rfl rfl hab (by simp only; omega) hee,
        Or.inr ⟨lo + 1, hi, bf, bl, ?_⟩⟩
      exact {
        blocks_pos := hpos
        slot_first := hl.slot_first
        slot_last := hl.slot_last
        lo_lt := by omega
        hi_pos := hhp
        hi_le := hhi
        len_pos := by omega
        len_eq := by simp only [htl]; omega
        first := hl.first
        fbegin := rfl
        fend := by simp [hn1, hl.fend]
        bbegin := by
          have := hl.bbegin
          simp only [hn1, if_false] at this ⊢
          exact this
        bend := hl.bend
        blast := hl.blast
        elems := helems _ rfl rfl rfl }

end deque

end fast_io

namespace fast_io

namespace deque

variable {α : Type}

/-! ## `clear` and `shrink_to_fit` -/

theorem destroy_span_eq (d : deque α) (b e : Option Ptr) :
    ∃ log, d.destroy_span b e = { d with destroyed := log } := by
  unfold destroy_span
  cases b <;> cases e <;> exact ⟨_, rfl⟩

theorem destroy_blocks_eq {B : Nat} (n : Nat) : ∀ (k : Nat) (d : deque α),
    (∀ j, k ≤ j → j < k + n → ∃ b, d.ctrl[j]? = some (some b)) →
    ∃ log, destroy_blocks B n k d = .ok { d with destroyed := log } := by
  induction n with
  | zero => intro k d _; exact ⟨d.destroyed, rfl⟩
  | succ n ih =>
    intro k d h
    obtain ⟨b, hb⟩ := h k (Nat.le_refl _) (by omega)
    obtain ⟨log1, h1⟩ := destroy_span_eq d (some ⟨b, 0⟩) (some ((⟨b, 0⟩ : Ptr).add B))
    obtain ⟨log2, h2⟩ := ih (k + 1) { d with destroyed := log1 }
      (fun j j1 j2 => h j (by omega) (by omega))
    refine ⟨log2, ?_⟩
    unfold destroy_blocks
    simp only [slot_ptr, slot, hb, h1]
    exact h2

theorem destroy_elems_eq {B : Nat} {d : deque α} (hc : Ctl B d) (trivial : Bool) :
    ∃ log, destroy_elems_ B trivial d = .ok { d with destroyed := log } := by
  unfold destroy_elems_
  cases trivial with
  | true => exact ⟨d.destroyed, rfl⟩
  | false =>
    simp only [Bool.false_eq_true, if_false, block_elem_size_]
    have hab := hc.ab_le
    have hbe := hc.be_le
    have hee := hc.ee_le
    generalize hd1 : (if d.block_elem_end_ - d.block_elem_begin_ ≠ 0
        then d.destroy_span d.elem_begin_begin_ d.elem_begin_end_ else d) = d1
    have h1 : ∃ log, d1 = { d with destroyed := log } := by
      rw [← hd1]
      split
      · exact destroy_span_eq _ _ _
      · exact ⟨d.destroyed, rfl⟩
    obtain ⟨log1, e1⟩ := h1
    subst e1
    have hlast : ∀ log2, ∃ log,
        (if d.block_elem_end_ - d.block_elem_begin_ > 1
          then ({ d with destroyed := log2 } : deque α).destroy_span d.elem_end_begin_
            d.elem_end_end_
          else { d with destroyed := log2 }) = { d with destroyed := log } := by
      intro log2
      split
      · obtain ⟨log3, e3⟩ := destroy_span_eq { d with destroyed := log2 } d.elem_end_begin_
          d.elem_end_end_
        exact ⟨log3, by rw [e3]⟩
      · exact ⟨log2, rfl⟩
    by_cases h2 : d.block_elem_end_ - d.block_elem_begin_ > 2
    · rw [if_pos h2]
      obtain ⟨log2, e2⟩ := destroy_blocks_eq (B := B) (d.block_elem_end_ - d.block_elem_begin_ - 2)
        (d.block_elem_begin_ + 1) ({ d with destroyed := log1 } : deque α) (by
          intro j j1 j2
          obtain ⟨b, _, hb, _⟩ := hc.owned j (by omega) (by omega)
          exact ⟨b, hb⟩)
      simp only [e2, bind_ok]
      obtain ⟨log3, e3⟩ := hlast log2
      exact ⟨log3, by rw [e3]⟩
    · rw [if_neg h2]
      simp only [bind_ok]
      obtain ⟨log3, e3⟩ := hlast log1
      exact ⟨log3, by rw [e3]⟩

theorem clear_spec {B : Nat} {d : deque α} (hc : Ctl B d) (trivial : Bool) :
    ∃ d', clear B trivial d = .ok d' ∧ Rep B d' [] ∧
      d'.block_elem_begin_ = d.block_alloc_begin_ ∧
      d'.block_elem_end_ = d.block_alloc_begin_ ∧
      d'.block_alloc_begin_ = d.block_alloc_begin_ ∧
      d'.block_alloc_end_ = d.block_alloc_end_ ∧ d'.ctrl = d.ctrl ∧ d'.blocks = d.blocks := by
  obtain ⟨log, e⟩ := destroy_elems_eq hc trivial
  unfold clear
  simp only [e, bind_ok, elem_begin_, elem_end_]
  have hab := hc.ab_le
  have hbe := hc.be_le
  have hee := hc.ee_le
  refine ⟨_, rfl, ⟨Ctl.of_cursors hc rfl rfl rfl rfl (Nat.le_refl _) (Nat.le_refl _)
    (by simp only; omega), Or.inl ⟨rfl, ⟨rfl, rfl, rfl, rfl, rfl, rfl, rfl⟩⟩⟩,
    rfl, rfl, rfl, rfl, rfl, rfl⟩

theorem dealloc_slots_eq (n : Nat) : ∀ (k : Nat) (d : deque α),
    (∀ j, k ≤ j → j < k + n → ∃ b, d.ctrl[j]? = some (some b)) →
    ∃ log, dealloc_slots n k d = .ok { d with freed := log } := by
  induction n with
  | zero => intro k d _; exact ⟨d.freed, rfl⟩
  | succ n ih =>
    intro k d h
    obtain ⟨b, hb⟩ := h k (Nat.le_refl _) (by omega)
    obtain ⟨log2, h2⟩ := ih (k + 1) (d.dealloc_block_ b)
      (fun j j1 j2 => h j (by omega) (by omega))
    refine ⟨log2, ?_⟩
    unfold dealloc_slots
    simp only [slot, hb]
    exact h2

theorem shrink_to_fit_spec {B : Nat} {d : deque α} {s : List α} (hB : 0 < B)
    (hr : Rep B d s) :
    ∃ d', shrink_to_fit d = .ok d' ∧ Rep B d' s ∧
      d'.block_alloc_begin_ = d'.block_elem_begin_ ∧
      d'.block_alloc_end_ = d'.block_elem_end_ ∧
      d'.block_elem_begin_ = d.block_elem_begin_ ∧
      d'.block_elem_end_ = d.block_elem_end_ ∧ d'.ctrl = d.ctrl ∧ d'.blocks = d.blocks := by
  have hc := hr.ctl
  have hab := hc.ab_le
  have hbe := hc.be_le
  have hee := hc.ee_le
  unfold shrink_to_fit
  by_cases hz : d.block_alloc_size_ ≠ 0
  · rw [if_pos hz]
    obtain ⟨log1, e1⟩ := dealloc_slots_eq (d.block_elem_begin_ - d.block_alloc_begin_)
      d.block_alloc_begin_ d (by
        intro j j1 j2
        obtain ⟨b, _, hb, _⟩ := hc.owned j (by omega) (by omega)
        exact ⟨b, hb⟩)
    simp only [e1, bind_ok]
    obtain ⟨log2, e2⟩ := dealloc_slots_eq (d.block_alloc_end_ - d.block_elem_end_)
      d.block_elem_end_
      { d with freed := log1, block_alloc_begin_ := d.block_elem_begin_ } (by
        intro j j1 j2
        obtain ⟨b, _, hb, _⟩ := hc.owned j (by omega) (by omega)
        exact ⟨b, hb⟩)
    simp only [e2, bind_ok]
    have hc' : Ctl B ({ d with freed := log2, block_alloc_begin_ := d.block_elem_begin_
                                , block_alloc_end_ := d.block_elem_end_ } : deque α) := by
      have hae := hc.ae_le
      refine Ctl.of_perm hc id (Nat.le_refl _) hbe (Nat.le_refl _) (by simp only; omega) ?_
        (fun _ _ _ _ _ _ h => h) (fun b cs hb => ⟨cs, hb, rfl⟩)
      intro k k1 k2
      simp only at k1 k2
      exact ⟨(by simp only [id]; omega), (by simp only [id]; omega), rfl⟩
    refine ⟨_, rfl, ?_, rfl, rfl, rfl, rfl, rfl, rfl⟩
    refine Moved.rep_of_moved ?_ hr hB hc'
    exact ⟨rfl, fun _ _ => rfl, fun _ _ h => h, rfl, rfl, rfl, rfl, rfl, rfl⟩
  · rw [if_neg hz]
    unfold block_alloc_size_ at hz
    have hae := hc.ae_le
    exact ⟨d, rfl, hr, by omega, by omega, rfl, rfl, rfl, rfl⟩

end deque

end fast_io

namespace fast_io

namespace deque

variable {α : Type}

/-! ## The blocks released by `shrink_to_fit` -/

theorem mem_slot_blocks {cs : List (Option Nat)} {k n b : Nat} :
    b ∈ slot_blocks cs k n ↔ ∃ i, i < n ∧ cs[k + i]? = some (some b) := by
  unfold slot_blocks
  simp only [List.mem_filterMap, List.mem_range]
  constructor
  · rintro ⟨i, hi, h⟩
    refine ⟨i, hi, ?_⟩
    cases hc : cs[k + i]? with
    | none => rw [hc] at h; simp at h
    | some o =>
      rw [hc] at h
      cases o with
      | none => simp at h
      | some b1 => simp at h; rw [h]
  · rintro ⟨i, hi, h⟩
    exact ⟨i, hi, by rw [h]; rfl⟩

theorem slot_blocks_snoc {cs : List (Option Nat)} {k n b : Nat}
    (h : cs[k + n]? = some (some b)) :
    slot_blocks cs k (n + 1) = slot_blocks cs k n ++ [b] := by
  unfold slot_blocks
  rw [List.range_succ, List.filterMap_append]
  simp [h]

theorem slot_blocks_cons {cs : List (Option Nat)} {k n b : Nat}
    (h : cs[k]? = some (some b)) :
    slot_blocks cs k (n + 1) = b :: slot_blocks cs (k + 1) n := by
  unfold slot_blocks
  rw [List.range_succ_eq_map, List.filterMap_cons, List.filterMap_map]
  have e : (fun i => (cs[k + i]?).join) ∘ Nat.succ = fun i => (cs[k + 1 + i]?).join := by
    funext i
    simp only [Function.comp, Nat.succ_eq_add_one]
    have : k + (i + 1) = k + 1 + i := by omega
    rw [this]
  rw [e]
  simp [h]

theorem slot_blocks_length {B : Nat} {d : deque α} (hc : Ctl B d) (n : Nat) :
    ∀ k, d.block_alloc_begin_ ≤ k → k + n ≤ d.block_alloc_end_ →
      (slot_blocks d.ctrl k n).length = n := by
  induction n with
  | zero => intro k _ _; simp [slot_blocks]
  | succ n ih =>
    intro k h1 h2
    obtain ⟨b, _, hb, _⟩ := hc.owned (k + n) (by omega) (by omega)
    rw [slot_blocks_snoc hb, List.length_append, ih k h1 (by omega)]
    rfl

/-- The owned slots hold pairwise distinct blocks, so a strip of them holds each of its
blocks once. -/
theorem slot_blocks_nodup {B : Nat} {d : deque α} (hc : Ctl B d) (n : Nat) :
    ∀ k, d.block_alloc_begin_ ≤ k → k + n ≤ d.block_alloc_end_ →
      (slot_blocks d.ctrl k n).Nodup := by
  induction n with
  | zero => intro k _ _; simp [slot_blocks]
  | succ n ih =>
    intro k h1 h2
    obtain ⟨b, _, hb, _⟩ := hc.owned (k + n) (by omega) (by omega)
    rw [slot_blocks_snoc hb, List.nodup_append]
    refine ⟨ih k h1 (by omega), List.nodup_singleton b, ?_⟩
    intro x hx hx2
    rw [List.mem_singleton] at hx2
    subst hx2
    obtain ⟨i, hi, hxi⟩ := mem_slot_blocks.1 hx
    have := hc.slot_inj (k + i) (k + n) (by omega) (by omega) (by omega) (by omega) hxi hb
    omega

/-- Two strips of owned slots that do not overlap hold different blocks. -/
theorem slot_blocks_disjoint {B : Nat} {d : deque α} (hc : Ctl B d) {k1 n1 k2 n2 : Nat}
    (h1 : d.block_alloc_begin_ ≤ k1) (h2 : k1 + n1 ≤ k2) (h3 : k2 + n2 ≤ d.block_alloc_end_)
    (b : Nat) (hb1 : b ∈ slot_blocks d.ctrl k1 n1) : b ∉ slot_blocks d.ctrl k2 n2 := by
  intro hb2
  obtain ⟨i, hi, hxi⟩ := mem_slot_blocks.1 hb1
  obtain ⟨j, hj, hxj⟩ := mem_slot_blocks.1 hb2
  have := hc.slot_inj (k1 + i) (k2 + j) (by omega) (by omega) (by omega) (by omega) hxi hxj
  omega

theorem dealloc_slots_log (n : Nat) : ∀ (k : Nat) (d : deque α),
    (∀ j, k ≤ j → j < k + n → ∃ b, d.ctrl[j]? = some (some b)) →
    dealloc_slots n k d = .ok { d with freed := d.freed ++ slot_blocks d.ctrl k n } := by
  induction n with
  | zero =>
    intro k d _
    simp [dealloc_slots, slot_blocks]
  | succ n ih =>
    intro k d h
    obtain ⟨b, hb⟩ := h k (Nat.le_refl _) (by omega)
    have h2 := ih (k + 1) (d.dealloc_block_ b) (fun j j1 j2 => h j (by omega) (by omega))
    unfold dealloc_slots
    simp only [slot, hb]
    rw [h2, slot_blocks_cons hb]
    simp [dealloc_block_]

/-- The member `shrink_to_fit` releases the blocks of the two slack strips, in the order of
their slots, and moves the owned range onto the element range. -/
theorem shrink_to_fit_log {B : Nat} {d : deque α} (hc : Ctl B d) :
    ∃ d1, shrink_to_fit d = .ok d1 ∧ d1.freed = d.freed ++ slack_blocks d ∧
      d1.ctrl = d.ctrl ∧ d1.blocks = d.blocks ∧ d1.destroyed = d.destroyed ∧
      d1.block_alloc_begin_ = d.block_elem_begin_ ∧ d1.block_alloc_end_ = d.block_elem_end_ ∧
      d1.block_elem_begin_ = d.block_elem_begin_ ∧ d1.block_elem_end_ = d.block_elem_end_ := by
  have hab := hc.ab_le
  have hbe := hc.be_le
  have hee := hc.ee_le
  unfold shrink_to_fit
  by_cases hz : d.block_alloc_size_ ≠ 0
  · rw [if_pos hz]
    have e1 := dealloc_slots_log (d.block_elem_begin_ - d.block_alloc_begin_)
      d.block_alloc_begin_ d (by
        intro j j1 j2
        obtain ⟨b, _, hb, _⟩ := hc.owned j (by omega) (by omega)
        exact ⟨b, hb⟩)
    simp only [e1, bind_ok]
    have e2 := dealloc_slots_log (d.block_alloc_end_ - d.block_elem_end_) d.block_elem_end_
      ({ d with freed := d.freed ++ slot_blocks d.ctrl d.block_alloc_begin_
                  (d.block_elem_begin_ - d.block_alloc_begin_),
                block_alloc_begin_ := d.block_elem_begin_ } : deque α) (by
        intro j j1 j2
        obtain ⟨b, _, hb, _⟩ := hc.owned j (by omega) (by omega)
        exact ⟨b, hb⟩)
    simp only [e2, bind_ok]
    exact ⟨_, rfl, by simp [slack_blocks], rfl, rfl, rfl, rfl, rfl, rfl, rfl⟩
  · rw [if_neg hz]
    unfold block_alloc_size_ at hz
    have h1 : d.block_elem_begin_ - d.block_alloc_begin_ = 0 := by omega
    have h2 : d.block_alloc_end_ - d.block_elem_end_ = 0 := by omega
    exact ⟨d, rfl, by simp [slack_blocks, slot_blocks, h1, h2], rfl, rfl, rfl, by omega,
      by omega, rfl, rfl⟩

end deque

end fast_io

namespace fast_io

namespace deque

variable {α : Type}

/-! ## Iterators over a state of the data model -/

theorem calc_pos_signed_nat (B r m : Nat) :
    calc_pos_signed B (r : Int) (m : Int) =
      ⟨(((m + r) / B : Nat) : Int), (((m + r) % B : Nat) : Int)⟩ := by
  unfold calc_pos_signed
  have h0 : (m : Int) ≥ 0 := Int.ofNat_nonneg m
  have e : (m : Int) + (r : Int) = ((m + r : Nat) : Int) := by push_cast; rfl
  simp only [h0, if_true, e]
  rfl

/-- Block and offset of the flat position `a + m`, from those of `a`. -/
theorem div_mod_add (B a m : Nat) (hB : 0 < B) :
    (a + m) / B = a / B + (m + a % B) / B ∧ (a + m) % B = (m + a % B) % B := by
  have h1 := div_mul_add_mod a B
  have h2 := div_mul_add_mod (m + a % B) B
  have h3 : (m + a % B) % B < B := Nat.mod_lt _ hB
  apply div_mod_of_eq _ h3
  rw [Nat.add_mul]
  omega

theorem Live.iter_begin {B : Nat} {d : deque α} {s : List α} {lo hi bf bl : Nat}
    (h : Live B d s lo hi bf bl) :
    ∃ it, d.begin_ = .ok it ∧ IterAt B d s lo hi bl 0 it := by
  have h1 := h.blocks_pos
  have hlo := h.lo_lt
  have e1 : (lo + 0) / B = 0 := by simp [Nat.div_eq_of_lt hlo]
  have e2 : (lo + 0) % B = lo := by simp [Nat.mod_eq_of_lt hlo]
  refine ⟨⟨some d.block_elem_begin_, some d.block_elem_end_, some ⟨bf, 0⟩, some ⟨bf, lo⟩⟩,
    ?_, ?_⟩
  · unfold begin_ block_elem_size_
    rw [if_neg (by omega)]
    simp [slot_ptr, slot, h.slot_first, h.fbegin]
  · left
    refine ⟨h.len_pos, bf, ?_, ?_⟩
    · rw [e1]; exact h.slot_first
    · rw [e1, e2]; rfl

theorem Live.iter_end {B : Nat} {d : deque α} {s : List α} {lo hi bf bl : Nat}
    (h : Live B d s lo hi bf bl) :
    ∃ it, d.end_ = .ok it ∧ IterAt B d s lo hi bl s.length it := by
  have h1 := h.blocks_pos
  refine ⟨⟨some (d.block_elem_end_ - 1), some d.block_elem_end_, some ⟨bl, 0⟩, some ⟨bl, hi⟩⟩,
    ?_, Or.inr ⟨rfl, rfl⟩⟩
  unfold end_ block_elem_size_
  rw [if_neg (by omega)]
  simp [slot_ptr, slot, h.slot_last, h.bend]

/-- An iterator at an index below the size refers to the element of that index. -/
theorem IterAt.deref_eq {B : Nat} {d : deque α} {s : List α} {lo hi bf bl j : Nat}
    {it : deque_iterator} (hl : Live B d s lo hi bf bl) (hB : 0 < B)
    (hit : IterAt B d s lo hi bl j it) (hj : j < s.length) :
    it.deref B d = .ok s[j] := by
  rcases hit with ⟨_, b, hb, rfl⟩ | ⟨he, _⟩
  · obtain ⟨b1, hb1, hb2⟩ := hl.elems j hj
    rw [hb] at hb1
    injection hb1 with hb1; injection hb1 with hb1
    subst hb1
    have hne : ¬ ((lo + j) % B = B) := Nat.ne_of_lt (Nat.mod_lt _ hB)
    simp [deque_iterator.deref, deque_iterator.deref_ptr, deque_iterator.at_block_end, nn,
      Ptr.add, hb2, hne]
  · omega

/-- Under an allocator that keeps the element blocks apart, two pointers into element blocks
that have one address are one pointer. -/
theorem Placed.addr_inj {B : Nat} {d : deque α} (hp : Placed B d) {k k1 b b1 o o1 : Nat}
    (h1 : d.block_elem_begin_ ≤ k) (h2 : k < d.block_elem_end_)
    (h3 : d.block_elem_begin_ ≤ k1) (h4 : k1 < d.block_elem_end_)
    (hk : d.ctrl[k]? = some (some b)) (hk1 : d.ctrl[k1]? = some (some b1))
    (ho : o < B) (ho1 : o1 < B) (h : d.place b + o = d.place b1 + o1) : b = b1 ∧ o = o1 := by
  by_cases hb : b = b1
  · subst hb
    exact ⟨rfl, by omega⟩
  · rcases hp k k1 b b1 h1 h2 h3 h4 hk hk1 hb with h5 | h5 <;> omega

/-- The iterators at an index below the size differ from `end()`, and `end()` equals itself,
when the allocator keeps the element blocks apart and no element block begins where a full
last block ends. -/
theorem IterAt.eq_end_iff {B : Nat} {d : deque α} {s : List α} {lo hi bf bl j : Nat}
    {it last : deque_iterator} (hc : Ctl B d) (hl : Live B d s lo hi bf bl) (hB : 0 < B)
    (hp : Placed B d) (hna : EndApart B d)
    (hit : IterAt B d s lo hi bl j it) (hlast : IterAt B d s lo hi bl s.length last) :
    it.eq d last = true ↔ j = s.length := by
  rcases hlast with ⟨hlt, _⟩ | ⟨_, rfl⟩
  · omega
  rcases hit with ⟨hj, b, hb, rfl⟩ | ⟨he, rfl⟩
  · have hne := hl.loc_ne_end hc hB j hj b hb
    obtain ⟨hs1, _⟩ := hl.slot_lt hB j hj
    have hpos := hl.blocks_pos
    have hhi := hl.hi_le
    have hm : (lo + j) % B < B := Nat.mod_lt _ hB
    simp only [deque_iterator.eq, deque.addr, decide_eq_true_eq]
    generalize (lo + j) / B = q at *
    generalize (lo + j) % B = r at *
    constructor
    · intro h
      injection h with h
      exfalso
      by_cases hbb : b = bl
      · subst hbb
        have : r = hi := by omega
        rw [this] at hne
        exact hne rfl
      · have hn := hna (d.block_elem_begin_ + q) b bl (by omega) (by omega) hb
        have hend := hl.bend
        rcases hp (d.block_elem_begin_ + q) (d.block_elem_end_ - 1) b bl
          (by omega) (by omega) (by omega) (by omega) hb hl.slot_last hbb with h5 | h5
        · omega
        · have e : hi = B := by omega
          rw [e] at hend
          have := hn hend
          omega
    · intro h; omega
  · simp [deque_iterator.eq, he]

/-- The difference of `end()` and the iterator at index `j` is `size() - j`. -/
theorem IterAt.diff_end {B : Nat} {d : deque α} {s : List α} {lo hi bf bl j : Nat}
    {it last : deque_iterator} (hl : Live B d s lo hi bf bl)
    (hit : IterAt B d s lo hi bl j it) (hlast : IterAt B d s lo hi bl s.length last) :
    deque_iterator.diff B last it = .ok ((s.length : Int) - (j : Int)) := by
  rcases hlast with ⟨hlt, _⟩ | ⟨_, rfl⟩
  · omega
  have hpos := hl.blocks_pos
  have hlen := hl.len_eq
  obtain ⟨n, hn⟩ : ∃ n, d.block_elem_end_ = d.block_elem_begin_ + n + 1 :=
    ⟨d.block_elem_end_ - d.block_elem_begin_ - 1, by omega⟩
  have e1 : d.block_elem_end_ - d.block_elem_begin_ - 1 = n := by omega
  have e2 : d.block_elem_end_ - 1 = d.block_elem_begin_ + n := by omega
  rw [e1] at hlen
  rcases hit with ⟨hj, b, hb, rfl⟩ | ⟨he, rfl⟩
  · have h1 := div_mul_add_mod (lo + j) B
    generalize (lo + j) / B = q at *
    generalize (lo + j) % B = r at *
    simp only [deque_iterator.diff, deque_iterator.in_block_offset, e2, not_true_eq_false,
      if_false]
    congr 1
    have h1z : (q : Int) * B + r = lo + j := by exact_mod_cast h1
    have h2z : (lo : Int) + s.length = n * B + hi := by exact_mod_cast hlen
    push_cast
    linear_combination (-1 : Int) * h1z + (-1 : Int) * h2z
  · simp [deque_iterator.diff, deque_iterator.in_block_offset, he]

end deque

end fast_io

namespace fast_io

namespace deque

variable {α : Type}

/-- The flat position of the last element determines the last block and the end offset. -/
theorem Live.last_pos {B : Nat} {d : deque α} {s : List α} {lo hi bf bl : Nat}
    (h : Live B d s lo hi bf bl) {a : Nat} (ha : a + 1 = lo + s.length) :
    a / B = d.block_elem_end_ - d.block_elem_begin_ - 1 ∧ a % B + 1 = hi := by
  have h1 := h.len_eq
  have h2 := h.hi_pos
  have h3 := h.hi_le
  have := @div_mod_of_eq B (d.block_elem_end_ - d.block_elem_begin_ - 1) (hi - 1) a
    (by omega) (by omega)
  omega

/-- Pre-increment moves an iterator from index `j` to index `j + 1`. -/
theorem IterAt.inc_spec {B : Nat} {d : deque α} {s : List α} {lo hi bf bl j : Nat}
    {it : deque_iterator} (hc : Ctl B d) (hl : Live B d s lo hi bf bl) (hB : 0 < B)
    (hit : IterAt B d s lo hi bl j it) (hj : j < s.length) :
    ∃ it1, it.inc B d = .ok it1 ∧ IterAt B d s lo hi bl (j + 1) it1 := by
  rcases hit with ⟨_, b, hb, rfl⟩ | ⟨he, _⟩
  swap
  · omega
  obtain ⟨hs1, hs2⟩ := hl.slot_lt hB j hj
  have hpos := hl.blocks_pos
  have hlen := hl.len_eq
  have hhi := hl.hi_le
  have hhp := hl.hi_pos
  have hdm := div_mul_add_mod (lo + j) B
  have hr : (lo + j) % B < B := Nat.mod_lt _ hB
  have hsucc : lo + (j + 1) = lo + j + 1 := rfl
  generalize hqd : (lo + j) / B = q at *
  generalize hrd : (lo + j) % B = r at *
  have hne : ¬ (r = B) := Nat.ne_of_lt hr
  by_cases hfull : r + 1 = B
  · by_cases hnext : d.block_elem_begin_ + q + 1 = d.block_elem_end_
    · -- the last cell of the last block: the iterator becomes `end()`
      have hq : q = d.block_elem_end_ - d.block_elem_begin_ - 1 := by omega
      have hlt := hs2 hq
      have hhiB : hi = B := by omega
      have hbl : b = bl := by
        have e : d.block_elem_begin_ + q = d.block_elem_end_ - 1 := by omega
        rw [e, hl.slot_last] at hb
        injection hb with hb; injection hb with hb; exact hb.symm
      subst hbl
      refine ⟨⟨some (d.block_elem_end_ - 1), some d.block_elem_end_, some ⟨b, 0⟩,
        some ⟨b, hi⟩⟩, ?_, Or.inr ⟨?_, rfl⟩⟩
      · have e : d.block_elem_begin_ + q = d.block_elem_end_ - 1 := by omega
        have e1 : d.block_elem_end_ - 1 + 1 = d.block_elem_end_ := by omega
        simp [deque_iterator.inc, deque_iterator.at_block_end, nn, Ptr.add, hne, hfull, e, e1,
          hhiB]
      · rw [hq] at hdm
        omega
    · -- the last cell of an inner block: the iterator moves to the next block
      have hq1 : q + 1 ≤ d.block_elem_end_ - d.block_elem_begin_ - 1 := by omega
      have hmul := Nat.mul_le_mul_right B hq1
      rw [Nat.add_mul, Nat.one_mul] at hmul
      have hab := hc.ab_le
      have hee := hc.ee_le
      obtain ⟨b1, cells, hb1, _, _⟩ := hc.owned (d.block_elem_begin_ + q + 1)
        (by omega) (by omega)
      have hdm1 := @div_mod_of_eq B (q + 1) 0 (lo + (j + 1))
        (by rw [Nat.add_mul, Nat.one_mul]; omega) hB
      refine ⟨⟨some (d.block_elem_begin_ + q + 1), some d.block_elem_end_,
        some ⟨b1, 0⟩, some ⟨b1, 0⟩⟩, ?_, Or.inl ⟨?_, b1, ?_, ?_⟩⟩
      · simp [deque_iterator.inc, deque_iterator.at_block_end, nn, Ptr.add, hne, hfull, hnext,
          slot_ptr, slot, hb1]
      · omega
      · rw [hdm1.1, ← Nat.add_assoc]; exact hb1
      · rw [hdm1.1, hdm1.2, ← Nat.add_assoc]
  · -- inside a block
    have hdm1 := @div_mod_of_eq B (q) (r + 1) (lo + (j + 1))
      (by omega) (by omega)
    by_cases hend : j + 1 = s.length
    · obtain ⟨hq, hr1⟩ := hl.last_pos (by omega : (lo + j) + 1 = lo + s.length)
      rw [hqd] at hq; rw [hrd] at hr1
      have hbl : b = bl := by
        have e : d.block_elem_begin_ + q = d.block_elem_end_ - 1 := by omega
        rw [e, hl.slot_last] at hb
        injection hb with hb; injection hb with hb; exact hb.symm
      subst hbl
      refine ⟨⟨some (d.block_elem_end_ - 1), some d.block_elem_end_, some ⟨b, 0⟩,
        some ⟨b, hi⟩⟩, ?_, Or.inr ⟨hend, rfl⟩⟩
      have e : d.block_elem_begin_ + q = d.block_elem_end_ - 1 := by omega
      have hhiB : ¬ hi = B := by omega
      simp [deque_iterator.inc, deque_iterator.at_block_end, nn, Ptr.add, hne, hfull, e, hr1,
        hhiB]
    · refine ⟨⟨some (d.block_elem_begin_ + q), some d.block_elem_end_,
        some ⟨b, 0⟩, some ⟨b, r + 1⟩⟩, ?_, Or.inl ⟨by omega, b, ?_, ?_⟩⟩
      · simp [deque_iterator.inc, deque_iterator.at_block_end, nn, Ptr.add, hne, hfull]
      · rw [hdm1.1]; exact hb
      · rw [hdm1.1, hdm1.2]

/-- The member `plus_and_assign_` moves an iterator from index `j` to index `j + m`, for a
positive `m` with `j + m ≤ size()`. -/
theorem IterAt.advance_spec {B : Nat} {d : deque α} {s : List α} {lo hi bf bl j : Nat}
    {it : deque_iterator} (hc : Ctl B d) (hl : Live B d s lo hi bf bl) (hB : 0 < B)
    (hit : IterAt B d s lo hi bl j it) (m : Nat) (hm : 0 < m) (hjm : j + m ≤ s.length) :
    ∃ it1, it.plus_and_assign_ B d (m : Int) = .ok it1 ∧
      IterAt B d s lo hi bl (j + m) it1 := by
  rcases hit with ⟨hj, b, hb, rfl⟩ | ⟨he, _⟩
  swap
  · omega
  obtain ⟨hQ, hR⟩ := div_mod_add B (lo + j) m hB
  have hpos := hl.blocks_pos
  have hlen := hl.len_eq
  have hhi := hl.hi_le
  have hhp := hl.hi_pos
  have hab := hc.ab_le
  have hee := hc.ee_le
  have hdm := div_mul_add_mod (lo + j + m) B
  have hRlt : (m + (lo + j) % B) % B < B := Nat.mod_lt _ hB
  have hm0 : (m : Int) ≠ 0 := by omega
  have hassoc : lo + (j + m) = lo + j + m := by omega
  have hnB := @pred_mul_add (d.block_elem_end_ - d.block_elem_begin_) B (by omega)
  rw [hQ, hR] at hdm
  unfold IterAt
  rw [hassoc, hQ, hR]
  unfold deque_iterator.plus_and_assign_
  rw [if_pos hm0]
  have hoff : deque_iterator.in_block_offset
      ⟨some (d.block_elem_begin_ + (lo + j) / B), some d.block_elem_end_, some ⟨b, 0⟩,
        some ⟨b, (lo + j) % B⟩⟩ = (((lo + j) % B : Nat) : Int) := by
    simp [deque_iterator.in_block_offset]
  simp only [hoff, calc_pos_signed_nat]
  generalize (m + (lo + j) % B) / B = k at *
  generalize (m + (lo + j) % B) % B = r at *
  generalize (lo + j) / B = q at *
  by_cases hlt : d.block_elem_begin_ + q + k < d.block_elem_end_
  · have hz : (d.block_elem_begin_ : Int) + (q : Int) + (k : Int) < (d.block_elem_end_ : Int) := by
      omega
    have hz0 : ¬ ((d.block_elem_begin_ : Int) + (q : Int) + (k : Int) < 0) := by omega
    have ht : ((d.block_elem_begin_ : Int) + (q : Int) + (k : Int)).toNat
        = d.block_elem_begin_ + q + k := by omega
    have hr0 : ¬ ((r : Int) < 0) := by omega
    obtain ⟨b1, cells, hb1, _, _⟩ := hc.owned (d.block_elem_begin_ + q + k) (by omega) (by omega)
    have hqk : q + k ≤ d.block_elem_end_ - d.block_elem_begin_ - 1 := by omega
    have hmul := Nat.mul_le_mul_right B hqk
    refine ⟨⟨some (d.block_elem_begin_ + q + k), some d.block_elem_end_, some ⟨b1, 0⟩,
      some ⟨b1, r⟩⟩, ?_, ?_⟩
    · simp [hz, hz0, ht, hr0, slot_ptr, slot, hb1, Ptr.add]
    · by_cases hend : j + m = s.length
      · right
        refine ⟨hend, ?_⟩
        by_cases hlast : q + k = d.block_elem_end_ - d.block_elem_begin_ - 1
        · have e : d.block_elem_begin_ + q + k = d.block_elem_end_ - 1 := by omega
          rw [hlast] at hdm
          have hrhi : r = hi := by omega
          rw [e, hl.slot_last] at hb1
          injection hb1 with hb1; injection hb1 with hb1
          rw [e, hrhi, hb1]
        · exfalso
          have hqk1 : q + k + 1 ≤ d.block_elem_end_ - d.block_elem_begin_ - 1 := by omega
          have hmul1 := Nat.mul_le_mul_right B hqk1
          rw [Nat.add_mul, Nat.one_mul] at hmul1
          omega
      · left
        exact ⟨by omega, b1, by rw [← Nat.add_assoc]; exact hb1, by rw [← Nat.add_assoc]⟩
  · have hge : d.block_elem_end_ - d.block_elem_begin_ ≤ q + k := by omega
    have hmul := Nat.mul_le_mul_right B hge
    have hqk : q + k = d.block_elem_end_ - d.block_elem_begin_ := by
      by_contra hne
      have hge1 : d.block_elem_end_ - d.block_elem_begin_ + 1 ≤ q + k := by omega
      have hmul1 := Nat.mul_le_mul_right B hge1
      rw [Nat.add_mul, Nat.one_mul] at hmul1
      omega
    rw [hqk] at hdm
    have hr0 : r = 0 := by omega
    have hhiB : hi = B := by omega
    have hend : j + m = s.length := by omega
    have hz : ¬ ((d.block_elem_begin_ : Int) + (q : Int) + (k : Int) < (d.block_elem_end_ : Int)) := by
      omega
    have hz1 : (d.block_elem_begin_ : Int) + (q : Int) + (k : Int) = (d.block_elem_end_ : Int) := by
      omega
    have hne0 : ¬ (d.block_elem_end_ = 0) := by omega
    refine ⟨⟨some (d.block_elem_end_ - 1), some d.block_elem_end_, some ⟨bl, 0⟩,
      some ⟨bl, hi⟩⟩, ?_, Or.inr ⟨hend, rfl⟩⟩
    simp [hz, hz1, hr0, hne0, slot_ptr, slot, hl.slot_last, Ptr.add, hhiB]

end deque

end fast_io

namespace fast_io

namespace deque

variable {α : Type}

theorem iter_eq_comm (d : deque α) (a b : deque_iterator) : a.eq d b = b.eq d a := by
  simp only [deque_iterator.eq]
  by_cases h : d.addr a.elem_curr_ = d.addr b.elem_curr_
  · simp [h]
  · have h2 : ¬ (d.addr b.elem_curr_ = d.addr a.elem_curr_) := fun e => h e.symm
    simp [h, h2]

/-- Two iterators at indices below the size are equal exactly if they stand at the same
index, when the allocator keeps the element blocks apart. -/
theorem IterAt.eq_iff_lt {B : Nat} {d : deque α} {s : List α} {lo hi bf bl i j : Nat}
    {it1 it2 : deque_iterator} (hc : Ctl B d) (hl : Live B d s lo hi bf bl) (hB : 0 < B)
    (hp : Placed B d) (h1 : IterAt B d s lo hi bl i it1) (h2 : IterAt B d s lo hi bl j it2)
    (hi1 : i < s.length) (hj : j < s.length) :
    it1.eq d it2 = true ↔ i = j := by
  rcases h1 with ⟨_, b1, hb1, e1⟩ | ⟨hi2, _⟩
  swap
  · omega
  rcases h2 with ⟨_, b2, hb2, e2⟩ | ⟨hj2, _⟩
  swap
  · omega
  subst e1 e2
  obtain ⟨hs1, _⟩ := hl.slot_lt hB i hi1
  obtain ⟨hs2, _⟩ := hl.slot_lt hB j hj
  have hm1 : (lo + i) % B < B := Nat.mod_lt _ hB
  have hm2 : (lo + j) % B < B := Nat.mod_lt _ hB
  simp only [deque_iterator.eq, deque.addr, decide_eq_true_eq]
  constructor
  · intro h
    injection h with h
    have hab := hc.ab_le
    have hee := hc.ee_le
    have h3 := div_mul_add_mod (lo + i) B
    have h4 := div_mul_add_mod (lo + j) B
    generalize (lo + i) / B = q1 at *
    generalize (lo + j) / B = q2 at *
    generalize (lo + i) % B = r1 at *
    generalize (lo + j) % B = r2 at *
    obtain ⟨hb, hoff⟩ := hp.addr_inj (by omega) (by omega) (by omega) (by omega) hb1 hb2
      hm1 hm2 h
    subst hb
    have := hc.slot_inj (d.block_elem_begin_ + q1) (d.block_elem_begin_ + q2) (by omega)
      (by omega) (by omega) (by omega) hb1 hb2
    have hq : q1 = q2 := by omega
    subst hq
    omega
  · intro h
    subst h
    rw [hb1] at hb2
    injection hb2 with hb2; injection hb2 with hb2
    rw [hb2]

/-- Two iterators at indices of one block are equal exactly if they stand at the same index,
wherever the blocks lie. -/
theorem IterAt.eq_iff_block {B : Nat} {d : deque α} {s : List α} {lo hi bl i j : Nat}
    {it1 it2 : deque_iterator}
    (h1 : IterAt B d s lo hi bl i it1) (h2 : IterAt B d s lo hi bl j it2)
    (hi1 : i < s.length) (hj : j < s.length) (hq : (lo + i) / B = (lo + j) / B) :
    it1.eq d it2 = true ↔ i = j := by
  rcases h1 with ⟨_, b1, hb1, e1⟩ | ⟨hi2, _⟩
  swap
  · omega
  rcases h2 with ⟨_, b2, hb2, e2⟩ | ⟨hj2, _⟩
  swap
  · omega
  subst e1 e2
  rw [hq, hb2] at hb1
  injection hb1 with hb1; injection hb1 with hb1
  subst hb1
  have h3 := div_mul_add_mod (lo + i) B
  have h4 := div_mul_add_mod (lo + j) B
  simp only [deque_iterator.eq, deque.addr, decide_eq_true_eq]
  constructor
  · intro h
    injection h with h
    rw [hq] at h3
    omega
  · intro h
    subst h
    rfl

/-- Two iterators of one state are equal exactly if they stand at the same index, when the
allocator keeps the element blocks apart and no element block begins where a full last block
ends. -/
theorem IterAt.eq_iff {B : Nat} {d : deque α} {s : List α} {lo hi bf bl i j : Nat}
    {it1 it2 : deque_iterator} (hc : Ctl B d) (hl : Live B d s lo hi bf bl) (hB : 0 < B)
    (hp : Placed B d) (hna : EndApart B d)
    (h1 : IterAt B d s lo hi bl i it1) (h2 : IterAt B d s lo hi bl j it2) :
    it1.eq d it2 = true ↔ i = j := by
  have hle1 : i ≤ s.length := by
    rcases h1 with ⟨h, _⟩ | ⟨h, _⟩ <;> omega
  have hle2 : j ≤ s.length := by
    rcases h2 with ⟨h, _⟩ | ⟨h, _⟩ <;> omega
  by_cases hj : j = s.length
  · subst hj
    exact h1.eq_end_iff hc hl hB hp hna h2
  by_cases hi1 : i = s.length
  · subst hi1
    rw [iter_eq_comm, h2.eq_end_iff hc hl hB hp hna h1]
    omega
  exact h1.eq_iff_lt hc hl hB hp h2 (by omega) (by omega)

/-- The block and the offset of the iterator at index `j` make up the flat position
`lo + j`, counted from the start of the first element block. -/
theorem IterAt.flat {B : Nat} {d : deque α} {s : List α} {lo hi bf bl j : Nat}
    {it : deque_iterator} (hl : Live B d s lo hi bf bl) (h : IterAt B d s lo hi bl j it) :
    ∃ k off : Nat, it.block_elem_curr_ = some k ∧ it.block_elem_end_ = some d.block_elem_end_ ∧
      it.in_block_offset = (off : Int) ∧
      k * B + off = d.block_elem_begin_ * B + lo + j := by
  rcases h with ⟨_, b, _, rfl⟩ | ⟨hj, rfl⟩
  · refine ⟨d.block_elem_begin_ + (lo + j) / B, (lo + j) % B, rfl, rfl, ?_, ?_⟩
    · simp [deque_iterator.in_block_offset]
    · have := div_mul_add_mod (lo + j) B
      rw [Nat.add_mul]
      omega
  · refine ⟨d.block_elem_end_ - 1, hi, rfl, rfl, ?_, ?_⟩
    · simp [deque_iterator.in_block_offset]
    · have hpos := hl.blocks_pos
      have hlen := hl.len_eq
      have e : d.block_elem_end_ - 1
          = d.block_elem_begin_ + (d.block_elem_end_ - d.block_elem_begin_ - 1) := by omega
      rw [e, Nat.add_mul]
      omega

/-- The difference of the iterators at the indices `j` and `i` is `j - i`. -/
theorem IterAt.diff_eq {B : Nat} {d : deque α} {s : List α} {lo hi bf bl i j : Nat}
    {it1 it2 : deque_iterator} (hl : Live B d s lo hi bf bl)
    (h1 : IterAt B d s lo hi bl i it1) (h2 : IterAt B d s lo hi bl j it2) :
    deque_iterator.diff B it2 it1 = .ok ((j : Int) - (i : Int)) := by
  obtain ⟨k1, o1, a1, b1, c1, e1⟩ := h1.flat hl
  obtain ⟨k2, o2, a2, b2, c2, e2⟩ := h2.flat hl
  simp only [deque_iterator.diff, a1, a2, b1, b2, c1, c2, not_true_eq_false, if_false]
  congr 1
  have z1 : (k1 : Int) * B + o1 = d.block_elem_begin_ * B + lo + i := by exact_mod_cast e1
  have z2 : (k2 : Int) * B + o2 = d.block_elem_begin_ * B + lo + j := by exact_mod_cast e2
  linear_combination z2 - z1

/-- Pre-decrement moves an iterator from index `j + 1` to index `j`. -/
theorem IterAt.dec_spec {B : Nat} {d : deque α} {s : List α} {lo hi bf bl j : Nat}
    {it : deque_iterator} (hc : Ctl B d) (hl : Live B d s lo hi bf bl) (hB : 0 < B)
    (hit : IterAt B d s lo hi bl (j + 1) it) :
    ∃ it1, it.dec B d = .ok it1 ∧ IterAt B d s lo hi bl j it1 := by
  have hpos := hl.blocks_pos
  have hlen := hl.len_eq
  have hhi := hl.hi_le
  have hhp := hl.hi_pos
  have hab := hc.ab_le
  have hee := hc.ee_le
  rcases hit with ⟨hj, b, hb, rfl⟩ | ⟨hj, rfl⟩
  · obtain ⟨hs1, _⟩ := hl.slot_lt hB (j + 1) hj
    have hdm := div_mul_add_mod (lo + (j + 1)) B
    have hr : (lo + (j + 1)) % B < B := Nat.mod_lt _ hB
    generalize (lo + (j + 1)) / B = q at *
    generalize (lo + (j + 1)) % B = r at *
    by_cases hr0 : r = 0
    · -- the first cell of a block: the iterator moves to the last cell of the block before
      subst hr0
      have hq : 0 < q := by
        rcases Nat.eq_zero_or_pos q with h | h
        · subst h; omega
        · exact h
      obtain ⟨q1, rfl⟩ : ∃ q1, q = q1 + 1 := ⟨q - 1, by omega⟩
      obtain ⟨b1, cells, hb1, _, _⟩ := hc.owned (d.block_elem_begin_ + q1) (by omega)
        (by omega)
      have hdm1 := @div_mod_of_eq B q1 (B - 1) (lo + j)
        (by rw [Nat.add_mul, Nat.one_mul] at hdm; omega) (by omega)
      refine ⟨⟨some (d.block_elem_begin_ + q1), some d.block_elem_end_, some ⟨b1, 0⟩,
        some ⟨b1, B - 1⟩⟩, ?_, Or.inl ⟨by omega, b1, ?_, ?_⟩⟩
      · have hB0 : ¬ (B = 0) := by omega
        simp [deque_iterator.dec, ← Nat.add_assoc, slot_ptr, slot, hb1, nn, Ptr.pred, Ptr.add,
          hB0]
      · rw [hdm1.1]; exact hb1
      · rw [hdm1.1, hdm1.2]
    · have hdm1 := @div_mod_of_eq B q (r - 1) (lo + j) (by omega) (by omega)
      refine ⟨⟨some (d.block_elem_begin_ + q), some d.block_elem_end_, some ⟨b, 0⟩,
        some ⟨b, r - 1⟩⟩, ?_, Or.inl ⟨by omega, b, ?_, ?_⟩⟩
      · have hne : ¬ ((⟨b, r⟩ : Ptr) = ⟨b, 0⟩) := by
          intro h; injection h with _ h; exact hr0 h
        simp [deque_iterator.dec, hne, nn, Ptr.pred, hr0]
      · rw [hdm1.1]; exact hb
      · rw [hdm1.1, hdm1.2]
  · obtain ⟨hq, hr1⟩ := hl.last_pos (by omega : (lo + j) + 1 = lo + s.length)
    have hh0 : ¬ (hi = 0) := by omega
    refine ⟨⟨some (d.block_elem_end_ - 1), some d.block_elem_end_, some ⟨bl, 0⟩,
      some ⟨bl, hi - 1⟩⟩, ?_, Or.inl ⟨by omega, bl, ?_, ?_⟩⟩
    · have hne : ¬ ((⟨bl, hi⟩ : Ptr) = ⟨bl, 0⟩) := by
        intro h; injection h with _ h; exact hh0 h
      simp [deque_iterator.dec, hne, nn, Ptr.pred, hh0]
    · rw [hq]
      have e : d.block_elem_begin_ + (d.block_elem_end_ - d.block_elem_begin_ - 1)
          = d.block_elem_end_ - 1 := by omega
      rw [e]; exact hl.slot_last
    · rw [hq]
      have e : d.block_elem_begin_ + (d.block_elem_end_ - d.block_elem_begin_ - 1)
          = d.block_elem_end_ - 1 := by omega
      have e2 : (lo + j) % B = hi - 1 := by omega
      rw [e, e2]

/-- The iterator `begin() + j` stands at index `j`, for `j ≤ size()`. -/
theorem Live.begin_plus_spec {B : Nat} {d : deque α} {s : List α} {lo hi bf bl : Nat}
    (hc : Ctl B d) (hl : Live B d s lo hi bf bl) (hB : 0 < B) (j : Nat) (hj : j ≤ s.length) :
    ∃ it, begin_plus B d (j : Int) = .ok it ∧ IterAt B d s lo hi bl j it := by
  obtain ⟨b, hb, hit⟩ := hl.iter_begin
  by_cases h0 : j = 0
  · subst h0
    exact ⟨b, by simp [begin_plus, hb, deque_iterator.plus_and_assign_], hit⟩
  · obtain ⟨it, h1, h2⟩ := hit.advance_spec hc hl hB j (by omega) (by omega)
    refine ⟨it, by simp only [begin_plus, hb, bind_ok]; exact h1, ?_⟩
    simpa using h2

theorem iterator_at_eq (B : Nat) (d : deque α) (p : Nat) :
    iterator_at B d p = begin_plus B d (p : Int) := by
  unfold iterator_at begin_plus
  cases d.begin_ <;> rfl

end deque

end fast_io

namespace fast_io

namespace deque

variable {α : Type}

/-! ## Stores to the cells of one block -/

theorem Wrote.wrote_nil (d : deque α) (b o : Nat) : Wrote d d b o [] where
  same := ⟨d.blocks, rfl⟩
  lens := fun _ cells h => ⟨cells, h, rfl⟩
  hit := fun i h => absurd h (by simp)
  miss := fun _ _ => rfl

/-- One more store, to the cell after the ones written so far. -/
theorem Wrote.wrote_snoc {d d1 : deque α} {b o : Nat} {u : List α} (h : Wrote d d1 b o u) (v : α)
    {cells : List (Option α)} (hb : d.blocks[b]? = some cells)
    (ho : o + u.length < cells.length) :
    ∃ d2, d1.write ⟨b, o + u.length⟩ v = .ok d2 ∧ Wrote d d2 b o (u ++ [v]) := by
  obtain ⟨cells1, hc1, hl1⟩ := h.lens b cells hb
  obtain ⟨bs, hbs⟩ := h.same
  have hw := write_eq d1 ⟨b, o + u.length⟩ v cells1 hc1 (by simp only; omega)
  have hrd := read_poke d1 ⟨b, o + u.length⟩
  refine ⟨_, hw, ⟨⟨_, by rw [hbs]⟩, ?_, ?_, ?_⟩⟩
  · intro b1 cells0 h0
    obtain ⟨cells2, hc2, hl2⟩ := h.lens b1 cells0 h0
    obtain ⟨cs, hcs, hlcs⟩ := blocks_poke d1 ⟨b, o + u.length⟩ v cells1 hc1 b1 cells2 hc2
    exact ⟨cs, hcs, by omega⟩
  · intro i hi
    rw [hrd _ v cells1 hc1 (by simp only; omega)]
    by_cases hiu : i = u.length
    · subst hiu
      simp
    · have hlt : i < u.length := by
        simp only [List.length_append, List.length_singleton] at hi
        omega
      have hne : ¬ ((⟨b, o + i⟩ : Ptr) = ⟨b, o + u.length⟩) := by
        intro he
        injection he with _ he
        omega
      rw [if_neg hne, h.hit i hlt, List.getElem_append_left hlt]
  · intro q hq
    rw [hrd _ v cells1 hc1 (by simp only; omega)]
    simp only [List.length_append, List.length_singleton] at hq
    have hne : ¬ (q = ⟨b, o + u.length⟩) := by
      intro he
      subst he
      simp only at hq
      omega
    rw [if_neg hne]
    exact h.miss q (by omega)

theorem uninitialized_fill_spec (v : α) (n : Nat) :
    ∀ (d d1 : deque α) (b o : Nat) (u : List α) (cells : List (Option α)),
      d.blocks[b]? = some cells → o + u.length + n ≤ cells.length → Wrote d d1 b o u →
      ∃ d2, uninitialized_fill v n d1 ⟨b, o + u.length⟩ = .ok d2 ∧
        Wrote d d2 b o (u ++ List.replicate n v) := by
  induction n with
  | zero =>
    intro d d1 b o u cells _ _ hw
    exact ⟨d1, rfl, by simpa using hw⟩
  | succ n ih =>
    intro d d1 b o u cells hb hlen hw
    obtain ⟨d2, h2, hw2⟩ := hw.wrote_snoc v hb (by omega)
    obtain ⟨d3, h3, hw3⟩ := ih d d2 b o (u ++ [v]) cells hb
      (by simp only [List.length_append, List.length_singleton]; omega) hw2
    refine ⟨d3, ?_, ?_⟩
    · simp only [uninitialized_fill, h2, Ptr.add]
      simpa [Nat.add_assoc] using h3
    · simpa [List.replicate_succ] using hw3

theorem uninitialized_copy_n_spec {B : Nat} {src : deque α} {s : List α} {lo hi bf bl : Nat}
    (hc : Ctl B src) (hl : Live B src s lo hi bf bl) (hB : 0 < B) (n : Nat) :
    ∀ (d d1 : deque α) (b o : Nat) (u : List α) (cells : List (Option α)) (j : Nat)
      (it : deque_iterator),
      d.blocks[b]? = some cells → o + u.length + n ≤ cells.length → Wrote d d1 b o u →
      IterAt B src s lo hi bl j it → j + n ≤ s.length →
      ∃ d2, uninitialized_copy_n B src n d1 it ⟨b, o + u.length⟩ = .ok d2 ∧
        Wrote d d2 b o (u ++ (s.drop j).take n) := by
  induction n with
  | zero =>
    intro d d1 b o u cells j it _ _ hw _ _
    exact ⟨d1, rfl, by simpa using hw⟩
  | succ n ih =>
    intro d d1 b o u cells j it hb hlen hw hit hjn
    have hj : j < s.length := by omega
    have hd := hit.deref_eq hl hB hj
    obtain ⟨it1, hinc, hit1⟩ := hit.inc_spec hc hl hB hj
    obtain ⟨d2, h2, hw2⟩ := hw.wrote_snoc s[j] hb (by omega)
    obtain ⟨d3, h3, hw3⟩ := ih d d2 b o (u ++ [s[j]]) cells (j + 1) it1 hb
      (by simp only [List.length_append, List.length_singleton]; omega) hw2 hit1 (by omega)
    refine ⟨d3, ?_, ?_⟩
    · simp only [uninitialized_copy_n, hd, h2, hinc, Ptr.add]
      simpa [Nat.add_assoc] using h3
    · rw [List.drop_eq_getElem_cons hj, List.take_succ_cons]
      simpa using hw3

theorem uninitialized_copy_until_spec {B : Nat} {src : deque α} {s : List α}
    {lo hi bf bl : Nat} (hc : Ctl B src) (hl : Live B src s lo hi bf bl) (hB : 0 < B)
    (hp : Placed B src) (hna : EndApart B src)
    {last : deque_iterator} (hlast : IterAt B src s lo hi bl s.length last) (fuel : Nat) :
    ∀ (d d1 : deque α) (b o : Nat) (u : List α) (cells : List (Option α)) (j : Nat)
      (it : deque_iterator),
      d.blocks[b]? = some cells → o + u.length + (s.length - j) ≤ cells.length →
      Wrote d d1 b o u → IterAt B src s lo hi bl j it → j ≤ s.length → s.length - j ≤ fuel →
      ∃ d2, uninitialized_copy_until B src last fuel d1 it ⟨b, o + u.length⟩ = .ok d2 ∧
        Wrote d d2 b o (u ++ s.drop j) := by
  induction fuel with
  | zero =>
    intro d d1 b o u cells j it _ _ hw hit hj hf
    have hje : j = s.length := by omega
    have he := (hit.eq_end_iff hc hl hB hp hna hlast).2 hje
    refine ⟨d1, by simp [uninitialized_copy_until, he], ?_⟩
    subst hje
    simpa using hw
  | succ n ih =>
    intro d d1 b o u cells j it hb hlen hw hit hj hf
    by_cases hje : j = s.length
    · have he := (hit.eq_end_iff hc hl hB hp hna hlast).2 hje
      refine ⟨d1, by simp [uninitialized_copy_until, he], ?_⟩
      subst hje
      simpa using hw
    · have hlt : j < s.length := by omega
      have he : ¬ (it.eq src last = true) := fun h => hje ((hit.eq_end_iff hc hl hB hp hna hlast).1 h)
      have hd := hit.deref_eq hl hB hlt
      obtain ⟨it1, hinc, hit1⟩ := hit.inc_spec hc hl hB hlt
      obtain ⟨d2, h2, hw2⟩ := hw.wrote_snoc s[j] hb (by omega)
      obtain ⟨d3, h3, hw3⟩ := ih d d2 b o (u ++ [s[j]]) cells (j + 1) it1 hb
        (by simp only [List.length_append, List.length_singleton]; omega) hw2 hit1 (by omega)
        (by omega)
      refine ⟨d3, ?_, ?_⟩
      · simp only [uninitialized_copy_until, he, hd, h2, hinc, Ptr.add]
        simpa [Nat.add_assoc] using h3
      · rw [List.drop_eq_getElem_cons hlt]
        simpa using hw3

end deque

end fast_io

namespace fast_io

namespace deque

variable {α : Type}

/-! ## Element access through `operator[]`, iterators, `front` and `back` -/

/-- The pointer that `operator[]` returns for an index below the size. -/
theorem Live.index_ptr_eq {B : Nat} {d : deque α} {s : List α} {lo hi bf bl : Nat}
    (hl : Live B d s lo hi bf bl) (hB : 0 < B) (hfit : s.length + B ≤ SIZE_RANGE) (i : Nat)
    (hi' : i < s.length) (b : Nat)
    (hb : d.ctrl[d.block_elem_begin_ + (lo + i) / B]? = some (some b)) :
    d.index_ptr B i = .ok ⟨b, (lo + i) % B⟩ := by
  obtain ⟨hs1, hs2⟩ := hl.slot_lt hB i hi'
  have hlo := hl.lo_lt
  have hpos := hl.blocks_pos
  have hmod : (i + lo) % SIZE_RANGE = lo + i := by
    rw [Nat.mod_eq_of_lt (by omega)]; omega
  have hnot : ¬ d.block_elem_end_ ≤ d.block_elem_begin_ + (lo + i) / B := by omega
  unfold index_ptr
  simp only [hl.fbegin, hl.first, ptr_diff, calc_pos, Nat.sub_zero, hmod]
  by_cases hlast : d.block_elem_begin_ + (lo + i) / B + 1 = d.block_elem_end_
  · have hk : d.block_elem_begin_ + (lo + i) / B = d.block_elem_end_ - 1 := by omega
    have hbl : b = bl := by
      rw [hk, hl.slot_last] at hb
      injection hb with hb; injection hb with hb; exact hb.symm
    subst hbl
    have hlt := hs2 (by omega)
    simp [hlast, slot_ptr, slot, hb, hl.bend, ptr_lt, Ptr.add, hlt, hnot]
  · simp [hlast, slot_ptr, slot, hb, Ptr.add, hnot]

/-- The pointer that an iterator at an index below the size refers to. -/
theorem IterAt.deref_ptr_eq {B : Nat} {d : deque α} {s : List α} {lo hi bl j : Nat}
    {it : deque_iterator} (hB : 0 < B) (hit : IterAt B d s lo hi bl j it) (hj : j < s.length) :
    ∃ b, d.ctrl[d.block_elem_begin_ + (lo + j) / B]? = some (some b) ∧
      it.deref_ptr B = .ok ⟨b, (lo + j) % B⟩ := by
  rcases hit with ⟨_, b, hb, rfl⟩ | ⟨he, _⟩
  · have hne : ¬ ((lo + j) % B = B) := Nat.ne_of_lt (Nat.mod_lt _ hB)
    exact ⟨b, hb, by simp [deque_iterator.deref_ptr, deque_iterator.at_block_end, nn, Ptr.add,
      hne]⟩
  · omega

/-- On a state of the data model, `d[i]` and `*(begin() + i)` are the same element. -/
theorem Live.index_is_begin_plus {B : Nat} {d : deque α} {s : List α} {lo hi bf bl : Nat}
    (hc : Ctl B d) (hl : Live B d s lo hi bf bl) (hB : 0 < B)
    (hfit : s.length + B ≤ SIZE_RANGE) (i : Nat) (hi' : i < s.length) :
    ∃ it p, iterator_at B d i = .ok it ∧ it.deref_ptr B = .ok p ∧ d.index_ptr B i = .ok p ∧
      d.read p = .ok s[i] ∧ d.index B i = .ok s[i] ∧ it.deref B d = .ok s[i] := by
  obtain ⟨it, h1, hit⟩ := hl.begin_plus_spec hc hB i (by omega)
  obtain ⟨b, hb, hp⟩ := hit.deref_ptr_eq hB hi'
  obtain ⟨b1, hb1, hr⟩ := hl.elems i hi'
  rw [hb] at hb1
  injection hb1 with hb1; injection hb1 with hb1
  subst hb1
  have hidx := hl.index_ptr_eq hB hfit i hi' b hb
  refine ⟨it, ⟨b, (lo + i) % B⟩, by rw [iterator_at_eq]; exact h1, hp, hidx, hr, ?_,
    hit.deref_eq hl hB hi'⟩
  simp [index, hidx, hr]

theorem inc_n_spec {B : Nat} {d : deque α} {s : List α} {lo hi bf bl : Nat}
    (hc : Ctl B d) (hl : Live B d s lo hi bf bl) (hB : 0 < B) (k : Nat) :
    ∀ (j : Nat) (it : deque_iterator), IterAt B d s lo hi bl j it → j + k ≤ s.length →
      ∃ it1, inc_n B d k it = .ok it1 ∧ IterAt B d s lo hi bl (j + k) it1 := by
  induction k with
  | zero => intro j it hit _; exact ⟨it, rfl, hit⟩
  | succ k ih =>
    intro j it hit hjk
    obtain ⟨it1, h1, hit1⟩ := hit.inc_spec hc hl hB (by omega)
    obtain ⟨it2, h2, hit2⟩ := ih (j + 1) it1 hit1 (by omega)
    refine ⟨it2, by simp only [inc_n, h1]; exact h2, ?_⟩
    have e : j + (k + 1) = j + 1 + k := by omega
    rw [e]; exact hit2

theorem dec_n_spec {B : Nat} {d : deque α} {s : List α} {lo hi bf bl : Nat}
    (hc : Ctl B d) (hl : Live B d s lo hi bf bl) (hB : 0 < B) (k : Nat) :
    ∀ (j : Nat) (it : deque_iterator), IterAt B d s lo hi bl (j + k) it →
      ∃ it1, dec_n B d k it = .ok it1 ∧ IterAt B d s lo hi bl j it1 := by
  induction k with
  | zero => intro j it hit; exact ⟨it, rfl, hit⟩
  | succ k ih =>
    intro j it hit
    have e : j + (k + 1) = j + k + 1 := by omega
    rw [e] at hit
    obtain ⟨it1, h1, hit1⟩ := hit.dec_spec hc hl hB
    obtain ⟨it2, h2, hit2⟩ := ih j it1 hit1
    exact ⟨it2, by simp only [dec_n, h1]; exact h2, hit2⟩

/-- The values of `front()` and `back()` on a state of the data model. -/
theorem Live.front_back_eq {B : Nat} {d : deque α} {s : List α} {lo hi bf bl : Nat}
    (hl : Live B d s lo hi bf bl) :
    (∀ (h : 0 < s.length), d.front = .ok s[0]) ∧
    (∀ (h : s.length - 1 < s.length), d.back = .ok s[s.length - 1]) := by
  have hpos := hl.blocks_pos
  have hlen := hl.len_pos
  have hhp := hl.hi_pos
  have hemp : d.empty = false := by simp [empty, hl.fbegin]
  constructor
  · intro _
    obtain ⟨b, hb, hr⟩ := hl.elems 0 hlen
    have e1 : (lo + 0) / B = 0 := by simp [Nat.div_eq_of_lt hl.lo_lt]
    have e2 : (lo + 0) % B = lo := by simp [Nat.mod_eq_of_lt hl.lo_lt]
    rw [e1, Nat.add_zero, hl.slot_first] at hb
    injection hb with hb; injection hb with hb
    subst hb
    rw [e2] at hr
    simp [front, hemp, hl.fbegin, nn, hr]
  · intro _
    obtain ⟨b, hb, hr⟩ := hl.elems (s.length - 1) (by omega)
    obtain ⟨hq, hr1⟩ := hl.last_pos (by omega : (lo + (s.length - 1)) + 1 = lo + s.length)
    have e : d.block_elem_begin_ + (d.block_elem_end_ - d.block_elem_begin_ - 1)
        = d.block_elem_end_ - 1 := by omega
    rw [hq, e, hl.slot_last] at hb
    injection hb with hb; injection hb with hb
    subst hb
    have e2 : (lo + (s.length - 1)) % B = hi - 1 := by omega
    rw [e2] at hr
    have hh0 : ¬ (hi = 0) := by omega
    simp [back, back_ptr, hemp, hl.bend, nn, Ptr.pred, hh0, hr]

end deque

end fast_io

namespace fast_io

namespace deque

variable {α : Type}

/-! ## The member `construct_` -/

theorem Filled.filled_init {B : Nat} {d0 : deque α} (hc : Ctl B d0) : Filled B d0 d0 [] where
  ctl := hc
  ctrl_eq := rfl
  ab_eq := rfl
  ae_eq := rfl
  eb_eq := rfl
  elems := fun i h => absurd h (by simp)

/-- The fill of the next block: the block after the element blocks receives `u`. -/
theorem Filled.filled_step {B : Nat} {d0 d d1 d2 : deque α} {t u : List α} {b : Nat} (hB : 0 < B)
    (hf : Filled B d0 d t)
    (hlen : t.length = (d.block_elem_end_ - d.block_elem_begin_) * B)
    (hspare : d.block_elem_end_ < d.block_alloc_end_)
    (hb : d.ctrl[d.block_elem_end_]? = some (some b))
    (hw : Wrote d d1 b 0 u) (hu : u.length ≤ B)
    (e1 : d2.blocks = d1.blocks) (e2 : d2.ctrl = d.ctrl)
    (e3 : d2.block_alloc_begin_ = d.block_alloc_begin_)
    (e4 : d2.block_alloc_end_ = d.block_alloc_end_)
    (e5 : d2.block_elem_begin_ = d.block_elem_begin_)
    (e6 : d2.block_elem_end_ = d.block_elem_end_ + 1) :
    Filled B d0 d2 (t ++ u) := by
  have hc := hf.ctl
  have hab := hc.ab_le
  have hbe := hc.be_le
  obtain ⟨bs, hbs⟩ := hw.same
  have hc1 : Ctl B d1 := by
    exact hc.of_frame (by rw [hbs]) (by rw [hbs]) (by rw [hbs]) (by rw [hbs]) (by rw [hbs])
      hw.lens
  have hc2 : Ctl B d2 := by
    apply hc1.of_cursors (by rw [e2, hbs]) e1 (by rw [e3, hbs]) (by rw [e4, hbs]) <;> omega
  refine ⟨hc2, by rw [e2, hf.ctrl_eq], by rw [e3, hf.ab_eq], by rw [e4, hf.ae_eq],
    by rw [e5, hf.eb_eq], ?_⟩
  intro i hi
  have hrc : ∀ q, d2.read q = d1.read q := read_congr e1
  rw [e2, e5]
  by_cases hit : i < t.length
  · obtain ⟨b1, hb1, hr1⟩ := hf.elems i hit
    have hq : i / B < d.block_elem_end_ - d.block_elem_begin_ :=
      div_lt_of_lt_mul hB (by omega)
    refine ⟨b1, hb1, ?_⟩
    generalize i / B = q at hq hb1
    have hne : b1 ≠ b := by
      intro he
      subst he
      have := hc.slot_inj (d.block_elem_begin_ + q) d.block_elem_end_ (by omega)
        (by omega) (by omega) hspare hb1 hb
      omega
    rw [hrc, hw.miss ⟨b1, i % B⟩ (Or.inl hne), hr1, List.getElem_append_left hit]
  · have hge : t.length ≤ i := by omega
    simp only [List.length_append] at hi
    have hdm := @div_mod_of_eq B (d.block_elem_end_ - d.block_elem_begin_) (i - t.length) i
      (by omega) (by omega)
    rw [hdm.1, hdm.2]
    refine ⟨b, by rw [← hb]; congr 1; omega, ?_⟩
    have := hw.hit (i - t.length) (by omega)
    rw [Nat.zero_add] at this
    rw [hrc, this, List.getElem_append_right hge]

/-- One full block of `construct_`: the block receives the next `B` elements of the
arguments, which then stand for the rest. -/
theorem construct_full_spec [Inhabited α] {B : Nat} (hB : 0 < B) (d : deque α) (b : Nat)
    (cells : List (Option α)) (hb : d.blocks[b]? = some cells) (hcl : cells.length = B)
    (ts : ctor_src α) (t : List α) (hy : Yields B ts t) (hlen : B ≤ t.length) :
    ∃ d1 ts1, construct_full B d ⟨b, 0⟩ ts = .ok (d1, ts1) ∧ Wrote d d1 b 0 (t.take B) ∧
      Yields B ts1 (t.drop B) := by
  cases ts with
  | value_init =>
    obtain ⟨d1, h1, hw⟩ := uninitialized_fill_spec (default : α) B d d b 0 [] cells hb
      (by simp [hcl]) (Wrote.wrote_nil d b 0)
    refine ⟨d1, .value_init, ?_, ?_, ?_⟩
    · simp only [List.length_nil, Nat.add_zero] at h1
      simp [construct_full, h1]
    · unfold Yields at hy
      rw [hy, List.take_replicate, Nat.min_eq_left hlen]
      simpa using hw
    · unfold Yields at hy ⊢
      rw [hy, List.drop_replicate]
      simp
  | fill v =>
    obtain ⟨d1, h1, hw⟩ := uninitialized_fill_spec v B d d b 0 [] cells hb
      (by simp [hcl]) (Wrote.wrote_nil d b 0)
    refine ⟨d1, .fill v, ?_, ?_, ?_⟩
    · simp only [List.length_nil, Nat.add_zero] at h1
      simp [construct_full, h1]
    · unfold Yields at hy
      rw [hy, List.take_replicate, Nat.min_eq_left hlen]
      simpa using hw
    · unfold Yields at hy ⊢
      rw [hy, List.drop_replicate]
      simp
  | range src first last =>
    obtain ⟨s, lo, hi, bf, bl, j, hsc, hsl, hsp, hsn, hfirst, hlast, hj, rfl⟩ := hy
    simp only [List.length_drop] at hlen
    obtain ⟨d1, h1, hw⟩ := uninitialized_copy_n_spec hsc hsl hB B d d b 0 [] cells j first hb
      (by simp [hcl]) (Wrote.wrote_nil d b 0) hfirst (by omega)
    obtain ⟨it1, h2, hit1⟩ := hfirst.advance_spec hsc hsl hB B hB (by omega)
    refine ⟨d1, .range src it1 last, ?_, ?_, ?_⟩
    · simp only [List.length_nil, Nat.add_zero] at h1
      simp [construct_full, h1, h2]
    · simpa using hw
    · exact ⟨s, lo, hi, bf, bl, j + B, hsc, hsl, hsp, hsn, hit1, hlast, by omega, by
        rw [List.drop_drop, Nat.add_comm]⟩

end deque

end fast_io

namespace fast_io

namespace deque

variable {α : Type}

/-- The loop of `construct_` over `n` further full blocks. -/
theorem construct_loop_spec [Inhabited α] {B : Nat} (hB : 0 < B) {d0 : deque α} (n : Nat) :
    ∀ (d : deque α) (ts : ctor_src α) (t tr : List α) (bf bl : Nat),
      Filled B d0 d t → t.length = (d.block_elem_end_ - d.block_elem_begin_) * B →
      FullEnds B d bf bl → Yields B ts tr → n * B ≤ tr.length →
      d.block_elem_end_ + n ≤ d.block_alloc_end_ →
      ∃ d1 ts1 bl1, construct_loop B n d ts = .ok (d1, ts1) ∧
        Filled B d0 d1 (t ++ tr.take (n * B)) ∧
        d1.block_elem_end_ = d.block_elem_end_ + n ∧ FullEnds B d1 bf bl1 ∧
        Yields B ts1 (tr.drop (n * B)) ∧ d1.elem_end_last_ = d.elem_end_last_ := by
  induction n with
  | zero =>
    intro d ts t tr bf bl hf _ he hy _ _
    exact ⟨d, ts, bl, rfl, by simpa using hf, rfl, he, by simpa using hy, rfl⟩
  | succ n ih =>
    intro d ts t tr bf bl hf hlen he hy hn hsp
    have hc := hf.ctl
    have hab := hc.ab_le
    have hbe := hc.be_le
    rw [Nat.succ_mul] at hn
    obtain ⟨b, cells, hb, hcells, hcl⟩ := hc.owned d.block_elem_end_ (by omega) (by omega)
    obtain ⟨d1, ts1, h1, hw, hy1⟩ := construct_full_spec hB d b cells hcells hcl ts tr hy
      (by omega)
    obtain ⟨bs, hbs⟩ := hw.same
    obtain ⟨d3, hd3⟩ : ∃ d3 : deque α, d3 =
        { d1.elem_end_ (some ⟨b, 0⟩) (some ((⟨b, 0⟩ : Ptr).add B)) d1.elem_end_last_ with
          block_elem_end_ :=
            (d1.elem_end_ (some ⟨b, 0⟩) (some ((⟨b, 0⟩ : Ptr).add B))
              d1.elem_end_last_).block_elem_end_ + 1 } := ⟨_, rfl⟩
    have e1 : d3.blocks = d1.blocks := by rw [hd3]; rfl
    have e2 : d3.ctrl = d.ctrl := by rw [hd3, hbs]; rfl
    have e3 : d3.block_alloc_begin_ = d.block_alloc_begin_ := by rw [hd3, hbs]; rfl
    have e4 : d3.block_alloc_end_ = d.block_alloc_end_ := by rw [hd3, hbs]; rfl
    have e5 : d3.block_elem_begin_ = d.block_elem_begin_ := by rw [hd3, hbs]; rfl
    have e6 : d3.block_elem_end_ = d.block_elem_end_ + 1 := by rw [hd3, hbs]; rfl
    have e7 : d3.elem_begin_first_ = d.elem_begin_first_ := by rw [hd3, hbs]; rfl
    have e8 : d3.elem_begin_begin_ = d.elem_begin_begin_ := by rw [hd3, hbs]; rfl
    have e9 : d3.elem_begin_end_ = d.elem_begin_end_ := by rw [hd3, hbs]; rfl
    have e10 : d3.elem_end_begin_ = some ⟨b, 0⟩ := by rw [hd3]; rfl
    have e11 : d3.elem_end_end_ = some ⟨b, B⟩ := by rw [hd3]; simp [elem_end_, Ptr.add]
    have e12 : d3.elem_end_last_ = d.elem_end_last_ := by rw [hd3, hbs]; rfl
    have hf3 : Filled B d0 d3 (t ++ tr.take B) :=
      hf.filled_step hB hlen (by omega) hb hw (by simp) e1 e2 e3 e4 e5 e6
    have hlen3 : (t ++ tr.take B).length
        = (d3.block_elem_end_ - d3.block_elem_begin_) * B := by
      have e : d3.block_elem_end_ - d3.block_elem_begin_
          = d.block_elem_end_ - d.block_elem_begin_ + 1 := by omega
      rw [e, Nat.add_mul, Nat.one_mul, List.length_append, List.length_take, hlen]
      omega
    have he3 : FullEnds B d3 bf b :=
      ⟨by rw [e2, e5]; exact he.slot_first, by rw [e2, e6]; exact hb, by rw [e7]; exact he.first,
        by rw [e8]; exact he.fbegin, by rw [e9]; exact he.fend, e10, e11⟩
    obtain ⟨d4, ts4, bl4, h4, hf4, hee4, he4, hy4, hl4⟩ := ih d3 ts1 (t ++ tr.take B)
      (tr.drop B) bf b hf3 hlen3 he3 hy1 (by simp only [List.length_drop]; omega) (by omega)
    refine ⟨d4, ts4, bl4, ?_, ?_, ?_, he4, ?_, ?_⟩
    · simp only [construct_loop, slot_ptr, slot, hb, h1]
      rw [hd3] at h4
      exact h4
    · have e : (n + 1) * B = B + n * B := by rw [Nat.succ_mul, Nat.add_comm]
      rw [e, List.take_add, ← List.append_assoc]
      exact hf4
    · rw [hee4]; omega
    · have e : (n + 1) * B = B + n * B := by rw [Nat.succ_mul, Nat.add_comm]
      rw [e, ← List.drop_drop]
      exact hy4
    · rw [hl4, e12]

end deque

end fast_io

namespace fast_io

namespace deque

variable {α : Type}

/-- A change of the in-block cursors keeps the filled blocks. -/
theorem Filled.filled_of_cursors {B : Nat} {d0 d d1 : deque α} {t : List α} (hf : Filled B d0 d t)
    (e1 : d1.blocks = d.blocks) (e2 : d1.ctrl = d.ctrl)
    (e3 : d1.block_alloc_begin_ = d.block_alloc_begin_)
    (e4 : d1.block_alloc_end_ = d.block_alloc_end_)
    (e5 : d1.block_elem_begin_ = d.block_elem_begin_)
    (e6 : d1.block_elem_end_ = d.block_elem_end_) : Filled B d0 d1 t := by
  have hc := hf.ctl
  refine ⟨hc.of_cursors e2 e1 e3 e4 (by rw [e3, e5]; exact hc.ab_le)
    (by rw [e5, e6]; exact hc.be_le) (by rw [e6, e4]; exact hc.ee_le),
    by rw [e2, hf.ctrl_eq], by rw [e3, hf.ab_eq], by rw [e4, hf.ae_eq], by rw [e5, hf.eb_eq], ?_⟩
  intro i hi
  obtain ⟨b, hb, hr⟩ := hf.elems i hi
  exact ⟨b, by rw [e2, e5]; exact hb, by rw [read_congr e1]; exact hr⟩

/-- The filled blocks and the cursors of the first and last block make up the data model of
a deque whose elements start at offset 0. -/
theorem Filled.live_of_filled {B : Nat} {d0 d : deque α} {t : List α} {hi bf bl : Nat} (hB : 0 < B)
    (hf : Filled B d0 d t) (hpos : d.block_elem_begin_ < d.block_elem_end_)
    (hsf : d.ctrl[d.block_elem_begin_]? = some (some bf))
    (hsl : d.ctrl[d.block_elem_end_ - 1]? = some (some bl))
    (hhi : 0 < hi) (hle : hi ≤ B)
    (hlen : t.length = (d.block_elem_end_ - d.block_elem_begin_ - 1) * B + hi)
    (c1 : d.elem_begin_first_ = some ⟨bf, 0⟩) (c2 : d.elem_begin_begin_ = some ⟨bf, 0⟩)
    (c3 : d.elem_begin_end_ =
      some ⟨bf, if d.block_elem_end_ - d.block_elem_begin_ = 1 then hi else B⟩)
    (c4 : d.elem_end_begin_ = some ⟨bl, 0⟩) (c5 : d.elem_end_end_ = some ⟨bl, hi⟩)
    (c6 : d.elem_end_last_ = some ⟨bl, B⟩) : Live B d t 0 hi bf bl where
  blocks_pos := hpos
  slot_first := hsf
  slot_last := hsl
  lo_lt := hB
  hi_pos := hhi
  hi_le := hle
  len_pos := by omega
  len_eq := by omega
  first := c1
  fbegin := c2
  fend := c3
  bbegin := by rw [c4]; simp
  bend := c5
  blast := c6
  elems := by
    intro i h
    rw [Nat.zero_add]
    exact hf.elems i h

/-- The first statement of `construct_` fills the first spare block. -/
theorem construct_first_spec [Inhabited α] {B : Nat} (hB : 0 < B) {d0 : deque α}
    (hc : Ctl B d0) (hn : Null d0) (full : Nat) (hfull : full ≠ 0)
    (hsp : d0.block_elem_end_ < d0.block_alloc_end_)
    (ts : ctor_src α) (t : List α) (hy : Yields B ts t) (hlen : B ≤ t.length) :
    ∃ d1 ts1 b0, construct_first_ B d0 full ts = .ok (d1, ts1) ∧
      Filled B d0 d1 (t.take B) ∧ d1.block_elem_end_ = d0.block_elem_end_ + 1 ∧
      FullEnds B d1 b0 b0 ∧ d1.elem_end_last_ = some ⟨b0, B⟩ ∧ Yields B ts1 (t.drop B) := by
  have hab := hc.ab_le
  have hbe := hn.blocks_eq
  obtain ⟨b, cells, hb, hcells, hcl⟩ := hc.owned d0.block_elem_end_ (by omega) (by omega)
  obtain ⟨d1, ts1, h1, hw, hy1⟩ := construct_full_spec hB d0 b cells hcells hcl ts t hy hlen
  obtain ⟨bs, hbs⟩ := hw.same
  obtain ⟨d3, hd3⟩ : ∃ d3 : deque α, d3 =
      { (d1.elem_begin_ (some ⟨b, 0⟩) (some ((⟨b, 0⟩ : Ptr).add B)) (some ⟨b, 0⟩)).elem_end_
          (some ⟨b, 0⟩) (some ((⟨b, 0⟩ : Ptr).add B)) (some ((⟨b, 0⟩ : Ptr).add B)) with
        block_elem_end_ :=
          ((d1.elem_begin_ (some ⟨b, 0⟩) (some ((⟨b, 0⟩ : Ptr).add B)) (some ⟨b, 0⟩)).elem_end_
            (some ⟨b, 0⟩) (some ((⟨b, 0⟩ : Ptr).add B))
            (some ((⟨b, 0⟩ : Ptr).add B))).block_elem_end_ + 1 } := ⟨_, rfl⟩
  have e1 : d3.blocks = d1.blocks := by rw [hd3]; rfl
  have e2 : d3.ctrl = d0.ctrl := by rw [hd3, hbs]; rfl
  have e3 : d3.block_alloc_begin_ = d0.block_alloc_begin_ := by rw [hd3, hbs]; rfl
  have e4 : d3.block_alloc_end_ = d0.block_alloc_end_ := by rw [hd3, hbs]; rfl
  have e5 : d3.block_elem_begin_ = d0.block_elem_begin_ := by rw [hd3, hbs]; rfl
  have e6 : d3.block_elem_end_ = d0.block_elem_end_ + 1 := by rw [hd3, hbs]; rfl
  have hlen0 : ([] : List α).length = (d0.block_elem_end_ - d0.block_elem_begin_) * B := by
    rw [hbe]; simp
  have hf3 : Filled B d0 d3 ([] ++ t.take B) :=
    (Filled.filled_init hc).filled_step hB hlen0 hsp hb hw (by simp) e1 e2 e3 e4 e5 e6
  rw [List.nil_append] at hf3
  refine ⟨d3, ts1, b, ?_, hf3, e6, ⟨?_, ?_, ?_, ?_, ?_, ?_, ?_⟩, ?_, hy1⟩
  · simp only [construct_first_, slot_ptr, slot, hb, h1, hfull, ne_eq, not_false_eq_true,
      if_true, bind_ok]
    rw [hd3]
  · rw [e2, e5, hbe]; exact hb
  · rw [e2, e6]; exact hb
  · rw [hd3]; rfl
  · rw [hd3]; rfl
  · rw [hd3]; simp [elem_end_, elem_begin_, Ptr.add]
  · rw [hd3]; rfl
  · rw [hd3]; simp [elem_end_, Ptr.add]
  · rw [hd3]; simp [elem_end_, Ptr.add]

/-- The second statement of `construct_` fills the further full blocks. -/
theorem construct_more_spec [Inhabited α] {B : Nat} (hB : 0 < B) {d0 d : deque α}
    (full : Nat) (ts : ctor_src α) (t tr : List α) (bf bl : Nat)
    (hf : Filled B d0 d t) (hlen : t.length = (d.block_elem_end_ - d.block_elem_begin_) * B)
    (he : FullEnds B d bf bl) (hl : d.elem_end_last_ = some ⟨bl, B⟩) (hy : Yields B ts tr)
    (hn : (full - 1) * B ≤ tr.length)
    (hsp : d.block_elem_end_ + (full - 1) ≤ d.block_alloc_end_) :
    ∃ d1 ts1 bl1, construct_more_ B d full ts = .ok (d1, ts1) ∧
      Filled B d0 d1 (t ++ tr.take ((full - 1) * B)) ∧
      d1.block_elem_end_ = d.block_elem_end_ + (full - 1) ∧ FullEnds B d1 bf bl1 ∧
      d1.elem_end_last_ = some ⟨bl1, B⟩ ∧ Yields B ts1 (tr.drop ((full - 1) * B)) := by
  by_cases h1 : full > 1
  · obtain ⟨d1, ts1, bl1, h2, hf1, hee1, he1, hy1, _⟩ :=
      construct_loop_spec hB (full - 1) d ts t tr bf bl hf hlen he hy hn hsp
    refine ⟨{ d1 with elem_end_last_ := d1.elem_end_end_ }, ts1, bl1, ?_,
      hf1.filled_of_cursors rfl rfl rfl rfl rfl rfl, hee1,
      ⟨he1.slot_first, he1.slot_last, he1.first, he1.fbegin, he1.fend, he1.bbegin, he1.bend⟩,
      he1.bend, hy1⟩
    simp [construct_more_, h1, h2]
  · have h0 : full - 1 = 0 := by omega
    refine ⟨d, ts, bl, ?_, ?_, ?_, he, hl, ?_⟩
    · simp [construct_more_, h1]
    · rw [h0]; simpa using hf
    · rw [h0]; rfl
    · rw [h0]; simpa using hy

end deque

end fast_io

namespace fast_io

namespace deque

variable {α : Type}

/-- The fill of the partial block of `construct_`. -/
theorem construct_part_spec [Inhabited α] {B : Nat} (hB : 0 < B) (d : deque α) (b : Nat)
    (cells : List (Option α)) (hb : d.blocks[b]? = some cells) (hcl : cells.length = B)
    (ts : ctor_src α) (t : List α) (hy : Yields B ts t) (hlen : t.length ≤ B) :
    ∃ d1, construct_part B d ⟨b, 0⟩ t.length ts = .ok d1 ∧ Wrote d d1 b 0 t := by
  cases ts with
  | value_init =>
    obtain ⟨d1, h1, hw⟩ := uninitialized_fill_spec (default : α) t.length d d b 0 [] cells hb
      (by simp [hcl, hlen]) (Wrote.wrote_nil d b 0)
    refine ⟨d1, ?_, ?_⟩
    · simp only [List.length_nil, Nat.add_zero] at h1
      simp [construct_part, h1]
    · unfold Yields at hy
      rw [hy]
      simpa using hw
  | fill v =>
    obtain ⟨d1, h1, hw⟩ := uninitialized_fill_spec v t.length d d b 0 [] cells hb
      (by simp [hcl, hlen]) (Wrote.wrote_nil d b 0)
    refine ⟨d1, ?_, ?_⟩
    · simp only [List.length_nil, Nat.add_zero] at h1
      simp [construct_part, h1]
    · unfold Yields at hy
      rw [hy]
      simpa using hw
  | range src first last =>
    obtain ⟨s, lo, hi, bf, bl, j, hsc, hsl, hsp, hsn, hfirst, hlast, hj, rfl⟩ := hy
    simp only [List.length_drop] at hlen
    obtain ⟨d1, h1, hw⟩ := uninitialized_copy_until_spec hsc hsl hB hsp hsn hlast B d d b 0 [] cells j
      first hb (by simp [hcl, hlen]) (Wrote.wrote_nil d b 0) hfirst hj hlen
    refine ⟨d1, ?_, ?_⟩
    · simp only [List.length_nil, Nat.add_zero] at h1
      simp [construct_part, h1]
    · simpa using hw

/-- The third statement of `construct_` fills the partial block and leaves the data model of
a deque whose elements start at offset 0. -/
theorem construct_rem_spec [Inhabited α] {B : Nat} (hB : 0 < B) {d0 d : deque α}
    (full : Nat) (ts : ctor_src α) (t tr : List α) (htr : tr.length < B)
    (hf : Filled B d0 d t) (hlen : t.length = (d.block_elem_end_ - d.block_elem_begin_) * B)
    (hends : (full = 0 ∧ Null d) ∨ (full ≠ 0 ∧ d.block_elem_begin_ < d.block_elem_end_ ∧
      ∃ bf bl, FullEnds B d bf bl ∧ d.elem_end_last_ = some ⟨bl, B⟩))
    (hy : Yields B ts tr) (hsp : tr.length ≠ 0 → d.block_elem_end_ < d.block_alloc_end_) :
    ∃ d1, construct_rem_ B d full tr.length ts = .ok d1 ∧ Ctl B d1 ∧
      ((t ++ tr = [] ∧ d1 = d) ∨ ∃ hi bf bl, Live B d1 (t ++ tr) 0 hi bf bl) ∧
      d1.block_elem_begin_ = d.block_elem_begin_ ∧
      d1.block_elem_end_ = d.block_elem_end_ + (if tr.length = 0 then 0 else 1) := by
  have hc := hf.ctl
  have hab := hc.ab_le
  have hbe := hc.be_le
  by_cases hr0 : tr.length = 0
  · have htr0 : tr = [] := List.length_eq_zero.1 hr0
    subst htr0
    refine ⟨d, by simp [construct_rem_], hc, ?_, rfl, by simp⟩
    rw [List.append_nil]
    rcases hends with ⟨_, hn⟩ | ⟨_, hpos, bf, bl, he, hl⟩
    · left
      have h0 : t.length = 0 := by rw [hlen, hn.blocks_eq]; simp
      exact ⟨List.length_eq_zero.1 h0, rfl⟩
    · right
      have hnB := @pred_mul_add (d.block_elem_end_ - d.block_elem_begin_) B (by omega)
      exact ⟨B, bf, bl, hf.live_of_filled hB hpos he.slot_first he.slot_last hB (Nat.le_refl B)
        (by omega) he.first he.fbegin (by rw [he.fend]; simp) he.bbegin he.bend hl⟩
  · have hsp1 := hsp hr0
    obtain ⟨b, cells, hb, hcells, hcl⟩ := hc.owned d.block_elem_end_ (by omega) (by omega)
    obtain ⟨d1, h1, hw⟩ := construct_part_spec hB d b cells hcells hcl ts tr hy (by omega)
    obtain ⟨bs, hbs⟩ := hw.same
    rcases hends with ⟨hfull, hn⟩ | ⟨hfull, hpos, bf, bl, he, hl⟩
    · obtain ⟨d3, hd3⟩ : ∃ d3 : deque α, d3 =
          { (d1.elem_end_ (some ⟨b, 0⟩) (some ((⟨b, 0⟩ : Ptr).add tr.length))
              (some ((⟨b, 0⟩ : Ptr).add B))).elem_begin_ (some ⟨b, 0⟩)
              (some ((⟨b, 0⟩ : Ptr).add tr.length)) (some ⟨b, 0⟩) with
            block_elem_end_ :=
              ((d1.elem_end_ (some ⟨b, 0⟩) (some ((⟨b, 0⟩ : Ptr).add tr.length))
                (some ((⟨b, 0⟩ : Ptr).add B))).elem_begin_ (some ⟨b, 0⟩)
                (some ((⟨b, 0⟩ : Ptr).add tr.length)) (some ⟨b, 0⟩)).block_elem_end_ + 1 } :=
        ⟨_, rfl⟩
      have e1 : d3.blocks = d1.blocks := by rw [hd3]; rfl
      have e2 : d3.ctrl = d.ctrl := by rw [hd3, hbs]; rfl
      have e3 : d3.block_alloc_begin_ = d.block_alloc_begin_ := by rw [hd3, hbs]; rfl
      have e4 : d3.block_alloc_end_ = d.block_alloc_end_ := by rw [hd3, hbs]; rfl
      have e5 : d3.block_elem_begin_ = d.block_elem_begin_ := by rw [hd3, hbs]; rfl
      have e6 : d3.block_elem_end_ = d.block_elem_end_ + 1 := by rw [hd3, hbs]; rfl
      have hf3 : Filled B d0 d3 (t ++ tr) :=
        hf.filled_step hB hlen hsp1 hb hw (by omega) e1 e2 e3 e4 e5 e6
      have hbeq := hn.blocks_eq
      have h0 : t.length = 0 := by rw [hlen, hbeq]; simp
      have hn1 : d3.block_elem_end_ - d3.block_elem_begin_ = 1 := by omega
      refine ⟨d3, ?_, hf3.ctl, Or.inr ⟨tr.length, b, b, ?_⟩, e5, by rw [e6, if_neg hr0]⟩
      · simp only [construct_rem_, slot_ptr, slot, hb, h1, hr0, hfull, ne_eq,
          not_false_eq_true, if_true, bind_ok]
        rw [hd3]
      · refine hf3.live_of_filled hB (by omega) (by rw [e2, e5, hbeq]; exact hb)
          (by rw [e2, e6]; exact hb) (by omega) (by omega)
          (by rw [hn1, List.length_append]; omega) ?_ ?_ ?_ ?_ ?_ ?_
        · rw [hd3]; rfl
        · rw [hd3]; rfl
        · rw [if_pos hn1, hd3]; simp [elem_end_, elem_begin_, Ptr.add]
        · rw [hd3]; rfl
        · rw [hd3]; simp [elem_end_, elem_begin_, Ptr.add]
        · rw [hd3]; simp [elem_end_, elem_begin_, Ptr.add]
    · obtain ⟨d3, hd3⟩ : ∃ d3 : deque α, d3 =
          { d1.elem_end_ (some ⟨b, 0⟩) (some ((⟨b, 0⟩ : Ptr).add tr.length))
              (some ((⟨b, 0⟩ : Ptr).add B)) with
            block_elem_end_ :=
              (d1.elem_end_ (some ⟨b, 0⟩) (some ((⟨b, 0⟩ : Ptr).add tr.length))
                (some ((⟨b, 0⟩ : Ptr).add B))).block_elem_end_ + 1 } := ⟨_, rfl⟩
      have e1 : d3.blocks = d1.blocks := by rw [hd3]; rfl
      have e2 : d3.ctrl = d.ctrl := by rw [hd3, hbs]; rfl
      have e3 : d3.block_alloc_begin_ = d.block_alloc_begin_ := by rw [hd3, hbs]; rfl
      have e4 : d3.block_alloc_end_ = d.block_alloc_end_ := by rw [hd3, hbs]; rfl
      have e5 : d3.block_elem_begin_ = d.block_elem_begin_ := by rw [hd3, hbs]; rfl
      have e6 : d3.block_elem_end_ = d.block_elem_end_ + 1 := by rw [hd3, hbs]; rfl
      have e7 : d3.elem_begin_first_ = d.elem_begin_first_ := by rw [hd3, hbs]; rfl
      have e8 : d3.elem_begin_begin_ = d.elem_begin_begin_ := by rw [hd3, hbs]; rfl
      have e9 : d3.elem_begin_end_ = d.elem_begin_end_ := by rw [hd3, hbs]; rfl
      have hf3 : Filled B d0 d3 (t ++ tr) :=
        hf.filled_step hB hlen hsp1 hb hw (by omega) e1 e2 e3 e4 e5 e6
      have hn1 : ¬ (d3.block_elem_end_ - d3.block_elem_begin_ = 1) := by omega
      have hn2 : d3.block_elem_end_ - d3.block_elem_begin_ - 1
          = d.block_elem_end_ - d.block_elem_begin_ := by omega
      refine ⟨d3, ?_, hf3.ctl, Or.inr ⟨tr.length, bf, b, ?_⟩, e5, by rw [e6, if_neg hr0]⟩
      · simp only [construct_rem_, slot_ptr, slot, hb, h1, hr0, hfull, ne_eq,
          not_false_eq_true, if_true, if_false, bind_ok]
        rw [hd3]
      · refine hf3.live_of_filled hB (by omega) (by rw [e2, e5]; exact he.slot_first)
          (by rw [e2, e6]; exact hb) (by omega) (by omega)
          (by rw [hn2, List.length_append]; omega) ?_ ?_ ?_ ?_ ?_ ?_
        · rw [e7]; exact he.first
        · rw [e8]; exact he.fbegin
        · rw [if_neg hn1, e9]; exact he.fend
        · rw [hd3]; rfl
        · rw [hd3]; simp [elem_end_, Ptr.add]
        · rw [hd3]; simp [elem_end_, Ptr.add]

end deque

end fast_io

namespace fast_io

namespace deque

variable {α : Type}

/-- The member `construct_` on a deque without elements whose spare blocks suffice: the
deque holds the sequence that the arguments stand for, from offset 0 of the first block. -/
theorem construct_spec [Inhabited α] {B : Nat} (hB : 0 < B) {d0 : deque α} (hc : Ctl B d0)
    (hn : Null d0) (full rem : Nat) (hrem : rem < B) (ts : ctor_src α) (t : List α)
    (hy : Yields B ts t) (hlen : t.length = full * B + rem)
    (hsp : d0.block_elem_end_ + full + (if rem = 0 then 0 else 1) ≤ d0.block_alloc_end_) :
    ∃ d1, construct_ B d0 full rem ts = .ok d1 ∧ Ctl B d1 ∧
      ((t = [] ∧ d1 = d0) ∨ ∃ hi bf bl, Live B d1 t 0 hi bf bl) ∧
      d1.block_elem_begin_ = d0.block_elem_begin_ ∧
      d1.block_elem_end_ = d0.block_elem_end_ + full + (if rem = 0 then 0 else 1) := by
  have hbe := hn.blocks_eq
  by_cases hfull : full = 0
  · subst hfull
    have hlen0 : ([] : List α).length = (d0.block_elem_end_ - d0.block_elem_begin_) * B := by
      rw [hbe]; simp
    have htl : t.length = rem := by omega
    obtain ⟨d1, h1, hc1, hs1, heb1, hee1⟩ := construct_rem_spec hB 0 ts [] t (by omega)
      (Filled.filled_init hc) hlen0 (Or.inl ⟨rfl, hn⟩) hy
      (by intro h; rw [htl] at h; rw [if_neg h] at hsp; omega)
    rw [htl] at h1 hee1
    refine ⟨d1, ?_, hc1, by simpa using hs1, heb1, by omega⟩
    simp [construct_, construct_first_, construct_more_, h1]
  · have hfB : B ≤ full * B := Nat.le_mul_of_pos_left B (by omega)
    have hpm := @pred_mul_add full B (by omega)
    obtain ⟨d1, ts1, b0, h1, hf1, hee1, he1, hl1, hy1⟩ := construct_first_spec hB hc hn full
      hfull (by omega) ts t hy (by omega)
    have heb1 := hf1.eb_eq
    have hae1 := hf1.ae_eq
    have hlen1 : (t.take B).length = (d1.block_elem_end_ - d1.block_elem_begin_) * B := by
      have e : d1.block_elem_end_ - d1.block_elem_begin_ = 1 := by omega
      rw [e, List.length_take]
      omega
    obtain ⟨d2, ts2, bl2, h2, hf2, hee2, he2, hl2, hy2⟩ := construct_more_spec hB full ts1
      (t.take B) (t.drop B) b0 b0 hf1 hlen1 he1 hl1 hy1
      (by simp only [List.length_drop]; omega) (by omega)
    have heb2 := hf2.eb_eq
    have hae2 := hf2.ae_eq
    have hlen2 : (t.take B ++ (t.drop B).take ((full - 1) * B)).length
        = (d2.block_elem_end_ - d2.block_elem_begin_) * B := by
      have e : d2.block_elem_end_ - d2.block_elem_begin_ = full := by omega
      rw [e, List.length_append, List.length_take, List.length_take, List.length_drop]
      omega
    have htl : ((t.drop B).drop ((full - 1) * B)).length = rem := by
      simp only [List.length_drop]; omega
    obtain ⟨d3, h3, hc3, hs3, heb3, hee3⟩ := construct_rem_spec hB full ts2
      (t.take B ++ (t.drop B).take ((full - 1) * B)) ((t.drop B).drop ((full - 1) * B))
      (by omega) hf2 hlen2 (Or.inr ⟨hfull, by omega, b0, bl2, he2, hl2⟩) hy2
      (by intro h; rw [htl] at h; rw [if_neg h] at hsp; omega)
    rw [htl] at h3 hee3
    rw [List.append_assoc, List.take_append_drop, List.take_append_drop] at hs3
    refine ⟨d3, ?_, hc3, ?_, by omega, by omega⟩
    · simp [construct_, h1, h2, h3]
    · rcases hs3 with ⟨h, _⟩ | h
      · exfalso
        rw [h] at hlen
        simp at hlen
        omega
      · exact Or.inr h

/-- The block count of `calc_cap` is the count of full blocks, plus one for a remainder,
while the sum inside `calc_cap` does not wrap. -/
theorem calc_cap_block_size {B : Nat} (hB : 0 < B) (n : Nat) (hfit : n + B ≤ SIZE_RANGE) :
    (calc_cap B n).block_size
      = (calc_cap B n).full_blocks + (if (calc_cap B n).rem_elems = 0 then 0 else 1) := by
  simp only [calc_cap]
  rw [Nat.mod_eq_of_lt (by omega)]
  have h1 := div_mul_add_mod n B
  have h2 : n % B < B := Nat.mod_lt _ hB
  by_cases hr : n % B = 0
  · rw [if_pos hr]
    exact (@div_mod_of_eq B (n / B) (B - 1) (n + B - 1) (by omega) (by omega)).1
  · rw [if_neg hr]
    exact (@div_mod_of_eq B (n / B + 1) (n % B - 1) (n + B - 1)
      (by rw [Nat.add_mul, Nat.one_mul]; omega) (by omega)).1

/-- The member `extent_block_` on a deque without control array. -/
theorem extent_block_fresh {B : Nat} {d : deque α} (hc : Ctl B d) (hn : Null d)
    (h0 : d.ctrl = []) (n : Nat) :
    ∃ d1, extent_block_ B d n = .ok d1 ∧ Ctl B d1 ∧ Null d1 ∧
      d1.block_elem_end_ + n ≤ d1.block_alloc_end_ ∧ (n = 0 → d1 = d) := by
  by_cases hn0 : n = 0
  · subst hn0
    exact ⟨d, by simp [extent_block_], hc, hn, hc.ee_le, fun _ => rfl⟩
  · have hc2 : Ctl B ((d.new_ctrl n).2.replace_ctrl (d.new_ctrl n).1) :=
      ⟨Nat.le_refl _, Nat.le_refl _, Nat.le_refl _, Nat.zero_le _,
        fun k _ h2 => absurd h2 (Nat.not_lt_zero k),
        fun k _ _ h2 => absurd h2 (Nat.not_lt_zero k)⟩
    have hn2 : Null ((d.new_ctrl n).2.replace_ctrl (d.new_ctrl n).1) :=
      ⟨rfl, hn.first, hn.fbegin, hn.fend, hn.bbegin, hn.bend, hn.blast⟩
    obtain ⟨d3, h3, hc3, hm3, hae3, _, heb3, hee3, _⟩ :=
      extent_block_back_uncond_spec hc2 n (by omega)
        (by simpa [replace_ctrl, new_ctrl] using ctrl_alloc_ge n)
    refine ⟨d3, ?_, hc3, hm3.null hn2 hc3.be_le, ?_, fun h => absurd h hn0⟩
    · unfold extent_block_ block_ctrl_size_ block_ctrl_end_
      rw [if_pos hn0, h0]
      simpa using h3
    · rw [hee3, hae3]
      simp [replace_ctrl]

end deque

end fast_io

namespace fast_io

namespace deque

variable {α : Type}

/-! ## Constructors -/

/-- Allocation by `extent_block_` and construction by `construct_`, from a deque without
control array. -/
theorem build_spec [Inhabited α] {B : Nat} (hB : 0 < B) {d : deque α} (hc : Ctl B d)
    (hn : Null d) (h0 : d.ctrl = []) (ts : ctor_src α) (t : List α) (hy : Yields B ts t)
    (hfit : t.length + B ≤ SIZE_RANGE) :
    ∃ d1 d2, extent_block_ B d (calc_cap B t.length).block_size = .ok d1 ∧
      construct_ B d1 (calc_cap B t.length).full_blocks (calc_cap B t.length).rem_elems ts
        = .ok d2 ∧
      Ctl B d2 ∧ ((t = [] ∧ d2 = d) ∨ ∃ hi bf bl, Live B d2 t 0 hi bf bl) ∧
      d2.block_elem_end_ - d2.block_elem_begin_ = (calc_cap B t.length).block_size := by
  obtain ⟨d1, h1, hc1, hn1, hsp1, hz1⟩ :=
    extent_block_fresh hc hn h0 (calc_cap B t.length).block_size
  have hcap := calc_cap_block_size hB t.length hfit
  have hbe1 := hn1.blocks_eq
  obtain ⟨d2, h2, hc2, hs2, heb2, hee2⟩ := construct_spec hB hc1 hn1
    (calc_cap B t.length).full_blocks (calc_cap B t.length).rem_elems (Nat.mod_lt _ hB) ts t hy
    (div_mul_add_mod t.length B).symm (by omega)
  refine ⟨d1, d2, h1, h2, hc2, ?_, by omega⟩
  rcases hs2 with ⟨ht, hd⟩ | h
  · left
    refine ⟨ht, ?_⟩
    rw [hd]
    apply hz1
    rw [ht]
    simp only [calc_cap, List.length_nil, Nat.zero_add]
    rw [Nat.mod_eq_of_lt (by rw [ht] at hfit; simp only [List.length_nil] at hfit; omega)]
    exact Nat.div_eq_of_lt (by omega)
  · exact Or.inr h

theorem Null.null_init : Null ({} : deque α) := ⟨rfl, rfl, rfl, rfl, rfl, rfl, rfl⟩

theorem Yields.of_fill [Inhabited α] (B n : Nat) (v : α) :
    Yields B (.fill v) (List.replicate n v) := by
  simp [Yields]

theorem Yields.of_value_init [Inhabited α] (B n : Nat) :
    Yields B (.value_init : ctor_src α) (List.replicate n default) := by
  simp [Yields]

theorem mk_fill_spec [Inhabited α] {B : Nat} (hB : 0 < B) (count : Nat) (v : α)
    (hfit : count + B ≤ SIZE_RANGE) :
    ∃ d, mk_fill B count v = .ok d ∧ Ctl B d ∧
      ((count = 0 ∧ d = {}) ∨ ∃ hi bf bl, Live B d (List.replicate count v) 0 hi bf bl) ∧
      d.block_elem_end_ - d.block_elem_begin_ = (calc_cap B count).block_size := by
  obtain ⟨d1, d2, h1, h2, hc2, hs2, hn2⟩ := build_spec hB (Ctl.ctl_init B) Null.null_init
    rfl (ctor_src.fill v) (List.replicate count v) (Yields.of_fill B count v)
    (by simpa using hfit)
  simp only [List.length_replicate] at h1 h2 hn2
  refine ⟨d2, by simp [mk_fill, h1, h2], hc2, ?_, hn2⟩
  rcases hs2 with ⟨ht, hd⟩ | h
  · exact Or.inl ⟨by simpa using congrArg List.length ht, hd⟩
  · exact Or.inr h

theorem mk_count_spec [Inhabited α] {B : Nat} (hB : 0 < B) (count : Nat)
    (hfit : count + B ≤ SIZE_RANGE) :
    ∃ d : deque α, mk_count B count = .ok d ∧ Ctl B d ∧
      ((count = 0 ∧ d = {}) ∨
        ∃ hi bf bl, Live B d (List.replicate count (default : α)) 0 hi bf bl) ∧
      d.block_elem_end_ - d.block_elem_begin_ = (calc_cap B count).block_size := by
  obtain ⟨d1, d2, h1, h2, hc2, hs2, hn2⟩ := build_spec hB (Ctl.ctl_init B) Null.null_init
    rfl ctor_src.value_init (List.replicate count (default : α))
    (Yields.of_value_init B count) (by simpa using hfit)
  simp only [List.length_replicate] at h1 h2 hn2
  refine ⟨d2, by simp [mk_count, h1, h2], hc2, ?_, hn2⟩
  rcases hs2 with ⟨ht, hd⟩ | h
  · exact Or.inl ⟨by simpa using congrArg List.length ht, hd⟩
  · exact Or.inr h

end deque

end fast_io

namespace fast_io

namespace deque

variable {α : Type}

theorem to_size_t_nat (n : Nat) (h : n < SIZE_RANGE) : to_size_t (n : Int) = n := by
  unfold to_size_t
  rw [Int.emod_eq_of_lt (Int.ofNat_nonneg n) (by exact_mod_cast h)]
  exact Int.toNat_ofNat n

/-- The member `from_range_noguard_` on a default-constructed deque, for the iterator pair
`(begin(), end())` of a deque in a state of the data model whose first element block does not
begin where a full last block ends: the result holds the same sequence. -/
theorem from_range_spec [Inhabited α] {B : Nat} (hB : 0 < B) {src : deque α} {s : List α}
    (hr : Rep B src s) (hp : Placed B src) (hna : EndApart B src)
    (hfit : s.length + B ≤ SIZE_RANGE) :
    ∃ first last d, src.begin_ = .ok first ∧ src.end_ = .ok last ∧
      from_range_noguard_ B ({} : deque α) src first last = .ok d ∧ Rep B d s := by
  rcases hr.shape with ⟨rfl, hn⟩ | ⟨lo, hi, bf, bl, hl⟩
  · have h0 : src.block_elem_size_ = 0 := by
      unfold block_elem_size_; rw [hn.blocks_eq]; simp
    refine ⟨⟨none, none, none, none⟩, ⟨none, none, none, none⟩, {}, by simp [begin_, h0],
      by simp [end_, h0], ?_, Rep.rep_init B⟩
    simp [from_range_noguard_, deque_iterator.eq, deque.addr]
  · obtain ⟨first, hb, hfirst⟩ := hl.iter_begin
    obtain ⟨last, he, hlast⟩ := hl.iter_end
    have hne : ¬ (first.eq src last = true) := by
      intro h
      have := (hfirst.eq_end_iff hr.ctl hl hB hp hna hlast).1 h
      have := hl.len_pos
      omega
    have hdiff := hfirst.diff_end hl hlast
    have hy : Yields B (ctor_src.range src first last) s :=
      ⟨s, lo, hi, bf, bl, 0, hr.ctl, hl, hp, hna, hfirst, hlast, Nat.zero_le _, rfl⟩
    obtain ⟨d1, d2, h1, h2, hc2, hs2, _⟩ := build_spec hB (Ctl.ctl_init B) Null.null_init rfl
      (ctor_src.range src first last) s hy hfit
    refine ⟨first, last, d2, hb, he, ?_, hc2, ?_⟩
    · simp only [from_range_noguard_, hne, hdiff, not_false_eq_true, if_true, bind_ok,
        Nat.cast_zero, sub_zero, to_size_t_nat s.length (by omega), h1, h2]
      simp
    · rcases hs2 with ⟨ht, hd⟩ | h
      · exact Or.inl ⟨ht, by rw [hd]; exact Null.null_init⟩
      · exact Or.inr ⟨0, h⟩

/-- The copy constructor leaves a deque that holds the sequence of the source, when no
element block of the source begins where its full last block ends. -/
theorem mk_copy_spec [Inhabited α] {B : Nat} (hB : 0 < B) {src : deque α} {s : List α}
    (hr : Rep B src s) (hp : Placed B src) (hna : EndApart B src)
    (hfit : s.length + B ≤ SIZE_RANGE) :
    ∃ d, mk_copy B src = .ok d ∧ Rep B d s := by
  by_cases hs : s = []
  · subst hs
    have he := hr.empty_iff.2 rfl
    exact ⟨{}, by simp [mk_copy, he], Rep.rep_init B⟩
  · have he : ¬ (src.empty = true) := fun h => hs (hr.empty_iff.1 h)
    obtain ⟨first, last, d, h1, h2, h3, hd⟩ := from_range_spec hB hr hp hna hfit
    exact ⟨d, by simp [mk_copy, he, h1, h2, h3], hd⟩

/-- The layout of a state of the data model whose elements start at offset 0. -/
theorem Live.sized_layout_of_live {B : Nat} (hB : 0 < B) {d : deque α} {t : List α}
    {hi bf bl : Nat} (hl : Live B d t 0 hi bf bl) : sized_layout B t.length d := by
  have hpos := hl.blocks_pos
  have hlen := hl.len_eq
  have hhi := hl.hi_pos
  have hle := hl.hi_le
  have hnB := @pred_mul_add (d.block_elem_end_ - d.block_elem_begin_) B (by omega)
  refine ⟨⟨by omega, by omega⟩, by rw [hl.fbegin, hl.first], ?_, ?_, ?_⟩
  · rw [hl.blast, hl.bbegin]
    simp [Ptr.add]
  · intro _
    rw [hl.first, hl.bbegin]
    exact ⟨by simp, by simp⟩
  · intro h0
    have hlt : t.length < B := (Nat.div_eq_zero_iff hB).1 h0
    have hn1 : d.block_elem_end_ - d.block_elem_begin_ = 1 := by
      by_contra hne
      have := Nat.le_mul_of_pos_left B
        (by omega : 0 < d.block_elem_end_ - d.block_elem_begin_ - 1)
      omega
    have hsl := hl.slot_last
    have e : d.block_elem_end_ - 1 = d.block_elem_begin_ := by omega
    rw [e, hl.slot_first] at hsl
    injection hsl with hsl; injection hsl with hsl
    subst hsl
    rw [hl.fbegin, hl.bbegin, hl.fend, hl.bend, if_pos hn1, if_pos hn1]
    exact ⟨rfl, rfl⟩

theorem sized_layout_init {B : Nat} (hB : 0 < B) : sized_layout B 0 ({} : deque α) :=
  ⟨⟨Nat.zero_le _, by simpa using hB⟩, rfl, rfl, fun h => absurd rfl h, fun _ => ⟨rfl, rfl⟩⟩

end deque

end fast_io

namespace fast_io

namespace deque

variable {α : Type}

/-! ## Assignment through iterators and `erase` -/

/-- An iterator of a state stays an iterator of a state with the same control array, the
same element blocks and as many elements. -/
theorem IterAt.iter_of_frame {B : Nat} {d d1 : deque α} {s s1 : List α} {lo hi bl j : Nat}
    {it : deque_iterator} (h : IterAt B d s lo hi bl j it) (e1 : d1.ctrl = d.ctrl)
    (e2 : d1.block_elem_begin_ = d.block_elem_begin_)
    (e3 : d1.block_elem_end_ = d.block_elem_end_) (e4 : s1.length = s.length) :
    IterAt B d1 s1 lo hi bl j it := by
  unfold IterAt at h ⊢
  rw [e1, e2, e3, e4]
  exact h

/-- The store of `v` to the element of index `j` leaves the data model of the sequence with
`v` at index `j`. -/
theorem Live.write_elem {B : Nat} {d : deque α} {s : List α} {lo hi bf bl : Nat}
    (hc : Ctl B d) (hl : Live B d s lo hi bf bl) (hB : 0 < B) (j : Nat) (hj : j < s.length)
    (b : Nat) (hb : d.ctrl[d.block_elem_begin_ + (lo + j) / B]? = some (some b)) (v : α) :
    ∃ d1, d.write ⟨b, (lo + j) % B⟩ v = .ok d1 ∧ Ctl B d1 ∧ Live B d1 (s.set j v) lo hi bf bl ∧
      d1.ctrl = d.ctrl ∧ d1.block_elem_begin_ = d.block_elem_begin_ ∧
      d1.block_elem_end_ = d.block_elem_end_ := by
  have hab := hc.ab_le
  have hee := hc.ee_le
  obtain ⟨hs1, _⟩ := hl.slot_lt hB j hj
  have hmod : (lo + j) % B < B := Nat.mod_lt _ hB
  have hdmj := div_mul_add_mod (lo + j) B
  generalize hqj : (lo + j) / B = qj at *
  generalize hrj : (lo + j) % B = rj at *
  obtain ⟨cells, hcells, hcl⟩ := hc.block_of_slot (by omega : d.block_alloc_begin_ ≤
    d.block_elem_begin_ + qj) (by omega) hb
  have hw := write_eq d ⟨b, rj⟩ v cells hcells (by simp only; omega)
  have hrd := read_poke d ⟨b, rj⟩
  refine ⟨_, hw, ?_, ?_, rfl, rfl, rfl⟩
  · exact hc.of_frame rfl rfl rfl rfl rfl
      (fun b1 cs h1 => blocks_poke d ⟨b, rj⟩ v cells hcells b1 cs h1)
  · refine ⟨hl.blocks_pos, hl.slot_first, hl.slot_last, hl.lo_lt, hl.hi_pos, hl.hi_le,
      by rw [List.length_set]; exact hl.len_pos, by rw [List.length_set]; exact hl.len_eq,
      hl.first, hl.fbegin, hl.fend, hl.bbegin, hl.bend, hl.blast, ?_⟩
    intro i hi'
    have hi2 : i < s.length := by rw [List.length_set] at hi'; exact hi'
    obtain ⟨bi, hbi, hri⟩ := hl.elems i hi2
    refine ⟨bi, hbi, ?_⟩
    rw [hrd _ v cells hcells (by simp only; omega), List.getElem_set]
    by_cases hij : j = i
    · subst hij
      rw [hqj] at hbi
      rw [hb] at hbi
      injection hbi with hbi; injection hbi with hbi
      subst hbi
      rw [hrj]
      simp
    · have hne : ¬ ((⟨bi, (lo + i) % B⟩ : Ptr) = ⟨b, rj⟩) := by
        intro he
        injection he with he1 he2
        subst he1
        obtain ⟨hsi, _⟩ := hl.slot_lt hB i hi2
        have hdmi := div_mul_add_mod (lo + i) B
        generalize (lo + i) / B = qi at *
        have := hc.slot_inj (d.block_elem_begin_ + qi) (d.block_elem_begin_ + qj) (by omega)
          (by omega) (by omega) (by omega) hbi hb
        have hq : qi = qj := by omega
        subst hq
        omega
      rw [if_neg hne, if_neg hij, hri]

/-- Assignment through the iterator at index `j`. -/
theorem IterAt.assign_spec {B : Nat} {d : deque α} {s : List α} {lo hi bf bl j : Nat}
    {it : deque_iterator} (hc : Ctl B d) (hl : Live B d s lo hi bf bl) (hB : 0 < B)
    (hit : IterAt B d s lo hi bl j it) (hj : j < s.length) (v : α) :
    ∃ p d1, it.deref_ptr B = .ok p ∧ d.write p v = .ok d1 ∧ Ctl B d1 ∧
      Live B d1 (s.set j v) lo hi bf bl ∧ d1.ctrl = d.ctrl ∧
      d1.block_elem_begin_ = d.block_elem_begin_ ∧
      d1.block_elem_end_ = d.block_elem_end_ := by
  obtain ⟨b, hb, hp⟩ := hit.deref_ptr_eq hB hj
  obtain ⟨d1, h1, h2⟩ := hl.write_elem hc hB j hj b hb v
  exact ⟨_, d1, hp, h1, h2⟩

/-- The contract of `std::ranges::move` from the index `r + 1` up to the end onto the index
`r`: the elements from `r + 1` on move down by one and the last one stays. -/
theorem iter_move_spec {B : Nat} (hB : 0 < B) {lo hi bf bl : Nat} (n : Nat) :
    ∀ (d : deque α) (t : List α) (r : Nat) (first result : deque_iterator),
      Ctl B d → Live B d t lo hi bf bl → IterAt B d t lo hi bl (r + 1) first →
      IterAt B d t lo hi bl r result → r + 1 + n = t.length →
      ∃ d1 t1, iter_move B n first result d = .ok d1 ∧ Ctl B d1 ∧
        Live B d1 t1 lo hi bf bl ∧ t1.length = t.length ∧
        (∀ i (h1 : i < t1.length) (h2 : i < t.length), i < r ∨ i + 1 = t.length →
          t1[i] = t[i]) ∧
        (∀ i (h1 : i < t1.length) (h2 : i + 1 < t.length), r ≤ i → t1[i] = t[i + 1]) := by
  induction n with
  | zero =>
    intro d t r first result hc hl _ _ hlen
    exact ⟨d, t, rfl, hc, hl, rfl, fun i _ _ _ => rfl, fun i _ h2 h3 => by omega⟩
  | succ n ih =>
    intro d t r first result hc hl hf hr hlen
    have hlt1 : r + 1 < t.length := by omega
    have hv := hf.deref_eq hl hB hlt1
    obtain ⟨p, d1, hp, hw, hc1, hl1, e1, e2, e3⟩ :=
      hr.assign_spec hc hl hB (by omega : r < t.length) t[r + 1]
    have hlen1 : (t.set r t[r + 1]).length = t.length := List.length_set _ _ _
    have hf1 := hf.iter_of_frame e1 e2 e3 hlen1
    have hr1 := hr.iter_of_frame e1 e2 e3 hlen1
    obtain ⟨first1, hi1, hf2⟩ := hf1.inc_spec hc1 hl1 hB (by omega)
    obtain ⟨result1, hi2, hr2⟩ := hr1.inc_spec hc1 hl1 hB (by omega)
    obtain ⟨d2, t2, h2, hc2, hl2, hlen2, hk1, hk2⟩ :=
      ih d1 _ (r + 1) first1 result1 hc1 hl1 hf2 hr2 (by omega)
    refine ⟨d2, t2, ?_, hc2, hl2, by omega, ?_, ?_⟩
    · simp only [iter_move, hv, hp, hw, hi1, hi2, bind_ok]
      exact h2
    · intro i h1 h3 hcase
      rw [hk1 i h1 (by omega) (by omega), List.getElem_set]
      have hne : ¬ (r = i) := by omega
      rw [if_neg hne]
    · intro i h1 h3 hri
      by_cases hir : i = r
      · subst hir
        rw [hk1 i h1 (by omega) (by omega), List.getElem_set]
        simp
      · rw [hk2 i h1 (by omega) (by omega), List.getElem_set]
        have hne : ¬ (r = i + 1) := by omega
        rw [if_neg hne]

/-- The contract of `std::ranges::move_backward` of the elements below the index `n` onto
the indices up to `n`: they move up by one and the first one stays. -/
theorem iter_move_backward_spec {B : Nat} (hB : 0 < B) {lo hi bf bl : Nat} (n : Nat) :
    ∀ (d : deque α) (t : List α) (last result : deque_iterator),
      Ctl B d → Live B d t lo hi bf bl → IterAt B d t lo hi bl n last →
      IterAt B d t lo hi bl (n + 1) result → n + 1 ≤ t.length →
      ∃ d1 t1, iter_move_backward B n last result d = .ok d1 ∧ Ctl B d1 ∧
        Live B d1 t1 lo hi bf bl ∧ t1.length = t.length ∧
        (∀ i (h1 : i < t1.length) (h2 : i < t.length), i = 0 ∨ n < i → t1[i] = t[i]) ∧
        (∀ i (h1 : i + 1 < t1.length) (h2 : i < t.length), i < n → t1[i + 1] = t[i]) := by
  induction n with
  | zero =>
    intro d t last result hc hl _ _ hlen
    exact ⟨d, t, rfl, hc, hl, rfl, fun i _ _ _ => rfl, fun i _ h2 h3 => by omega⟩
  | succ n ih =>
    intro d t last result hc hl hla hre hlen
    obtain ⟨last1, hd1, hla1⟩ := hla.dec_spec hc hl hB
    obtain ⟨result1, hd2, hre1⟩ := hre.dec_spec hc hl hB
    have hlt1 : n < t.length := by omega
    have hv := hla1.deref_eq hl hB hlt1
    obtain ⟨p, d1, hp, hw, hc1, hl1, e1, e2, e3⟩ :=
      hre1.assign_spec hc hl hB (by omega : n + 1 < t.length) t[n]
    have hlen1 : (t.set (n + 1) t[n]).length = t.length := List.length_set _ _ _
    have hla2 := hla1.iter_of_frame e1 e2 e3 hlen1
    have hre2 := hre1.iter_of_frame e1 e2 e3 hlen1
    obtain ⟨d2, t2, h2, hc2, hl2, hlen2, hk1, hk2⟩ :=
      ih d1 _ last1 result1 hc1 hl1 hla2 hre2 (by omega)
    refine ⟨d2, t2, ?_, hc2, hl2, by omega, ?_, ?_⟩
    · simp only [iter_move_backward, hd1, hd2, hv, hp, hw, bind_ok]
      exact h2
    · intro i h1 h3 hcase
      rw [hk1 i h1 (by omega) (by omega), List.getElem_set]
      have hne : ¬ (n + 1 = i) := by omega
      rw [if_neg hne]
    · intro i h1 h3 hin
      by_cases hi' : i = n
      · subst hi'
        rw [hk1 (i + 1) h1 (by omega) (by omega), List.getElem_set]
        simp
      · rw [hk2 i (by omega) (by omega) (by omega), List.getElem_set]
        have hne : ¬ (n + 1 = i) := by omega
        rw [if_neg hne]

/-- The iterator at an index is unique. -/
theorem IterAt.iter_unique {B : Nat} {d : deque α} {s : List α} {lo hi bl j : Nat}
    {it1 it2 : deque_iterator} (h1 : IterAt B d s lo hi bl j it1)
    (h2 : IterAt B d s lo hi bl j it2) : it1 = it2 := by
  rcases h1 with ⟨hj1, b1, hb1, e1⟩ | ⟨hj1, e1⟩
  · rcases h2 with ⟨_, b2, hb2, e2⟩ | ⟨hj2, _⟩
    · rw [hb1] at hb2
      injection hb2 with hb2; injection hb2 with hb2
      subst hb2
      rw [e1, e2]
    · omega
  · rcases h2 with ⟨hj2, _⟩ | ⟨_, e2⟩
    · omega
    · rw [e1, e2]

/-- On a deque without elements `begin()` and `end()` are the null iterator. -/
theorem Null.begin_end {d : deque α} (hn : Null d) :
    d.begin_ = .ok ⟨none, none, none, none⟩ ∧ d.end_ = .ok ⟨none, none, none, none⟩ := by
  have h0 : d.block_elem_size_ = 0 := by
    unfold block_elem_size_; rw [hn.blocks_eq]; simp
  exact ⟨by simp [begin_, h0], by simp [end_, h0]⟩

theorem begin_plus_zero {B : Nat} {d : deque α} {b : deque_iterator} (h : d.begin_ = .ok b) :
    begin_plus B d 0 = .ok b := by
  simp [begin_plus, h, deque_iterator.plus_and_assign_]

theorem eraseIdx_last_eq_dropLast (s : List α) (p : Nat) (h : p + 1 = s.length) :
    s.eraseIdx p = s.dropLast := by
  apply List.ext_getElem
  · rw [List.length_eraseIdx, List.length_dropLast, if_pos (by omega)]
  · intro i h1 h2
    rw [List.length_dropLast] at h2
    rw [List.getElem_eraseIdx_of_lt _ _ _ _ (by omega), List.getElem_dropLast]

/-- The sequence left by the move of the tail and `pop_back`. -/
theorem eraseIdx_of_move (s t1 : List α) (p : Nat) (hp : p < s.length)
    (hlen : t1.length = s.length)
    (hk1 : ∀ i (h1 : i < t1.length) (h2 : i < s.length), i < p ∨ i + 1 = s.length →
      t1[i] = s[i])
    (hk2 : ∀ i (h1 : i < t1.length) (h2 : i + 1 < s.length), p ≤ i → t1[i] = s[i + 1]) :
    t1.dropLast = s.eraseIdx p := by
  apply List.ext_getElem
  · rw [List.length_eraseIdx, List.length_dropLast, if_pos hp, hlen]
  · intro i h1 h2
    rw [List.length_dropLast] at h1
    rw [List.getElem_dropLast]
    by_cases hip : i < p
    · rw [List.getElem_eraseIdx_of_lt _ _ _ _ hip, hk1 i (by omega) (by omega) (Or.inl hip)]
    · rw [List.getElem_eraseIdx_of_ge _ _ _ _ (by omega), hk2 i (by omega) (by omega) (by omega)]

/-- The sequence left by the backward move of the head and `pop_front`. -/
theorem eraseIdx_of_move_backward (s t1 : List α) (p : Nat) (hp : p < s.length)
    (hlen : t1.length = s.length)
    (hk1 : ∀ i (h1 : i < t1.length) (h2 : i < s.length), i = 0 ∨ p < i → t1[i] = s[i])
    (hk2 : ∀ i (h1 : i + 1 < t1.length) (h2 : i < s.length), i < p → t1[i + 1] = s[i]) :
    t1.tail = s.eraseIdx p := by
  apply List.ext_getElem
  · rw [List.length_eraseIdx, List.length_tail, if_pos hp, hlen]
  · intro i h1 h2
    rw [List.length_tail] at h1
    rw [List.getElem_tail]
    by_cases hip : i < p
    · rw [List.getElem_eraseIdx_of_lt _ _ _ _ hip, hk2 i (by omega) (by omega) hip]
    · rw [List.getElem_eraseIdx_of_ge _ _ _ _ (by omega),
        hk1 (i + 1) (by omega) (by omega) (by omega)]

end deque

end fast_io

namespace fast_io

theorem block_elements_v_ge (sizeofT : Nat) : 16 ≤ block_elements_v sizeofT := by
  unfold block_elements_v
  split <;> omega

theorem block_elements_v_pos (sizeofT : Nat) : 0 < block_elements_v sizeofT := by
  have := block_elements_v_ge sizeofT
  omega

namespace deque

variable {α : Type}

/-! ## Reachable states satisfy the data model -/

theorem Rep.holds {B : Nat} {d : deque α} {s : List α} (hr : Rep B d s) (hB : 0 < B)
    (hfit : s.length + B ≤ SIZE_RANGE) : Holds B d s :=
  ⟨hr.size_eq, fun i h => hr.index_eq hB hfit i h⟩

theorem Rep.unique {B : Nat} {d : deque α} {s t : List α} (hr : Rep B d s) (hB : 0 < B)
    (hfit : t.length + B ≤ SIZE_RANGE) (ht : Holds B d t) : s = t := by
  have hlen : s.length = t.length := by rw [← hr.size_eq, ht.1]
  apply List.ext_getElem hlen
  intro i h1 h2
  have e1 := hr.index_eq hB (by omega) i h1
  have e2 := ht.2 i h2
  rw [e1] at e2
  injection e2

theorem pop_back_of_empty {B : Nat} {d : deque α} (h : d.empty = true) :
    pop_back B d = .error .terminate := by
  unfold pop_back
  rw [if_pos h]

theorem pop_front_of_empty {B : Nat} {d : deque α} (h : d.empty = true) :
    pop_front B d = .error .terminate := by
  unfold pop_front
  rw [if_pos h]

theorem Reachable.rep_of_reachable {B : Nat} (hB : 0 < B) {d : deque α} (h : Reachable B d) :
    ∃ s, Rep B d s := by
  induction h with
  | init => exact ⟨[], Rep.rep_init B⟩
  | placed pl _ ih =>
    obtain ⟨s, hs⟩ := ih
    exact ⟨s, hs.rep_re_placed pl⟩
  | mk_count count hfit he =>
    obtain ⟨d2, e, hc, hs, _⟩ := @mk_count_spec α _ B hB count hfit
    rw [he] at e; injection e with e; subst e
    rcases hs with ⟨_, hd⟩ | ⟨hi, bf, bl, hl⟩
    · exact ⟨[], by rw [hd]; exact Rep.rep_init B⟩
    · exact ⟨_, hc, Or.inr ⟨0, hi, bf, bl, hl⟩⟩
  | mk_fill count v hfit he =>
    obtain ⟨d2, e, hc, hs, _⟩ := mk_fill_spec hB count v hfit
    rw [he] at e; injection e with e; subst e
    rcases hs with ⟨_, hd⟩ | ⟨hi, bf, bl, hl⟩
    · exact ⟨[], by rw [hd]; exact Rep.rep_init B⟩
    · exact ⟨_, hc, Or.inr ⟨0, hi, bf, bl, hl⟩⟩
  | emplace_back x _ he ih =>
    obtain ⟨s, hr⟩ := ih
    obtain ⟨d2, e, hr2⟩ := emplace_back_spec hB hr x
    rw [he] at e; injection e with e; subst e
    exact ⟨_, hr2⟩
  | emplace_front x _ he ih =>
    obtain ⟨s, hr⟩ := ih
    obtain ⟨d2, e, hr2⟩ := emplace_front_spec hB hr x
    rw [he] at e; injection e with e; subst e
    exact ⟨_, hr2⟩
  | @pop_back d0 d1 _ he ih =>
    obtain ⟨s, hr⟩ := ih
    by_cases hs : s = []
    · have hemp := hr.empty_iff.2 hs
      rw [pop_back_of_empty hemp] at he
      cases he
    · obtain ⟨d2, e, hr2⟩ := pop_back_spec hB hr hs
      rw [he] at e; injection e with e; subst e
      exact ⟨_, hr2⟩
  | @pop_front d0 d1 _ he ih =>
    obtain ⟨s, hr⟩ := ih
    by_cases hs : s = []
    · have hemp := hr.empty_iff.2 hs
      rw [pop_front_of_empty hemp] at he
      cases he
    · obtain ⟨d2, e, hr2⟩ := pop_front_spec hB hr hs
      rw [he] at e; injection e with e; subst e
      exact ⟨_, hr2⟩
  | clear trivial _ he ih =>
    obtain ⟨s, hr⟩ := ih
    obtain ⟨d2, e, hr2, _⟩ := clear_spec hr.ctl trivial
    rw [he] at e; injection e with e; subst e
    exact ⟨_, hr2⟩
  | shrink_to_fit _ he ih =>
    obtain ⟨s, hr⟩ := ih
    obtain ⟨d2, e, hr2, _⟩ := shrink_to_fit_spec hB hr
    rw [he] at e; injection e with e; subst e
    exact ⟨_, hr2⟩

end deque

end fast_io

namespace fast_io

namespace deque

variable {α : Type}

/-- The iterator `begin() + p` of a state of the data model with more than `p` elements or
exactly `p` elements, `p` not zero. -/
theorem Rep.begin_plus_live {B : Nat} {d : deque α} {s : List α} (hr : Rep B d s)
    (hB : 0 < B) (p : Nat) (hp : p ≤ s.length) (hs : s ≠ []) :
    ∃ it, begin_plus B d (p : Int) = .ok it ∧
      (p = s.length → d.end_ = .ok it) ∧ (∀ (h : p < s.length), it.deref B d = .ok s[p]) := by
  rcases hr.shape with ⟨rfl, _⟩ | ⟨lo, hi, bf, bl, hl⟩
  · exact absurd rfl hs
  obtain ⟨it, h1, hit⟩ := hl.begin_plus_spec hr.ctl hB p hp
  obtain ⟨e, he, hend⟩ := hl.iter_end
  refine ⟨it, h1, ?_, fun h => hit.deref_eq hl hB h⟩
  intro hps
  subst hps
  rw [he, hit.iter_unique hend]

/-- The member `erase(pos)` for the iterator at index `p`, when the allocator keeps the
element blocks apart and no element block begins where a full last block ends: the element of
index `p` is removed and the returned iterator is `begin() + p` of the result.  Destructor
calls are not looked at. -/
theorem erase_spec {B : Nat} (hB : 0 < B) {d : deque α} {s : List α} {lo hi bf bl : Nat}
    (hc : Ctl B d) (hl : Live B d s lo hi bf bl) (hpl : Placed B d) (hna : EndApart B d)
    (p : Nat) (hp : p < s.length)
    (pos : deque_iterator) (hpos : IterAt B d s lo hi bl p pos) :
    ∃ it d1, erase B d pos = .ok (it, d1) ∧ Rep B d1 (s.eraseIdx p) ∧
      begin_plus B d1 (p : Int) = .ok it ∧ (p + 1 = s.length → d1.end_ = .ok it) ∧
      (∀ (h : p + 1 < s.length), it.deref B d1 = .ok s[p + 1]) := by
  have hr : Rep B d s := ⟨hc, Or.inr ⟨lo, hi, bf, bl, hl⟩⟩
  have hne : s ≠ [] := by
    intro h; subst h; simp at hp
  obtain ⟨bp, hbp, hbeg⟩ := hl.iter_begin
  obtain ⟨ep, hep, hend⟩ := hl.iter_end
  have hlenE : (s.eraseIdx p).length = s.length - 1 := by
    rw [List.length_eraseIdx, if_pos hp]
  by_cases hp0 : p = 0
  · -- the first element: `pop_front`
    subst hp0
    have heq : pos.eq d bp = true := (hpos.eq_iff hc hl hB hpl hna hbeg).2 rfl
    obtain ⟨d1, h1, hr1⟩ := pop_front_spec hB hr hne
    have hr2 : Rep B d1 (s.eraseIdx 0) := by simpa using hr1
    by_cases h1s : s.length = 1
    · have hnil : s.eraseIdx 0 = [] := List.length_eq_zero.1 (by omega)
      rw [hnil] at hr2
      have hn : Null d1 := by
        rcases hr2.shape with ⟨_, hn⟩ | ⟨_, _, _, _, h⟩
        · exact hn
        · have := h.len_pos; simp at this
      obtain ⟨hb1, he1⟩ := hn.begin_end
      refine ⟨_, d1, by simp [erase, hbp, hep, heq, h1, hb1], by rw [hnil]; exact hr2,
        by simpa using begin_plus_zero hb1, fun _ => he1, fun h => by omega⟩
    · have hne2 : s.eraseIdx 0 ≠ [] := by
        intro h; rw [h] at hlenE; simp at hlenE; omega
      obtain ⟨it, hi1, _, hi3⟩ := hr2.begin_plus_live hB 0 (Nat.zero_le _) hne2
      have hb1 : d1.begin_ = .ok it := by
        simp only [begin_plus, Nat.cast_zero] at hi1
        cases hb : d1.begin_ with
        | error e => rw [hb] at hi1; cases hi1
        | ok b =>
          rw [hb] at hi1
          simp only [bind_ok, deque_iterator.plus_and_assign_, ne_eq, not_true_eq_false,
            if_false] at hi1
          rw [hi1]
      refine ⟨it, d1, by simp [erase, hbp, hep, heq, h1, hb1], hr2, hi1, fun h => by omega,
        fun h => ?_⟩
      have := hi3 (by omega)
      rw [this]
      congr 1
      rw [List.getElem_eraseIdx_of_ge _ _ _ _ (Nat.zero_le _)]
  · have hneq : ¬ (pos.eq d bp = true) := fun h => hp0 ((hpos.eq_iff hc hl hB hpl hna hbeg).1 h)
    obtain ⟨pos1, hadv, hpos1⟩ := hpos.advance_spec hc hl hB 1 Nat.one_pos (by omega)
    have hadv1 : pos.plus_and_assign_ B d 1 = .ok pos1 := by simpa using hadv
    by_cases hlast : p + 1 = s.length
    · -- the last element: `pop_back`
      have heq : pos1.eq d ep = true := (hpos1.eq_iff hc hl hB hpl hna hend).2 hlast
      obtain ⟨d1, h1, hr1⟩ := pop_back_spec hB hr hne
      rw [← eraseIdx_last_eq_dropLast s p hlast] at hr1
      have hne2 : s.eraseIdx p ≠ [] := by
        intro h; rw [h] at hlenE; simp at hlenE; omega
      obtain ⟨it, hi1, hi2, _⟩ := hr1.begin_plus_live hB p (by omega) hne2
      have he1 := hi2 (by omega)
      refine ⟨it, d1, by simp [erase, hbp, hep, hneq, hadv1, heq, h1, he1], hr1, hi1,
        fun _ => he1, fun h => by omega⟩
    · have hneq1 : ¬ (pos1.eq d ep = true) := fun h =>
        hlast ((hpos1.eq_iff hc hl hB hpl hna hend).1 h)
      have hbd := hpos.diff_eq hl hend
      have hfd := hbeg.diff_eq hl hpos
      have hne2 : s.eraseIdx p ≠ [] := by
        intro h; rw [h] at hlenE; simp at hlenE; omega
      by_cases hcmp : (s.length : Int) - (p : Int) ≤ (p : Int) - ((0 : Nat) : Int)
      · -- the tail moves down
        have hmd := hpos1.diff_eq hl hend
        have hcount : ((s.length : Int) - ((p + 1 : Nat) : Int)).toNat = s.length - (p + 1) := by
          omega
        obtain ⟨d1, t1, hm, hc1, hl1, hlen1, hk1, hk2⟩ := iter_move_spec hB
          (s.length - (p + 1)) d s p pos1 pos hc hl hpos1 hpos (by omega)
        have hr1 : Rep B d1 t1 := ⟨hc1, Or.inr ⟨lo, hi, bf, bl, hl1⟩⟩
        have hne1 : t1 ≠ [] := by
          intro h; rw [h] at hlen1; simp at hlen1; omega
        obtain ⟨d2, h2, hr2⟩ := pop_back_spec hB hr1 hne1
        rw [eraseIdx_of_move s t1 p hp hlen1 hk1 hk2] at hr2
        obtain ⟨it, hi1, _, hi3⟩ := hr2.begin_plus_live hB p (by omega) hne2
        have hi1' : begin_plus B d2 ((p : Int) - ((0 : Nat) : Int)) = .ok it := by
          simpa using hi1
        refine ⟨it, d2, ?_, hr2, hi1, fun h => absurd h hlast, fun h => ?_⟩
        · unfold erase
          simp only [hbp, hep, bind_ok, hneq, hadv1, hneq1, hbd, hfd, if_false]
          rw [if_pos hcmp]
          simp only [hadv1, hep, bind_ok, iter_move_range, hmd, hcount, hm, h2]
          unfold begin_plus at hi1'
          cases hb2 : d2.begin_ with
          | error e => rw [hb2] at hi1'; cases hi1'
          | ok b2 =>
            rw [hb2] at hi1'
            simp only [bind_ok] at hi1' ⊢
            rw [hi1']
            simp
        · have := hi3 (by omega)
          rw [this]
          congr 1
          rw [List.getElem_eraseIdx_of_ge _ _ _ _ (Nat.le_refl _)]
      · -- the head moves up
        have hcount : ((p : Int) - ((0 : Nat) : Int)).toNat = p := by omega
        obtain ⟨d1, t1, hm, hc1, hl1, hlen1, hk1, hk2⟩ := iter_move_backward_spec hB
          p d s pos pos1 hc hl hpos hpos1 (by omega)
        have hr1 : Rep B d1 t1 := ⟨hc1, Or.inr ⟨lo, hi, bf, bl, hl1⟩⟩
        have hne1 : t1 ≠ [] := by
          intro h; rw [h] at hlen1; simp at hlen1; omega
        obtain ⟨d2, h2, hr2⟩ := pop_front_spec hB hr1 hne1
        rw [eraseIdx_of_move_backward s t1 p hp hlen1 hk1 hk2] at hr2
        obtain ⟨it, hi1, _, hi3⟩ := hr2.begin_plus_live hB p (by omega) hne2
        have hi1' : begin_plus B d2 ((p : Int) - ((0 : Nat) : Int)) = .ok it := by
          simpa using hi1
        refine ⟨it, d2, ?_, hr2, hi1, fun h => absurd h hlast, fun h => ?_⟩
        · unfold erase
          simp only [hbp, hep, bind_ok, hneq, hadv1, hneq1, hbd, hfd, if_false]
          rw [if_neg hcmp]
          simp only [hbp, hadv1, bind_ok, iter_move_backward_range, hfd, hcount, hm, h2]
          unfold begin_plus at hi1'
          cases hb2 : d2.begin_ with
          | error e => rw [hb2] at hi1'; cases hi1'
          | ok b2 =>
            rw [hb2] at hi1'
            simp only [bind_ok] at hi1' ⊢
            rw [hi1']
            simp
        · have := hi3 (by omega)
          rw [this]
          congr 1
          rw [List.getElem_eraseIdx_of_ge _ _ _ _ (Nat.le_refl _)]

end deque

end fast_io

namespace fast_io

namespace deque

variable {α : Type}

/-! ## The counter of `pop_back_n_` -/

theorem INT_MAX_eq : INT_MAX = 2147483647 := by
  unfold INT_MAX; norm_num

/-- The loop of `pop_back_n_` leaves the defined behaviour when its counter has to pass
`INT_MAX`, on a deque that holds enough elements for every `pop_back` before. -/
theorem pop_back_n_loop_overflow {B : Nat} (hB : 0 < B) (r : Nat) :
    ∀ (i : Nat) (d : deque α) (s : List α), Rep B d s → r ≤ s.length → i ≤ INT_MAX →
      INT_MAX < i + r → pop_back_n_loop B r i d = .error .undefined := by
  induction r with
  | zero => intro i d s _ _ h1 h2; omega
  | succ r ih =>
    intro i d s hr hlen h1 h2
    have hne : s ≠ [] := by
      intro h; subst h; simp at hlen
    have hemp : ¬ (d.empty = true) := fun h => hne (hr.empty_iff.1 h)
    obtain ⟨d1, hp, hr1⟩ := pop_back_spec hB hr hne
    unfold pop_back_n_loop
    rw [if_neg hemp, hp]
    by_cases hov : i + 1 > INT_MAX
    · simp only [hov, if_true]
    · simp only [hov, if_false]
      exact ih (i + 1) d1 s.dropLast hr1 (by rw [List.length_dropLast]; omega) (by omega)
        (by omega)

/-- The call `erase(begin() + 1, end())` on a deque of more than `INT_MAX + 1` elements that
start at offset 0 of the first block leaves the defined behaviour in `pop_back_n_`. -/
theorem erase_range_tail_overflow {B : Nat} (hB : 1 < B) {d : deque α} {s : List α}
    {hi bf bl : Nat} (hc : Ctl B d) (hl : Live B d s 0 hi bf bl)
    (hbig : INT_MAX + 2 ≤ s.length) (hfit : s.length < SIZE_RANGE) :
    ∃ first last, iterator_at B d 1 = .ok first ∧ d.end_ = .ok last ∧
      erase_range B d first last = .error .undefined := by
  have hmax := INT_MAX_eq
  have hB0 : 0 < B := by omega
  have hr : Rep B d s := ⟨hc, Or.inr ⟨0, hi, bf, bl, hl⟩⟩
  obtain ⟨bp, hbp, hbeg⟩ := hl.iter_begin
  obtain ⟨ep, hep, hend⟩ := hl.iter_end
  obtain ⟨first, hf, hfirst⟩ := hl.begin_plus_spec hc hB0 1 (by omega)
  have hneq : ¬ (first.eq d bp = true) := fun h => by
    have := (hfirst.eq_iff_block hbeg (by omega) (by omega)
      (by rw [Nat.div_eq_of_lt (by omega), Nat.div_eq_of_lt (by omega)])).1 h
    omega
  have heq : ep.eq d ep = true := by simp [deque_iterator.eq]
  have hdiff := hfirst.diff_eq hl hend
  have hcast : (s.length : Int) - ((1 : Nat) : Int) = ((s.length - 1 : Nat) : Int) := by omega
  have hsz : to_size_t ((s.length : Int) - ((1 : Nat) : Int)) = s.length - 1 := by
    rw [hcast, to_size_t_nat _ (by omega)]
  have hloop := pop_back_n_loop_overflow hB0 (s.length - 1) 0 d s hr (by omega) (Nat.zero_le _)
    (by omega)
  have hsz1 : to_size_t ((s.length : Int) - 1) = s.length - 1 := by
    rw [← hsz]; rfl
  refine ⟨first, ep, by rw [iterator_at_eq]; exact hf, hep, ?_⟩
  simp [erase_range, hbp, hep, hneq, heq, hdiff, hsz1, pop_back_n_, hloop]

end deque

end fast_io

namespace fast_io

namespace deque

variable {α : Type}

/-! ## The bounds check of `operator[]` -/

/-- The checks of `operator[]` reject every position from `size()` on, as long as the sum
`pos + front_size` in `calc_pos` does not wrap. -/
theorem Rep.index_ptr_rejects {B : Nat} {d : deque α} {s : List α} (hr : Rep B d s)
    (hB : 0 < B) (pos : Nat) (hpos : s.length ≤ pos) (hfit : pos + B ≤ SIZE_RANGE) :
    d.index_ptr B pos = .error .terminate := by
  rcases hr.shape with ⟨rfl, hn⟩ | ⟨lo, hi, bf, bl, hl⟩
  · have hbe := hn.blocks_eq
    have hmod : pos % SIZE_RANGE = pos := Nat.mod_eq_of_lt (by omega)
    unfold index_ptr
    generalize hq : pos / B = q
    have h1 : ¬ (d.block_elem_begin_ + q + 1 = d.block_elem_end_) := by omega
    have h2 : ¬ (d.block_elem_begin_ + q < d.block_elem_end_) := by omega
    simp [hn.fbegin, hn.first, ptr_diff, calc_pos, hmod, hq, h1, h2]
  · have hlo := hl.lo_lt
    have hbp := hl.blocks_pos
    have hlen := hl.len_eq
    have hhi := hl.hi_le
    have hmod : (pos + lo) % SIZE_RANGE = pos + lo := Nat.mod_eq_of_lt (by omega)
    have hdm := div_mul_add_mod (pos + lo) B
    have hr1 : (pos + lo) % B < B := Nat.mod_lt _ hB
    unfold index_ptr
    simp only [hl.fbegin, hl.first, ptr_diff, calc_pos, Nat.sub_zero, hmod]
    generalize (pos + lo) / B = q at *
    generalize (pos + lo) % B = r at *
    by_cases hlast : d.block_elem_begin_ + q + 1 = d.block_elem_end_
    · have hq : d.block_elem_end_ - d.block_elem_begin_ - 1 = q := by omega
      have hk : d.block_elem_begin_ + q = d.block_elem_end_ - 1 := by omega
      rw [hq] at hlen
      have hge : ¬ (r < hi) := by omega
      have e1 : d.block_elem_end_ - 1 + 1 = d.block_elem_end_ := by omega
      simp [hk, e1, slot_ptr, slot, hl.slot_last, hl.bend, ptr_lt, Ptr.add, hge]
    · have hq : d.block_elem_end_ - d.block_elem_begin_ ≤ q := by
        by_contra hlt
        have hq1 : q + 1 ≤ d.block_elem_end_ - d.block_elem_begin_ - 1 := by omega
        have hmul := Nat.mul_le_mul_right B hq1
        rw [Nat.add_mul, Nat.one_mul] at hmul
        omega
      have hnot : ¬ (d.block_elem_begin_ + q < d.block_elem_end_) := by omega
      simp [hlast, hnot]

end deque

end fast_io

namespace fast_io

namespace deque

/-! ## The signed `calc_pos` -/

/-- Truncating division and remainder of a number that is not positive. -/
theorem tdiv_tmod_of_nonpos (a : Int) (B : Int) (ha : a ≤ 0) (hB : 0 < B) :
    Int.tdiv a B = -((-a) / B) ∧ Int.tmod a B = -((-a) % B) := by
  have h1 : Int.tdiv a B = -((-a) / B) := by
    have e : a = -(-a) := by omega
    rw [e, Int.neg_tdiv, neg_neg, Int.tdiv_eq_ediv (by omega) (by omega)]
  refine ⟨h1, ?_⟩
  have h2 := Int.tdiv_add_tmod a B
  have h3 := Int.ediv_add_emod (-a) B
  rw [h1] at h2
  generalize (-a) / B = q at *
  generalize (-a) % B = r at *
  generalize Int.tmod a B = t at *
  have h4 : B * -q = -(B * q) := by ring
  rw [h4] at h2
  omega

/-- The signed `calc_pos` returns the floor quotient and the non-negative remainder of
`front_size + pos` by `B`, for an offset `front_size` between `0` and `B`. -/
theorem calc_pos_signed_spec (B : Nat) (hB : 0 < B) (front_size pos : Int)
    (h0 : 0 ≤ front_size) (h1 : front_size ≤ B) :
    (calc_pos_signed B front_size pos).block_step * B +
        (calc_pos_signed B front_size pos).elem_step = front_size + pos ∧
      0 ≤ (calc_pos_signed B front_size pos).elem_step ∧
      (calc_pos_signed B front_size pos).elem_step < B := by
  have hBz : (0 : Int) < (B : Int) := by exact_mod_cast hB
  unfold calc_pos_signed
  by_cases hp : pos ≥ 0
  · simp only [hp, if_true]
    have hnn : 0 ≤ pos + front_size := by omega
    rw [Int.tdiv_eq_ediv hnn (by omega), Int.tmod_eq_emod hnn (by omega)]
    have h3 := Int.ediv_add_emod (pos + front_size) B
    have h4 := Int.emod_nonneg (pos + front_size) (by omega : (B : Int) ≠ 0)
    have h5 := Int.emod_lt_of_pos (pos + front_size) hBz
    generalize (pos + front_size) / (B : Int) = q at *
    generalize (pos + front_size) % (B : Int) = r at *
    have h6 : q * (B : Int) = (B : Int) * q := by ring
    rw [h6]
    omega
  · simp only [hp, if_false]
    have hnp : pos + front_size - (B : Int) + 1 ≤ 0 := by omega
    obtain ⟨e1, e2⟩ := tdiv_tmod_of_nonpos _ _ hnp hBz
    rw [e1, e2]
    have h3 := Int.ediv_add_emod (-(pos + front_size - (B : Int) + 1)) B
    have h4 := Int.emod_nonneg (-(pos + front_size - (B : Int) + 1)) (by omega : (B : Int) ≠ 0)
    have h5 := Int.emod_lt_of_pos (-(pos + front_size - (B : Int) + 1)) hBz
    generalize (-(pos + front_size - (B : Int) + 1)) / (B : Int) = q at *
    generalize (-(pos + front_size - (B : Int) + 1)) % (B : Int) = r at *
    have h6 : -q * (B : Int) = -((B : Int) * q) := by ring
    rw [h6]
    omega

/-- The result of the signed `calc_pos`, as floor division and remainder. -/
theorem calc_pos_signed_floor (B : Nat) (hB : 0 < B) (front_size pos : Int)
    (h0 : 0 ≤ front_size) (h1 : front_size ≤ B) :
    (calc_pos_signed B front_size pos).block_step = (front_size + pos) / (B : Int) ∧
      (calc_pos_signed B front_size pos).elem_step = (front_size + pos) % (B : Int) := by
  obtain ⟨e, h2, h3⟩ := calc_pos_signed_spec B hB front_size pos h0 h1
  have hBz : (0 : Int) < (B : Int) := by exact_mod_cast hB
  have h4 := Int.ediv_add_emod (front_size + pos) B
  have h5 := Int.emod_nonneg (front_size + pos) (by omega : (B : Int) ≠ 0)
  have h6 := Int.emod_lt_of_pos (front_size + pos) hBz
  generalize (calc_pos_signed B front_size pos).block_step = q1 at *
  generalize (calc_pos_signed B front_size pos).elem_step = r1 at *
  generalize (front_size + pos) / (B : Int) = q at *
  generalize (front_size + pos) % (B : Int) = r at *
  have hq : q1 = q := by
    have h7 : (q1 - q) * (B : Int) = r - r1 := by
      have : (q1 - q) * (B : Int) = q1 * B - B * q := by ring
      rw [this]; omega
    by_contra hne
    rcases Int.lt_or_gt_of_ne hne with hlt | hgt
    · have : (q1 - q) * (B : Int) ≤ -1 * (B : Int) :=
        Int.mul_le_mul_of_nonneg_right (by omega) (by omega)
      omega
    · have : 1 * (B : Int) ≤ (q1 - q) * (B : Int) :=
        Int.mul_le_mul_of_nonneg_right (by omega) (by omega)
      omega
  subst hq
  refine ⟨rfl, ?_⟩
  have : q1 * (B : Int) = (B : Int) * q1 := by ring
  omega

end deque

end fast_io

namespace fast_io

namespace deque

variable {α : Type}

/-! ## Iterator arithmetic with a signed step -/

/-- Quotient and remainder by a positive number are unique. -/
theorem int_div_unique {B q1 r1 q2 r2 : Int} (hB : 0 < B) (h : q1 * B + r1 = q2 * B + r2)
    (h1 : 0 ≤ r1) (h2 : r1 < B) (h3 : 0 ≤ r2) (h4 : r2 < B) : q1 = q2 ∧ r1 = r2 := by
  have hq : q1 = q2 := by
    have h7 : (q1 - q2) * B = r2 - r1 := by
      have : (q1 - q2) * B = q1 * B - q2 * B := by ring
      rw [this]; omega
    by_contra hne
    rcases Int.lt_or_gt_of_ne hne with hlt | hgt
    · have : (q1 - q2) * B ≤ -1 * B := Int.mul_le_mul_of_nonneg_right (by omega) (by omega)
      omega
    · have : 1 * B ≤ (q1 - q2) * B := Int.mul_le_mul_of_nonneg_right (by omega) (by omega)
      omega
  subst hq
  exact ⟨rfl, by omega⟩

/-- The fields of the iterator at index `j`: its block is `q` blocks after the first element
block and its offset is `r`, with `q * B + r = lo + j`; the offset is `B` at most. -/
theorem IterAt.fields {B : Nat} {d : deque α} {s : List α} {lo hi bf bl j : Nat}
    {it : deque_iterator} (hl : Live B d s lo hi bf bl) (hB : 0 < B)
    (h : IterAt B d s lo hi bl j it) :
    ∃ q r : Nat, it.block_elem_curr_ = some (d.block_elem_begin_ + q) ∧
      it.block_elem_end_ = some d.block_elem_end_ ∧ it.in_block_offset = (r : Int) ∧
      q * B + r = lo + j ∧ r ≤ B := by
  rcases h with ⟨_, b, _, rfl⟩ | ⟨hj, rfl⟩
  · refine ⟨(lo + j) / B, (lo + j) % B, rfl, rfl, ?_, div_mul_add_mod _ _,
      Nat.le_of_lt (Nat.mod_lt _ hB)⟩
    simp [deque_iterator.in_block_offset]
  · have hpos := hl.blocks_pos
    have hlen := hl.len_eq
    refine ⟨d.block_elem_end_ - d.block_elem_begin_ - 1, hi, ?_, rfl, ?_, by omega, hl.hi_le⟩
    · have e : d.block_elem_begin_ + (d.block_elem_end_ - d.block_elem_begin_ - 1)
          = d.block_elem_end_ - 1 := by omega
      rw [e]
    · simp [deque_iterator.in_block_offset]

/-- The member `plus_and_assign_` moves an iterator from index `j` back to index `j - m`,
for a positive `m ≤ j`. -/
theorem IterAt.retreat_spec {B : Nat} {d : deque α} {s : List α} {lo hi bf bl j : Nat}
    {it : deque_iterator} (hl : Live B d s lo hi bf bl) (hB : 0 < B)
    (hit : IterAt B d s lo hi bl j it) (hj : j ≤ s.length) (m : Nat) (hm : 0 < m)
    (hmj : m ≤ j) :
    ∃ it1, it.plus_and_assign_ B d (-(m : Int)) = .ok it1 ∧
      IterAt B d s lo hi bl (j - m) it1 := by
  obtain ⟨q, r, hcur, hend, hoff, hflat, hrB⟩ := hit.fields hl hB
  have ht : j - m < s.length := by omega
  obtain ⟨b1, hb1, _⟩ := hl.elems (j - m) ht
  obtain ⟨hs1, _⟩ := hl.slot_lt hB (j - m) ht
  have hdm := div_mul_add_mod (lo + (j - m)) B
  have hr2 : (lo + (j - m)) % B < B := Nat.mod_lt _ hB
  have hBz : (0 : Int) < (B : Int) := by exact_mod_cast hB
  obtain ⟨e1, e2, e3⟩ := calc_pos_signed_spec B hB (r : Int) (-(m : Int)) (by omega)
    (by exact_mod_cast hrB)
  have hm0 : (-(m : Int)) ≠ 0 := by omega
  refine ⟨⟨some (d.block_elem_begin_ + (lo + (j - m)) / B), some d.block_elem_end_,
    some ⟨b1, 0⟩, some ⟨b1, (lo + (j - m)) % B⟩⟩, ?_, Or.inl ⟨ht, b1, hb1, rfl⟩⟩
  unfold deque_iterator.plus_and_assign_
  rw [if_pos hm0, hoff]
  generalize calc_pos_signed B (r : Int) (-(m : Int)) = cp at *
  generalize (lo + (j - m)) / B = q2 at *
  generalize (lo + (j - m)) % B = r2 at *
  have hz1 : (q : Int) * B + r = lo + j := by exact_mod_cast hflat
  have hz2 : (q2 : Int) * B + r2 = lo + (j - m : Nat) := by exact_mod_cast hdm
  have hz3 : ((j - m : Nat) : Int) = (j : Int) - (m : Int) := by omega
  have hu := @int_div_unique (B : Int) (q + cp.block_step) cp.elem_step q2 r2 hBz
    (by rw [Int.add_mul]; omega) e2 e3 (by omega) (by exact_mod_cast hr2)
  have htb : ((d.block_elem_begin_ + q : Nat) : Int) + cp.block_step
      = ((d.block_elem_begin_ + q2 : Nat) : Int) := by
    push_cast; omega
  have hlt : ((d.block_elem_begin_ + q2 : Nat) : Int) < ((d.block_elem_end_ : Nat) : Int) := by
    have := hl.blocks_pos
    exact_mod_cast (by omega : d.block_elem_begin_ + q2 < d.block_elem_end_)
  have hnn : ¬ (((d.block_elem_begin_ + q2 : Nat) : Int) < 0) := by omega
  have hes : ¬ (cp.elem_step < 0) := by omega
  have hes2 : cp.elem_step.toNat = r2 := by omega
  rw [hcur, hend]
  simp only [htb, hlt, hnn, hes, hes2, if_true, if_false, Int.toNat_ofNat, slot_ptr, slot, hb1,
    bind_ok, Ptr.add, Nat.zero_add]

/-- The member `plus_and_assign_` moves an iterator from index `j` to index `j + n`, for a
signed `n ≠ 0` with `0 ≤ j + n ≤ size()`. -/
theorem IterAt.plus_spec {B : Nat} {d : deque α} {s : List α} {lo hi bf bl j : Nat}
    {it : deque_iterator} (hc : Ctl B d) (hl : Live B d s lo hi bf bl) (hB : 0 < B)
    (hit : IterAt B d s lo hi bl j it) (hj : j ≤ s.length) (n : Int) (hn : n ≠ 0)
    (h0 : 0 ≤ (j : Int) + n) (h1 : (j : Int) + n ≤ (s.length : Int)) :
    ∃ it1, it.plus_and_assign_ B d n = .ok it1 ∧
      IterAt B d s lo hi bl ((j : Int) + n).toNat it1 := by
  by_cases hpos : 0 < n
  · obtain ⟨m, rfl⟩ : ∃ m : Nat, n = (m : Int) := ⟨n.toNat, by omega⟩
    obtain ⟨it1, e1, e2⟩ := hit.advance_spec hc hl hB m (by omega) (by omega)
    have e : ((j : Int) + (m : Int)).toNat = j + m := by omega
    rw [e]
    exact ⟨it1, e1, e2⟩
  · obtain ⟨m, rfl⟩ : ∃ m : Nat, n = -(m : Int) := ⟨(-n).toNat, by omega⟩
    obtain ⟨it1, e1, e2⟩ := hit.retreat_spec hl hB hj m (by omega) (by omega)
    have e : ((j : Int) + -(m : Int)).toNat = j - m := by omega
    rw [e]
    exact ⟨it1, e1, e2⟩

/-- The member `plus_and_assign_` reaches `fast_terminate()` when the target block lies
beyond `block_elem_end_`, and when it is `block_elem_end_` with a non-zero step inside the
block. -/
theorem plus_and_assign_aborts (B : Nat) (d : deque α) (it : deque_iterator) (n : Int)
    (hn : n ≠ 0) {curr bend : Nat} (h1 : it.block_elem_curr_ = some curr)
    (h2 : it.block_elem_end_ = some bend)
    (h : (bend : Int) < (curr : Int) + (calc_pos_signed B it.in_block_offset n).block_step ∨
      ((curr : Int) + (calc_pos_signed B it.in_block_offset n).block_step = (bend : Int) ∧
        (calc_pos_signed B it.in_block_offset n).elem_step ≠ 0)) :
    it.plus_and_assign_ B d n = .error .terminate := by
  unfold deque_iterator.plus_and_assign_
  rw [if_pos hn, h1, h2]
  generalize calc_pos_signed B it.in_block_offset n = cp at *
  rcases h with h | ⟨h, h3⟩
  · have e1 : ¬ ((curr : Int) + cp.block_step < (bend : Int)) := by omega
    have e2 : ¬ ((curr : Int) + cp.block_step = (bend : Int)) := by omega
    simp only [e1, e2, if_false, not_false_eq_true, if_true]
  · have e1 : ¬ ((curr : Int) + cp.block_step < (bend : Int)) := by omega
    simp only [e1, h, h3, if_false, not_false_eq_true, if_true, not_true_eq_false,
      Int.lt_irrefl]

/-- Where the member `plus_and_assign_` seats the iterator: at `elem_begin_ + B` of the block
in front of `block_elem_end_` when the target block is `block_elem_end_`, and inside a block
otherwise. -/
theorem plus_and_assign_seat (B : Nat) (hB : 0 < B) (d : deque α) (it it1 : deque_iterator)
    (n : Int) (hn : n ≠ 0) {curr bend : Nat} (h1 : it.block_elem_curr_ = some curr)
    (h2 : it.block_elem_end_ = some bend) (h0 : 0 ≤ it.in_block_offset)
    (hle : it.in_block_offset ≤ (B : Int)) (h : it.plus_and_assign_ B d n = .ok it1) :
    ((curr : Int) + (calc_pos_signed B it.in_block_offset n).block_step = (bend : Int) →
      it1.block_elem_curr_ = some (bend - 1) ∧ it1.at_block_end B = .ok true) ∧
    ((curr : Int) + (calc_pos_signed B it.in_block_offset n).block_step ≠ (bend : Int) →
      it1.at_block_end B = .ok false) := by
  obtain ⟨_, e2, e3⟩ := calc_pos_signed_spec B hB it.in_block_offset n h0 hle
  unfold deque_iterator.plus_and_assign_ at h
  rw [if_pos hn, h1, h2] at h
  generalize calc_pos_signed B it.in_block_offset n = cp at *
  simp only at h
  by_cases hlt : (curr : Int) + cp.block_step < (bend : Int)
  · rw [if_pos hlt] at h
    refine ⟨fun he => by omega, fun _ => ?_⟩
    by_cases hneg : (curr : Int) + cp.block_step < 0
    · rw [if_pos hneg] at h; cases h
    rw [if_neg hneg] at h
    cases hs : slot_ptr d.ctrl ((curr : Int) + cp.block_step).toNat with
    | error e => rw [hs] at h; cases h
    | ok base =>
      rw [hs] at h
      have hes : ¬ (cp.elem_step < 0) := by omega
      simp only [bind_ok, hes, if_false] at h
      injection h with h
      subst h
      have hne : ¬ (cp.elem_step.toNat = B) := by omega
      simp [deque_iterator.at_block_end, nn, Ptr.add, hne]
  · rw [if_neg hlt] at h
    by_cases heq : (curr : Int) + cp.block_step = (bend : Int)
    swap
    · simp only [heq, not_false_eq_true, if_true] at h; cases h
    refine ⟨fun _ => ?_, fun hne => absurd heq hne⟩
    by_cases hz : cp.elem_step = 0
    swap
    · simp only [heq, hz, not_true_eq_false, if_false, not_false_eq_true, if_true] at h
      cases h
    by_cases hb0 : bend = 0
    · simp only [heq, hz, hb0, not_true_eq_false, if_false, if_true] at h
      cases h
    cases hs : slot_ptr d.ctrl (bend - 1) with
    | error e =>
      simp only [heq, hz, hb0, not_true_eq_false, if_false, hs] at h
      cases h
    | ok base =>
      simp only [heq, hz, hb0, not_true_eq_false, if_false, hs, bind_ok] at h
      injection h with h
      subst h
      simp [deque_iterator.at_block_end, nn]

end deque

end fast_io

namespace fast_io

namespace deque

variable {α : Type}

/-! ## Ownership of the blocks -/

theorem slot_blocks_congr {cs cs' : List (Option Nat)} {k k' n : Nat}
    (h : ∀ i, i < n → cs'[k' + i]? = cs[k + i]?) :
    slot_blocks cs' k' n = slot_blocks cs k n := by
  unfold slot_blocks
  apply List.filterMap_congr
  intro i hi
  rw [h i (List.mem_range.1 hi)]

theorem slot_blocks_append (cs : List (Option Nat)) (k n m : Nat) :
    slot_blocks cs k (n + m) = slot_blocks cs k n ++ slot_blocks cs (k + n) m := by
  unfold slot_blocks
  rw [List.range_add, List.filterMap_append, List.filterMap_map]
  congr 1
  apply List.filterMap_congr
  intro i _
  simp only [Function.comp, Nat.add_assoc]

theorem Ctl.ab_le_ae {B : Nat} {d : deque α} (hc : Ctl B d) :
    d.block_alloc_begin_ ≤ d.block_alloc_end_ :=
  Nat.le_trans hc.ab_le (Nat.le_trans hc.be_le hc.ee_le)

theorem alloc_blocks_nodup {B : Nat} {d : deque α} (hc : Ctl B d) : (alloc_blocks d).Nodup := by
  have := hc.ab_le_ae
  exact slot_blocks_nodup hc _ _ (Nat.le_refl _) (by omega)

theorem alloc_blocks_length {B : Nat} {d : deque α} (hc : Ctl B d) :
    (alloc_blocks d).length = d.block_alloc_end_ - d.block_alloc_begin_ := by
  have := hc.ab_le_ae
  exact slot_blocks_length hc _ _ (Nat.le_refl _) (by omega)

theorem Shuffled.shuffled_refl (d : deque α) : Shuffled d d :=
  ⟨fun k h1 h2 => ⟨k, h1, h2, rfl⟩, rfl, rfl, rfl⟩

theorem Shuffled.shuffled_trans {d d' d'' : deque α} (h1 : Shuffled d d') (h2 : Shuffled d' d'') :
    Shuffled d d'' where
  sub := by
    intro k k1 k2
    obtain ⟨k0, a1, a2, a3⟩ := h2.sub k k1 k2
    obtain ⟨k00, b1, b2, b3⟩ := h1.sub k0 a1 a2
    exact ⟨k00, b1, b2, by rw [a3, b3]⟩
  count := by rw [h2.count, h1.count]
  blocks_len := by rw [h2.blocks_len, h1.blocks_len]
  freed := by rw [h2.freed, h1.freed]

/-- A state with the control array, the owned range, the release log and the number of
blocks of another one. -/
theorem Shuffled.shuffled_of_frame {d d' : deque α} (h1 : d'.ctrl = d.ctrl)
    (h2 : d'.block_alloc_begin_ = d.block_alloc_begin_)
    (h3 : d'.block_alloc_end_ = d.block_alloc_end_) (h4 : d'.blocks.length = d.blocks.length)
    (h5 : d'.freed = d.freed) : Shuffled d d' :=
  ⟨fun k k1 k2 => ⟨k, by omega, by omega, by rw [h1]⟩, by rw [h2, h3], h4, h5⟩

/-- The owned slots of two such states hold the same blocks, up to their order. -/
theorem Shuffled.perm {B : Nat} {d d' : deque α} (h : Shuffled d d') (hc : Ctl B d)
    (hc' : Ctl B d') : (alloc_blocks d').Perm (alloc_blocks d) := by
  apply List.Subperm.perm_of_length_le
  · apply List.subperm_of_subset (alloc_blocks_nodup hc')
    intro b hb
    obtain ⟨i, hi, hbi⟩ := mem_slot_blocks.1 hb
    obtain ⟨k0, a1, a2, a3⟩ := h.sub (d'.block_alloc_begin_ + i) (by omega) (by omega)
    rw [hbi] at a3
    have e : d.block_alloc_begin_ + (k0 - d.block_alloc_begin_) = k0 := by omega
    exact mem_slot_blocks.2 ⟨k0 - d.block_alloc_begin_, by omega, by rw [e, ← a3]⟩
  · rw [alloc_blocks_length hc, alloc_blocks_length hc', h.count]

theorem Owns.of_shuffled {B : Nat} {d d' : deque α} (ho : Owns d) (h : Shuffled d d')
    (hc : Ctl B d) (hc' : Ctl B d') : Owns d' := by
  unfold Owns at ho ⊢
  rw [h.freed, h.blocks_len]
  exact (List.Perm.append_right _ (h.perm hc hc')).trans ho

theorem Owns.owns_init : Owns ({} : deque α) := by
  simp [Owns, alloc_blocks, slot_blocks]

/-- What ownership says slot by slot: the owned slots hold pairwise distinct blocks that the
allocator handed out and that were not released, and every block handed out is released or
held by an owned slot. -/
theorem Owns.unfold_owns {B : Nat} {d : deque α} (ho : Owns d) (hc : Ctl B d) :
    (∀ k, d.block_alloc_begin_ ≤ k → k < d.block_alloc_end_ →
      ∃ b, d.ctrl[k]? = some (some b) ∧ b < d.blocks.length ∧ b ∉ d.freed) ∧
    (∀ k k', d.block_alloc_begin_ ≤ k → k < d.block_alloc_end_ →
      d.block_alloc_begin_ ≤ k' → k' < d.block_alloc_end_ → d.ctrl[k]? = d.ctrl[k']? → k = k') ∧
    (∀ b, b < d.blocks.length → b ∈ d.freed ∨
      ∃ k, d.block_alloc_begin_ ≤ k ∧ k < d.block_alloc_end_ ∧ d.ctrl[k]? = some (some b)) ∧
    d.freed.Nodup := by
  unfold Owns at ho
  have hnd : (alloc_blocks d ++ d.freed).Nodup := ho.nodup_iff.2 (List.nodup_range _)
  rw [List.nodup_append] at hnd
  refine ⟨?_, hc.inj, ?_, hnd.2.1⟩
  · intro k k1 k2
    obtain ⟨b, cells, hk, hb, _⟩ := hc.owned k k1 k2
    have hmem : b ∈ alloc_blocks d :=
      mem_slot_blocks.2 ⟨k - d.block_alloc_begin_, by omega, by
        rw [(by omega : d.block_alloc_begin_ + (k - d.block_alloc_begin_) = k)]; exact hk⟩
    exact ⟨b, hk, lt_length_of_getElem? hb, fun hf => hnd.2.2 hmem hf⟩
  · intro b hb
    have hmem : b ∈ alloc_blocks d ++ d.freed := ho.mem_iff.2 (List.mem_range.2 hb)
    rcases List.mem_append.1 hmem with h | h
    · obtain ⟨i, hi, hbi⟩ := mem_slot_blocks.1 h
      exact Or.inr ⟨d.block_alloc_begin_ + i, by omega, by omega, hbi⟩
    · exact Or.inl h

end deque

end fast_io

namespace fast_io

namespace deque

variable {α : Type}

/-! ## Members that leave the control array and the allocators alone -/

theorem bind_eq_ok {β γ : Type} {x : Res β} {f : β → Res γ} {c : γ}
    (h : (x >>= f) = .ok c) : ∃ a, x = .ok a ∧ f a = .ok c := by
  cases x with
  | error e => cases h
  | ok a => exact ⟨a, rfl, h⟩

theorem Quiet.quiet_refl (d : deque α) : Quiet d d := ⟨rfl, rfl, rfl, rfl, rfl, rfl, rfl⟩

theorem Quiet.quiet_trans {d d1 d2 : deque α} (h1 : Quiet d d1) (h2 : Quiet d1 d2) : Quiet d d2 :=
  ⟨h2.ctrl.trans h1.ctrl, h2.ab.trans h1.ab, h2.ae.trans h1.ae,
    h2.blocks_len.trans h1.blocks_len, h2.freed.trans h1.freed, h2.allocs.trans h1.allocs,
    h2.frees.trans h1.frees⟩

theorem Quiet.shuffled {d d' : deque α} (h : Quiet d d') : Shuffled d d' :=
  Shuffled.shuffled_of_frame h.ctrl h.ab h.ae h.blocks_len h.freed

theorem Owns.of_quiet {B : Nat} {d d' : deque α} (ho : Owns d) (h : Quiet d d')
    (hc : Ctl B d) (hc' : Ctl B d') : Owns d' :=
  ho.of_shuffled h.shuffled hc hc'

theorem write_quiet {d d' : deque α} {p : Ptr} {v : α} (h : d.write p v = .ok d') :
    Quiet d d' := by
  unfold write at h
  cases hb : d.blocks[p.blk]? with
  | none => rw [hb] at h; cases h
  | some cells =>
    rw [hb] at h
    simp only at h
    split at h
    · injection h with h; subst h; exact ⟨rfl, rfl, rfl, by simp, rfl, rfl, rfl⟩
    · cases h

theorem destroy_at_quiet {d d' : deque α} {p : Option Ptr} (h : d.destroy_at p = .ok d') :
    Quiet d d' := by
  unfold destroy_at at h
  split at h
  · injection h with h; subst h; exact ⟨rfl, rfl, rfl, rfl, rfl, rfl, rfl⟩
  · cases h

theorem emplace_back_pre_quiet {d d' : deque α} {n : Nat} {v : α}
    (h : d.emplace_back_pre_ n v = .ok d') : Quiet d d' := by
  unfold emplace_back_pre_ at h
  obtain ⟨endp, _, h⟩ := bind_eq_ok h
  obtain ⟨d1, h1, h⟩ := bind_eq_ok h
  have q := write_quiet h1
  injection h with h
  subst h
  split_ifs <;> exact ⟨q.ctrl, q.ab, q.ae, q.blocks_len, q.freed, q.allocs, q.frees⟩

theorem emplace_back_post_quiet {B : Nat} {d d' : deque α} {n : Nat} {v : α}
    (h : emplace_back_post_ B d n v = .ok d') : Quiet d d' := by
  unfold emplace_back_post_ at h
  obtain ⟨p, _, h⟩ := bind_eq_ok h
  obtain ⟨d1, h1, h⟩ := bind_eq_ok h
  have q := write_quiet h1
  injection h with h
  subst h
  split_ifs <;> exact ⟨q.ctrl, q.ab, q.ae, q.blocks_len, q.freed, q.allocs, q.frees⟩

theorem emplace_front_pre_quiet {d d' : deque α} {n : Nat} {v : α}
    (h : d.emplace_front_pre_ n v = .ok d') : Quiet d d' := by
  unfold emplace_front_pre_ at h
  obtain ⟨p, _, h⟩ := bind_eq_ok h
  obtain ⟨p1, _, h⟩ := bind_eq_ok h
  obtain ⟨d1, h1, h⟩ := bind_eq_ok h
  have q := write_quiet h1
  injection h with h
  subst h
  split_ifs <;> exact ⟨q.ctrl, q.ab, q.ae, q.blocks_len, q.freed, q.allocs, q.frees⟩

theorem emplace_front_post_quiet {B : Nat} {d d' : deque α} {n : Nat} {v : α}
    (h : emplace_front_post_ B d n v = .ok d') : Quiet d d' := by
  unfold emplace_front_post_ at h
  split at h
  · cases h
  obtain ⟨p, _, h⟩ := bind_eq_ok h
  obtain ⟨p1, _, h⟩ := bind_eq_ok h
  obtain ⟨d1, h1, h⟩ := bind_eq_ok h
  have q := write_quiet h1
  injection h with h
  subst h
  split_ifs <;> exact ⟨q.ctrl, q.ab, q.ae, q.blocks_len, q.freed, q.allocs, q.frees⟩

theorem pop_back_quiet {B : Nat} {d d' : deque α} (h : pop_back B d = .ok d') : Quiet d d' := by
  unfold pop_back at h
  split at h
  · cases h
  obtain ⟨e, _, h⟩ := bind_eq_ok h
  obtain ⟨e1, _, h⟩ := bind_eq_ok h
  obtain ⟨d1, h1, h⟩ := bind_eq_ok h
  have q : Quiet d d1 := by
    have := destroy_at_quiet h1
    exact ⟨this.ctrl, this.ab, this.ae, this.blocks_len, this.freed, this.allocs, this.frees⟩
  simp only [elem_end_, elem_begin_] at h
  repeat' split at h
  all_goals first
    | (injection h with h; subst h;
       exact ⟨q.ctrl, q.ab, q.ae, q.blocks_len, q.freed, q.allocs, q.frees⟩)
    | (obtain ⟨_, _, h⟩ := bind_eq_ok h; injection h with h; subst h;
       exact ⟨q.ctrl, q.ab, q.ae, q.blocks_len, q.freed, q.allocs, q.frees⟩)
    | (obtain ⟨_, _, h⟩ := bind_eq_ok h; obtain ⟨_, _, h⟩ := bind_eq_ok h;
       injection h with h; subst h;
       exact ⟨q.ctrl, q.ab, q.ae, q.blocks_len, q.freed, q.allocs, q.frees⟩)
    | cases h

theorem pop_front_quiet {B : Nat} {d d' : deque α} (h : pop_front B d = .ok d') :
    Quiet d d' := by
  unfold pop_front at h
  split at h
  · cases h
  obtain ⟨d1, h1, h⟩ := bind_eq_ok h
  obtain ⟨b, _, h⟩ := bind_eq_ok h
  have q := destroy_at_quiet h1
  simp only [elem_end_, elem_begin_] at h
  repeat' split at h
  all_goals first
    | (injection h with h; subst h;
       exact ⟨q.ctrl, q.ab, q.ae, q.blocks_len, q.freed, q.allocs, q.frees⟩)
    | (obtain ⟨_, _, h⟩ := bind_eq_ok h; injection h with h; subst h;
       exact ⟨q.ctrl, q.ab, q.ae, q.blocks_len, q.freed, q.allocs, q.frees⟩)

theorem destroy_span_quiet (d : deque α) (b e : Option Ptr) : Quiet d (d.destroy_span b e) := by
  unfold destroy_span
  split
  · exact ⟨rfl, rfl, rfl, rfl, rfl, rfl, rfl⟩
  · exact Quiet.quiet_refl d

theorem destroy_blocks_quiet {B : Nat} (n : Nat) : ∀ (k : Nat) (d d' : deque α),
    destroy_blocks B n k d = .ok d' → Quiet d d' ∧
      d'.block_elem_begin_ = d.block_elem_begin_ ∧ d'.block_elem_end_ = d.block_elem_end_ := by
  induction n with
  | zero =>
    intro k d d' h
    injection h with h
    subst h
    exact ⟨Quiet.quiet_refl _, rfl, rfl⟩
  | succ n ih =>
    intro k d d' h
    unfold destroy_blocks at h
    split at h
    · obtain ⟨q, e1, e2⟩ := ih _ _ _ h
      have q0 := destroy_span_quiet d (some ‹Ptr›) (some ((‹Ptr›).add B))
      refine ⟨q0.quiet_trans q, ?_, ?_⟩
      · rw [e1]; unfold destroy_span; rfl
      · rw [e2]; unfold destroy_span; rfl
    · cases h

theorem destroy_elems_quiet {B : Nat} {trivial : Bool} {d d1 : deque α}
    (h1 : destroy_elems_ B trivial d = .ok d1) : Quiet d d1 := by
  unfold destroy_elems_ at h1
  split at h1
  · injection h1 with h1; subst h1; exact Quiet.quiet_refl _
  simp only at h1
  have qa : Quiet d (if d.block_elem_size_ ≠ 0 then
      d.destroy_span d.elem_begin_begin_ d.elem_begin_end_ else d) := by
    split_ifs
    · exact destroy_span_quiet _ _ _
    · exact Quiet.quiet_refl _
  generalize (if d.block_elem_size_ ≠ 0 then
      d.destroy_span d.elem_begin_begin_ d.elem_begin_end_ else d) = d0 at h1 qa
  split at h1
  · obtain ⟨d2, h2, h1⟩ := bind_eq_ok h1
    have q2 := (destroy_blocks_quiet _ _ _ _ h2).1
    injection h1 with h1
    subst h1
    split
    · exact (qa.quiet_trans q2).quiet_trans (destroy_span_quiet _ _ _)
    · exact qa.quiet_trans q2
  · obtain ⟨d2, h2, h1⟩ := bind_eq_ok h1
    injection h2 with h2
    subst h2
    injection h1 with h1
    subst h1
    split
    · exact qa.quiet_trans (destroy_span_quiet _ _ _)
    · exact qa

theorem clear_quiet {B : Nat} {trivial : Bool} {d d' : deque α}
    (h : clear B trivial d = .ok d') : Quiet d d' := by
  unfold clear at h
  obtain ⟨d1, h1, h⟩ := bind_eq_ok h
  injection h with h
  subst h
  have q := destroy_elems_quiet h1
  simp only [elem_end_, elem_begin_]
  exact ⟨q.ctrl, q.ab, q.ae, q.blocks_len, q.freed, q.allocs, q.frees⟩

end deque

end fast_io

namespace fast_io

namespace deque

variable {α : Type}

/-! ## Shifts and rotations of the control array keep the owned blocks -/

theorem align_elem_as_alloc_back_shuffled {B : Nat} {d d' : deque α} (hc : Ctl B d)
    (h : d.align_elem_as_alloc_back_ = .ok d') :
    Shuffled d d' ∧ d'.blocks = d.blocks ∧ d'.ctrl_allocs = d.ctrl_allocs ∧
      d'.ctrl_frees = d.ctrl_frees := by
  have h1 := hc.ab_le
  have h2 := hc.be_le
  have h3 := hc.ee_le
  have h4 := hc.ae_le
  obtain ⟨cs', e1, e2, e3⟩ := rotate_slots_spec d.ctrl d.block_alloc_begin_ d.block_elem_begin_
    d.block_elem_end_ ⟨h1, h2, by omega⟩
  unfold align_elem_as_alloc_back_ at h
  simp only [e1, bind_ok] at h
  injection h with h
  subst h
  refine ⟨⟨?_, rfl, rfl, rfl⟩, rfl, rfl, rfl⟩
  intro k k1 k2
  simp only at k1 k2 ⊢
  rw [e3 k]
  split_ifs
  · omega
  · exact ⟨_, by omega, by omega, rfl⟩
  · exact ⟨_, by omega, by omega, rfl⟩
  · exact ⟨_, by omega, by omega, rfl⟩

theorem align_elem_as_alloc_front_shuffled {B : Nat} {d d' : deque α} (hc : Ctl B d)
    (h : d.align_elem_as_alloc_front_ = .ok d') :
    Shuffled d d' ∧ d'.blocks = d.blocks ∧ d'.ctrl_allocs = d.ctrl_allocs ∧
      d'.ctrl_frees = d.ctrl_frees := by
  have h1 := hc.ab_le
  have h2 := hc.be_le
  have h3 := hc.ee_le
  have h4 := hc.ae_le
  obtain ⟨cs', e1, e2, e3⟩ := rotate_slots_spec d.ctrl d.block_elem_begin_ d.block_elem_end_
    d.block_alloc_end_ ⟨h2, h3, h4⟩
  unfold align_elem_as_alloc_front_ at h
  have hnot : ¬ d.block_alloc_end_ < d.block_elem_size_ := by
    unfold block_elem_size_; omega
  simp only [e1, bind_ok, hnot, if_false] at h
  injection h with h
  subst h
  refine ⟨⟨?_, rfl, rfl, rfl⟩, rfl, rfl, rfl⟩
  intro k k1 k2
  simp only at k1 k2 ⊢
  rw [e3 k]
  split_ifs
  · exact ⟨_, by omega, by omega, rfl⟩
  · exact ⟨_, by omega, by omega, rfl⟩
  · exact ⟨_, by omega, by omega, rfl⟩

theorem align_elem_alloc_as_ctrl_back_shuffled {B : Nat} {d d' : deque α} (hc : Ctl B d)
    (target : Option (List (Option Nat)))
    (ht : d.block_alloc_end_ - d.block_alloc_begin_ ≤ (target.getD d.ctrl).length)
    (h : d.align_elem_alloc_as_ctrl_back_ target = .ok d') :
    Shuffled d d' ∧ d'.blocks = d.blocks ∧ d'.ctrl_allocs = d.ctrl_allocs ∧
      d'.ctrl_frees = d.ctrl_frees := by
  obtain ⟨d1, a1, a2, a3, a4, a5, a6, a7, a8⟩ := align_elem_as_alloc_back_spec hc
  obtain ⟨s1, s2, s3, s4⟩ := align_elem_as_alloc_back_shuffled hc a1
  have h1 := a2.ab_le
  have h2 := a2.be_le
  have h3 := a2.ee_le
  have h4 := a2.ae_le
  have ht' : d1.block_alloc_end_ - d1.block_alloc_begin_ ≤ (target.getD d1.ctrl).length := by
    cases target with
    | none => simp only [Option.getD_none] at ht ⊢; omega
    | some t => simp only [Option.getD_some] at ht ⊢; omega
  obtain ⟨cs', e1, e2, e3⟩ := copy_slots_spec d1.ctrl d1.block_alloc_begin_ d1.block_alloc_end_
    (target.getD d1.ctrl) 0 ⟨by omega, h4, by omega⟩
  unfold align_elem_alloc_as_ctrl_back_ at h
  simp only [a1, bind_ok, e1, block_alloc_size_, block_elem_size_, Nat.zero_add] at h
  injection h with h
  subst h
  refine ⟨s1.shuffled_trans ⟨?_, by simp only; omega, rfl, rfl⟩, s2, s3, s4⟩
  intro k k1 k2
  simp only at k1 k2 ⊢
  rw [e3 k, if_pos (by omega)]
  exact ⟨_, by omega, by omega, rfl⟩

theorem align_elem_alloc_as_ctrl_front_shuffled {B : Nat} {d d' : deque α} (hc : Ctl B d)
    (target : Option (List (Option Nat)))
    (ht : d.block_alloc_end_ - d.block_alloc_begin_ ≤ (target.getD d.ctrl).length)
    (h : d.align_elem_alloc_as_ctrl_front_ target = .ok d') :
    Shuffled d d' ∧ d'.blocks = d.blocks ∧ d'.ctrl_allocs = d.ctrl_allocs ∧
      d'.ctrl_frees = d.ctrl_frees := by
  obtain ⟨d1, a1, a2, a3, a4, a5, a6, a7, a8⟩ := align_elem_as_alloc_front_spec hc
  obtain ⟨s1, s2, s3, s4⟩ := align_elem_as_alloc_front_shuffled hc a1
  have h1 := a2.ab_le
  have h2 := a2.be_le
  have h3 := a2.ee_le
  have h4 := a2.ae_le
  have hcount := a3.count
  have g1 := hc.ab_le
  have g2 := hc.be_le
  have g3 := hc.ee_le
  have ht' : d1.block_alloc_end_ - d1.block_alloc_begin_ ≤ (target.getD d1.ctrl).length := by
    cases target with
    | none => simp only [Option.getD_none] at ht ⊢; omega
    | some t => simp only [Option.getD_some] at ht ⊢; omega
  generalize htg : target.getD d1.ctrl = t at *
  obtain ⟨cs', e1, e2, e3⟩ := copy_slots_spec d1.ctrl d1.block_alloc_begin_ d1.block_alloc_end_
    t (t.length - (d1.block_alloc_end_ - d1.block_alloc_begin_)) ⟨by omega, h4, by omega⟩
  unfold align_elem_alloc_as_ctrl_front_ at h
  have hnot : ¬ (t.length < d1.block_alloc_end_ - d1.block_alloc_begin_ ∨
      t.length < d1.block_elem_end_ - d1.block_elem_begin_) := by omega
  simp only [a1, bind_ok, htg, block_alloc_size_, block_elem_size_, hnot, if_false, e1] at h
  injection h with h
  subst h
  refine ⟨s1.shuffled_trans ⟨?_, by simp only; omega, rfl, rfl⟩, s2, s3, s4⟩
  intro k k1 k2
  simp only at k1 k2 ⊢
  rw [e3 k, if_pos (by omega)]
  exact ⟨_, by omega, by omega, rfl⟩

theorem replace_ctrl_back_shuffled {B : Nat} {d d' : deque α} (hc : Ctl B d)
    (t : List (Option Nat)) (ht : d.block_alloc_end_ - d.block_alloc_begin_ ≤ t.length)
    (h : d.replace_ctrl_back t = .ok d') :
    Shuffled d d' ∧ d'.blocks = d.blocks ∧ d'.ctrl_allocs = d.ctrl_allocs ∧
      d'.ctrl_frees = d.ctrl_frees + (if d.ctrl.length = 0 then 0 else 1) := by
  obtain ⟨d1, a1, _⟩ := align_elem_alloc_as_ctrl_back_spec hc (some t) (by simpa using ht)
  obtain ⟨s1, s2, s3, s4⟩ := align_elem_alloc_as_ctrl_back_shuffled hc (some t)
    (by simpa using ht) a1
  unfold replace_ctrl_back at h
  simp only [a1, bind_ok, dealloc_ctrl_, block_ctrl_end_] at h
  injection h with h
  subst h
  by_cases hz : d.ctrl.length = 0
  · simp only [hz, ne_eq, not_true_eq_false, if_false, if_true, Nat.add_zero]
    exact ⟨⟨s1.sub, s1.count, s1.blocks_len, s1.freed⟩, s2, s3, s4⟩
  · simp only [hz, ne_eq, not_false_eq_true, if_true, if_false]
    exact ⟨⟨s1.sub, s1.count, s1.blocks_len, s1.freed⟩, s2, s3, by rw [s4]⟩

theorem replace_ctrl_front_shuffled {B : Nat} {d d' : deque α} (hc : Ctl B d)
    (t : List (Option Nat)) (ht : d.block_alloc_end_ - d.block_alloc_begin_ ≤ t.length)
    (h : d.replace_ctrl_front t = .ok d') :
    Shuffled d d' ∧ d'.blocks = d.blocks ∧ d'.ctrl_allocs = d.ctrl_allocs ∧
      d'.ctrl_frees = d.ctrl_frees + (if d.ctrl.length = 0 then 0 else 1) := by
  obtain ⟨d1, a1, _⟩ := align_elem_alloc_as_ctrl_front_spec hc (some t) (by simpa using ht)
  obtain ⟨s1, s2, s3, s4⟩ := align_elem_alloc_as_ctrl_front_shuffled hc (some t)
    (by simpa using ht) a1
  unfold replace_ctrl_front at h
  simp only [a1, bind_ok, dealloc_ctrl_, block_ctrl_end_] at h
  injection h with h
  subst h
  by_cases hz : d.ctrl.length = 0
  · simp only [hz, ne_eq, not_true_eq_false, if_false, if_true, Nat.add_zero]
    exact ⟨⟨s1.sub, s1.count, s1.blocks_len, s1.freed⟩, s2, s3, s4⟩
  · simp only [hz, ne_eq, not_false_eq_true, if_true, if_false]
    exact ⟨⟨s1.sub, s1.count, s1.blocks_len, s1.freed⟩, s2, s3, by rw [s4]⟩

end deque

end fast_io

namespace fast_io

namespace deque

variable {α : Type}

/-! ## The acquisition of blocks keeps ownership -/

/-- The acquisition of one fresh block in a free slot `k` next to the owned slots keeps
ownership. -/
theorem Owns.grow {B : Nat} {d : deque α} (ho : Owns d) (hc : Ctl B d) (k ab' ae' : Nat)
    (hk : k < d.ctrl.length)
    (hside : (k = d.block_alloc_end_ ∧ ab' = d.block_alloc_begin_ ∧ ae' = k + 1) ∨
      (k + 1 = d.block_alloc_begin_ ∧ ab' = k ∧ ae' = d.block_alloc_end_)) :
    Owns { d with blocks := d.blocks ++ [List.replicate B none],
                  ctrl := d.ctrl.set k (some d.blocks.length),
                  block_alloc_begin_ := ab', block_alloc_end_ := ae' } := by
  have hle := hc.ab_le_ae
  have hnew : (d.ctrl.set k (some d.blocks.length))[k]? = some (some d.blocks.length) := by
    rw [List.getElem?_set]; simp [hk]
  unfold Owns alloc_blocks at ho ⊢
  simp only [List.length_append, List.length_singleton, List.range_succ]
  rcases hside with ⟨rfl, rfl, rfl⟩ | ⟨hk1, rfl, rfl⟩
  · have e : d.block_alloc_end_ + 1 - d.block_alloc_begin_
        = (d.block_alloc_end_ - d.block_alloc_begin_) + 1 := by omega
    have hnew' : (d.ctrl.set d.block_alloc_end_ (some d.blocks.length))[d.block_alloc_begin_
        + (d.block_alloc_end_ - d.block_alloc_begin_)]? = some (some d.blocks.length) := by
      rw [(by omega : d.block_alloc_begin_ + (d.block_alloc_end_ - d.block_alloc_begin_)
        = d.block_alloc_end_)]
      exact hnew
    have hold : slot_blocks (d.ctrl.set d.block_alloc_end_ (some d.blocks.length))
        d.block_alloc_begin_ (d.block_alloc_end_ - d.block_alloc_begin_)
        = slot_blocks d.ctrl d.block_alloc_begin_ (d.block_alloc_end_ - d.block_alloc_begin_) :=
      slot_blocks_congr (fun i hi => by rw [List.getElem?_set, if_neg (by omega)])
    rw [e, slot_blocks_snoc hnew', hold, List.append_assoc]
    have p1 : (slot_blocks d.ctrl d.block_alloc_begin_
        (d.block_alloc_end_ - d.block_alloc_begin_) ++ ([d.blocks.length] ++ d.freed)).Perm
        ((slot_blocks d.ctrl d.block_alloc_begin_
          (d.block_alloc_end_ - d.block_alloc_begin_) ++ d.freed) ++ [d.blocks.length]) := by
      rw [List.append_assoc]
      exact List.Perm.append_left _ List.perm_append_comm
    exact p1.trans (List.Perm.append_right [d.blocks.length] ho)
  · have e : d.block_alloc_end_ - ab' = (d.block_alloc_end_ - d.block_alloc_begin_) + 1 := by
      omega
    have hold : slot_blocks (d.ctrl.set ab' (some d.blocks.length)) (ab' + 1)
        (d.block_alloc_end_ - d.block_alloc_begin_)
        = slot_blocks d.ctrl d.block_alloc_begin_ (d.block_alloc_end_ - d.block_alloc_begin_) :=
      slot_blocks_congr (fun i hi => by
        rw [List.getElem?_set, if_neg (by omega)]
        congr 1; omega)
    rw [e, slot_blocks_cons hnew, hold, List.cons_append]
    exact (List.perm_append_singleton _ _).symm.trans
      (List.Perm.append_right [d.blocks.length] ho)

theorem extent_back_loop_owns {B : Nat} (n : Nat) : ∀ {d d' : deque α}, Ctl B d →
    d.block_alloc_end_ + n ≤ d.ctrl.length → extent_back_loop B n d = .ok d' →
    (Owns d → Owns d') ∧ d'.blocks.length = d.blocks.length + n ∧ d'.freed = d.freed ∧
      d'.ctrl_allocs = d.ctrl_allocs ∧ d'.ctrl_frees = d.ctrl_frees := by
  induction n with
  | zero =>
    intro d d' _ _ h
    injection h with h
    subst h
    exact ⟨id, rfl, rfl, rfl, rfl⟩
  | succ n ih =>
    intro d d' hc hroom h
    have hk : d.block_alloc_end_ < d.ctrl.length := by omega
    have hc1 := hc.ctl_grow d.block_alloc_end_ d.block_alloc_begin_ (d.block_alloc_end_ + 1) hk
      (Or.inl ⟨rfl, rfl, rfl⟩)
    unfold extent_back_loop at h
    simp only [alloc_block_, set_slot, hk, if_true] at h
    obtain ⟨e1, e2, e3, e4, e5⟩ := ih hc1 (by simp only [List.length_set]; omega) h
    refine ⟨fun ho => e1 (ho.grow hc _ _ _ hk (Or.inl ⟨rfl, rfl, rfl⟩)), ?_, e3, e4, e5⟩
    rw [e2]
    simp only [List.length_append, List.length_singleton]
    omega

theorem extent_front_loop_owns {B : Nat} (n : Nat) : ∀ {d d' : deque α}, Ctl B d →
    n ≤ d.block_alloc_begin_ → extent_front_loop B n d = .ok d' →
    (Owns d → Owns d') ∧ d'.blocks.length = d.blocks.length + n ∧ d'.freed = d.freed ∧
      d'.ctrl_allocs = d.ctrl_allocs ∧ d'.ctrl_frees = d.ctrl_frees := by
  induction n with
  | zero =>
    intro d d' _ _ h
    injection h with h
    subst h
    exact ⟨id, rfl, rfl, rfl, rfl⟩
  | succ n ih =>
    intro d d' hc hroom h
    have h1 := hc.ab_le
    have h2 := hc.be_le
    have h3 := hc.ee_le
    have h4 := hc.ae_le
    have hk : d.block_alloc_begin_ - 1 < d.ctrl.length := by omega
    have hc1 := hc.ctl_grow (d.block_alloc_begin_ - 1) (d.block_alloc_begin_ - 1)
      d.block_alloc_end_ hk (Or.inr ⟨by omega, rfl, rfl⟩)
    unfold extent_front_loop at h
    have hne : ¬ d.block_alloc_begin_ = 0 := by omega
    simp only [alloc_block_, set_slot, hk, if_true, hne, if_false] at h
    obtain ⟨e1, e2, e3, e4, e5⟩ := ih hc1 (by simp only; omega) h
    refine ⟨fun ho => e1 (ho.grow hc _ _ _ hk (Or.inr ⟨by omega, rfl, rfl⟩)), ?_, e3, e4, e5⟩
    rw [e2]
    simp only [List.length_append, List.length_singleton]
    omega

theorem extent_block_back_uncond_owns {B : Nat} {d d' : deque α} (hc : Ctl B d) (n : Nat)
    (hroom : d.block_alloc_end_ + n ≤ d.ctrl.length)
    (h : extent_block_back_uncond_ B d n = .ok d') :
    (Owns d → Owns d') ∧ d'.blocks.length = d.blocks.length + n ∧ d'.freed = d.freed ∧
      d'.ctrl_allocs = d.ctrl_allocs ∧ d'.ctrl_frees = d.ctrl_frees := by
  unfold extent_block_back_uncond_ at h
  split at h
  · cases h
  split at h
  · cases h
  exact extent_back_loop_owns n hc hroom h

theorem extent_block_front_uncond_owns {B : Nat} {d d' : deque α} (hc : Ctl B d) (n : Nat)
    (hroom : n ≤ d.block_alloc_begin_)
    (h : extent_block_front_uncond_ B d n = .ok d') :
    (Owns d → Owns d') ∧ d'.blocks.length = d.blocks.length + n ∧ d'.freed = d.freed ∧
      d'.ctrl_allocs = d.ctrl_allocs ∧ d'.ctrl_frees = d.ctrl_frees := by
  unfold extent_block_front_uncond_ at h
  split at h
  · cases h
  split at h
  · cases h
  exact extent_front_loop_owns n hc hroom h

end deque

end fast_io

namespace fast_io

namespace deque

variable {α : Type}

/-! ## The tiers of `reserve_one_back_` and `reserve_one_front_` -/

theorem Owns.of_counters {d : deque α} (ho : Owns d) (a f : Nat) :
    Owns { d with ctrl_allocs := a, ctrl_frees := f } := ho

/-- The four tiers of `reserve_one_back_`, with what each of them allocates. -/
theorem reserve_one_back_tiers {B : Nat} {d : deque α} (hc : Ctl B d) :
    ∃ d', reserve_one_back_ B d = .ok d' ∧ Ctl B d' ∧ Moved d d' ∧
      d'.block_elem_end_ < d'.block_alloc_end_ ∧ (Owns d → Owns d') ∧ d'.freed = d.freed ∧
      (d.block_alloc_end_ ≠ d.block_elem_end_ → d' = d) ∧
      (d.block_alloc_end_ = d.block_elem_end_ → d.block_elem_begin_ ≠ d.block_alloc_begin_ →
        Shuffled d d' ∧ d'.blocks = d.blocks ∧ d'.ctrl_allocs = d.ctrl_allocs ∧
        d'.ctrl_frees = d.ctrl_frees ∧ d'.ctrl.length = d.ctrl.length ∧
        d'.block_alloc_begin_ = d.block_alloc_begin_ ∧
        d'.block_alloc_end_ = d.block_alloc_end_) ∧
      (d.block_alloc_end_ = d.block_elem_end_ → d.block_elem_begin_ = d.block_alloc_begin_ →
        d.block_alloc_begin_ + (d.ctrl.length - d.block_alloc_end_) ≠ 0 →
        d'.blocks.length = d.blocks.length + 1 ∧ d'.ctrl_allocs = d.ctrl_allocs ∧
        d'.ctrl_frees = d.ctrl_frees ∧ d'.ctrl.length = d.ctrl.length ∧
        d'.block_alloc_end_ - d'.block_alloc_begin_
          = d.block_alloc_end_ - d.block_alloc_begin_ + 1) ∧
      (d.block_alloc_end_ = d.block_elem_end_ → d.block_elem_begin_ = d.block_alloc_begin_ →
        d.block_alloc_begin_ + (d.ctrl.length - d.block_alloc_end_) = 0 →
        d'.blocks.length = d.blocks.length + 1 ∧ d'.ctrl_allocs = d.ctrl_allocs + 1 ∧
        d'.ctrl_frees = d.ctrl_frees + (if d.ctrl.length = 0 then 0 else 1) ∧
        d'.ctrl.length = (d.block_alloc_end_ - d.block_alloc_begin_ + 1 + 3) / 4 * 4 ∧
        d'.block_alloc_end_ - d'.block_alloc_begin_
          = d.block_alloc_end_ - d.block_alloc_begin_ + 1) := by
  have h1 := hc.ab_le
  have h2 := hc.be_le
  have h3 := hc.ee_le
  have h4 := hc.ae_le
  unfold reserve_one_back_
  by_cases c1 : d.block_alloc_end_ ≠ d.block_elem_end_
  · rw [if_pos c1]
    exact ⟨d, rfl, hc, Moved.refl d, by omega, id, rfl, fun _ => rfl,
      fun h => absurd h c1, fun h => absurd h c1, fun h => absurd h c1⟩
  · rw [if_neg c1]
    have c1' : d.block_alloc_end_ = d.block_elem_end_ := by omega
    by_cases c2 : d.block_elem_begin_ ≠ d.block_alloc_begin_
    · rw [if_pos c2]
      obtain ⟨d', e1, e2, e3, e4, e5, e6, e7, e8⟩ := align_elem_as_alloc_back_spec hc
      obtain ⟨s1, s2, s3, s4⟩ := align_elem_as_alloc_back_shuffled hc e1
      have := e3.count
      have := e2.be_le
      exact ⟨d', e1, e2, e3, by omega, fun ho => ho.of_shuffled s1 hc e2, s1.freed,
        fun h => absurd c1' h, fun _ _ => ⟨s1, s2, s3, s4, e7, e5, e6⟩,
        fun _ h => absurd h c2, fun _ h => absurd h c2⟩
    · rw [if_neg c2]
      have c2' : d.block_elem_begin_ = d.block_alloc_begin_ := by omega
      by_cases c3 : (d.block_alloc_begin_ - 0) + (d.block_ctrl_end_ - d.block_alloc_end_) ≠ 0
      · rw [if_pos c3]
        unfold block_ctrl_end_ at c3
        obtain ⟨d1, e1, e2, e3, e4, e5, e6, e7, e8, e9⟩ :=
          align_elem_alloc_as_ctrl_back_spec hc none (by simp only [Option.getD_none]; omega)
        obtain ⟨s1, s2, s3, s4⟩ := align_elem_alloc_as_ctrl_back_shuffled hc none
          (by simp only [Option.getD_none]; omega) e1
        simp only [Option.getD_none] at e8
        obtain ⟨d2, f1, f2, f3, f4, f5, f6, f7, f8⟩ :=
          extent_block_back_uncond_spec e2 1 (by omega) (by omega)
        obtain ⟨g1, g2, g3, g4, g5⟩ := extent_block_back_uncond_owns e2 1 (by omega) f1
        simp only [e1, bind_ok]
        refine ⟨d2, f1, f2, e3.trans f3, by omega,
          fun ho => g1 (ho.of_shuffled s1 hc e2), by rw [g3, s1.freed],
          fun h => absurd c1' h, fun _ h => absurd c2' h, fun _ _ _ => ?_,
          fun _ _ h => absurd h (by simpa using c3)⟩
        exact ⟨by rw [g2, s1.blocks_len], by rw [g4, s3], by rw [g5, s4], by rw [f8, e8],
          by omega⟩
      · rw [if_neg c3]
        unfold block_ctrl_end_ at c3
        have hge := ctrl_alloc_ge (d.block_alloc_size_ + 1)
        unfold block_alloc_size_ at hge
        have hcn : Ctl B { d with ctrl_allocs := d.ctrl_allocs + 1 } :=
          hc.ctl_of_counters _ d.ctrl_frees
        have hmn : Moved d { d with ctrl_allocs := d.ctrl_allocs + 1 } :=
          Moved.moved_of_counters d _ d.ctrl_frees
        obtain ⟨d1, e1, e2, e3, e4, e5, e6, e7, e8⟩ :=
          replace_ctrl_back_spec hcn (ctrl_alloc_ (d.block_alloc_end_ - d.block_alloc_begin_ + 1))
            (by simp only; omega)
        obtain ⟨s1, s2, s3, s4⟩ := replace_ctrl_back_shuffled hcn
          (ctrl_alloc_ (d.block_alloc_end_ - d.block_alloc_begin_ + 1)) (by simp only; omega) e1
        simp only at e6 e7 s3 s4
        obtain ⟨d2, f1, f2, f3, f4, f5, f6, f7, f8⟩ :=
          extent_block_back_uncond_spec e2 1 (by omega) (by omega)
        obtain ⟨g1, g2, g3, g4, g5⟩ := extent_block_back_uncond_owns e2 1 (by omega) f1
        simp only [new_ctrl, block_alloc_size_, e1, bind_ok]
        refine ⟨d2, f1, f2, (hmn.trans e3).trans f3, by omega,
          fun ho => g1 ((ho.of_counters _ _).of_shuffled s1 hcn e2), by rw [g3, s1.freed],
          fun h => absurd c1' h, fun _ h => absurd c2' h,
          fun _ _ h => absurd (by simpa using c3) h, fun _ _ _ => ?_⟩
        exact ⟨by rw [g2, s1.blocks_len], by rw [g4, s3], by rw [g5, s4],
          by rw [f8, e8, ctrl_alloc_length], by omega⟩

/-- The four tiers of `reserve_one_front_`, with what each of them allocates. -/
theorem reserve_one_front_tiers {B : Nat} {d : deque α} (hc : Ctl B d) :
    ∃ d', reserve_one_front_ B d = .ok d' ∧ Ctl B d' ∧ Moved d d' ∧
      d'.block_alloc_begin_ < d'.block_elem_begin_ ∧ (Owns d → Owns d') ∧
      d'.freed = d.freed ∧
      (d.block_elem_begin_ ≠ d.block_alloc_begin_ → d' = d) ∧
      (d.block_elem_begin_ = d.block_alloc_begin_ → d.block_alloc_end_ ≠ d.block_elem_end_ →
        Shuffled d d' ∧ d'.blocks = d.blocks ∧ d'.ctrl_allocs = d.ctrl_allocs ∧
        d'.ctrl_frees = d.ctrl_frees ∧ d'.ctrl.length = d.ctrl.length ∧
        d'.block_alloc_begin_ = d.block_alloc_begin_ ∧
        d'.block_alloc_end_ = d.block_alloc_end_) ∧
      (d.block_elem_begin_ = d.block_alloc_begin_ → d.block_alloc_end_ = d.block_elem_end_ →
        d.block_alloc_begin_ + (d.ctrl.length - d.block_alloc_end_) ≠ 0 →
        d'.blocks.length = d.blocks.length + 1 ∧ d'.ctrl_allocs = d.ctrl_allocs ∧
        d'.ctrl_frees = d.ctrl_frees ∧ d'.ctrl.length = d.ctrl.length ∧
        d'.block_alloc_end_ - d'.block_alloc_begin_
          = d.block_alloc_end_ - d.block_alloc_begin_ + 1) ∧
      (d.block_elem_begin_ = d.block_alloc_begin_ → d.block_alloc_end_ = d.block_elem_end_ →
        d.block_alloc_begin_ + (d.ctrl.length - d.block_alloc_end_) = 0 →
        d'.blocks.length = d.blocks.length + 1 ∧ d'.ctrl_allocs = d.ctrl_allocs + 1 ∧
        d'.ctrl_frees = d.ctrl_frees + (if d.ctrl.length = 0 then 0 else 1) ∧
        d'.ctrl.length = (d.block_alloc_end_ - d.block_alloc_begin_ + 1 + 3) / 4 * 4 ∧
        d'.block_alloc_end_ - d'.block_alloc_begin_
          = d.block_alloc_end_ - d.block_alloc_begin_ + 1) := by
  have h1 := hc.ab_le
  have h2 := hc.be_le
  have h3 := hc.ee_le
  have h4 := hc.ae_le
  unfold reserve_one_front_
  by_cases c1 : d.block_elem_begin_ ≠ d.block_alloc_begin_
  · rw [if_pos c1]
    exact ⟨d, rfl, hc, Moved.refl d, by omega, id, rfl, fun _ => rfl,
      fun h => absurd h c1, fun h => absurd h c1, fun h => absurd h c1⟩
  · rw [if_neg c1]
    have c1' : d.block_elem_begin_ = d.block_alloc_begin_ := by omega
    by_cases c2 : d.block_alloc_end_ ≠ d.block_elem_end_
    · rw [if_pos c2]
      obtain ⟨d', e1, e2, e3, e4, e5, e6, e7, e8⟩ := align_elem_as_alloc_front_spec hc
      obtain ⟨s1, s2, s3, s4⟩ := align_elem_as_alloc_front_shuffled hc e1
      have := e3.count
      have := e2.be_le
      exact ⟨d', e1, e2, e3, by omega, fun ho => ho.of_shuffled s1 hc e2, s1.freed,
        fun h => absurd c1' h, fun _ _ => ⟨s1, s2, s3, s4, e7, e5, e6⟩,
        fun _ h => absurd h c2, fun _ h => absurd h c2⟩
    · rw [if_neg c2]
      have c2' : d.block_alloc_end_ = d.block_elem_end_ := by omega
      by_cases c3 : (d.block_alloc_begin_ - 0) + (d.block_ctrl_end_ - d.block_alloc_end_) ≠ 0
      · rw [if_pos c3]
        unfold block_ctrl_end_ at c3
        obtain ⟨d1, e1, e2, e3, e4, e5, e6, e7, e8, e9⟩ :=
          align_elem_alloc_as_ctrl_front_spec hc none (by simp only [Option.getD_none]; omega)
        obtain ⟨s1, s2, s3, s4⟩ := align_elem_alloc_as_ctrl_front_shuffled hc none
          (by simp only [Option.getD_none]; omega) e1
        simp only [Option.getD_none] at e8
        obtain ⟨d2, f1, f2, f3, f4, f5, f6, f7, f8⟩ :=
          extent_block_front_uncond_spec e2 1 (by omega) (by omega)
        obtain ⟨g1, g2, g3, g4, g5⟩ := extent_block_front_uncond_owns e2 1 (by omega) f1
        simp only [e1, bind_ok]
        refine ⟨d2, f1, f2, e3.trans f3, by omega,
          fun ho => g1 (ho.of_shuffled s1 hc e2), by rw [g3, s1.freed],
          fun h => absurd c1' h, fun _ h => absurd c2' h, fun _ _ _ => ?_,
          fun _ _ h => absurd h (by simpa using c3)⟩
        exact ⟨by rw [g2, s1.blocks_len], by rw [g4, s3], by rw [g5, s4], by rw [f8, e8],
          by omega⟩
      · rw [if_neg c3]
        unfold block_ctrl_end_ at c3
        have hge := ctrl_alloc_ge (d.block_alloc_size_ + 1)
        unfold block_alloc_size_ at hge
        have hcn : Ctl B { d with ctrl_allocs := d.ctrl_allocs + 1 } :=
          hc.ctl_of_counters _ d.ctrl_frees
        have hmn : Moved d { d with ctrl_allocs := d.ctrl_allocs + 1 } :=
          Moved.moved_of_counters d _ d.ctrl_frees
        obtain ⟨d1, e1, e2, e3, e4, e5, e6, e7, e8⟩ :=
          replace_ctrl_front_spec hcn
            (ctrl_alloc_ (d.block_alloc_end_ - d.block_alloc_begin_ + 1)) (by simp only; omega)
        obtain ⟨s1, s2, s3, s4⟩ := replace_ctrl_front_shuffled hcn
          (ctrl_alloc_ (d.block_alloc_end_ - d.block_alloc_begin_ + 1)) (by simp only; omega) e1
        simp only at e6 e7 s3 s4
        obtain ⟨d2, f1, f2, f3, f4, f5, f6, f7, f8⟩ :=
          extent_block_front_uncond_spec e2 1 (by omega) (by omega)
        obtain ⟨g1, g2, g3, g4, g5⟩ := extent_block_front_uncond_owns e2 1 (by omega) f1
        simp only [new_ctrl, block_alloc_size_, e1, bind_ok]
        refine ⟨d2, f1, f2, (hmn.trans e3).trans f3, by omega,
          fun ho => g1 ((ho.of_counters _ _).of_shuffled s1 hcn e2), by rw [g3, s1.freed],
          fun h => absurd c1' h, fun _ h => absurd c2' h,
          fun _ _ h => absurd (by simpa using c3) h, fun _ _ _ => ?_⟩
        exact ⟨by rw [g2, s1.blocks_len], by rw [g4, s3], by rw [g5, s4],
          by rw [f8, e8, ctrl_alloc_length], by omega⟩

end deque

end fast_io

namespace fast_io

namespace deque

variable {α : Type}

/-! ## The end operations keep ownership -/

theorem emplace_back_owns {B : Nat} (hB : 0 < B) {d d' : deque α} {s : List α}
    (hr : Rep B d s) {v : α} (h : emplace_back B d v = .ok d') (ho : Owns d) : Owns d' := by
  obtain ⟨d2, e2, hr2⟩ := emplace_back_spec hB hr v
  rw [h] at e2
  injection e2 with e2
  subst e2
  unfold emplace_back at h
  split at h
  · exact ho.of_quiet (emplace_back_pre_quiet h) hr.ctl hr2.ctl
  · obtain ⟨d1, h1, h2⟩ := bind_eq_ok h
    obtain ⟨d1', g1, g2, _, _, g5, _⟩ := reserve_one_back_tiers hr.ctl
    rw [h1] at g1
    injection g1 with g1
    subst g1
    exact (g5 ho).of_quiet (emplace_back_post_quiet h2) g2 hr2.ctl

theorem emplace_front_owns {B : Nat} (hB : 0 < B) {d d' : deque α} {s : List α}
    (hr : Rep B d s) {v : α} (h : emplace_front B d v = .ok d') (ho : Owns d) : Owns d' := by
  obtain ⟨d2, e2, hr2⟩ := emplace_front_spec hB hr v
  rw [h] at e2
  injection e2 with e2
  subst e2
  unfold emplace_front at h
  split at h
  · exact ho.of_quiet (emplace_front_pre_quiet h) hr.ctl hr2.ctl
  · obtain ⟨d1, h1, h2⟩ := bind_eq_ok h
    obtain ⟨d1', g1, g2, _, _, g5, _⟩ := reserve_one_front_tiers hr.ctl
    rw [h1] at g1
    injection g1 with g1
    subst g1
    exact (g5 ho).of_quiet (emplace_front_post_quiet h2) g2 hr2.ctl

theorem pop_back_owns {B : Nat} (hB : 0 < B) {d d' : deque α} {s : List α}
    (hr : Rep B d s) (h : pop_back B d = .ok d') (ho : Owns d) : Owns d' := by
  have hne : s ≠ [] := by
    intro hs
    rw [pop_back_of_empty (hr.empty_iff.2 hs)] at h
    cases h
  obtain ⟨d2, e2, hr2⟩ := pop_back_spec hB hr hne
  rw [h] at e2
  injection e2 with e2
  subst e2
  exact ho.of_quiet (pop_back_quiet h) hr.ctl hr2.ctl

theorem pop_front_owns {B : Nat} (hB : 0 < B) {d d' : deque α} {s : List α}
    (hr : Rep B d s) (h : pop_front B d = .ok d') (ho : Owns d) : Owns d' := by
  have hne : s ≠ [] := by
    intro hs
    rw [pop_front_of_empty (hr.empty_iff.2 hs)] at h
    cases h
  obtain ⟨d2, e2, hr2⟩ := pop_front_spec hB hr hne
  rw [h] at e2
  injection e2 with e2
  subst e2
  exact ho.of_quiet (pop_front_quiet h) hr.ctl hr2.ctl

theorem clear_owns {B : Nat} {d d' : deque α} (hc : Ctl B d) {trivial : Bool}
    (h : clear B trivial d = .ok d') (ho : Owns d) : Owns d' := by
  obtain ⟨d2, e2, hr2, _⟩ := clear_spec hc trivial
  rw [h] at e2
  injection e2 with e2
  subst e2
  exact ho.of_quiet (clear_quiet h) hc hr2.ctl

theorem shrink_to_fit_owns {B : Nat} {d d' : deque α} (hc : Ctl B d)
    (h : shrink_to_fit d = .ok d') (ho : Owns d) : Owns d' := by
  have h1 := hc.ab_le
  have h2 := hc.be_le
  have h3 := hc.ee_le
  obtain ⟨d2, e2, g1, g2, g3, _, g5, g6, _⟩ := shrink_to_fit_log hc
  rw [h] at e2
  injection e2 with e2
  subst e2
  unfold Owns alloc_blocks at ho ⊢
  rw [g1, g2, g3, g5, g6]
  have e : d.block_alloc_end_ - d.block_alloc_begin_
      = (d.block_elem_begin_ - d.block_alloc_begin_) +
        ((d.block_elem_end_ - d.block_elem_begin_) +
          (d.block_alloc_end_ - d.block_elem_end_)) := by omega
  rw [e, slot_blocks_append, slot_blocks_append] at ho
  have e1 : d.block_alloc_begin_ + (d.block_elem_begin_ - d.block_alloc_begin_)
      = d.block_elem_begin_ := by omega
  have e2 : d.block_elem_begin_ + (d.block_elem_end_ - d.block_elem_begin_)
      = d.block_elem_end_ := by omega
  rw [e1, e2] at ho
  refine List.Perm.trans ?_ ho
  unfold slack_blocks
  rw [List.perm_iff_count]
  intro a
  simp only [List.count_append]
  omega

end deque

end fast_io

namespace fast_io

namespace deque

variable {α : Type}

/-! ## The sized constructors establish ownership -/

theorem uninitialized_fill_quiet (v : α) (n : Nat) : ∀ (d d' : deque α) (p : Ptr),
    uninitialized_fill v n d p = .ok d' → Quiet d d' := by
  induction n with
  | zero =>
    intro d d' p h
    injection h with h
    subst h
    exact Quiet.quiet_refl _
  | succ n ih =>
    intro d d' p h
    unfold uninitialized_fill at h
    split at h
    · exact (write_quiet ‹_›).quiet_trans (ih _ _ _ h)
    · cases h

theorem uninitialized_copy_n_quiet {B : Nat} (src : deque α) (n : Nat) :
    ∀ (d d' : deque α) (it : deque_iterator) (p : Ptr),
    uninitialized_copy_n B src n d it p = .ok d' → Quiet d d' := by
  induction n with
  | zero =>
    intro d d' it p h
    injection h with h
    subst h
    exact Quiet.quiet_refl _
  | succ n ih =>
    intro d d' it p h
    unfold uninitialized_copy_n at h
    split at h
    · split at h
      · split at h
        · exact (write_quiet ‹_›).quiet_trans (ih _ _ _ _ h)
        · cases h
      · cases h
    · cases h

theorem uninitialized_copy_until_quiet {B : Nat} (src : deque α) (last : deque_iterator)
    (n : Nat) : ∀ (d d' : deque α) (it : deque_iterator) (p : Ptr),
    uninitialized_copy_until B src last n d it p = .ok d' → Quiet d d' := by
  induction n with
  | zero =>
    intro d d' it p h
    unfold uninitialized_copy_until at h
    split at h
    · injection h with h; subst h; exact Quiet.quiet_refl _
    · cases h
  | succ n ih =>
    intro d d' it p h
    unfold uninitialized_copy_until at h
    split at h
    · injection h with h; subst h; exact Quiet.quiet_refl _
    split at h
    · split at h
      · split at h
        · exact (write_quiet ‹_›).quiet_trans (ih _ _ _ _ h)
        · cases h
      · cases h
    · cases h

theorem construct_full_quiet [Inhabited α] {B : Nat} {d d' : deque α} {p : Ptr}
    {ts ts' : ctor_src α} (h : construct_full B d p ts = .ok (d', ts')) : Quiet d d' := by
  unfold construct_full at h
  split at h
  · obtain ⟨d1, h1, h⟩ := bind_eq_ok h
    injection h with h
    injection h with h _
    subst h
    exact uninitialized_fill_quiet _ _ _ _ _ h1
  · obtain ⟨d1, h1, h⟩ := bind_eq_ok h
    injection h with h
    injection h with h _
    subst h
    exact uninitialized_fill_quiet _ _ _ _ _ h1
  · obtain ⟨d1, h1, h⟩ := bind_eq_ok h
    obtain ⟨f1, _, h⟩ := bind_eq_ok h
    injection h with h
    injection h with h _
    subst h
    exact uninitialized_copy_n_quiet _ _ _ _ _ _ h1

theorem construct_part_quiet [Inhabited α] {B : Nat} {d d' : deque α} {p : Ptr} {rem : Nat}
    {ts : ctor_src α} (h : construct_part B d p rem ts = .ok d') : Quiet d d' := by
  unfold construct_part at h
  split at h
  · exact uninitialized_fill_quiet _ _ _ _ _ h
  · exact uninitialized_fill_quiet _ _ _ _ _ h
  · exact uninitialized_copy_until_quiet _ _ _ _ _ _ _ h

theorem construct_loop_quiet [Inhabited α] {B : Nat} (n : Nat) :
    ∀ (d d' : deque α) (ts ts' : ctor_src α),
    construct_loop B n d ts = .ok (d', ts') → Quiet d d' := by
  induction n with
  | zero =>
    intro d d' ts ts' h
    injection h with h
    injection h with h _
    subst h
    exact Quiet.quiet_refl _
  | succ n ih =>
    intro d d' ts ts' h
    unfold construct_loop at h
    split at h
    · split at h
      · have q1 := construct_full_quiet ‹_›
        have q2 := ih _ _ _ _ h
        exact ⟨q2.ctrl.trans q1.ctrl, q2.ab.trans q1.ab, q2.ae.trans q1.ae,
          q2.blocks_len.trans q1.blocks_len, q2.freed.trans q1.freed,
          q2.allocs.trans q1.allocs, q2.frees.trans q1.frees⟩
      · cases h
    · cases h

theorem construct_quiet [Inhabited α] {B : Nat} {d d' : deque α} {full rem : Nat}
    {ts : ctor_src α} (h : construct_ B d full rem ts = .ok d') : Quiet d d' := by
  unfold construct_ at h
  obtain ⟨⟨d1, ts1⟩, h1, h⟩ := bind_eq_ok h
  obtain ⟨⟨d2, ts2⟩, h2, h3⟩ := bind_eq_ok h
  simp only at h2 h3
  have q1 : Quiet d d1 := by
    unfold construct_first_ at h1
    split at h1
    · obtain ⟨p, _, h1⟩ := bind_eq_ok h1
      obtain ⟨⟨d0, ts0⟩, g, h1⟩ := bind_eq_ok h1
      have q := construct_full_quiet g
      injection h1 with h1
      injection h1 with h1 _
      subst h1
      exact ⟨q.ctrl, q.ab, q.ae, q.blocks_len, q.freed, q.allocs, q.frees⟩
    · injection h1 with h1
      injection h1 with h1 _
      subst h1
      exact Quiet.quiet_refl _
  have q2 : Quiet d1 d2 := by
    unfold construct_more_ at h2
    split at h2
    · obtain ⟨⟨d0, ts0⟩, g, h2⟩ := bind_eq_ok h2
      have q := construct_loop_quiet _ _ _ _ _ g
      injection h2 with h2
      injection h2 with h2 _
      subst h2
      exact ⟨q.ctrl, q.ab, q.ae, q.blocks_len, q.freed, q.allocs, q.frees⟩
    · injection h2 with h2
      injection h2 with h2 _
      subst h2
      exact Quiet.quiet_refl _
  have q3 : Quiet d2 d' := by
    unfold construct_rem_ at h3
    split at h3
    · obtain ⟨p, _, h3⟩ := bind_eq_ok h3
      obtain ⟨d0, g, h3⟩ := bind_eq_ok h3
      have q := construct_part_quiet g
      injection h3 with h3
      subst h3
      simp only [elem_end_, elem_begin_]
      split_ifs <;> exact ⟨q.ctrl, q.ab, q.ae, q.blocks_len, q.freed, q.allocs, q.frees⟩
    · injection h3 with h3
      subst h3
      exact Quiet.quiet_refl _
  exact (q1.quiet_trans q2).quiet_trans q3

/-- The blocks that `extent_block_` acquires for a deque without control array are owned. -/
theorem extent_block_fresh_owns {B : Nat} {d d1 : deque α} (hc : Ctl B d)
    (h0 : d.ctrl = []) (ho : Owns d) (n : Nat) (h : extent_block_ B d n = .ok d1) :
    Owns d1 := by
  have hab := hc.ab_le
  have hbe := hc.be_le
  have hee := hc.ee_le
  have hae := hc.ae_le
  rw [h0] at hae
  simp only [List.length_nil] at hae
  by_cases hn0 : n = 0
  · subst hn0
    simp only [extent_block_, ne_eq, not_true_eq_false, if_false] at h
    injection h with h
    subst h
    exact ho
  · have hc2 : Ctl B ((d.new_ctrl n).2.replace_ctrl (d.new_ctrl n).1) :=
      ⟨Nat.le_refl _, Nat.le_refl _, Nat.le_refl _, Nat.zero_le _,
        fun k _ h2 => absurd h2 (Nat.not_lt_zero k),
        fun k _ _ h2 => absurd h2 (Nat.not_lt_zero k)⟩
    have ho2 : Owns ((d.new_ctrl n).2.replace_ctrl (d.new_ctrl n).1) := by
      unfold Owns alloc_blocks at ho ⊢
      have e : d.block_alloc_end_ - d.block_alloc_begin_ = 0 := by omega
      rw [e] at ho
      simpa [replace_ctrl, new_ctrl, slot_blocks] using ho
    unfold extent_block_ block_ctrl_size_ block_ctrl_end_ at h
    rw [if_pos hn0, h0] at h
    simp only [List.length_nil, if_true] at h
    exact (extent_block_back_uncond_owns hc2 n
      (by simpa [replace_ctrl, new_ctrl] using ctrl_alloc_ge n) h).1 ho2

theorem mk_fill_owns [Inhabited α] {B : Nat} {count : Nat} {v : α} {d : deque α}
    (hB : 0 < B) (hfit : count + B ≤ SIZE_RANGE) (h : mk_fill B count v = .ok d) : Owns d := by
  obtain ⟨d2, e2, hc2, _⟩ := mk_fill_spec hB count v hfit
  rw [h] at e2
  injection e2 with e2
  subst e2
  unfold mk_fill at h
  obtain ⟨d1, h1, h2⟩ := bind_eq_ok h
  obtain ⟨d1', g1, g2, _⟩ := extent_block_fresh (Ctl.ctl_init B) (@Null.null_init α) rfl
    (calc_cap B count).block_size
  rw [h1] at g1
  injection g1 with g1
  subst g1
  have ho1 := extent_block_fresh_owns (Ctl.ctl_init B) rfl Owns.owns_init _ h1
  exact ho1.of_quiet (construct_quiet h2) g2 hc2

theorem mk_count_owns [Inhabited α] {B : Nat} {count : Nat} {d : deque α}
    (hB : 0 < B) (hfit : count + B ≤ SIZE_RANGE) (h : mk_count B count = .ok d) : Owns d := by
  obtain ⟨d2, e2, hc2, _⟩ := @mk_count_spec α _ B hB count hfit
  rw [h] at e2
  injection e2 with e2
  subst e2
  unfold mk_count at h
  obtain ⟨d1, h1, h2⟩ := bind_eq_ok h
  obtain ⟨d1', g1, g2, _⟩ := extent_block_fresh (Ctl.ctl_init B) (@Null.null_init α) rfl
    (calc_cap B count).block_size
  rw [h1] at g1
  injection g1 with g1
  subst g1
  have ho1 := extent_block_fresh_owns (Ctl.ctl_init B) rfl Owns.owns_init _ h1
  exact ho1.of_quiet (construct_quiet h2) g2 hc2

/-- Every reachable state owns its blocks. -/
theorem Reachable.owns {B : Nat} (hB : 0 < B) {d : deque α} (h : Reachable B d) : Owns d := by
  induction h with
  | init => exact Owns.owns_init
  | placed pl _ ih => exact ih
  | mk_count count hfit he => exact mk_count_owns hB hfit he
  | mk_fill count v hfit he => exact mk_fill_owns hB hfit he
  | emplace_back x hd he ih =>
    obtain ⟨s, hr⟩ := hd.rep_of_reachable hB
    exact emplace_back_owns hB hr he ih
  | emplace_front x hd he ih =>
    obtain ⟨s, hr⟩ := hd.rep_of_reachable hB
    exact emplace_front_owns hB hr he ih
  | pop_back hd he ih =>
    obtain ⟨s, hr⟩ := hd.rep_of_reachable hB
    exact pop_back_owns hB hr he ih
  | pop_front hd he ih =>
    obtain ⟨s, hr⟩ := hd.rep_of_reachable hB
    exact pop_front_owns hB hr he ih
  | clear trivial hd he ih =>
    obtain ⟨s, hr⟩ := hd.rep_of_reachable hB
    exact clear_owns hr.ctl he ih
  | shrink_to_fit hd he ih =>
    obtain ⟨s, hr⟩ := hd.rep_of_reachable hB
    exact shrink_to_fit_owns hr.ctl he ih

end deque

end fast_io

namespace fast_io

namespace deque

variable {α : Type}

/-! ## The comparison `operator==` -/

/-- The loop of `operator==` from index `j` on, with enough iterations allowed: it returns
whether the two sequences agree from index `j` on. -/
theorem equal_loop_spec [DecidableEq α] {B : Nat} (hB : 0 < B) {d d2 : deque α}
    {s s2 : List α} {lo hi bf bl lo2 hi2 bf2 bl2 : Nat} (hc : Ctl B d) (hc2 : Ctl B d2)
    (hl : Live B d s lo hi bf bl) (hl2 : Live B d2 s2 lo2 hi2 bf2 bl2)
    (hpl : Placed B d) (hna : EndApart B d)
    (hlen : s.length = s2.length) {last : deque_iterator}
    (hlast : IterAt B d s lo hi bl s.length last) (n : Nat) :
    ∀ (j fuel : Nat) (first first1 : deque_iterator), j + n = s.length → n < fuel →
      IterAt B d s lo hi bl j first → IterAt B d2 s2 lo2 hi2 bl2 j first1 →
      equal_loop B d d2 last fuel first first1 = some (.ok (decide (s.drop j = s2.drop j))) := by
  induction n with
  | zero =>
    intro j fuel first first1 hj hf h1 _
    obtain ⟨f, rfl⟩ : ∃ f, fuel = f + 1 := ⟨fuel - 1, by omega⟩
    have e : first.eq d last = true := (h1.eq_iff hc hl hB hpl hna hlast).2 (by omega)
    have e1 : s.drop j = [] := List.drop_eq_nil_of_le (by omega)
    have e2 : s2.drop j = [] := List.drop_eq_nil_of_le (by omega)
    simp [equal_loop, e, e1, e2]
  | succ n ih =>
    intro j fuel first first1 hj hf h1 h2
    obtain ⟨f, rfl⟩ : ∃ f, fuel = f + 1 := ⟨fuel - 1, by omega⟩
    have hjs : j < s.length := by omega
    have hjs2 : j < s2.length := by omega
    have e : ¬ (first.eq d last = true) := fun h => by
      have := (h1.eq_iff hc hl hB hpl hna hlast).1 h
      omega
    have ed1 := h1.deref_eq hl hB hjs
    have ed2 := h2.deref_eq hl2 hB hjs2
    have es1 : s.drop j = s[j] :: s.drop (j + 1) := List.drop_eq_getElem_cons hjs
    have es2 : s2.drop j = s2[j] :: s2.drop (j + 1) := List.drop_eq_getElem_cons hjs2
    unfold equal_loop
    rw [if_neg e, ed1, ed2]
    by_cases hx : s[j] = s2[j]
    · obtain ⟨f1, g1, i1⟩ := h1.inc_spec hc hl hB hjs
      obtain ⟨f2, g2, i2⟩ := h2.inc_spec hc2 hl2 hB hjs2
      have hih := ih (j + 1) f f1 f2 (by omega) (by omega) i1 i2
      have key : (s.drop j = s2.drop j) ↔ (s.drop (j + 1) = s2.drop (j + 1)) := by
        rw [es1, es2, hx]
        constructor
        · intro h; injection h
        · intro h; rw [h]
      simp only [hx, ne_eq, not_true_eq_false, if_false, g1, g2, hih, key]
    · have key : ¬ (s.drop j = s2.drop j) := by
        intro h
        rw [es1, es2] at h
        injection h with h3 _
        exact hx h3
      simp only [ne_eq, hx, not_false_eq_true, if_true, key, decide_False]

/-- The function `operator==`, with more iterations allowed than the left deque has
elements, returns whether the two element sequences are equal, when no element block of the
left deque begins where its full last block ends. -/
theorem operator_eq_spec [DecidableEq α] {B : Nat} (hB : 0 < B) {d d2 : deque α}
    {s s2 : List α} (hr : Rep B d s) (hr2 : Rep B d2 s2) (hpl : Placed B d)
    (hna : EndApart B d) (fuel : Nat) (hf : s.length < fuel) :
    operator_eq B fuel d d2 = some (.ok (decide (s = s2))) := by
  unfold operator_eq
  simp only [hr.size_eq, hr2.size_eq]
  by_cases hlen : s.length = s2.length
  swap
  · have hne : ¬ (s = s2) := fun h => hlen (by rw [h])
    simp [hlen, hne]
  rcases hr.shape with ⟨rfl, _⟩ | ⟨lo, hi, bf, bl, hl⟩
  · have e2 : s2 = [] := List.length_eq_zero.1 hlen.symm
    subst e2
    simp
  rcases hr2.shape with ⟨rfl, _⟩ | ⟨lo2, hi2, bf2, bl2, hl2⟩
  · have := hl.len_pos
    rw [hlen] at this
    simp at this
  have hpos := hl.len_pos
  obtain ⟨b, hb, hbeg⟩ := hl.iter_begin
  obtain ⟨e, he, hend⟩ := hl.iter_end
  obtain ⟨b2, hb2, hbeg2⟩ := hl2.iter_begin
  have hloop := equal_loop_spec hB hr.ctl hr2.ctl hl hl2 hpl hna hlen hend s.length 0 fuel b b2
    (by omega) hf hbeg hbeg2
  have hne : ¬ (s.length = 0) := by omega
  simp only [hlen, ne_eq, not_true_eq_false, if_false, hb, he, hb2]
  rw [← hlen, if_pos hne, hloop]
  simp

end deque

end fast_io

namespace fast_io

namespace deque

variable {α : Type}

/-- The fields of the iterator at index `j`: its slot, the block the slot holds, and its
offset, which together make up the flat position `lo + j`. -/
theorem IterAt.repr {B : Nat} {d : deque α} {s : List α} {lo hi bf bl j : Nat}
    {it : deque_iterator} (hl : Live B d s lo hi bf bl) (hB : 0 < B)
    (h : IterAt B d s lo hi bl j it) :
    ∃ k o b : Nat, it = ⟨some k, some d.block_elem_end_, some ⟨b, 0⟩, some ⟨b, o⟩⟩ ∧
      d.ctrl[k]? = some (some b) ∧ d.block_elem_begin_ ≤ k ∧ k < d.block_elem_end_ ∧
      o ≤ B ∧ (o = B → k + 1 = d.block_elem_end_) ∧
      k * B + o = d.block_elem_begin_ * B + lo + j := by
  have hpos := hl.blocks_pos
  have hlen := hl.len_eq
  rcases h with ⟨hj, b, hb, rfl⟩ | ⟨hj, rfl⟩
  · obtain ⟨hs1, _⟩ := hl.slot_lt hB j hj
    have hm : (lo + j) % B < B := Nat.mod_lt _ hB
    have hdm := div_mul_add_mod (lo + j) B
    generalize (lo + j) / B = q at *
    generalize (lo + j) % B = r at *
    refine ⟨_, _, b, rfl, hb, by omega, by omega, by omega, by omega, ?_⟩
    rw [Nat.add_mul]
    omega
  · refine ⟨_, _, bl, rfl, hl.slot_last, by omega, by omega, hl.hi_le, fun _ => by omega, ?_⟩
    have e : d.block_elem_end_ - 1
        = d.block_elem_begin_ + (d.block_elem_end_ - d.block_elem_begin_ - 1) := by omega
    rw [e, Nat.add_mul]
    omega

/-- The three-way comparison of the iterators at the indices `i` and `j` is the comparison
of `i` and `j`. -/
theorem IterAt.cmp_spec {B : Nat} {d : deque α} {s : List α} {lo hi bf bl i j : Nat}
    {it1 it2 : deque_iterator} (hl : Live B d s lo hi bf bl) (hB : 0 < B)
    (h1 : IterAt B d s lo hi bl i it1) (h2 : IterAt B d s lo hi bl j it2) :
    it1.cmp it2 = .ok (compare i j) := by
  obtain ⟨k1, o1, b1, rfl, c1, l1, u1, p1, q1, f1⟩ := h1.repr hl hB
  obtain ⟨k2, o2, b2, rfl, c2, l2, u2, p2, q2, f2⟩ := h2.repr hl hB
  rcases Nat.lt_trichotomy k1 k2 with hk | hk | hk
  · have hm := Nat.mul_le_mul_right B (show k1 + 1 ≤ k2 from hk)
    rw [Nat.add_mul, Nat.one_mul] at hm
    have hij : i < j := by
      by_cases e : o1 = B
      · have := q1 e; omega
      · omega
    rw [compare_lt_iff_lt.mpr hij]
    simp [deque_iterator.cmp, deque_iterator.slot_below, hk]
  · subst hk
    rw [c1] at c2
    injection c2 with c2
    injection c2 with c2
    subst c2
    rcases Nat.lt_trichotomy o1 o2 with ho | ho | ho
    · have hij : i < j := by omega
      rw [compare_lt_iff_lt.mpr hij]
      simp [deque_iterator.cmp, deque_iterator.slot_below, deque_iterator.ptr_below, ho]
    · subst ho
      have hij : i = j := by omega
      rw [compare_eq_iff_eq.mpr hij]
      simp [deque_iterator.cmp, deque_iterator.slot_below, deque_iterator.ptr_below]
    · have hij : j < i := by omega
      rw [compare_gt_iff_gt.mpr hij]
      have hn : ¬ (o1 < o2) := by omega
      simp [deque_iterator.cmp, deque_iterator.slot_below, deque_iterator.ptr_below, ho, hn]
  · have hm := Nat.mul_le_mul_right B (show k2 + 1 ≤ k1 from hk)
    rw [Nat.add_mul, Nat.one_mul] at hm
    have hij : j < i := by
      by_cases e : o2 = B
      · have := q2 e; omega
      · omega
    rw [compare_gt_iff_gt.mpr hij]
    have hn : ¬ (k1 < k2) := by omega
    simp [deque_iterator.cmp, deque_iterator.slot_below, hk, hn]

/-- On a deque without elements `begin()` and `end()` compare equal. -/
theorem cmp_null : deque_iterator.cmp ⟨none, none, none, none⟩ ⟨none, none, none, none⟩
    = .ok .eq := by
  simp [deque_iterator.cmp, deque_iterator.slot_below, deque_iterator.ptr_below]

theorem diff_null (B : Nat) :
    deque_iterator.diff B ⟨none, none, none, none⟩ ⟨none, none, none, none⟩ = .ok 0 := by
  simp [deque_iterator.diff, deque_iterator.in_block_offset]

end deque

end fast_io

namespace fast_io

namespace deque

variable {α : Type}

theorem ShiftedDown.sd_zero (t : List α) (a : Nat) : ShiftedDown t t a 0 :=
  ⟨rfl, fun _ _ => rfl, fun i h1 h2 => by omega⟩

theorem ShiftedDown.sd_step (t : List α) (a : Nat) (h : a + 1 < t.length) :
    ShiftedDown t (t.set a t[a + 1]) a 1 := by
  refine ⟨List.length_set _ _ _, fun i hi => ?_, fun i h1 h2 => ?_⟩
  · rw [List.getElem?_set_ne (by omega)]
  · have e : i = a := by omega
    subst e
    rw [List.getElem?_set_self (by omega), List.getElem?_eq_getElem h]

theorem ShiftedDown.sd_comp {t t1 t2 : List α} {a n m : Nat} (h1 : ShiftedDown t t1 a n)
    (h2 : ShiftedDown t1 t2 (a + n) m) : ShiftedDown t t2 a (n + m) := by
  refine ⟨h2.len.trans h1.len, fun i hi => ?_, fun i hi1 hi2 => ?_⟩
  · rw [h2.keep i (by omega), h1.keep i (by omega)]
  · by_cases hc : i < a + n
    · rw [h2.keep i (by omega), h1.move i hi1 hc]
    · rw [h2.move i (by omega) (by omega), h1.keep (i + 1) (by omega)]

theorem ShiftedDown.sd_join {t t1 t2 : List α} {a b n m k : Nat} (h1 : ShiftedDown t t1 a n)
    (h2 : ShiftedDown t1 t2 b m) (hb : b = a + n) (hk : k = n + m) : ShiftedDown t t2 a k := by
  subst hb hk
  exact h1.sd_comp h2

theorem ShiftedUp.su_zero (t : List α) (a : Nat) : ShiftedUp t t a 0 :=
  ⟨rfl, fun _ _ => rfl, fun i h1 h2 => by omega⟩

theorem ShiftedUp.su_step (t : List α) (a : Nat) (h : a + 1 < t.length) :
    ShiftedUp t (t.set (a + 1) (t.get ⟨a, by omega⟩)) a 1 := by
  refine ⟨List.length_set _ _ _, fun i hi => ?_, fun i h1 h2 => ?_⟩
  · rw [List.getElem?_set_ne (by omega)]
  · have e : i = a := by omega
    subst e
    rw [List.getElem?_set_self (by omega), List.getElem?_eq_getElem (by omega)]
    rfl

theorem ShiftedUp.su_comp {t t1 t2 : List α} {a n m : Nat} (h1 : ShiftedUp t t1 (a + m) n)
    (h2 : ShiftedUp t1 t2 a m) : ShiftedUp t t2 a (m + n) := by
  refine ⟨h2.len.trans h1.len, fun i hi => ?_, fun i hi1 hi2 => ?_⟩
  · rw [h2.keep i (by omega), h1.keep i (by omega)]
  · by_cases hc : i < a + m
    · rw [h2.move i hi1 hc, h1.keep i (by omega)]
    · rw [h2.keep (i + 1) (by omega), h1.move i (by omega) (by omega)]

theorem ShiftedUp.su_join {t t1 t2 : List α} {a b n m k : Nat} (h1 : ShiftedUp t t1 b n)
    (h2 : ShiftedUp t1 t2 a m) (hb : b = a + m) (hk : k = m + n) : ShiftedUp t t2 a k := by
  subst hb hk
  exact h1.su_comp h2

/-- Two flat positions with offsets inside the block are equal only slot by slot. -/
theorem flat_unique {B K K1 o o1 : Nat} (h : K * B + o = K1 * B + o1) (ho : o < B)
    (ho1 : o1 < B) : K = K1 ∧ o = o1 := by
  rcases Nat.lt_trichotomy K K1 with hk | hk | hk
  · have := Nat.mul_le_mul_right B (show K + 1 ≤ K1 from hk)
    rw [Nat.add_mul, Nat.one_mul] at this
    omega
  · subst hk
    exact ⟨rfl, by omega⟩
  · have := Nat.mul_le_mul_right B (show K1 + 1 ≤ K from hk)
    rw [Nat.add_mul, Nat.one_mul] at this
    omega

/-- The slot and the offset of a flat position at or behind the first element. -/
theorem Live.rel_of_abs {B : Nat} {d : deque α} {s : List α} {lo hi bf bl : Nat}
    (hl : Live B d s lo hi bf bl) {K o i : Nat}
    (hf : K * B + o = d.block_elem_begin_ * B + lo + i) (ho : o < B) :
    d.block_elem_begin_ ≤ K ∧ (lo + i) / B = K - d.block_elem_begin_ ∧ (lo + i) % B = o := by
  have hlo := hl.lo_lt
  have hK : d.block_elem_begin_ ≤ K := by
    by_contra hn
    have := Nat.mul_le_mul_right B (show K + 1 ≤ d.block_elem_begin_ by omega)
    rw [Nat.add_mul, Nat.one_mul] at this
    omega
  obtain ⟨k, rfl⟩ : ∃ k, K = d.block_elem_begin_ + k := ⟨K - d.block_elem_begin_, by omega⟩
  rw [Nat.add_mul] at hf
  have := @div_mod_of_eq B k o (lo + i) (by omega) ho
  exact ⟨by omega, by rw [this.1]; omega, this.2⟩

/-- The element of index `i` is what the cell at its flat position holds. -/
theorem Live.read_abs {B : Nat} {d : deque α} {s : List α} {lo hi bf bl : Nat}
    (hl : Live B d s lo hi bf bl) {K o b i : Nat} (hk : d.ctrl[K]? = some (some b))
    (hf : K * B + o = d.block_elem_begin_ * B + lo + i) (ho : o < B) (hi' : i < s.length) :
    d.read ⟨b, o⟩ = .ok s[i] := by
  obtain ⟨h1, h2, h3⟩ := hl.rel_of_abs hf ho
  obtain ⟨b1, hb1, hb2⟩ := hl.elems i hi'
  rw [h3] at hb2
  rw [h2] at hb1
  have e : d.block_elem_begin_ + (K - d.block_elem_begin_) = K := by omega
  rw [e, hk] at hb1
  injection hb1 with hb1
  injection hb1 with hb1
  subst hb1
  exact hb2

/-- The store of `v` to the cell at the flat position of the index `i`. -/
theorem Live.write_abs {B : Nat} {d : deque α} {s : List α} {lo hi bf bl : Nat}
    (hc : Ctl B d) (hl : Live B d s lo hi bf bl) (hB : 0 < B) {K o b i : Nat}
    (hk : d.ctrl[K]? = some (some b))
    (hf : K * B + o = d.block_elem_begin_ * B + lo + i) (ho : o < B) (hi' : i < s.length)
    (v : α) :
    ∃ d1, d.write ⟨b, o⟩ v = .ok d1 ∧ Ctl B d1 ∧ Live B d1 (s.set i v) lo hi bf bl ∧
      d1.ctrl = d.ctrl ∧ d1.block_elem_begin_ = d.block_elem_begin_ ∧
      d1.block_elem_end_ = d.block_elem_end_ := by
  obtain ⟨h1, h2, h3⟩ := hl.rel_of_abs hf ho
  have e : d.block_elem_begin_ + (K - d.block_elem_begin_) = K := by omega
  have := hl.write_elem hc hB i hi' b (by rw [h2, e]; exact hk) v
  rw [h3] at this
  exact this

/-- The slot, the block and the offset of the element of index `i`. -/
theorem Live.abs_of_index {B : Nat} {d : deque α} {s : List α} {lo hi bf bl : Nat}
    (hl : Live B d s lo hi bf bl) (hB : 0 < B) (i : Nat) (hi' : i < s.length) :
    ∃ K o b, d.ctrl[K]? = some (some b) ∧
      K * B + o = d.block_elem_begin_ * B + lo + i ∧ o < B ∧
      d.block_elem_begin_ ≤ K ∧ K < d.block_elem_end_ := by
  obtain ⟨b, hb, _⟩ := hl.elems i hi'
  obtain ⟨hs1, _⟩ := hl.slot_lt hB i hi'
  have hm : (lo + i) % B < B := Nat.mod_lt _ hB
  have hdm := div_mul_add_mod (lo + i) B
  generalize (lo + i) / B = q at *
  generalize (lo + i) % B = r at *
  refine ⟨_, r, b, hb, ?_, hm, by omega, by omega⟩
  rw [Nat.add_mul]
  omega

/-- The contract of `std::ranges::move(p + 1, p + 1 + n, p)` inside one block, on the cells
of the indices `a`, ..., `a + n`. -/
theorem move_forward_live {B : Nat} (hB : 0 < B) {lo hi bf bl : Nat} (n : Nat) :
    ∀ (d : deque α) (t : List α) (a K o b : Nat), Ctl B d → Live B d t lo hi bf bl →
      d.ctrl[K]? = some (some b) → K * B + o = d.block_elem_begin_ * B + lo + a →
      o + n < B → a + n < t.length →
      ∃ d1 t1, move_forward n ⟨b, o + 1⟩ ⟨b, o⟩ d = .ok d1 ∧ Ctl B d1 ∧
        Live B d1 t1 lo hi bf bl ∧ d1.ctrl = d.ctrl ∧
        d1.block_elem_begin_ = d.block_elem_begin_ ∧
        d1.block_elem_end_ = d.block_elem_end_ ∧ ShiftedDown t t1 a n := by
  induction n with
  | zero =>
    intro d t a K o b hc hl _ _ _ _
    exact ⟨d, t, rfl, hc, hl, rfl, rfl, rfl, ShiftedDown.sd_zero t a⟩
  | succ n ih =>
    intro d t a K o b hc hl hk hf ho ha
    have hr := hl.read_abs (i := a + 1) (o := o + 1) hk (by omega) (by omega) (by omega)
    obtain ⟨d1, hw, hc1, hl1, e1, e2, e3⟩ :=
      hl.write_abs hc hB hk hf (by omega) (by omega) t[a + 1]
    obtain ⟨d2, t2, h2, hc2, hl2, f1, f2, f3, hs⟩ :=
      ih d1 _ (a + 1) K (o + 1) b hc1 hl1 (by rw [e1]; exact hk) (by rw [e2]; omega)
        (by omega) (by rw [List.length_set]; omega)
    refine ⟨d2, t2, ?_, hc2, hl2, f1.trans e1, f2.trans e2, f3.trans e3, ?_⟩
    · simp only [move_forward, hr, hw, Ptr.add]
      exact h2
    · have := (ShiftedDown.sd_step t a (by omega)).sd_comp hs
      rw [Nat.add_comm] at this
      exact this

/-- The contract of `std::ranges::move_backward(p, p + n, p + n + 1)` inside one block, on
the cells of the indices `a`, ..., `a + n`. -/
theorem move_backward_live {B : Nat} (hB : 0 < B) {lo hi bf bl : Nat} (n : Nat) :
    ∀ (d : deque α) (t : List α) (a K o b : Nat), Ctl B d → Live B d t lo hi bf bl →
      d.ctrl[K]? = some (some b) → K * B + o = d.block_elem_begin_ * B + lo + a →
      o + n < B → a + n < t.length →
      ∃ d1 t1, move_backward ⟨b, o⟩ ⟨b, o + n + 1⟩ n d = .ok d1 ∧ Ctl B d1 ∧
        Live B d1 t1 lo hi bf bl ∧ d1.ctrl = d.ctrl ∧
        d1.block_elem_begin_ = d.block_elem_begin_ ∧
        d1.block_elem_end_ = d.block_elem_end_ ∧ ShiftedUp t t1 a n := by
  induction n with
  | zero =>
    intro d t a K o b hc hl _ _ _ _
    exact ⟨d, t, rfl, hc, hl, rfl, rfl, rfl, ShiftedUp.su_zero t a⟩
  | succ n ih =>
    intro d t a K o b hc hl hk hf ho ha
    have hr := hl.read_abs (i := a + n) (o := o + n) hk (by omega) (by omega) (by omega)
    obtain ⟨d1, hw, hc1, hl1, e1, e2, e3⟩ :=
      hl.write_abs (i := a + n + 1) (o := o + n + 1) hc hB hk (by omega) (by omega)
        (by omega) t[a + n]
    obtain ⟨d2, t2, h2, hc2, hl2, f1, f2, f3, hs⟩ :=
      ih d1 _ a K o b hc1 hl1 (by rw [e1]; exact hk) (by rw [e2]; omega)
        (by omega) (by rw [List.length_set]; omega)
    refine ⟨d2, t2, ?_, hc2, hl2, f1.trans e1, f2.trans e2, f3.trans e3, ?_⟩
    · have hnot : ¬ (o + (n + 1) + 1 < n + 1) := by omega
      simp only [move_backward, hnot, if_false, Ptr.add, hr]
      have e : o + (n + 1) + 1 - 1 = o + n + 1 := by omega
      rw [e, hw]
      exact h2
    · have h1 : ShiftedUp t (t.set (a + n + 1) t[a + n]) (a + n) 1 :=
        ShiftedUp.su_step t (a + n) (by omega)
      exact h1.su_comp hs

end deque

end fast_io

namespace fast_io

namespace deque

variable {α : Type}

theorem slot_ptr_off {cs : List (Option Nat)} {k : Nat} {p : Ptr} (h : slot_ptr cs k = .ok p) :
    p.off = 0 := by
  unfold slot_ptr at h
  split at h
  · injection h with h; subst h; rfl
  · cases h

theorem write_cursors {d d' : deque α} {p : Ptr} {v : α} (h : d.write p v = .ok d') :
    d'.block_elem_begin_ = d.block_elem_begin_ ∧ d'.block_elem_end_ = d.block_elem_end_ ∧
    d'.elem_begin_first_ = d.elem_begin_first_ ∧ d'.elem_begin_begin_ = d.elem_begin_begin_ ∧
    d'.elem_begin_end_ = d.elem_begin_end_ ∧ d'.elem_end_begin_ = d.elem_end_begin_ ∧
    d'.elem_end_end_ = d.elem_end_end_ ∧ d'.elem_end_last_ = d.elem_end_last_ := by
  unfold write at h
  cases hb : d.blocks[p.blk]? with
  | none => rw [hb] at h; cases h
  | some cells =>
    rw [hb] at h
    simp only at h
    split at h
    · injection h with h; subst h; exact ⟨rfl, rfl, rfl, rfl, rfl, rfl, rfl, rfl⟩
    · cases h

theorem emplace_front_pre_cursors {d d' : deque α} {n : Nat} {v : α}
    (h : d.emplace_front_pre_ n v = .ok d') :
    d'.block_elem_begin_ = d.block_elem_begin_ ∧ d'.block_elem_end_ = d.block_elem_end_ := by
  unfold emplace_front_pre_ at h
  obtain ⟨p, _, h⟩ := bind_eq_ok h
  obtain ⟨p1, _, h⟩ := bind_eq_ok h
  obtain ⟨d1, h1, h⟩ := bind_eq_ok h
  obtain ⟨q1, q2, _⟩ := write_cursors h1
  injection h with h
  subst h
  split_ifs <;> exact ⟨q1, q2⟩

theorem emplace_front_post_cursors {B : Nat} {d d' : deque α} {n : Nat} {v : α}
    (h : emplace_front_post_ B d n v = .ok d') :
    d'.block_elem_begin_ + 1 = d.block_elem_begin_ ∧
    d'.block_elem_end_ = d.block_elem_end_ ∧ (n ≠ 0 → d'.elem_end_end_ = d.elem_end_end_) ∧
    ∃ p, d'.elem_begin_begin_ = some p ∧ p.off + 1 = B := by
  unfold emplace_front_post_ at h
  split at h
  · cases h
  rename_i hne
  obtain ⟨p, hp, h⟩ := bind_eq_ok h
  obtain ⟨p1, hp1, h⟩ := bind_eq_ok h
  obtain ⟨d1, h1, h⟩ := bind_eq_ok h
  obtain ⟨q1, q2, _, _, _, _, q7, _⟩ := write_cursors h1
  have hoff := slot_ptr_off hp
  have hp1off : p1.off + 1 = B := by
    unfold Ptr.pred Ptr.add at hp1
    split at hp1
    · cases hp1
    · rename_i hz
      injection hp1 with hp1
      subst hp1
      simp only at hz ⊢
      omega
  injection h with h
  subst h
  by_cases hn : n = 0
  · simp only [hn, if_true, elem_begin_, elem_end_, ne_eq, not_true_eq_false, false_implies,
      true_and]
    exact ⟨by omega, q2, p1, rfl, hp1off⟩
  · simp only [hn, if_false, elem_begin_, ne_eq, not_false_eq_true, true_implies]
    exact ⟨by omega, q2, q7, p1, rfl, hp1off⟩

theorem emplace_back_pre_cursors {d d' : deque α} {n : Nat} {v : α}
    (h : d.emplace_back_pre_ n v = .ok d') :
    d'.block_elem_begin_ = d.block_elem_begin_ ∧ d'.block_elem_end_ = d.block_elem_end_ := by
  unfold emplace_back_pre_ at h
  obtain ⟨p, _, h⟩ := bind_eq_ok h
  obtain ⟨d1, h1, h⟩ := bind_eq_ok h
  obtain ⟨q1, q2, _⟩ := write_cursors h1
  injection h with h
  subst h
  split_ifs <;> exact ⟨q1, q2⟩

theorem emplace_back_post_cursors {B : Nat} {d d' : deque α} {n : Nat} {v : α}
    (h : emplace_back_post_ B d n v = .ok d') :
    d'.block_elem_begin_ = d.block_elem_begin_ ∧
    d'.block_elem_end_ = d.block_elem_end_ + 1 ∧
    (n ≠ 0 → d'.elem_begin_begin_ = d.elem_begin_begin_) ∧
    ∃ p, d'.elem_end_end_ = some p ∧ p.off = 1 := by
  unfold emplace_back_post_ at h
  obtain ⟨p, hp, h⟩ := bind_eq_ok h
  obtain ⟨d1, h1, h⟩ := bind_eq_ok h
  obtain ⟨q1, q2, _, q4, _⟩ := write_cursors h1
  have hoff := slot_ptr_off hp
  injection h with h
  subst h
  by_cases hn : n = 0
  · simp only [hn, if_true, elem_begin_, elem_end_, ne_eq, not_true_eq_false, false_implies,
      true_and]
    exact ⟨q1, by rw [q2], _, rfl, by simp [Ptr.add, hoff]⟩
  · simp only [hn, if_false, elem_end_, ne_eq, not_false_eq_true, true_implies]
    exact ⟨q1, by rw [q2], q4, _, rfl, by simp [Ptr.add, hoff]⟩

/-- The effect of `emplace_front_noalloc_` on a deque with a free cell in front of the first
element, or a spare block in front of the first block. -/
theorem emplace_front_noalloc_live {B : Nat} {d : deque α} {s : List α} {lo hi bf bl : Nat}
    (hB : 0 < B) (hc : Ctl B d) (hl : Live B d s lo hi bf bl)
    (hroom : 0 < lo ∨ d.block_alloc_begin_ < d.block_elem_begin_) (x : α) :
    ∃ d' lo' bf', emplace_front_noalloc_ B d x = .ok d' ∧ Ctl B d' ∧
      Live B d' (x :: s) lo' hi bf' bl ∧ Quiet d d' ∧
      d'.block_elem_end_ = d.block_elem_end_ ∧
      d'.block_elem_begin_ * B + lo' + 1 = d.block_elem_begin_ * B + lo ∧
      (0 < lo → lo' + 1 = lo ∧ d'.block_elem_begin_ = d.block_elem_begin_) ∧
      (lo = 0 → lo' + 1 = B ∧ d'.block_elem_begin_ + 1 = d.block_elem_begin_) := by
  have hpos := hl.blocks_pos
  unfold emplace_front_noalloc_
  by_cases hlo : 0 < lo
  · have hne : d.elem_begin_begin_ ≠ d.elem_begin_first_ := by
      rw [hl.fbegin, hl.first]
      intro h
      injection h with h
      injection h with _ h
      omega
    simp only [hne, ne_eq, not_false_eq_true, if_true]
    obtain ⟨d', e1, e2, e3⟩ := emplace_front_pre_spec hB hc hl hlo x
    obtain ⟨c1, c2⟩ := emplace_front_pre_cursors e1
    refine ⟨d', lo - 1, bf, e1, e2, e3, emplace_front_pre_quiet e1, c2, ?_, fun _ => ⟨by omega, c1⟩,
      fun h => by omega⟩
    rw [c1]
    omega
  · have hz : lo = 0 := by omega
    subst hz
    have hsp : d.block_alloc_begin_ < d.block_elem_begin_ := by omega
    have hne : ¬ (d.elem_begin_begin_ ≠ d.elem_begin_first_) := by
      rw [hl.fbegin, hl.first]; simp
    simp only [hne, if_false]
    obtain ⟨d', e1, e2⟩ := emplace_front_post_spec hB hc hsp x (Or.inr ⟨hi, bf, bl, hl⟩)
    have hbs : d.block_elem_size_ ≠ 0 := by unfold block_elem_size_; omega
    obtain ⟨c1, c2, c3, p, c4, c5⟩ := emplace_front_post_cursors e1
    rcases e2.shape with ⟨h0, _⟩ | ⟨lo', hi', bf', bl', hl'⟩
    · cases h0
    have k1 := hl'.fbegin
    rw [c4] at k1
    injection k1 with k1
    have k2 := hl'.bend
    rw [c3 hbs, hl.bend] at k2
    injection k2 with k2
    injection k2 with k3 k4
    subst k3 k4
    have hlo' : lo' + 1 = B := by rw [k1] at c5; exact c5
    refine ⟨d', lo', bf', e1, e2.ctl, hl', emplace_front_post_quiet e1, c2, ?_,
      fun h => by omega, fun _ => ⟨hlo', c1⟩⟩
    rw [← c1, Nat.add_mul]
    omega

/-- The effect of `emplace_back_noalloc_` on a deque with a free cell behind the last
element, or a spare block behind the last block. -/
theorem emplace_back_noalloc_live {B : Nat} {d : deque α} {s : List α} {lo hi bf bl : Nat}
    (hB : 0 < B) (hc : Ctl B d) (hl : Live B d s lo hi bf bl)
    (hroom : hi < B ∨ d.block_elem_end_ < d.block_alloc_end_) (x : α) :
    ∃ d' hi' bl', emplace_back_noalloc_ B d x = .ok d' ∧ Ctl B d' ∧
      Live B d' (s ++ [x]) lo hi' bf bl' ∧ Quiet d d' ∧
      d'.block_elem_begin_ = d.block_elem_begin_ ∧
      (hi < B → hi' = hi + 1 ∧ d'.block_elem_end_ = d.block_elem_end_) ∧
      (hi = B → hi' = 1 ∧ d'.block_elem_end_ = d.block_elem_end_ + 1) := by
  have hpos := hl.blocks_pos
  have hhi := hl.hi_le
  unfold emplace_back_noalloc_
  by_cases hlt : hi < B
  · have hne : d.elem_end_end_ ≠ d.elem_end_last_ := by
      rw [hl.bend, hl.blast]
      intro h
      injection h with h
      injection h with _ h
      omega
    simp only [hne, ne_eq, not_false_eq_true, if_true]
    obtain ⟨d', e1, e2, e3⟩ := emplace_back_pre_spec hB hc hl hlt x
    obtain ⟨c1, c2⟩ := emplace_back_pre_cursors e1
    exact ⟨d', hi + 1, bl, e1, e2, e3, emplace_back_pre_quiet e1, c1, fun _ => ⟨rfl, c2⟩,
      fun h => by omega⟩
  · have hz : hi = B := by omega
    subst hz
    have hsp : d.block_elem_end_ < d.block_alloc_end_ := by omega
    have hne : ¬ (d.elem_end_end_ ≠ d.elem_end_last_) := by
      rw [hl.bend, hl.blast]; simp
    simp only [hne, if_false]
    obtain ⟨d', e1, e2⟩ := emplace_back_post_spec hB hc hsp x (Or.inr ⟨lo, bf, bl, hl⟩)
    have hbs : d.block_elem_size_ ≠ 0 := by unfold block_elem_size_; omega
    obtain ⟨c1, c2, c3, p, c4, c5⟩ := emplace_back_post_cursors e1
    rcases e2.shape with ⟨h0, _⟩ | ⟨lo', hi', bf', bl', hl'⟩
    · simp at h0
    have k1 := hl'.bend
    rw [c4] at k1
    injection k1 with k1
    have k2 := hl'.fbegin
    rw [c3 hbs, hl.fbegin] at k2
    injection k2 with k2
    injection k2 with k3 k4
    subst k3 k4
    have hhi' : hi' = 1 := by rw [k1] at c5; exact c5
    exact ⟨d', hi', bl', e1, e2.ctl, hl', emplace_back_post_quiet e1, c1,
      fun h => by omega, fun _ => ⟨hhi', c2⟩⟩

end deque

end fast_io

namespace fast_io

namespace deque

variable {α : Type}

/-- The block held by a slot of the element range, with the flat position of its first
cell. -/
theorem Live.slot_of_abs {B : Nat} {d : deque α} {s : List α} {lo hi bf bl : Nat}
    (hl : Live B d s lo hi bf bl) (hB : 0 < B) {K i : Nat}
    (hf : K * B = d.block_elem_begin_ * B + lo + i) (hi' : i < s.length) :
    ∃ b, d.ctrl[K]? = some (some b) ∧ d.block_elem_begin_ ≤ K ∧ K < d.block_elem_end_ := by
  obtain ⟨K1, o1, b, h1, h2, h3, h4, h5⟩ := hl.abs_of_index hB i hi'
  have := @flat_unique B K K1 0 o1 (by omega) hB h3
  obtain ⟨rfl, _⟩ := this
  exact ⟨b, h1, h4, h5⟩

/-- The loop of `front_emplace_` over `n` full blocks from the slot `K` on: the first element
of each block hops into the last cell of the block before, and the others move down by
one.  The index `a` is the one of the last cell of the block before. -/
theorem front_emplace_loop_live {B : Nat} (hB : 0 < B) {lo hi bf bl : Nat} (n : Nat) :
    ∀ (d : deque α) (t : List α) (K Kp bp a : Nat), Ctl B d → Live B d t lo hi bf bl →
      Kp + 1 = K → d.ctrl[Kp]? = some (some bp) →
      K * B = d.block_elem_begin_ * B + lo + a + 1 → a + n * B < t.length →
      ∃ d1 t1 bp1, front_emplace_loop B n K ⟨bp, B⟩ d = .ok (⟨bp1, B⟩, d1) ∧ Ctl B d1 ∧
        Live B d1 t1 lo hi bf bl ∧ d1.ctrl = d.ctrl ∧
        d1.block_elem_begin_ = d.block_elem_begin_ ∧
        d1.block_elem_end_ = d.block_elem_end_ ∧
        d.ctrl[Kp + n]? = some (some bp1) ∧ ShiftedDown t t1 a (n * B) := by
  induction n with
  | zero =>
    intro d t K Kp bp a hc hl _ hp _ _
    exact ⟨d, t, bp, rfl, hc, hl, rfl, rfl, rfl, hp, by
      rw [Nat.zero_mul]; exact ShiftedDown.sd_zero t a⟩
  | succ n ih =>
    intro d t K Kp bp a hc hl hK hp hf ha
    have hnB : (n + 1) * B = n * B + B := by rw [Nat.add_mul, Nat.one_mul]
    rw [hnB] at ha
    obtain ⟨bK, hbK, _, _⟩ := hl.slot_of_abs (K := K) (i := a + 1) hB (by omega) (by omega)
    have hsp : slot_ptr d.ctrl K = .ok ⟨bK, 0⟩ := by simp [slot_ptr, slot, hbK]
    have hr := hl.read_abs (i := a + 1) (o := 0) hbK (by omega) hB (by omega)
    have hpf : Kp * B + (B - 1) = d.block_elem_begin_ * B + lo + a := by
      subst hK
      rw [Nat.add_mul, Nat.one_mul] at hf
      omega
    obtain ⟨d1, hw, hc1, hl1, e1, e2, e3⟩ :=
      hl.write_abs hc hB hp hpf (by omega) (by omega) t[a + 1]
    obtain ⟨d2, t2, h2, hc2, hl2, f1, f2, f3, hs2⟩ :=
      move_forward_live hB (B - 1) d1 _ (a + 1) K 0 bK hc1 hl1 (by rw [e1]; exact hbK)
        (by rw [e2]; omega) (by omega) (by rw [List.length_set]; omega)
    obtain ⟨d3, t3, bp3, h3, hc3, hl3, g1, g2, g3, g4, hs3⟩ :=
      ih d2 t2 (K + 1) K bK (a + B) hc2 hl2 rfl (by rw [f1, e1]; exact hbK)
        (by rw [f2, e2, Nat.add_mul, Nat.one_mul]; omega)
        (by rw [hs2.len, List.length_set]; omega)
    refine ⟨d3, t3, bp3, ?_, hc3, hl3, g1.trans (f1.trans e1), g2.trans (f2.trans e2),
      g3.trans (f3.trans e3), ?_, ?_⟩
    · have hpred : Ptr.pred ⟨bp, B⟩ = .ok ⟨bp, B - 1⟩ := by
        have : ¬ (B = 0) := by omega
        simp [Ptr.pred, this]
      simp only [front_emplace_loop, hsp, bind_ok, hr, hpred, hw, Ptr.add, Nat.zero_add,
        Nat.add_sub_cancel]
      have e : B - (0 + 1) = B - 1 := by omega
      simp only [Nat.zero_add] at h2
      rw [h2]
      exact h3
    · rw [f1, e1] at g4
      have e : Kp + (n + 1) = K + n := by omega
      rw [e]
      exact g4
    · have s1 := ShiftedDown.sd_step t a (by omega)
      have s12 := s1.sd_comp hs2
      have e : 1 + (B - 1) = B := by omega
      rw [e] at s12
      have s123 := s12.sd_comp hs3
      rw [hnB, Nat.add_comm (n * B) B]
      exact s123

theorem Live.front_eq {B : Nat} {d : deque α} {s : List α} {lo hi bf bl : Nat}
    (hl : Live B d s lo hi bf bl) {x : α} (hx : s[0]? = some x) : d.front = .ok x := by
  have h0 : 0 < s.length := hl.len_pos
  have hr := hl.read_abs (K := d.block_elem_begin_) (o := lo) (i := 0) hl.slot_first
    (by omega) hl.lo_lt h0
  rw [List.getElem?_eq_getElem h0] at hx
  injection hx with hx
  rw [hx] at hr
  simp [front, empty, hl.fbegin, nn, hr]

/-- The relocation step `front_emplace_` for the target at the index `q`: after the copy of
the first element is pushed at the front, the elements of the indices below `q` are one cell
further down, the cell in front of the target is the placeholder, and the elements from the
target on are where they were. -/
theorem front_emplace_live {B : Nat} (hB : 0 < B) {d : deque α} {u : List α}
    {lo hi bf bl : Nat} (hc : Ctl B d) (hl : Live B d u lo hi bf bl)
    (hroom : 0 < lo ∨ d.block_alloc_begin_ < d.block_elem_begin_)
    {q Kc oc bc : Nat} {x : α} (hx : u[0]? = some x) (hq1 : 0 < q) (hq2 : q < u.length)
    (hk : d.ctrl[Kc]? = some (some bc))
    (hf : Kc * B + oc = d.block_elem_begin_ * B + lo + q) (ho : oc < B) :
    ∃ d1 lo1 bf1 w, front_emplace_ B d Kc ⟨bc, oc⟩ = .ok d1 ∧ Ctl B d1 ∧
      Live B d1 w lo1 hi bf1 bl ∧ d1.ctrl = d.ctrl ∧
      d1.block_elem_end_ = d.block_elem_end_ ∧
      d1.block_elem_begin_ * B + lo1 + 1 = d.block_elem_begin_ * B + lo ∧
      ShiftedDown (x :: u) w 1 (q - 1) := by
  have hpos := hl.blocks_pos
  have hlo := hl.lo_lt
  obtain ⟨hKge, _, _⟩ := hl.rel_of_abs hf ho
  have hKlt : Kc < d.block_elem_end_ := by
    obtain ⟨K1, o1, b1, a1, a2, a3, a4, a5⟩ := hl.abs_of_index hB q hq2
    obtain ⟨rfl, _⟩ := @flat_unique B K1 Kc o1 oc (a2.trans hf.symm) a3 ho
    exact a5
  have hfront := hl.front_eq hx
  obtain ⟨d1, lo1, bf1, e1, hc1, hl1, q1, ee1, hF, _, _⟩ :=
    emplace_front_noalloc_live hB hc hl hroom x
  have hctrl1 := q1.ctrl
  have hlen1 : (x :: u).length = u.length + 1 := List.length_cons _ _
  unfold front_emplace_
  simp only [hl.fbegin, hl.fend, nn, bind_ok, hfront, e1, Ptr.add]
  by_cases hK : d.block_elem_begin_ = Kc
  · -- the target lies in the first block
    subst hK
    have hb : bc = bf := by
      have := hl.slot_first
      rw [hk] at this
      injection this with this
      injection this with this
    subst hb
    have hoc : oc = lo + q := by omega
    subst hoc
    obtain ⟨d2, w, h2, hc2, hl2, f1, f2, f3, hs⟩ :=
      move_forward_live hB (q - 1) d1 (x :: u) 1 d.block_elem_begin_ lo bc hc1 hl1
        (by rw [hctrl1]; exact hk) (by omega) (by omega) (by rw [hlen1]; omega)
    have e : lo + q - (lo + 1) = q - 1 := by omega
    simp only [if_true, e, h2, bind_ok, Nat.sub_self, gt_iff_lt, Nat.lt_irrefl, Nat.not_lt_zero,
      if_false]
    exact ⟨d2, lo1, bf1, w, by simp, hc2, hl2, f1.trans hctrl1, f3.trans ee1,
      by rw [f2]; exact hF, hs⟩
  · -- the target lies in a later block
    have hKgt : d.block_elem_begin_ < Kc := by omega
    have hmul := Nat.mul_le_mul_right B (show d.block_elem_begin_ + 1 ≤ Kc from hKgt)
    rw [Nat.add_mul, Nat.one_mul] at hmul
    have hcount : ¬ (d.block_elem_end_ - d.block_elem_begin_ = 1) := by omega
    simp only [hK, if_false, hcount]
    -- the first block
    obtain ⟨d2, w2, h2, hc2, hl2, f1, f2, f3, hs2⟩ :=
      move_forward_live hB (B - (lo + 1)) d1 (x :: u) 1 d.block_elem_begin_ lo bf hc1 hl1
        (by rw [hctrl1]; exact hl.slot_first) (by omega) (by omega) (by rw [hlen1]; omega)
    simp only [h2, bind_ok]
    -- the block of the target
    have phase3 : ∀ (d3 : deque α) (w3 : List α) (bp a : Nat), Ctl B d3 →
        Live B d3 w3 lo1 hi bf1 bl → d3.ctrl = d.ctrl →
        d3.block_elem_begin_ = d1.block_elem_begin_ →
        d3.block_elem_end_ = d.block_elem_end_ → d.ctrl[Kc - 1]? = some (some bp) →
        Kc * B = d1.block_elem_begin_ * B + lo1 + a + 1 → ShiftedDown (x :: u) w3 1 (a - 1) →
        0 < a →
        ∃ d1 lo1 bf1 w,
          (if Kc - d.block_elem_begin_ > 0 then do
            let beginp ← slot_ptr d3.ctrl Kc
            if (⟨bc, oc⟩ : Ptr) ≠ beginp then do
              let v ← d3.read beginp
              let tl ← (⟨bp, B⟩ : Ptr).pred
              let d ← d3.write tl v
              move_forward (oc - (beginp.off + 1)) ⟨beginp.blk, beginp.off + 1⟩ beginp d
            else .ok d3
          else .ok d3) = .ok d1 ∧ Ctl B d1 ∧ Live B d1 w lo1 hi bf1 bl ∧ d1.ctrl = d.ctrl ∧
          d1.block_elem_end_ = d.block_elem_end_ ∧
          d1.block_elem_begin_ * B + lo1 + 1 = d.block_elem_begin_ * B + lo ∧
          ShiftedDown (x :: u) w 1 (q - 1) := by
      intro d3 w3 bp a hc3 hl3 g1 g2 g3 g4 g5 hs3 ha
      have hgt0 : Kc - d.block_elem_begin_ > 0 := by omega
      have hsp : slot_ptr d3.ctrl Kc = .ok ⟨bc, 0⟩ := by simp [slot_ptr, slot, g1, hk]
      simp only [hgt0, if_true, hsp, bind_ok]
      have hqa : q = a + oc := by omega
      by_cases hz : oc = 0
      · subst hz
        have hnot : ¬ ((⟨bc, 0⟩ : Ptr) ≠ ⟨bc, 0⟩) := by simp
        simp only [hnot, if_false]
        refine ⟨d3, lo1, bf1, w3, rfl, hc3, hl3, g1, g3, by rw [g2]; exact hF, ?_⟩
        have e : q - 1 = a - 1 := by omega
        rw [e]
        exact hs3
      · have hne : (⟨bc, oc⟩ : Ptr) ≠ ⟨bc, 0⟩ := by
          intro h
          injection h with _ h
          exact hz h
        simp only [hne, ne_eq, not_false_eq_true, if_true]
        have hw3len : w3.length = u.length + 1 := by rw [hs3.len, hlen1]
        have hr := hl3.read_abs (K := Kc) (o := 0) (i := a + 1) (by rw [g1]; exact hk)
          (by rw [g2]; omega) hB (by omega)
        have hKm : Kc - 1 + 1 = Kc := by omega
        have hpf : (Kc - 1) * B + (B - 1) = d3.block_elem_begin_ * B + lo1 + a := by
          have := Nat.add_mul (Kc - 1) 1 B
          rw [hKm, Nat.one_mul] at this
          rw [g2]
          omega
        obtain ⟨d4, hw, hc4, hl4, k1, k2, k3⟩ :=
          hl3.write_abs hc3 hB (by rw [g1]; exact g4) hpf (by omega) (by omega) w3[a + 1]
        obtain ⟨d5, w5, h5, hc5, hl5, m1, m2, m3, hs5⟩ :=
          move_forward_live hB (oc - 1) d4 _ (a + 1) Kc 0 bc hc4 hl4
            (by rw [k1, g1]; exact hk) (by rw [k2, g2]; omega) (by omega)
            (by rw [List.length_set]; omega)
        have hpred : Ptr.pred ⟨bp, B⟩ = .ok ⟨bp, B - 1⟩ := by
          have : ¬ (B = 0) := by omega
          simp [Ptr.pred, this]
        simp only [hr, bind_ok, hpred, hw]
        simp only [Nat.zero_add] at h5 ⊢
        rw [h5]
        refine ⟨d5, lo1, bf1, w5, rfl, hc5, hl5, m1.trans (k1.trans g1),
          m3.trans (k3.trans g3), by rw [m2, k2, g2]; exact hF, ?_⟩
        have s4 := ShiftedDown.sd_step w3 a (by omega)
        have s34 := hs3.sd_join s4 (by omega) rfl
        exact s34.sd_join hs5 (by omega) (by omega)
    -- the blocks between the first block and the block of the target
    by_cases hgt : Kc - d.block_elem_begin_ > 1
    · rw [if_pos hgt]
      obtain ⟨n, hn⟩ : ∃ n, Kc = d.block_elem_begin_ + 1 + n :=
        ⟨Kc - (d.block_elem_begin_ + 1), by omega⟩
      have hnB : Kc * B = d.block_elem_begin_ * B + B + n * B := by
        rw [hn, Nat.add_mul, Nat.add_mul, Nat.one_mul]
      obtain ⟨d3, w3, bp, h3, hc3, hl3, g1, g2, g3, g4, hs3⟩ :=
        front_emplace_loop_live hB n d2 w2 (d.block_elem_begin_ + 1) d.block_elem_begin_ bf
          (B - lo) hc2 hl2 rfl (by rw [f1, hctrl1]; exact hl.slot_first)
          (by rw [f2, Nat.add_mul, Nat.one_mul]; omega)
          (by rw [hs2.len, hlen1]; omega)
      have en : Kc - (d.block_elem_begin_ + 1) = n := by omega
      rw [en]
      simp only [h3, bind_ok]
      refine phase3 d3 w3 bp (B - lo + n * B) hc3 hl3 (g1.trans (f1.trans hctrl1))
        (g2.trans f2) (g3.trans (f3.trans ee1)) ?_ (by omega) ?_ (by omega)
      · rw [f1, hctrl1] at g4
        have e : Kc - 1 = d.block_elem_begin_ + n := by omega
        rw [e]
        exact g4
      · exact hs2.sd_join hs3 (by omega) (by omega)
    · rw [if_neg hgt]
      have e : Kc = d.block_elem_begin_ + 1 := by omega
      refine phase3 d2 w2 bf (B - lo) hc2 hl2 (f1.trans hctrl1) f2 (f3.trans ee1) ?_ ?_ ?_
        (by omega)
      · have e2 : Kc - 1 = d.block_elem_begin_ := by omega
        rw [e2]
        exact hl.slot_first
      · rw [e, Nat.add_mul, Nat.one_mul]
        omega
      · have e2 : B - (lo + 1) = B - lo - 1 := by omega
        rw [← e2]
        exact hs2

end deque

end fast_io

namespace fast_io

namespace deque

variable {α : Type}

/-- The loop of `back_emplace_` over `n` full blocks below the slot `K`: the last element of
each block hops into the first cell of the block behind, and the others move up by one.  The
index `a` is the one of the first cell of the block in slot `K`. -/
theorem back_emplace_loop_live {B : Nat} (hB : 0 < B) {lo hi bf bl : Nat} (n : Nat) :
    ∀ (d : deque α) (t : List α) (K bK a : Nat), Ctl B d → Live B d t lo hi bf bl →
      d.ctrl[K]? = some (some bK) →
      K * B = d.block_elem_begin_ * B + lo + a → n * B ≤ a → a < t.length →
      ∃ d1 t1 b1, back_emplace_loop B n K ⟨bK, 0⟩ d = .ok (⟨b1, 0⟩, d1) ∧ Ctl B d1 ∧
        Live B d1 t1 lo hi bf bl ∧ d1.ctrl = d.ctrl ∧
        d1.block_elem_begin_ = d.block_elem_begin_ ∧
        d1.block_elem_end_ = d.block_elem_end_ ∧ n ≤ K ∧
        d.ctrl[K - n]? = some (some b1) ∧ ShiftedUp t t1 (a - n * B) (n * B) := by
  induction n with
  | zero =>
    intro d t K bK a hc hl hk _ _ _
    exact ⟨d, t, bK, rfl, hc, hl, rfl, rfl, rfl, Nat.zero_le _, hk, by
      rw [Nat.zero_mul]; exact ShiftedUp.su_zero t a⟩
  | succ n ih =>
    intro d t K bK a hc hl hk hf hna ha
    have hnB : (n + 1) * B = n * B + B := by rw [Nat.add_mul, Nat.one_mul]
    rw [hnB] at hna ⊢
    have hK0 : ¬ (K = 0) := by
      intro h
      subst h
      omega
    have hKm : K - 1 + 1 = K := by omega
    have hKB : (K - 1) * B + B = K * B := by
      have := Nat.add_mul (K - 1) 1 B
      rw [hKm, Nat.one_mul] at this
      omega
    obtain ⟨bm, hbm, _, _⟩ := hl.slot_of_abs (K := K - 1) (i := a - B) hB (by omega) (by omega)
    have hsp : slot_ptr d.ctrl (K - 1) = .ok ⟨bm, 0⟩ := by simp [slot_ptr, slot, hbm]
    have hr := hl.read_abs (K := K - 1) (o := B - 1) (i := a - 1) hbm (by omega) (by omega)
      (by omega)
    obtain ⟨d1, hw, hc1, hl1, e1, e2, e3⟩ :=
      hl.write_abs (K := K) (o := 0) (i := a) hc hB hk (by omega) hB ha t[a - 1]
    obtain ⟨d2, t2, h2, hc2, hl2, f1, f2, f3, hs2⟩ :=
      move_backward_live hB (B - 1) d1 _ (a - B) (K - 1) 0 bm hc1 hl1 (by rw [e1]; exact hbm)
        (by rw [e2]; omega) (by omega) (by rw [List.length_set]; omega)
    obtain ⟨d3, t3, b3, h3, hc3, hl3, g1, g2, g3, g4, g5, hs3⟩ :=
      ih d2 t2 (K - 1) bm (a - B) hc2 hl2 (by rw [f1, e1]; exact hbm)
        (by rw [f2, e2]; omega) (by omega) (by rw [hs2.len, List.length_set]; omega)
    refine ⟨d3, t3, b3, ?_, hc3, hl3, g1.trans (f1.trans e1), g2.trans (f2.trans e2),
      g3.trans (f3.trans e3), by omega, ?_, ?_⟩
    · have hpred : Ptr.pred ⟨bm, 0 + B⟩ = .ok ⟨bm, B - 1⟩ := by
        have : ¬ (B = 0) := by omega
        simp [Ptr.pred, this]
      simp only [back_emplace_loop, hK0, if_false, hsp, bind_ok, Ptr.add, hpred, hr, hw,
        Nat.sub_zero]
      have e : 0 + (B - 1) + 1 = 0 + B := by omega
      rw [e] at h2
      rw [h2]
      exact h3
    · rw [f1, e1] at g5
      have e : K - (n + 1) = K - 1 - n := by omega
      rw [e]
      exact g5
    · have s1 : ShiftedUp t (t.set a t[a - 1]) (a - 1) 1 := by
        have := ShiftedUp.su_step t (a - 1) (by omega)
        have e : a - 1 + 1 = a := by omega
        simp only [e] at this
        exact this
      have s12 := s1.su_join hs2 (by omega) rfl
      have e : a - B - n * B = a - (n * B + B) := by omega
      rw [e] at hs3
      exact s12.su_join hs3 (by omega) (by omega)

theorem Live.back_eq {B : Nat} {d : deque α} {s : List α} {lo hi bf bl : Nat}
    (hl : Live B d s lo hi bf bl) {x : α} (hx : s[s.length - 1]? = some x) :
    d.back = .ok x := by
  have h0 : 0 < s.length := hl.len_pos
  have hpos := hl.blocks_pos
  have hhi := hl.hi_pos
  have hlen := hl.len_eq
  have hr := hl.read_abs (K := d.block_elem_end_ - 1) (o := hi - 1) (i := s.length - 1)
    hl.slot_last (by
      have e : d.block_elem_end_ - 1
          = d.block_elem_begin_ + (d.block_elem_end_ - d.block_elem_begin_ - 1) := by omega
      rw [e, Nat.add_mul]
      omega) (by have := hl.hi_le; omega) (by omega)
  rw [List.getElem?_eq_getElem (by omega)] at hx
  injection hx with hx
  rw [hx] at hr
  have hne : ¬ (hi = 0) := by omega
  simp [back, back_ptr, empty, hl.fbegin, hl.bend, nn, Ptr.pred, hne, hr]

/-- The relocation step `back_emplace_` for the target at the index `q`: after the copy of
the last element is pushed at the back, the elements of the indices from `q` on are one cell
further up, the cell of the target is the placeholder, and the elements in front of the
target are where they were. -/
theorem back_emplace_live {B : Nat} (hB : 0 < B) {d : deque α} {u : List α}
    {lo hi bf bl : Nat} (hc : Ctl B d) (hl : Live B d u lo hi bf bl)
    (hroom : hi < B ∨ d.block_elem_end_ < d.block_alloc_end_)
    {q Kc oc bc : Nat} {x : α} (hx : u[u.length - 1]? = some x) (hq2 : q < u.length)
    (hk : d.ctrl[Kc]? = some (some bc))
    (hf : Kc * B + oc = d.block_elem_begin_ * B + lo + q) (ho : oc < B) :
    ∃ d1 hi1 bl1 w, back_emplace_ B d Kc ⟨bc, oc⟩ = .ok d1 ∧ Ctl B d1 ∧
      Live B d1 w lo hi1 bf bl1 ∧ d1.ctrl = d.ctrl ∧
      d1.block_elem_begin_ = d.block_elem_begin_ ∧
      ShiftedUp (u ++ [x]) w q (u.length - 1 - q) := by
  have hpos := hl.blocks_pos
  have hlo := hl.lo_lt
  have hhi := hl.hi_pos
  have hhiB := hl.hi_le
  have hlen := hl.len_eq
  obtain ⟨hKge, _, _⟩ := hl.rel_of_abs hf ho
  have hKlt : Kc < d.block_elem_end_ := by
    obtain ⟨K1, o1, b1, a1, a2, a3, a4, a5⟩ := hl.abs_of_index hB q hq2
    obtain ⟨rfl, _⟩ := @flat_unique B K1 Kc o1 oc (a2.trans hf.symm) a3 ho
    exact a5
  have hback := hl.back_eq hx
  obtain ⟨d1, hi1, bl1, e1, hc1, hl1, q1, eb1, _, _⟩ :=
    emplace_back_noalloc_live hB hc hl hroom x
  have hctrl1 := q1.ctrl
  have hlen1 : (u ++ [x]).length = u.length + 1 := by simp
  unfold back_emplace_
  simp only [hl.bbegin, hl.bend, nn, bind_ok, hback, e1, Ptr.add]
  have hB0 : ¬ (B = 0) := by omega
  have hhi0 : ¬ (hi = 0) := by omega
  have hlast : (d.block_elem_end_ - 1) * B + hi
      = d.block_elem_begin_ * B + lo + u.length := by
    have e : d.block_elem_end_ - 1
        = d.block_elem_begin_ + (d.block_elem_end_ - d.block_elem_begin_ - 1) := by omega
    rw [e, Nat.add_mul]
    omega
  by_cases hK : d.block_elem_end_ - 1 = Kc
  · -- the target lies in the last block
    subst hK
    have hb : bc = bl := by
      have := hl.slot_last
      rw [hk] at this
      injection this with this
      injection this with this
    subst hb
    have c1 : ¬ (d.block_elem_end_ - (d.block_elem_end_ - 1) - 1 > 0) := by omega
    have c2 : ¬ (d.block_elem_end_ - (d.block_elem_end_ - 1) - 1 > 1) := by omega
    obtain ⟨d2, w, h2, hc2, hl2, f1, f2, f3, hs⟩ :=
      move_backward_live hB (hi - 1 - oc) d1 (u ++ [x]) q (d.block_elem_end_ - 1) oc bc hc1 hl1
        (by rw [hctrl1]; exact hk) (by rw [eb1]; exact hf) (by omega) (by rw [hlen1]; omega)
    have e : oc + (hi - 1 - oc) + 1 = hi := by omega
    rw [e] at h2
    simp only [c1, c2, if_false, ne_eq, not_true_eq_false, Ptr.pred, hhi0, bind_ok, h2]
    refine ⟨d2, hi1, bl1, w, rfl, hc2, hl2, f1.trans hctrl1, f2.trans eb1, ?_⟩
    have e2 : hi - 1 - oc = u.length - 1 - q := by omega
    rw [← e2]
    exact hs
  · -- the target lies in an earlier block
    have hKlt2 : Kc + 1 < d.block_elem_end_ := by omega
    have hcount : ¬ (d.block_elem_end_ - d.block_elem_begin_ = 1) := by omega
    have c1 : d.block_elem_end_ - Kc - 1 > 0 := by omega
    have hKB : (Kc + 1) * B = Kc * B + B := by rw [Nat.add_mul, Nat.one_mul]
    have hmul := Nat.mul_le_mul_right B (show Kc + 1 ≤ d.block_elem_end_ - 1 by omega)
    rw [hKB] at hmul
    -- the index of the first cell of the last block
    obtain ⟨aL, haL⟩ : ∃ aL, (d.block_elem_end_ - 1) * B
        = d.block_elem_begin_ * B + lo + aL :=
      ⟨(d.block_elem_end_ - 1) * B - (d.block_elem_begin_ * B + lo), by omega⟩
    -- the last block
    obtain ⟨d2, w2, h2, hc2, hl2, f1, f2, f3, hs2⟩ :=
      move_backward_live hB (hi - 1) d1 (u ++ [x]) aL (d.block_elem_end_ - 1) 0 bl hc1 hl1
        (by rw [hctrl1]; exact hl.slot_last) (by rw [eb1]; omega) (by omega)
        (by rw [hlen1]; omega)
    have e : 0 + (hi - 1) + 1 = hi := by omega
    rw [e] at h2
    simp only [c1, if_true, hcount, if_false, hK, ne_eq, not_false_eq_true, Ptr.pred, hhi0,
      bind_ok, Nat.sub_zero, h2]
    -- the block of the target
    have phase3 : ∀ (d3 : deque α) (w3 : List α) (bn a : Nat), Ctl B d3 →
        Live B d3 w3 lo hi1 bf bl1 → d3.ctrl = d.ctrl →
        d3.block_elem_begin_ = d.block_elem_begin_ → d.ctrl[Kc + 1]? = some (some bn) →
        (Kc + 1) * B = d.block_elem_begin_ * B + lo + a →
        ShiftedUp (u ++ [x]) w3 a (u.length - 1 - a) → a < u.length →
        ∃ d1 hi1 bl1 w,
          (do
            let base ← slot_ptr d3.ctrl Kc
            let e1 ← (⟨base.blk, base.off + B⟩ : Ptr).pred
            let v ← d3.read e1
            let d ← d3.write ⟨bn, 0⟩ v
            let e1 ← (⟨base.blk, base.off + B⟩ : Ptr).pred
            move_backward ⟨bc, oc⟩ ⟨base.blk, base.off + B⟩ (e1.off - oc) d) = .ok d1 ∧
          Ctl B d1 ∧ Live B d1 w lo hi1 bf bl1 ∧ d1.ctrl = d.ctrl ∧
          d1.block_elem_begin_ = d.block_elem_begin_ ∧
          ShiftedUp (u ++ [x]) w q (u.length - 1 - q) := by
      intro d3 w3 bn a hc3 hl3 g1 g2 g4 g5 hs3 ha
      have hw3len : w3.length = u.length + 1 := by rw [hs3.len, hlen1]
      have hsp : slot_ptr d3.ctrl Kc = .ok ⟨bc, 0⟩ := by simp [slot_ptr, slot, g1, hk]
      have hr := hl3.read_abs (K := Kc) (o := B - 1) (i := a - 1) (by rw [g1]; exact hk)
        (by rw [g2]; omega) (by omega) (by omega)
      obtain ⟨d4, hw, hc4, hl4, k1, k2, k3⟩ :=
        hl3.write_abs (K := Kc + 1) (o := 0) (i := a) hc3 hB (by rw [g1]; exact g4)
          (by rw [g2]; omega) hB (by omega) w3[a - 1]
      obtain ⟨d5, w5, h5, hc5, hl5, m1, m2, m3, hs5⟩ :=
        move_backward_live hB (B - 1 - oc) d4 _ q Kc oc bc hc4 hl4
          (by rw [k1, g1]; exact hk) (by rw [k2, g2]; exact hf) (by omega)
          (by rw [List.length_set]; omega)
      have e : oc + (B - 1 - oc) + 1 = 0 + B := by omega
      rw [e] at h5
      simp only [hsp, bind_ok, Ptr.pred, Nat.zero_add, hB0, if_false, hr, hw]
      simp only [Nat.zero_add] at h5
      rw [h5]
      refine ⟨d5, hi1, bl1, w5, rfl, hc5, hl5, m1.trans (k1.trans g1), m2.trans (k2.trans g2),
        ?_⟩
      have s4 : ShiftedUp w3 (w3.set a w3[a - 1]) (a - 1) 1 := by
        have := ShiftedUp.su_step w3 (a - 1) (by omega)
        have e : a - 1 + 1 = a := by omega
        simp only [e] at this
        exact this
      have s34 := hs3.su_join s4 (by omega) rfl
      exact s34.su_join hs5 (by omega) (by omega)
    by_cases hgt : d.block_elem_end_ - Kc - 1 > 1
    · obtain ⟨n, hn⟩ : ∃ n, d.block_elem_end_ - 1 = Kc + 1 + n :=
        ⟨d.block_elem_end_ - 1 - (Kc + 1), by omega⟩
      have hnB : (d.block_elem_end_ - 1) * B = Kc * B + B + n * B := by
        rw [hn, Nat.add_mul, Nat.add_mul, Nat.one_mul]
      obtain ⟨d3, w3, b3, h3, hc3, hl3, g1, g2, g3, g4, g5, hs3⟩ :=
        back_emplace_loop_live hB n d2 w2 (d.block_elem_end_ - 1) bl aL hc2 hl2
          (by rw [f1, hctrl1]; exact hl.slot_last) (by rw [f2, eb1]; exact haL)
          (by omega) (by rw [hs2.len, hlen1]; omega)
      have en : d.block_elem_end_ - 1 - (Kc + 1) = n := by omega
      simp only [hgt, if_true, en, h3, bind_ok]
      refine phase3 d3 w3 b3 (aL - n * B) hc3 hl3 (g1.trans (f1.trans hctrl1))
        (g2.trans (f2.trans eb1)) ?_ (by omega) ?_ (by omega)
      · rw [f1, hctrl1] at g5
        have e : d.block_elem_end_ - 1 - n = Kc + 1 := by omega
        rw [e] at g5
        exact g5
      · exact hs2.su_join hs3 (by omega) (by omega)
    · have e : d.block_elem_end_ - 1 = Kc + 1 := by omega
      simp only [hgt, if_false]
      refine phase3 d2 w2 bl aL hc2 hl2 (f1.trans hctrl1) (f2.trans eb1) ?_ ?_ ?_ (by omega)
      · rw [← e]
        exact hl.slot_last
      · rw [← e]
        exact haL
      · have e2 : hi - 1 = u.length - 1 - aL := by omega
        rw [← e2]
        exact hs2

end deque

end fast_io

namespace fast_io

namespace deque

variable {α : Type}

/-- The list after the relocation step of the front path: the element in front of the
target is there twice. -/
theorem ShiftedDown.sd_list_eq {u w : List α} {x : α} {q : Nat} (hx : u[0]? = some x)
    (hq1 : 0 < q) (hq2 : q < u.length) (h : ShiftedDown (x :: u) w 1 (q - 1)) :
    w = u.take q ++ u[q - 1] :: u.drop q := by
  have hlen := h.len
  simp only [List.length_cons] at hlen
  apply List.ext_getElem?
  intro i
  by_cases h0 : i = 0
  · subst h0
    rw [h.keep 0 (by omega)]
    simp only [List.getElem?_cons_zero]
    rw [List.getElem?_append_left (by simp; omega), List.getElem?_take_of_lt hq1, hx]
  by_cases h1 : i < q
  · rw [h.move i (by omega) (by omega)]
    rw [List.getElem?_append_left (by simp; omega), List.getElem?_take_of_lt h1]
    simp only [List.getElem?_cons_succ]
  · rw [h.keep i (by omega)]
    rw [List.getElem?_append_right (by simp; omega)]
    have e1 : (u.take q).length = q := by simp; omega
    rw [e1]
    obtain ⟨j, rfl⟩ : ∃ j, i = j + 1 := ⟨i - 1, by omega⟩
    simp only [List.getElem?_cons_succ]
    by_cases h2 : j + 1 = q
    · have e2 : j + 1 - q = 0 := by omega
      rw [e2]
      simp only [List.getElem?_cons_zero]
      have e3 : j = q - 1 := by omega
      subst e3
      exact List.getElem?_eq_getElem (by omega)
    · obtain ⟨k, hk⟩ : ∃ k, j + 1 - q = k + 1 := ⟨j - q, by omega⟩
      rw [hk]
      simp only [List.getElem?_cons_succ, List.getElem?_drop]
      congr 1
      omega

/-- The list after the relocation step of the back path: the target is there twice. -/
theorem ShiftedUp.su_list_eq {u w : List α} {x : α} {q : Nat}
    (hx : u[u.length - 1]? = some x) (hq2 : q < u.length)
    (h : ShiftedUp (u ++ [x]) w q (u.length - 1 - q)) :
    w = u.take (q + 1) ++ u.drop q := by
  have hlen := h.len
  simp only [List.length_append, List.length_singleton] at hlen
  have e1 : (u.take (q + 1)).length = q + 1 := by simp; omega
  apply List.ext_getElem?
  intro i
  by_cases h1 : i ≤ q
  · rw [h.keep i (by omega)]
    rw [List.getElem?_append_left (by omega), List.getElem?_append_left (by omega),
      List.getElem?_take_of_lt (by omega)]
  · obtain ⟨j, rfl⟩ : ∃ j, i = j + 1 := ⟨i - 1, by omega⟩
    rw [List.getElem?_append_right (by omega), e1, List.getElem?_drop]
    have e2 : q + (j + 1 - (q + 1)) = j := by omega
    rw [e2]
    by_cases h2 : j < u.length - 1
    · rw [h.move j (by omega) (by omega), List.getElem?_append_left (by omega)]
    · rw [h.keep (j + 1) (by omega)]
      by_cases h3 : j = u.length - 1
      · subst h3
        have e3 : u.length - 1 + 1 = u.length := by omega
        rw [e3, List.getElem?_append_right (Nat.le_refl _), Nat.sub_self, hx]
        rfl
      · rw [List.getElem?_eq_none (by simp; omega), List.getElem?_eq_none (by omega)]

/-- The pointer `operator[]` returns for the index `i` is the cell at its flat position. -/
theorem Live.index_ptr_abs {B : Nat} {d : deque α} {s : List α} {lo hi bf bl : Nat}
    (hl : Live B d s lo hi bf bl) (hB : 0 < B) (hfit : s.length + B ≤ SIZE_RANGE)
    {K o b i : Nat} (hk : d.ctrl[K]? = some (some b))
    (hf : K * B + o = d.block_elem_begin_ * B + lo + i) (ho : o < B) (hi' : i < s.length) :
    d.index_ptr B i = .ok ⟨b, o⟩ := by
  obtain ⟨h1, h2, h3⟩ := hl.rel_of_abs hf ho
  have e : d.block_elem_begin_ + (K - d.block_elem_begin_) = K := by omega
  have := hl.index_ptr_eq hB hfit i hi' b (by rw [h2, e]; exact hk)
  rw [h3] at this
  exact this

/-- The iterator at the index `j` of an element, from its slot, its block and its offset. -/
theorem IterAt.of_abs {B : Nat} {d : deque α} {s : List α} {lo hi bf bl : Nat}
    (hl : Live B d s lo hi bf bl) {K o b j : Nat} (hk : d.ctrl[K]? = some (some b))
    (hf : K * B + o = d.block_elem_begin_ * B + lo + j) (ho : o < B) (hj : j < s.length) :
    IterAt B d s lo hi bl j ⟨some K, some d.block_elem_end_, some ⟨b, 0⟩, some ⟨b, o⟩⟩ := by
  obtain ⟨h1, h2, h3⟩ := hl.rel_of_abs hf ho
  have e : d.block_elem_begin_ + (K - d.block_elem_begin_) = K := by omega
  refine Or.inl ⟨hj, b, by rw [h2, e]; exact hk, ?_⟩
  rw [h2, h3, e]

/-- The fields of the iterator at the index `j` of an element. -/
theorem IterAt.abs_of_lt {B : Nat} {d : deque α} {s : List α} {lo hi bf bl j : Nat}
    {it : deque_iterator} (hl : Live B d s lo hi bf bl) (hB : 0 < B)
    (h : IterAt B d s lo hi bl j it) (hj : j < s.length) :
    ∃ K o b : Nat, it = ⟨some K, some d.block_elem_end_, some ⟨b, 0⟩, some ⟨b, o⟩⟩ ∧
      d.ctrl[K]? = some (some b) ∧ K * B + o = d.block_elem_begin_ * B + lo + j ∧ o < B := by
  obtain ⟨K, o, b, h1, h2, h3, _, _⟩ := hl.abs_of_index hB j hj
  exact ⟨K, o, b, h.iter_unique (IterAt.of_abs hl h1 h2 h3 hj), h1, h2, h3⟩

end deque

end fast_io

namespace fast_io

namespace deque

variable {α : Type}

end deque

end fast_io

namespace fast_io

namespace deque

variable {α : Type}

end deque

end fast_io

namespace fast_io

namespace deque

variable {α : Type}

end deque

end fast_io

namespace fast_io

namespace deque

variable {α : Type}

end deque

end fast_io

namespace fast_io

namespace deque

variable {α : Type}

/-! ## The claims -/

theorem size_eq_cursor_count (B : Nat) (d : deque α) : d.size B = cursor_count B d := by
  unfold size cursor_count block_elem_size_
  generalize d.block_elem_end_ - d.block_elem_begin_ = n
  generalize ptr_diff d.elem_begin_end_ d.elem_begin_begin_ = p
  generalize ptr_diff d.elem_end_end_ d.elem_end_begin_ = q
  have hmax : max 0 (n - 2) = n - 2 := Nat.max_eq_right (Nat.zero_le _)
  simp only [hmax]
  by_cases h0 : n = 0
  · subst h0; simp
  · by_cases h1 : n = 1
    · subst h1; simp
    · by_cases h2 : n = 2
      · subst h2; simp
      · have hge : n ≥ 2 := by omega
        have hgt : n > 2 := by omega
        have hg1 : n > 1 := by omega
        simp only [h0, ne_eq, not_false_eq_true, if_true, hgt, hg1, hge, Nat.zero_add]

theorem run_ops_rep {B : Nat} (hB : 0 < B) (ops : List (EndOp α)) :
    ∀ (d : deque α) (s : List α), Rep B d s → pops_legal s.length ops = true →
    ∃ d' s', run_ops B ops d = .ok d' ∧ Rep B d' s' ∧
      s'.length + pop_count ops = s.length + push_count ops := by
  induction ops with
  | nil =>
    intro d s hr _
    exact ⟨d, s, rfl, hr, rfl⟩
  | cons op ops ih =>
    intro d s hr hl
    cases op with
    | emplace_back x =>
      obtain ⟨d1, e1, hr1⟩ := emplace_back_spec hB hr x
      obtain ⟨d', s', e2, hr2, hc⟩ := ih d1 (s ++ [x]) hr1 (by simpa [pops_legal] using hl)
      refine ⟨d', s', ?_, hr2, ?_⟩
      · simp only [run_ops, run_op, e1]; exact e2
      · simp only [List.length_append, List.length_singleton] at hc
        simp only [push_count, pop_count]; omega
    | emplace_front x =>
      obtain ⟨d1, e1, hr1⟩ := emplace_front_spec hB hr x
      obtain ⟨d', s', e2, hr2, hc⟩ := ih d1 (x :: s) hr1 (by simpa [pops_legal] using hl)
      refine ⟨d', s', ?_, hr2, ?_⟩
      · simp only [run_ops, run_op, e1]; exact e2
      · simp only [List.length_cons] at hc
        simp only [push_count, pop_count]; omega
    | pop_back =>
      cases s with
      | nil => simp [pops_legal] at hl
      | cons a t =>
        obtain ⟨d1, e1, hr1⟩ := pop_back_spec hB hr (by simp)
        obtain ⟨d', s', e2, hr2, hc⟩ := ih d1 _ hr1 (by simpa [pops_legal] using hl)
        refine ⟨d', s', ?_, hr2, ?_⟩
        · simp only [run_ops, run_op, e1]; exact e2
        · simp only [List.length_dropLast, List.length_cons, Nat.add_sub_cancel] at hc
          simp only [push_count, pop_count, List.length_cons]; omega
    | pop_front =>
      cases s with
      | nil => simp [pops_legal] at hl
      | cons a t =>
        obtain ⟨d1, e1, hr1⟩ := pop_front_spec hB hr (by simp)
        obtain ⟨d', s', e2, hr2, hc⟩ := ih d1 _ hr1 (by simpa [pops_legal] using hl)
        refine ⟨d', s', ?_, hr2, ?_⟩
        · simp only [run_ops, run_op, e1]; exact e2
        · simp only [List.tail_cons] at hc
          simp only [push_count, pop_count, List.length_cons]; omega

theorem Rep.cursors_null_of_empty {B : Nat} {d : deque α} {s : List α} (hr : Rep B d s)
    (he : d.empty = true) : cursors_null d := by
  rcases hr.shape with ⟨_, hn⟩ | ⟨lo, hi, bf, bl, hl⟩
  · exact ⟨hn.first, hn.fbegin, hn.fend, hn.bbegin, hn.bend, hn.blast⟩
  · simp [empty, hl.fbegin] at he

/-- C1: on every reachable deque that holds the sequence `s`, `emplace_back(x)` completes and
leaves the sequence `s ++ [x]`: `size()` grows by one, `d[i]` is unchanged for every
`i < |s|`, and `d[|s|] == x`.  The statement covers all paths of the call: slack inside the
last block, adoption of a spare block, and a shift or reallocation of the control array. -/
theorem C1_emplace_back_appends (sizeofT : Nat) (d : deque α) (s : List α) (x : α)
    (hreach : Reachable (block_elements_v sizeofT) d)
    (hs : Holds (block_elements_v sizeofT) d s)
    (hfit : s.length + 1 + block_elements_v sizeofT ≤ SIZE_RANGE) :
    ∃ d', emplace_back (block_elements_v sizeofT) d x = .ok d' ∧
      Holds (block_elements_v sizeofT) d' (s ++ [x]) ∧
      d'.size (block_elements_v sizeofT) = d.size (block_elements_v sizeofT) + 1 ∧
      (∀ i, i < s.length →
        d'.index (block_elements_v sizeofT) i = d.index (block_elements_v sizeofT) i) ∧
      d'.index (block_elements_v sizeofT) s.length = .ok x := by
  have hB := block_elements_v_pos sizeofT
  obtain ⟨s0, hr0⟩ := hreach.rep_of_reachable hB
  have hs0 : s0 = s := hr0.unique hB (by omega) hs
  subst hs0
  obtain ⟨d', e, hr'⟩ := emplace_back_spec hB hr0 x
  have hh := hr'.holds hB (by simp only [List.length_append, List.length_singleton]; omega)
  refine ⟨d', e, hh, ?_, ?_, ?_⟩
  · rw [hh.1, hs.1]; simp
  · intro i hi
    rw [hh.2 i (by simp; omega), hs.2 i hi, getElem_append_one_left hi]
  · rw [hh.2 s0.length (by simp)]; simp

/-- C2: on every reachable deque that holds the sequence `s`, `emplace_front(x)` completes
and leaves the sequence `[x] ++ s`: `size()` grows by one, `d[0] == x`, and `d[i+1]` is the
old `d[i]` for every `i < |s|`. -/
theorem C2_emplace_front_prepends (sizeofT : Nat) (d : deque α) (s : List α) (x : α)
    (hreach : Reachable (block_elements_v sizeofT) d)
    (hs : Holds (block_elements_v sizeofT) d s)
    (hfit : s.length + 1 + block_elements_v sizeofT ≤ SIZE_RANGE) :
    ∃ d', emplace_front (block_elements_v sizeofT) d x = .ok d' ∧
      Holds (block_elements_v sizeofT) d' ([x] ++ s) ∧
      d'.size (block_elements_v sizeofT) = d.size (block_elements_v sizeofT) + 1 ∧
      d'.index (block_elements_v sizeofT) 0 = .ok x ∧
      (∀ i, i < s.length →
        d'.index (block_elements_v sizeofT) (i + 1) = d.index (block_elements_v sizeofT) i) := by
  have hB := block_elements_v_pos sizeofT
  obtain ⟨s0, hr0⟩ := hreach.rep_of_reachable hB
  have hs0 : s0 = s := hr0.unique hB (by omega) hs
  subst hs0
  obtain ⟨d', e, hr'⟩ := emplace_front_spec hB hr0 x
  have hh := hr'.holds hB (by simp only [List.length_cons]; omega)
  refine ⟨d', e, hh, ?_, ?_, ?_⟩
  · rw [hh.1, hs.1]; simp
  · rw [hh.2 0 (by simp)]; simp
  · intro i hi
    rw [hh.2 (i + 1) (by simp; omega), hs.2 i hi]; simp

theorem sample_12_reachable : Reachable (block_elements_v 256) sample_12 :=
  Reachable.emplace_back 2 (Reachable.emplace_front 1 Reachable.init rfl) rfl

theorem sample_12_holds : Holds (block_elements_v 256) sample_12 [1, 2] :=
  ⟨rfl, fun i h =>
    match i, h with
    | 0, _ => rfl
    | 1, _ => rfl
    | n + 2, h => absurd h (by simp)⟩

theorem C1_emplace_back_appends_witness :
    Reachable (block_elements_v 256) sample_12 ∧
    Holds (block_elements_v 256) sample_12 [1, 2] ∧
    [1, 2].length + 1 + block_elements_v 256 ≤ SIZE_RANGE ∧
    ∃ d', emplace_back (block_elements_v 256) sample_12 3 = .ok d' ∧
      Holds (block_elements_v 256) d' ([1, 2] ++ [3]) ∧
      d'.size (block_elements_v 256) = sample_12.size (block_elements_v 256) + 1 ∧
      (∀ i, i < [1, 2].length →
        d'.index (block_elements_v 256) i = sample_12.index (block_elements_v 256) i) ∧
      d'.index (block_elements_v 256) [1, 2].length = .ok 3 :=
  ⟨sample_12_reachable, sample_12_holds, by decide,
    C1_emplace_back_appends 256 sample_12 [1, 2] 3 sample_12_reachable sample_12_holds
      (by decide)⟩

theorem C2_emplace_front_prepends_witness :
    Reachable (block_elements_v 256) sample_12 ∧
    Holds (block_elements_v 256) sample_12 [1, 2] ∧
    [1, 2].length + 1 + block_elements_v 256 ≤ SIZE_RANGE ∧
    ∃ d', emplace_front (block_elements_v 256) sample_12 0 = .ok d' ∧
      Holds (block_elements_v 256) d' ([0] ++ [1, 2]) ∧
      d'.size (block_elements_v 256) = sample_12.size (block_elements_v 256) + 1 ∧
      d'.index (block_elements_v 256) 0 = .ok 0 ∧
      (∀ i, i < [1, 2].length →
        d'.index (block_elements_v 256) (i + 1) = sample_12.index (block_elements_v 256) i) :=
  ⟨sample_12_reachable, sample_12_holds, by decide,
    C2_emplace_front_prepends 256 sample_12 [1, 2] 0 sample_12_reachable sample_12_holds
      (by decide)⟩

/-- C4: after every sequence of `emplace_back`, `emplace_front`, `pop_back` and `pop_front`
applied to a default-constructed deque, with pops only on a non-empty deque, `size()` is the
number of pushes minus the number of pops, it is the count that the data model reads off the
cursors, and `empty()` is true exactly when `size() == 0`, in which case all six in-block
cursors are null. -/
theorem C4_size_is_pushes_minus_pops (sizeofT : Nat) (ops : List (EndOp α))
    (hlegal : pops_legal 0 ops = true) :
    ∃ d, run_ops (block_elements_v sizeofT) ops ({} : deque α) = .ok d ∧
      pop_count ops ≤ push_count ops ∧
      d.size (block_elements_v sizeofT) = push_count ops - pop_count ops ∧
      d.size (block_elements_v sizeofT) = cursor_count (block_elements_v sizeofT) d ∧
      (d.empty = true ↔ d.size (block_elements_v sizeofT) = 0) ∧
      (d.empty = true → cursors_null d) := by
  have hB := block_elements_v_pos sizeofT
  obtain ⟨d, s, e, hr, hc⟩ := run_ops_rep hB ops ({} : deque α) [] (Rep.rep_init _) hlegal
  simp only [List.length_nil, Nat.zero_add] at hc
  refine ⟨d, e, by omega, by rw [hr.size_eq]; omega, size_eq_cursor_count _ d, ?_,
    hr.cursors_null_of_empty⟩
  rw [hr.empty_iff, hr.size_eq]
  exact List.length_eq_zero.symm

theorem C4_size_is_pushes_minus_pops_witness :
    pops_legal 0 [EndOp.emplace_back 1, EndOp.emplace_front 2, EndOp.pop_back] = true ∧
    ∃ d, run_ops (block_elements_v 256)
        [EndOp.emplace_back 1, EndOp.emplace_front 2, EndOp.pop_back] ({} : deque Nat) = .ok d ∧
      pop_count [EndOp.emplace_back 1, EndOp.emplace_front 2, EndOp.pop_back]
        ≤ push_count [EndOp.emplace_back 1, EndOp.emplace_front 2, EndOp.pop_back] ∧
      d.size (block_elements_v 256)
        = push_count [EndOp.emplace_back 1, EndOp.emplace_front 2, EndOp.pop_back]
          - pop_count [EndOp.emplace_back 1, EndOp.emplace_front 2, EndOp.pop_back] ∧
      d.size (block_elements_v 256) = cursor_count (block_elements_v 256) d ∧
      (d.empty = true ↔ d.size (block_elements_v 256) = 0) ∧
      (d.empty = true → cursors_null d) :=
  ⟨rfl, C4_size_is_pushes_minus_pops 256
    [EndOp.emplace_back 1, EndOp.emplace_front 2, EndOp.pop_back] rfl⟩

end deque

end fast_io

namespace fast_io

namespace deque

/-! ## Evaluations at the failing inputs -/

theorem push_back_range_reachable {B : Nat} (n : Nat) :
    ∀ {d d1 : deque Nat}, Reachable B d → push_back_range B n d = .ok d1 → Reachable B d1 := by
  induction n with
  | zero =>
    intro d d1 hr h
    injection h with h
    subst h
    exact hr
  | succ n ih =>
    intro d d1 hr h
    simp only [push_back_range] at h
    cases h2 : push_back_range B n d with
    | error e => rw [h2] at h; cases h
    | ok d2 =>
      rw [h2] at h
      exact Reachable.emplace_back n (ih hr h2) h

theorem push_front_range_reachable {B : Nat} (n : Nat) :
    ∀ {d d1 : deque Nat}, Reachable B d → push_front_range B n d = .ok d1 → Reachable B d1 := by
  induction n with
  | zero =>
    intro d d1 hr h
    injection h with h
    subst h
    exact hr
  | succ n ih =>
    intro d d1 hr h
    simp only [push_front_range] at h
    cases h2 : push_front_range B n d with
    | error e => rw [h2] at h; cases h
    | ok d2 =>
      rw [h2] at h
      exact Reachable.emplace_front (100 + n) (ih hr h2) h

theorem sample_34_reachable : Reachable (block_elements_v 256) sample_34 :=
  push_front_range_reachable 17 (d := state_of (push_back_range 16 17 {}))
    (push_back_range_reachable 17 Reachable.init rfl) rfl

theorem sample_spare_reachable : Reachable (block_elements_v 256) sample_spare :=
  Reachable.pop_front (d := state_of (pop_back 16 sample_34))
    (Reachable.pop_back sample_34_reachable rfl) rfl

theorem sample_adjacent_32_reachable : Reachable (block_elements_v 256) sample_adjacent_32 :=
  push_front_range_reachable 16 (d := state_of (push_back_range 16 16 { placed := [16, 32, 48] }))
    (push_back_range_reachable 16 (d := { placed := [16, 32, 48] })
      (Reachable.placed [16, 32, 48] Reachable.init) rfl) rfl

theorem sample_adjacent_48_reachable : Reachable (block_elements_v 256) sample_adjacent_48 :=
  push_front_range_reachable 32 (d := state_of (push_back_range 16 16 { placed := [16, 32, 48] }))
    (push_back_range_reachable 16 (d := { placed := [16, 32, 48] })
      (Reachable.placed [16, 32, 48] Reachable.init) rfl) rfl

/-- C5: with 16 elements per block, the deque built by `push_back(0)`, ...,
`push_back(47)` is reachable and holds 48 elements in three full blocks, with a control
array of four slots and no spare block; on it the call `emplace(begin() + 47, 99)` reaches
`fast_terminate()`. -/
theorem C5_emplace_middle_terminates :
    ∃ d : deque Nat, push_back_range (block_elements_v 256) 48 {} = .ok d ∧
      Reachable (block_elements_v 256) d ∧ d.size (block_elements_v 256) = 48 ∧
      d.block_elem_end_ - d.block_elem_begin_ = 3 ∧
      d.block_alloc_end_ = d.block_elem_end_ ∧ d.ctrl.length = 4 ∧
      emplace_at (block_elements_v 256) d 47 99 = .error .terminate :=
  ⟨state_of (push_back_range 16 48 {}), rfl, push_back_range_reachable 48 Reachable.init rfl,
    rfl, rfl, rfl, rfl, rfl⟩

/-- C6: with 16 elements per block, `resize(49)` and `resize(49, 7)` on a
default-constructed deque reach `fast_terminate()`: `reserve_back_` extends the owned blocks
twice by the four blocks it computed, and the control array it allocated has four slots. -/
theorem C6_resize_grow_terminates :
    Reachable (block_elements_v 256) ({} : deque Nat) ∧
    resize (block_elements_v 256) true ({} : deque Nat) 49 = .error .terminate ∧
    resize (block_elements_v 256) false ({} : deque Nat) 49 = .error .terminate ∧
    resize_fill (block_elements_v 256) true ({} : deque Nat) 49 7 = .error .terminate ∧
    resize_fill (block_elements_v 256) false ({} : deque Nat) 49 7 = .error .terminate :=
  ⟨Reachable.init, rfl, rfl, rfl, rfl⟩

/-- C7: with 16 elements per block, the deque built by `push_front(5)` is reachable, and on
it `assign(17, 7)` leaves the defined behaviour: its one owned block sits in slot 3 of a
control array of four slots, `clear` puts `elem_begin` and `elem_end` at slot 3,
`extent_block_` moves the owned range to the slots 0 and 1 and keeps `elem_end` at slot 3,
so `construct_` takes its full block from slot 3, outside the owned range, and its partial
block from slot 4, outside the control array. -/
theorem C7_assign_after_front_growth_faults :
    ∃ d : deque Nat, emplace_front (block_elements_v 256) {} 5 = .ok d ∧
      Reachable (block_elements_v 256) d ∧ d.ctrl.length = 4 ∧ d.block_alloc_begin_ = 3 ∧
      assign (block_elements_v 256) true d 17 7 = .error .undefined ∧
      assign (block_elements_v 256) false d 17 7 = .error .undefined :=
  ⟨state_of (emplace_front 16 {} 5), rfl, Reachable.emplace_front 5 Reachable.init rfl, rfl,
    rfl, rfl, rfl⟩

/-- C8: with 16 elements per block, the deques `d1` built by `push_front(5)` and `d` built
by `push_back(0)`, ..., `push_back(16)` are reachable, and the copy assignment `d1 = d`
leaves the defined behaviour; the cause is the one of C7. -/
theorem C8_copy_assign_after_front_growth_faults :
    ∃ d1 d : deque Nat, emplace_front (block_elements_v 256) {} 5 = .ok d1 ∧
      push_back_range (block_elements_v 256) 17 {} = .ok d ∧
      Reachable (block_elements_v 256) d1 ∧ Reachable (block_elements_v 256) d ∧
      d.size (block_elements_v 256) = 17 ∧
      operator_assign (block_elements_v 256) true d1 (some d) = .error .undefined ∧
      operator_assign (block_elements_v 256) false d1 (some d) = .error .undefined :=
  ⟨state_of (emplace_front 16 {} 5), state_of (push_back_range 16 17 {}), rfl, rfl,
    Reachable.emplace_front 5 Reachable.init rfl,
    push_back_range_reachable 17 Reachable.init rfl, rfl, rfl, rfl⟩

end deque

end fast_io

namespace fast_io

namespace deque

variable {α : Type}

/-- What a sized constructor leaves, from the data model of its result. -/
theorem sized_result {B : Nat} (hB : 0 < B) {d : deque α} {count : Nat} {v : α}
    (hc : Ctl B d)
    (hs : (count = 0 ∧ d = {}) ∨ ∃ hi bf bl, Live B d (List.replicate count v) 0 hi bf bl)
    (hfit : count + B ≤ SIZE_RANGE) :
    d.size B = count ∧ (∀ i, i < count → d.index B i = .ok v) ∧ sized_layout B count d := by
  rcases hs with ⟨h0, hd⟩ | ⟨hi, bf, bl, hl⟩
  · subst h0 hd
    exact ⟨rfl, fun i h => absurd h (Nat.not_lt_zero i), sized_layout_init hB⟩
  · have hr : Rep B d (List.replicate count v) := ⟨hc, Or.inr ⟨0, hi, bf, bl, hl⟩⟩
    have hlay := hl.sized_layout_of_live hB
    rw [List.length_replicate] at hlay
    refine ⟨by simpa using hr.size_eq, fun i h => ?_, hlay⟩
    have := hr.index_eq hB (by simpa using hfit) i (by simpa using h)
    simpa using this

/-- What a copy leaves, from the data model of the source and of the copy. -/
theorem copy_result {B : Nat} (hB : 0 < B) {d d2 : deque α} {s : List α} (hr : Rep B d s)
    (hr2 : Rep B d2 s) (hfit : d.size B + B ≤ SIZE_RANGE) :
    d2.size B = d.size B ∧
      ∀ i, i < d.size B → ∃ x, d.index B i = .ok x ∧ d2.index B i = .ok x := by
  have hsz := hr.size_eq
  refine ⟨by rw [hr2.size_eq, hsz], fun i h => ?_⟩
  rw [hsz] at h hfit
  exact ⟨s[i], hr.index_eq hB hfit i h, hr2.index_eq hB hfit i h⟩

/-- C9: for every `count` and every value `v`, the sized constructors `deque(count)` and
`deque(count, v)` return a deque with `size() == count` whose every element is the
value-initialised element (respectively `v`), laid out from offset 0 of the first block:
`block_count == ceil(count / B)`, `front_begin == front_first`,
`back_last == back_begin + B`, and with `count / B == 0` full blocks the front cursors and
the back cursors span the same block.  For `count != 0` the cursors are not null; for
`count == 0` the result is the default state, in
which the six cursors are null and the equations between them hold as equations between null
pointers.  The hypothesis keeps `count + B` inside the range of `size_t`, as every
`count <= max_size()` does; beyond it the sum inside `calc_cap` wraps. -/
theorem C9_sized_ctor_layout [Inhabited α] (sizeofT count : Nat) (v : α)
    (hfit : count + block_elements_v sizeofT ≤ SIZE_RANGE) :
    (∃ d : deque α, mk_count (block_elements_v sizeofT) count = .ok d ∧
      d.size (block_elements_v sizeofT) = count ∧
      (∀ i, i < count → d.index (block_elements_v sizeofT) i = .ok default) ∧
      sized_layout (block_elements_v sizeofT) count d) ∧
    (∃ d : deque α, mk_fill (block_elements_v sizeofT) count v = .ok d ∧
      d.size (block_elements_v sizeofT) = count ∧
      (∀ i, i < count → d.index (block_elements_v sizeofT) i = .ok v) ∧
      sized_layout (block_elements_v sizeofT) count d) := by
  have hB := block_elements_v_pos sizeofT
  obtain ⟨d1, e1, hc1, hs1, _⟩ := @mk_count_spec α _ (block_elements_v sizeofT) hB count hfit
  obtain ⟨d2, e2, hc2, hs2, _⟩ := mk_fill_spec hB count v hfit
  exact ⟨⟨d1, e1, sized_result hB hc1 hs1 hfit⟩, ⟨d2, e2, sized_result hB hc2 hs2 hfit⟩⟩

theorem C9_sized_ctor_layout_witness :
    17 + block_elements_v 256 ≤ SIZE_RANGE ∧
    (∃ d : deque Nat, mk_count (block_elements_v 256) 17 = .ok d ∧
      d.size (block_elements_v 256) = 17 ∧
      (∀ i, i < 17 → d.index (block_elements_v 256) i = .ok default) ∧
      sized_layout (block_elements_v 256) 17 d) ∧
    (∃ d : deque Nat, mk_fill (block_elements_v 256) 17 7 = .ok d ∧
      d.size (block_elements_v 256) = 17 ∧
      (∀ i, i < 17 → d.index (block_elements_v 256) i = .ok 7) ∧
      sized_layout (block_elements_v 256) 17 d) :=
  ⟨by decide, C9_sized_ctor_layout 256 17 7 (by decide)⟩

end deque

end fast_io

namespace fast_io

namespace deque

variable {α : Type}

/-! ## Erasing one element, element access and iteration -/

/-- C16: on every reachable deque and every index `i < size()`, `d[i]` and
`*(d.begin() + i)` are the same element: the iterator `begin() + i` exists, it points to
the very cell `operator[]` returns a reference to, and both read the same value there. -/
theorem C16_index_is_begin_plus (sizeofT : Nat) (d : deque α) (i : Nat)
    (hreach : Reachable (block_elements_v sizeofT) d)
    (hi : i < d.size (block_elements_v sizeofT))
    (hfit : d.size (block_elements_v sizeofT) + block_elements_v sizeofT ≤ SIZE_RANGE) :
    ∃ it p x, iterator_at (block_elements_v sizeofT) d i = .ok it ∧
      it.deref_ptr (block_elements_v sizeofT) = .ok p ∧
      d.index_ptr (block_elements_v sizeofT) i = .ok p ∧
      d.read p = .ok x ∧
      d.index (block_elements_v sizeofT) i = .ok x ∧
      it.deref (block_elements_v sizeofT) d = .ok x := by
  have hB := block_elements_v_pos sizeofT
  obtain ⟨s, hr⟩ := hreach.rep_of_reachable hB
  rw [hr.size_eq] at hi hfit
  rcases hr.shape with ⟨rfl, _⟩ | ⟨lo, hi1, bf, bl, hl⟩
  · simp at hi
  obtain ⟨it, p, h⟩ := hl.index_is_begin_plus hr.ctl hB hfit i hi
  exact ⟨it, p, s[i], h⟩

theorem C16_index_is_begin_plus_witness :
    Reachable (block_elements_v 256) sample_12 ∧
    1 < sample_12.size (block_elements_v 256) ∧
    sample_12.size (block_elements_v 256) + block_elements_v 256 ≤ SIZE_RANGE ∧
    ∃ it p x, iterator_at (block_elements_v 256) sample_12 1 = .ok it ∧
      it.deref_ptr (block_elements_v 256) = .ok p ∧
      sample_12.index_ptr (block_elements_v 256) 1 = .ok p ∧
      sample_12.read p = .ok x ∧
      sample_12.index (block_elements_v 256) 1 = .ok x ∧
      it.deref (block_elements_v 256) sample_12 = .ok x :=
  ⟨sample_12_reachable, by decide, by decide,
    C16_index_is_begin_plus 256 sample_12 1 sample_12_reachable (by decide) (by decide)⟩

/-- C20: on every reachable deque, `shrink_to_fit` completes and leaves `size()` and every
`d[i]` unchanged; the control array and the element cursors are unchanged, the number of
owned blocks `alloc_end - alloc_begin` does not grow, and afterwards
`alloc_begin == elem_begin` and `alloc_end == elem_end`: the blocks released are exactly
those of the two slack strips, each once, and none of them holds elements. -/
theorem C20_shrink_to_fit_releases_slack (sizeofT : Nat) (d : deque α)
    (hreach : Reachable (block_elements_v sizeofT) d)
    (hfit : d.size (block_elements_v sizeofT) + block_elements_v sizeofT ≤ SIZE_RANGE) :
    ∃ d1, shrink_to_fit d = .ok d1 ∧
      d1.size (block_elements_v sizeofT) = d.size (block_elements_v sizeofT) ∧
      (∀ i, i < d.size (block_elements_v sizeofT) →
        ∃ x, d.index (block_elements_v sizeofT) i = .ok x ∧
          d1.index (block_elements_v sizeofT) i = .ok x) ∧
      d1.ctrl = d.ctrl ∧
      d1.block_alloc_end_ - d1.block_alloc_begin_ ≤ d.block_alloc_end_ - d.block_alloc_begin_ ∧
      d1.block_alloc_begin_ = d1.block_elem_begin_ ∧
      d1.block_alloc_end_ = d1.block_elem_end_ ∧
      d1.block_elem_begin_ = d.block_elem_begin_ ∧
      d1.block_elem_end_ = d.block_elem_end_ ∧
      d1.freed = d.freed ++ slack_blocks d ∧
      (slack_blocks d).Nodup ∧
      (slack_blocks d).length =
        (d.block_elem_begin_ - d.block_alloc_begin_) + (d.block_alloc_end_ - d.block_elem_end_) ∧
      (∀ b, b ∈ slack_blocks d → b ∉ elem_blocks d) := by
  have hB := block_elements_v_pos sizeofT
  obtain ⟨s, hr⟩ := hreach.rep_of_reachable hB
  have hc := hr.ctl
  have hab := hc.ab_le
  have hbe := hc.be_le
  have hee := hc.ee_le
  obtain ⟨d1, h1, hr1, h2, h3, h4, h5, h6, _⟩ := shrink_to_fit_spec hB hr
  obtain ⟨d2, g1, g2, _⟩ := shrink_to_fit_log hc
  rw [h1] at g1
  injection g1 with g1
  subst g1
  rw [hr.size_eq] at hfit ⊢
  refine ⟨d1, h1, hr1.size_eq, fun i hi => ⟨s[i], hr.index_eq hB hfit i hi,
    hr1.index_eq hB hfit i hi⟩, h6, by omega, h2, h3, h4, h5, g2, ?_, ?_, ?_⟩
  · unfold slack_blocks
    rw [List.nodup_append]
    refine ⟨slot_blocks_nodup hc _ _ (Nat.le_refl _) (by omega),
      slot_blocks_nodup hc _ _ (by omega) (by omega), ?_⟩
    intro b hb1 hb2
    exact slot_blocks_disjoint hc (Nat.le_refl _) (by omega) (by omega) b hb1 hb2
  · unfold slack_blocks
    rw [List.length_append, slot_blocks_length hc _ _ (Nat.le_refl _) (by omega),
      slot_blocks_length hc _ _ (by omega) (by omega)]
  · intro b hb
    unfold slack_blocks at hb
    unfold elem_blocks
    rcases List.mem_append.1 hb with hb | hb
    · exact slot_blocks_disjoint hc (Nat.le_refl _) (by omega) (by omega) b hb
    · intro hb2
      exact slot_blocks_disjoint hc hab (by omega) (by omega) b hb2 hb

theorem C20_shrink_to_fit_releases_slack_witness :
    Reachable (block_elements_v 256) sample_spare ∧
    sample_spare.size (block_elements_v 256) + block_elements_v 256 ≤ SIZE_RANGE ∧
    sample_spare.size (block_elements_v 256) = 32 ∧
    alloc_blocks sample_spare = [3, 2, 0, 1] ∧ elem_blocks sample_spare = [2, 0] ∧
    slack_blocks sample_spare = [3, 1] ∧
    ∃ d1, shrink_to_fit sample_spare = .ok d1 ∧
      d1.size (block_elements_v 256) = sample_spare.size (block_elements_v 256) ∧
      (∀ i, i < sample_spare.size (block_elements_v 256) →
        ∃ x, sample_spare.index (block_elements_v 256) i = .ok x ∧
          d1.index (block_elements_v 256) i = .ok x) ∧
      d1.ctrl = sample_spare.ctrl ∧
      d1.block_alloc_end_ - d1.block_alloc_begin_ ≤
        sample_spare.block_alloc_end_ - sample_spare.block_alloc_begin_ ∧
      d1.block_alloc_begin_ = d1.block_elem_begin_ ∧
      d1.block_alloc_end_ = d1.block_elem_end_ ∧
      d1.block_elem_begin_ = sample_spare.block_elem_begin_ ∧
      d1.block_elem_end_ = sample_spare.block_elem_end_ ∧
      d1.freed = sample_spare.freed ++ slack_blocks sample_spare ∧
      (slack_blocks sample_spare).Nodup ∧
      (slack_blocks sample_spare).length =
        (sample_spare.block_elem_begin_ - sample_spare.block_alloc_begin_) +
          (sample_spare.block_alloc_end_ - sample_spare.block_elem_end_) ∧
      (∀ b, b ∈ slack_blocks sample_spare → b ∉ elem_blocks sample_spare) :=
  ⟨sample_spare_reachable, by decide, rfl, rfl, rfl, rfl,
    C20_shrink_to_fit_releases_slack 256 sample_spare sample_spare_reachable (by decide)⟩

end deque

end fast_io

namespace fast_io

namespace deque

/-! ## Evaluations at the failing inputs of the range operations -/

/-- C12: the deque built by `deque(INT_MAX + 2, 7)` on an element type of size 1 is
reachable and holds `INT_MAX + 2` elements; on it `erase(begin() + 1, end())` leaves the
defined behaviour: it calls `pop_back_n_(INT_MAX + 1)`, whose counter `auto i = 0` has type
`int` and is incremented past `INT_MAX`. -/
theorem C12_erase_range_counter_overflows :
    ∃ d : deque Nat, mk_fill (block_elements_v 1) (INT_MAX + 2) 7 = .ok d ∧
      Reachable (block_elements_v 1) d ∧ d.size (block_elements_v 1) = INT_MAX + 2 ∧
      ∃ first last, iterator_at (block_elements_v 1) d 1 = .ok first ∧ d.end_ = .ok last ∧
        erase_range (block_elements_v 1) d first last = .error .undefined := by
  have hB := block_elements_v_pos 1
  have hB1 : 1 < block_elements_v 1 := by
    have := block_elements_v_ge 1
    omega
  have hfit : INT_MAX + 2 + block_elements_v 1 ≤ SIZE_RANGE := by decide
  obtain ⟨d, h1, hc, hs, _⟩ := mk_fill_spec hB (INT_MAX + 2) (7 : Nat) hfit
  rcases hs with ⟨h0, _⟩ | ⟨hi, bf, bl, hl⟩
  · simp at h0
  have hr : Rep (block_elements_v 1) d (List.replicate (INT_MAX + 2) 7) :=
    ⟨hc, Or.inr ⟨0, hi, bf, bl, hl⟩⟩
  have hsz := hr.size_eq
  rw [List.length_replicate] at hsz
  obtain ⟨first, last, g1, g2, g3⟩ := erase_range_tail_overflow hB1 hc hl
    (by rw [List.length_replicate]) (by rw [List.length_replicate]; decide)
  exact ⟨d, h1, Reachable.mk_fill _ 7 hfit h1, hsz, first, last, g1, g2, g3⟩

/-- C13: with 16 elements per block, the deque built by `push_back(0)`, ...,
`push_back(47)` is reachable and holds 48 elements; on it `insert(begin() + 47, first,
last)` over a pair of random access iterators that yields `[99]`, and `insert_range(begin()
+ 47, rg)` over a sized range that yields `[99]`, reach `fast_terminate()` in
`reserve_back_(1)`; the cause is the one of C5. -/
theorem C13_insert_range_terminates :
    ∃ (d : deque Nat) (pos : deque_iterator),
      push_back_range (block_elements_v 256) 48 {} = .ok d ∧
      Reachable (block_elements_v 256) d ∧ d.size (block_elements_v 256) = 48 ∧
      iterator_at (block_elements_v 256) d 47 = .ok pos ∧
      insert (block_elements_v 256) d pos .random_access [99] = .error .terminate ∧
      insert_range (block_elements_v 256) d pos true .input [99] = .error .terminate ∧
      reserve_back_ (block_elements_v 256) d 1 = .error .terminate :=
  ⟨state_of (push_back_range 16 48 {}),
    ⟨some 2, some 3, some ⟨2, 0⟩, some ⟨2, 15⟩⟩, rfl,
    push_back_range_reachable 48 Reachable.init rfl, rfl, rfl, rfl, rfl, rfl⟩

/-- C14: with 16 elements per block, `append_range(rg)` on a default-constructed deque
reaches `fast_terminate()` for a sized range `rg` that yields `0`, ..., `48`, and so does
the overload of `append_range_noguard_` for a pair of random access iterators:
`reserve_back_(49)` extends the owned blocks twice by the four blocks it computed; the cause
is the one of C6. -/
theorem C14_append_range_terminates :
    Reachable (block_elements_v 256) ({} : deque Nat) ∧
    append_range (block_elements_v 256) ({} : deque Nat) true .input (List.range 49)
      = .error .terminate ∧
    append_range (block_elements_v 256) ({} : deque Nat) true .random_access (List.range 49)
      = .error .terminate ∧
    append_range (block_elements_v 256) ({} : deque Nat) false .random_access (List.range 49)
      = .error .terminate ∧
    reserve_back_ (block_elements_v 256) ({} : deque Nat) 49 = .error .terminate :=
  ⟨Reachable.init, rfl, rfl, rfl, rfl⟩

/-- C15: with 16 elements per block, the deque built by `push_front(5)` is reachable and
`clear()` leaves it empty with its block and its control array kept; afterwards
`assign(17, 7)` leaves the defined behaviour, while `assign(17, 7)` on a
default-constructed deque completes with 17 elements; the cause is the one of C7. -/
theorem C15_assign_after_clear_faults :
    ∃ d d1 d2 : deque Nat, emplace_front (block_elements_v 256) {} 5 = .ok d ∧
      Reachable (block_elements_v 256) d ∧
      clear (block_elements_v 256) false d = .ok d1 ∧
      Reachable (block_elements_v 256) d1 ∧
      d1.empty = true ∧ d1.size (block_elements_v 256) = 0 ∧
      d1.ctrl = d.ctrl ∧ d1.blocks.length = d.blocks.length ∧
      d1.block_alloc_begin_ = d.block_alloc_begin_ ∧
      d1.block_alloc_end_ = d.block_alloc_end_ ∧
      assign (block_elements_v 256) false d1 17 7 = .error .undefined ∧
      assign (block_elements_v 256) true d1 17 7 = .error .undefined ∧
      assign (block_elements_v 256) false ({} : deque Nat) 17 7 = .ok d2 ∧
      d2.size (block_elements_v 256) = 17 ∧
      d2.index (block_elements_v 256) 0 = .ok 7 ∧
      d2.index (block_elements_v 256) 16 = .ok 7 :=
  ⟨state_of (emplace_front 16 {} 5), state_of (clear 16 false (state_of (emplace_front 16 {} 5))),
    state_of (assign 16 false ({} : deque Nat) 17 7), rfl,
    Reachable.emplace_front 5 Reachable.init rfl, rfl,
    Reachable.clear false (Reachable.emplace_front 5 Reachable.init rfl) rfl,
    rfl, rfl, rfl, rfl, rfl, rfl, rfl, rfl, rfl, rfl, rfl, rfl⟩

/-- C18: with 16 elements per block, the deque built by `push_front(5)` is reachable and
holds one element, in cell 15 of its block; `d[1]` reaches `fast_terminate()`, but
`d[SIZE_MAX]` does not: the sum `pos + front_size` in `calc_pos` wraps to 14, both checks
pass, and `operator[]` returns a reference to cell 14, which holds no element. -/
theorem C18_index_wraps_past_size :
    ∃ d : deque Nat, emplace_front (block_elements_v 256) {} 5 = .ok d ∧
      Reachable (block_elements_v 256) d ∧ d.size (block_elements_v 256) = 1 ∧
      d.size (block_elements_v 256) ≤ SIZE_RANGE - 1 ∧
      d.index_ptr (block_elements_v 256) 0 = .ok ⟨0, 15⟩ ∧
      d.index_ptr (block_elements_v 256) 1 = .error .terminate ∧
      calc_pos (block_elements_v 256) 15 (SIZE_RANGE - 1) = ⟨0, 14⟩ ∧
      d.index_ptr (block_elements_v 256) (SIZE_RANGE - 1) = .ok ⟨0, 14⟩ ∧
      d.read ⟨0, 14⟩ = .error .undefined :=
  ⟨state_of (emplace_front 16 {} 5), rfl, Reachable.emplace_front 5 Reachable.init rfl, rfl,
    by decide, rfl, rfl, rfl, rfl, rfl⟩

end deque

end fast_io

namespace fast_io

namespace deque

variable {α : Type}

/-! ## Comparison, move construction, cursor aliasing and iterator arithmetic -/

theorem sample_12_back_reachable : Reachable (block_elements_v 256) sample_12_back :=
  Reachable.emplace_back 2 (Reachable.emplace_back 1 Reachable.init rfl) rfl

/-- C23: move construction from a deque `d` gives the new deque the control array, the four
block cursors and the six in-block cursors of `d` and the very storage they point into, so
its size and its element at every index are those of `d`; it leaves `d` with a null control
array and null cursors, so `d.empty()` is true and `d.size()` is 0. -/
theorem C23_move_ctor_transfers_cursors (B : Nat) (d : deque α) :
    (mk_move d).1.ctrl = d.ctrl ∧
    (mk_move d).1.block_alloc_begin_ = d.block_alloc_begin_ ∧
    (mk_move d).1.block_alloc_end_ = d.block_alloc_end_ ∧
    (mk_move d).1.block_elem_begin_ = d.block_elem_begin_ ∧
    (mk_move d).1.block_elem_end_ = d.block_elem_end_ ∧
    (mk_move d).1.elem_begin_first_ = d.elem_begin_first_ ∧
    (mk_move d).1.elem_begin_begin_ = d.elem_begin_begin_ ∧
    (mk_move d).1.elem_begin_end_ = d.elem_begin_end_ ∧
    (mk_move d).1.elem_end_begin_ = d.elem_end_begin_ ∧
    (mk_move d).1.elem_end_end_ = d.elem_end_end_ ∧
    (mk_move d).1.elem_end_last_ = d.elem_end_last_ ∧
    (mk_move d).1.blocks = d.blocks ∧
    (mk_move d).1 = d ∧
    (mk_move d).1.size B = d.size B ∧
    (∀ i, (mk_move d).1.index B i = d.index B i) ∧
    (mk_move d).2.ctrl = [] ∧
    (mk_move d).2.block_alloc_begin_ = 0 ∧ (mk_move d).2.block_alloc_end_ = 0 ∧
    (mk_move d).2.block_elem_begin_ = 0 ∧ (mk_move d).2.block_elem_end_ = 0 ∧
    cursors_null (mk_move d).2 ∧
    (mk_move d).2.empty = true ∧ (mk_move d).2.size B = 0 :=
  ⟨rfl, rfl, rfl, rfl, rfl, rfl, rfl, rfl, rfl, rfl, rfl, rfl, rfl, rfl, fun _ => rfl, rfl, rfl,
    rfl, rfl, rfl, ⟨rfl, rfl, rfl, rfl, rfl, rfl⟩, rfl, rfl⟩

/-- C25: every reachable state satisfies
`ctrl_begin <= alloc_begin <= elem_begin <= elem_end <= alloc_end <= ctrl_end`, and the slots
of `[alloc_begin, alloc_end)` hold pairwise distinct owned blocks: each holds a block of `B`
cells that the allocator handed out and that was not released, no two slots hold the same
block, and every block that the allocator handed out is released, once, or held by one of
these slots, so none is lost. -/
theorem C25_control_array_invariant (sizeofT : Nat) (d : deque α)
    (hreach : Reachable (block_elements_v sizeofT) d) :
    0 ≤ d.block_alloc_begin_ ∧ d.block_alloc_begin_ ≤ d.block_elem_begin_ ∧
    d.block_elem_begin_ ≤ d.block_elem_end_ ∧ d.block_elem_end_ ≤ d.block_alloc_end_ ∧
    d.block_alloc_end_ ≤ d.block_ctrl_end_ ∧
    (∀ k, d.block_alloc_begin_ ≤ k → k < d.block_alloc_end_ →
      ∃ b cells, d.ctrl[k]? = some (some b) ∧ d.blocks[b]? = some cells ∧
        cells.length = block_elements_v sizeofT ∧ b ∉ d.freed) ∧
    (∀ k k', d.block_alloc_begin_ ≤ k → k < d.block_alloc_end_ →
      d.block_alloc_begin_ ≤ k' → k' < d.block_alloc_end_ → d.ctrl[k]? = d.ctrl[k']? → k = k') ∧
    (∀ b, b < d.blocks.length → b ∈ d.freed ∨
      ∃ k, d.block_alloc_begin_ ≤ k ∧ k < d.block_alloc_end_ ∧ d.ctrl[k]? = some (some b)) ∧
    d.freed.Nodup ∧ Owns d := by
  have hB := block_elements_v_pos sizeofT
  obtain ⟨s, hr⟩ := hreach.rep_of_reachable hB
  have hc := hr.ctl
  have ho := hreach.owns hB
  obtain ⟨o1, o2, o3, o4⟩ := ho.unfold_owns hc
  refine ⟨Nat.zero_le _, hc.ab_le, hc.be_le, hc.ee_le, hc.ae_le, ?_, o2, o3, o4, ho⟩
  intro k k1 k2
  obtain ⟨b, cells, e1, e2, e3⟩ := hc.owned k k1 k2
  obtain ⟨b1, f1, _, f3⟩ := o1 k k1 k2
  rw [e1] at f1
  injection f1 with f1
  injection f1 with f1
  subst f1
  exact ⟨b, cells, e1, e2, e3, f3⟩

theorem C25_control_array_invariant_witness :
    Reachable (block_elements_v 256) sample_12 ∧
    (0 ≤ sample_12.block_alloc_begin_ ∧
    sample_12.block_alloc_begin_ ≤ sample_12.block_elem_begin_ ∧
    sample_12.block_elem_begin_ ≤ sample_12.block_elem_end_ ∧
    sample_12.block_elem_end_ ≤ sample_12.block_alloc_end_ ∧
    sample_12.block_alloc_end_ ≤ sample_12.block_ctrl_end_ ∧
    (∀ k, sample_12.block_alloc_begin_ ≤ k → k < sample_12.block_alloc_end_ →
      ∃ b cells, sample_12.ctrl[k]? = some (some b) ∧ sample_12.blocks[b]? = some cells ∧
        cells.length = block_elements_v 256 ∧ b ∉ sample_12.freed) ∧
    (∀ k k', sample_12.block_alloc_begin_ ≤ k → k < sample_12.block_alloc_end_ →
      sample_12.block_alloc_begin_ ≤ k' → k' < sample_12.block_alloc_end_ →
      sample_12.ctrl[k]? = sample_12.ctrl[k']? → k = k') ∧
    (∀ b, b < sample_12.blocks.length → b ∈ sample_12.freed ∨
      ∃ k, sample_12.block_alloc_begin_ ≤ k ∧ k < sample_12.block_alloc_end_ ∧
        sample_12.ctrl[k]? = some (some b)) ∧
    sample_12.freed.Nodup ∧ Owns sample_12) :=
  ⟨sample_12_reachable, C25_control_array_invariant 256 sample_12 sample_12_reachable⟩

/-- C26: in every reachable state with one element block, the front and the back cursors
alias (`front_begin == back_begin`, `front_end == back_end`), `front_first` is the start of
the block and `back_last` is `front_first + B`; in every reachable state with two element
blocks or more, `front_end` is `front_first + B`, `back_begin` is the start of the last
block, `back_begin < back_end`, and `back_last` is `back_begin + B`. -/
theorem C26_single_block_cursors_alias (sizeofT : Nat) (d : deque α)
    (hreach : Reachable (block_elements_v sizeofT) d) :
    (d.block_elem_end_ - d.block_elem_begin_ = 1 →
      d.elem_begin_begin_ = d.elem_end_begin_ ∧ d.elem_begin_end_ = d.elem_end_end_ ∧
      ∃ b, d.ctrl[d.block_elem_begin_]? = some (some b) ∧
        d.elem_begin_first_ = some ⟨b, 0⟩ ∧
        d.elem_end_last_ = some ((⟨b, 0⟩ : Ptr).add (block_elements_v sizeofT))) ∧
    (2 ≤ d.block_elem_end_ - d.block_elem_begin_ →
      ∃ bf bl hi, d.ctrl[d.block_elem_begin_]? = some (some bf) ∧
        d.ctrl[d.block_elem_end_ - 1]? = some (some bl) ∧
        d.elem_begin_first_ = some ⟨bf, 0⟩ ∧
        d.elem_begin_end_ = some ((⟨bf, 0⟩ : Ptr).add (block_elements_v sizeofT)) ∧
        d.elem_end_begin_ = some ⟨bl, 0⟩ ∧
        d.elem_end_end_ = some ⟨bl, hi⟩ ∧ 0 < hi ∧ hi ≤ block_elements_v sizeofT ∧
        d.elem_end_last_ = some ((⟨bl, 0⟩ : Ptr).add (block_elements_v sizeofT))) := by
  have hB := block_elements_v_pos sizeofT
  obtain ⟨s, hr⟩ := hreach.rep_of_reachable hB
  rcases hr.shape with ⟨_, hn⟩ | ⟨lo, hi, bf, bl, hl⟩
  · have := hn.blocks_eq
    exact ⟨fun h => by omega, fun h => by omega⟩
  · constructor
    · intro h1
      have e : d.block_elem_end_ - 1 = d.block_elem_begin_ := by omega
      have hbl : bl = bf := by
        have h2 := hl.slot_last
        rw [e, hl.slot_first] at h2
        injection h2 with h2; injection h2 with h2; exact h2.symm
      subst hbl
      refine ⟨?_, ?_, bl, hl.slot_first, hl.first, ?_⟩
      · rw [hl.fbegin, hl.bbegin, if_pos h1]
      · rw [hl.fend, hl.bend, if_pos h1]
      · rw [hl.blast]; simp [Ptr.add]
    · intro h2
      have hne : ¬ (d.block_elem_end_ - d.block_elem_begin_ = 1) := by omega
      refine ⟨bf, bl, hi, hl.slot_first, hl.slot_last, hl.first, ?_, ?_, hl.bend, hl.hi_pos,
        hl.hi_le, ?_⟩
      · rw [hl.fend, if_neg hne]; simp [Ptr.add]
      · rw [hl.bbegin, if_neg hne]
      · rw [hl.blast]; simp [Ptr.add]

theorem C26_single_block_cursors_alias_witness :
    Reachable (block_elements_v 256) sample_12_back ∧
    sample_12_back.block_elem_end_ - sample_12_back.block_elem_begin_ = 1 ∧
    ((sample_12_back.block_elem_end_ - sample_12_back.block_elem_begin_ = 1 →
      sample_12_back.elem_begin_begin_ = sample_12_back.elem_end_begin_ ∧
      sample_12_back.elem_begin_end_ = sample_12_back.elem_end_end_ ∧
      ∃ b, sample_12_back.ctrl[sample_12_back.block_elem_begin_]? = some (some b) ∧
        sample_12_back.elem_begin_first_ = some ⟨b, 0⟩ ∧
        sample_12_back.elem_end_last_ = some ((⟨b, 0⟩ : Ptr).add (block_elements_v 256))) ∧
    (2 ≤ sample_12_back.block_elem_end_ - sample_12_back.block_elem_begin_ →
      ∃ bf bl hi, sample_12_back.ctrl[sample_12_back.block_elem_begin_]? = some (some bf) ∧
        sample_12_back.ctrl[sample_12_back.block_elem_end_ - 1]? = some (some bl) ∧
        sample_12_back.elem_begin_first_ = some ⟨bf, 0⟩ ∧
        sample_12_back.elem_begin_end_ = some ((⟨bf, 0⟩ : Ptr).add (block_elements_v 256)) ∧
        sample_12_back.elem_end_begin_ = some ⟨bl, 0⟩ ∧
        sample_12_back.elem_end_end_ = some ⟨bl, hi⟩ ∧ 0 < hi ∧ hi ≤ block_elements_v 256 ∧
        sample_12_back.elem_end_last_ = some ((⟨bl, 0⟩ : Ptr).add (block_elements_v 256)))) :=
  ⟨sample_12_back_reachable, by decide,
    C26_single_block_cursors_alias 256 sample_12_back sample_12_back_reachable⟩

/-- C27: for every in-block offset `0 ≤ front_size ≤ B` and every signed `pos`, the signed
`calc_pos` returns `(block_step, elem_step)` with
`block_step * B + elem_step = front_size + pos` and `0 ≤ elem_step < B`: the floor quotient
and the non-negative remainder of `front_size + pos` by `B`. -/
theorem C27_signed_calc_pos_is_floor (sizeofT : Nat) (front_size pos : Int)
    (h0 : 0 ≤ front_size) (h1 : front_size ≤ (block_elements_v sizeofT : Int)) :
    (calc_pos_signed (block_elements_v sizeofT) front_size pos).block_step *
        (block_elements_v sizeofT : Int) +
      (calc_pos_signed (block_elements_v sizeofT) front_size pos).elem_step
        = front_size + pos ∧
    0 ≤ (calc_pos_signed (block_elements_v sizeofT) front_size pos).elem_step ∧
    (calc_pos_signed (block_elements_v sizeofT) front_size pos).elem_step
      < (block_elements_v sizeofT : Int) ∧
    (calc_pos_signed (block_elements_v sizeofT) front_size pos).block_step
      = (front_size + pos) / (block_elements_v sizeofT : Int) ∧
    (calc_pos_signed (block_elements_v sizeofT) front_size pos).elem_step
      = (front_size + pos) % (block_elements_v sizeofT : Int) := by
  have hB := block_elements_v_pos sizeofT
  obtain ⟨e1, e2, e3⟩ := calc_pos_signed_spec _ hB front_size pos h0 h1
  obtain ⟨e4, e5⟩ := calc_pos_signed_floor _ hB front_size pos h0 h1
  exact ⟨e1, e2, e3, e4, e5⟩

theorem C27_signed_calc_pos_is_floor_witness :
    (0 : Int) ≤ 16 ∧ (16 : Int) ≤ (block_elements_v 256 : Int) ∧
    (calc_pos_signed (block_elements_v 256) 16 (-33)).block_step *
        (block_elements_v 256 : Int) +
      (calc_pos_signed (block_elements_v 256) 16 (-33)).elem_step = 16 + -33 ∧
    0 ≤ (calc_pos_signed (block_elements_v 256) 16 (-33)).elem_step ∧
    (calc_pos_signed (block_elements_v 256) 16 (-33)).elem_step
      < (block_elements_v 256 : Int) ∧
    (calc_pos_signed (block_elements_v 256) 16 (-33)).block_step
      = (16 + -33) / (block_elements_v 256 : Int) ∧
    (calc_pos_signed (block_elements_v 256) 16 (-33)).elem_step
      = (16 + -33) % (block_elements_v 256 : Int) :=
  ⟨by decide, by decide, C27_signed_calc_pos_is_floor 256 16 (-33) (by decide) (by decide)⟩

/-- C28: on every reachable deque, for the iterator `it = begin() + i` at an index
`i ≤ size()`: `it += 0` leaves it unchanged; for a signed `n ≠ 0` with
`0 ≤ i + n ≤ size()`, `it += n` completes and yields the iterator `begin() + (i + n)`, seated
at `elem_begin_ + B` of the last block when the target block is `block_elem_end_` and inside
a block otherwise; and for every `n ≠ 0`, `it += n` reaches `fast_terminate()` when the
target block lies beyond `block_elem_end_` or is `block_elem_end_` with a non-zero step
inside the block. -/
theorem C28_plus_assign_signed (sizeofT : Nat) (d : deque α) (i : Nat) (n : Int)
    (hreach : Reachable (block_elements_v sizeofT) d)
    (hi : i ≤ d.size (block_elements_v sizeofT)) :
    ∃ it, iterator_at (block_elements_v sizeofT) d i = .ok it ∧
      it.plus_and_assign_ (block_elements_v sizeofT) d 0 = .ok it ∧
      (n ≠ 0 → 0 ≤ (i : Int) + n →
        (i : Int) + n ≤ (d.size (block_elements_v sizeofT) : Int) →
        ∃ it1 curr bend, it.plus_and_assign_ (block_elements_v sizeofT) d n = .ok it1 ∧
          iterator_at (block_elements_v sizeofT) d ((i : Int) + n).toNat = .ok it1 ∧
          it.block_elem_curr_ = some curr ∧ it.block_elem_end_ = some bend ∧
          ((curr : Int) +
              (calc_pos_signed (block_elements_v sizeofT) it.in_block_offset n).block_step
              = (bend : Int) →
            it1.block_elem_curr_ = some (bend - 1) ∧
            it1.at_block_end (block_elements_v sizeofT) = .ok true) ∧
          ((curr : Int) +
              (calc_pos_signed (block_elements_v sizeofT) it.in_block_offset n).block_step
              ≠ (bend : Int) →
            it1.at_block_end (block_elements_v sizeofT) = .ok false)) ∧
      (n ≠ 0 → ∀ curr bend : Nat, it.block_elem_curr_ = some curr →
        it.block_elem_end_ = some bend →
        ((bend : Int) < (curr : Int) +
            (calc_pos_signed (block_elements_v sizeofT) it.in_block_offset n).block_step ∨
          ((curr : Int) +
              (calc_pos_signed (block_elements_v sizeofT) it.in_block_offset n).block_step
              = (bend : Int) ∧
            (calc_pos_signed (block_elements_v sizeofT) it.in_block_offset n).elem_step ≠ 0)) →
        it.plus_and_assign_ (block_elements_v sizeofT) d n = .error .terminate) := by
  have hB := block_elements_v_pos sizeofT
  obtain ⟨s, hr⟩ := hreach.rep_of_reachable hB
  rw [hr.size_eq] at hi ⊢
  have hzero : ∀ it : deque_iterator,
      it.plus_and_assign_ (block_elements_v sizeofT) d 0 = .ok it := fun it => by
    simp [deque_iterator.plus_and_assign_]
  have habort : ∀ it : deque_iterator, n ≠ 0 → ∀ curr bend : Nat,
      it.block_elem_curr_ = some curr → it.block_elem_end_ = some bend →
      ((bend : Int) < (curr : Int) +
          (calc_pos_signed (block_elements_v sizeofT) it.in_block_offset n).block_step ∨
        ((curr : Int) +
            (calc_pos_signed (block_elements_v sizeofT) it.in_block_offset n).block_step
            = (bend : Int) ∧
          (calc_pos_signed (block_elements_v sizeofT) it.in_block_offset n).elem_step ≠ 0)) →
      it.plus_and_assign_ (block_elements_v sizeofT) d n = .error .terminate :=
    fun it hn curr bend h1 h2 h => plus_and_assign_aborts _ d it n hn h1 h2 h
  rcases hr.shape with ⟨rfl, hn⟩ | ⟨lo, hi1, bf, bl, hl⟩
  · have e : i = 0 := by simpa using hi
    subst e
    refine ⟨⟨none, none, none, none⟩, ?_, hzero _, ?_, habort _⟩
    · rw [iterator_at_eq]
      exact begin_plus_zero hn.begin_end.1
    · intro h1 h2 h3
      simp only [List.length_nil] at h3
      omega
  · obtain ⟨it, e1, hit⟩ := hl.begin_plus_spec hr.ctl hB i hi
    refine ⟨it, by rw [iterator_at_eq]; exact e1, hzero _, ?_, habort _⟩
    intro h1 h2 h3
    obtain ⟨it1, g1, hit1⟩ := hit.plus_spec hr.ctl hl hB hi n h1 h2 h3
    obtain ⟨it2, g2, hit2⟩ := hl.begin_plus_spec hr.ctl hB ((i : Int) + n).toNat (by omega)
    have e : it2 = it1 := hit2.iter_unique hit1
    subst e
    obtain ⟨q, r, hcur, hend, hoff, _, hrB⟩ := hit.fields hl hB
    obtain ⟨k1, k2⟩ := plus_and_assign_seat _ hB d it it2 n h1 hcur hend
      (by rw [hoff]; omega) (by rw [hoff]; exact_mod_cast hrB) g1
    exact ⟨it2, _, _, g1, by rw [iterator_at_eq]; exact g2, hcur, hend, k1, k2⟩

theorem C28_plus_assign_signed_witness :
    Reachable (block_elements_v 256) sample_12 ∧
    2 ≤ sample_12.size (block_elements_v 256) ∧
    ∃ it, iterator_at (block_elements_v 256) sample_12 2 = .ok it ∧
      it.plus_and_assign_ (block_elements_v 256) sample_12 0 = .ok it ∧
      ((-2 : Int) ≠ 0 → 0 ≤ ((2 : Nat) : Int) + (-2) →
        ((2 : Nat) : Int) + (-2) ≤ (sample_12.size (block_elements_v 256) : Int) →
        ∃ it1 curr bend, it.plus_and_assign_ (block_elements_v 256) sample_12 (-2) = .ok it1 ∧
          iterator_at (block_elements_v 256) sample_12 (((2 : Nat) : Int) + (-2)).toNat
            = .ok it1 ∧
          it.block_elem_curr_ = some curr ∧ it.block_elem_end_ = some bend ∧
          ((curr : Int) +
              (calc_pos_signed (block_elements_v 256) it.in_block_offset (-2)).block_step
              = (bend : Int) →
            it1.block_elem_curr_ = some (bend - 1) ∧
            it1.at_block_end (block_elements_v 256) = .ok true) ∧
          ((curr : Int) +
              (calc_pos_signed (block_elements_v 256) it.in_block_offset (-2)).block_step
              ≠ (bend : Int) →
            it1.at_block_end (block_elements_v 256) = .ok false)) ∧
      ((-2 : Int) ≠ 0 → ∀ curr bend : Nat, it.block_elem_curr_ = some curr →
        it.block_elem_end_ = some bend →
        ((bend : Int) < (curr : Int) +
            (calc_pos_signed (block_elements_v 256) it.in_block_offset (-2)).block_step ∨
          ((curr : Int) +
              (calc_pos_signed (block_elements_v 256) it.in_block_offset (-2)).block_step
              = (bend : Int) ∧
            (calc_pos_signed (block_elements_v 256) it.in_block_offset (-2)).elem_step ≠ 0)) →
        it.plus_and_assign_ (block_elements_v 256) sample_12 (-2) = .error .terminate) :=
  ⟨sample_12_reachable, by decide,
    C28_plus_assign_signed 256 sample_12 2 (-2) sample_12_reachable (by decide)⟩

/-- C29: on every reachable state, `align_elem_as_alloc_back_` and
`align_elem_as_alloc_front_` complete and permute block pointers only: the owned slots
`[alloc_begin, alloc_end)` keep their bounds and hold the same blocks up to their order, the
element blocks keep their order and their number, `elem_begin == alloc_begin` (respectively
`elem_end == alloc_end`) holds afterwards, the six in-block cursors and the element storage
are unchanged, and so are `size()` and every `d[i]`. -/
theorem C29_alignment_is_permutation (sizeofT : Nat) (d : deque α)
    (hreach : Reachable (block_elements_v sizeofT) d)
    (hfit : d.size (block_elements_v sizeofT) + block_elements_v sizeofT ≤ SIZE_RANGE) :
    (∃ d1, d.align_elem_as_alloc_back_ = .ok d1 ∧
      d1.block_elem_begin_ = d1.block_alloc_begin_ ∧
      d1.block_alloc_begin_ = d.block_alloc_begin_ ∧
      d1.block_alloc_end_ = d.block_alloc_end_ ∧
      (alloc_blocks d1).Perm (alloc_blocks d) ∧ elem_blocks d1 = elem_blocks d ∧
      d1.block_elem_end_ - d1.block_elem_begin_ = d.block_elem_end_ - d.block_elem_begin_ ∧
      d1.elem_begin_first_ = d.elem_begin_first_ ∧ d1.elem_begin_begin_ = d.elem_begin_begin_ ∧
      d1.elem_begin_end_ = d.elem_begin_end_ ∧ d1.elem_end_begin_ = d.elem_end_begin_ ∧
      d1.elem_end_end_ = d.elem_end_end_ ∧ d1.elem_end_last_ = d.elem_end_last_ ∧
      d1.blocks = d.blocks ∧
      d1.size (block_elements_v sizeofT) = d.size (block_elements_v sizeofT) ∧
      ∀ i, i < d.size (block_elements_v sizeofT) →
        d1.index (block_elements_v sizeofT) i = d.index (block_elements_v sizeofT) i) ∧
    (∃ d2, d.align_elem_as_alloc_front_ = .ok d2 ∧
      d2.block_elem_end_ = d2.block_alloc_end_ ∧
      d2.block_alloc_begin_ = d.block_alloc_begin_ ∧
      d2.block_alloc_end_ = d.block_alloc_end_ ∧
      (alloc_blocks d2).Perm (alloc_blocks d) ∧ elem_blocks d2 = elem_blocks d ∧
      d2.block_elem_end_ - d2.block_elem_begin_ = d.block_elem_end_ - d.block_elem_begin_ ∧
      d2.elem_begin_first_ = d.elem_begin_first_ ∧ d2.elem_begin_begin_ = d.elem_begin_begin_ ∧
      d2.elem_begin_end_ = d.elem_begin_end_ ∧ d2.elem_end_begin_ = d.elem_end_begin_ ∧
      d2.elem_end_end_ = d.elem_end_end_ ∧ d2.elem_end_last_ = d.elem_end_last_ ∧
      d2.blocks = d.blocks ∧
      d2.size (block_elements_v sizeofT) = d.size (block_elements_v sizeofT) ∧
      ∀ i, i < d.size (block_elements_v sizeofT) →
        d2.index (block_elements_v sizeofT) i = d.index (block_elements_v sizeofT) i) := by
  have hB := block_elements_v_pos sizeofT
  obtain ⟨s, hr⟩ := hreach.rep_of_reachable hB
  have hc := hr.ctl
  rw [hr.size_eq] at hfit ⊢
  have key : ∀ d1 : deque α, Ctl (block_elements_v sizeofT) d1 → Moved d d1 → Shuffled d d1 →
      (alloc_blocks d1).Perm (alloc_blocks d) ∧ elem_blocks d1 = elem_blocks d ∧
      d1.block_elem_end_ - d1.block_elem_begin_ = d.block_elem_end_ - d.block_elem_begin_ ∧
      d1.elem_begin_first_ = d.elem_begin_first_ ∧ d1.elem_begin_begin_ = d.elem_begin_begin_ ∧
      d1.elem_begin_end_ = d.elem_begin_end_ ∧ d1.elem_end_begin_ = d.elem_end_begin_ ∧
      d1.elem_end_end_ = d.elem_end_end_ ∧ d1.elem_end_last_ = d.elem_end_last_ ∧
      d1.size (block_elements_v sizeofT) = s.length ∧
      ∀ i, i < s.length →
        d1.index (block_elements_v sizeofT) i = d.index (block_elements_v sizeofT) i := by
    intro d1 hc1 hm hs
    have hr1 := hm.rep_of_moved hr hB hc1
    refine ⟨hs.perm hc hc1, ?_, hm.count, hm.first, hm.fbegin, hm.fend, hm.bbegin, hm.bend,
      hm.blast, hr1.size_eq, fun i hi => by
        rw [hr1.index_eq hB hfit i hi, hr.index_eq hB hfit i hi]⟩
    unfold elem_blocks
    rw [hm.count]
    exact slot_blocks_congr (fun i hi => hm.slots i hi)
  constructor
  · obtain ⟨d1, e1, e2, e3, e4, e5, e6, _, e8⟩ := align_elem_as_alloc_back_spec hc
    obtain ⟨s1, _⟩ := align_elem_as_alloc_back_shuffled hc e1
    obtain ⟨k1, k2, k3, k4, k5, k6, k7, k8, k9, k10, k11⟩ := key d1 e2 e3 s1
    exact ⟨d1, e1, by rw [e4, e5], e5, e6, k1, k2, k3, k4, k5, k6, k7, k8, k9, e8, k10, k11⟩
  · obtain ⟨d1, e1, e2, e3, e4, e5, e6, _, e8⟩ := align_elem_as_alloc_front_spec hc
    obtain ⟨s1, _⟩ := align_elem_as_alloc_front_shuffled hc e1
    obtain ⟨k1, k2, k3, k4, k5, k6, k7, k8, k9, k10, k11⟩ := key d1 e2 e3 s1
    exact ⟨d1, e1, by rw [e4, e6], e5, e6, k1, k2, k3, k4, k5, k6, k7, k8, k9, e8, k10, k11⟩

theorem C29_alignment_is_permutation_witness :
    Reachable (block_elements_v 256) sample_spare ∧
    sample_spare.size (block_elements_v 256) + block_elements_v 256 ≤ SIZE_RANGE ∧
    sample_spare.size (block_elements_v 256) = 32 ∧
    alloc_blocks sample_spare = [3, 2, 0, 1] ∧ elem_blocks sample_spare = [2, 0] ∧
    (∃ d1, sample_spare.align_elem_as_alloc_back_ = .ok d1 ∧
      alloc_blocks d1 = [2, 0, 3, 1]) ∧
    (∃ d2, sample_spare.align_elem_as_alloc_front_ = .ok d2 ∧
      alloc_blocks d2 = [3, 1, 2, 0]) ∧
    ((∃ d1, sample_spare.align_elem_as_alloc_back_ = .ok d1 ∧
      d1.block_elem_begin_ = d1.block_alloc_begin_ ∧
      d1.block_alloc_begin_ = sample_spare.block_alloc_begin_ ∧
      d1.block_alloc_end_ = sample_spare.block_alloc_end_ ∧
      (alloc_blocks d1).Perm (alloc_blocks sample_spare) ∧ elem_blocks d1 = elem_blocks sample_spare ∧
      d1.block_elem_end_ - d1.block_elem_begin_ = sample_spare.block_elem_end_ - sample_spare.block_elem_begin_ ∧
      d1.elem_begin_first_ = sample_spare.elem_begin_first_ ∧ d1.elem_begin_begin_ = sample_spare.elem_begin_begin_ ∧
      d1.elem_begin_end_ = sample_spare.elem_begin_end_ ∧ d1.elem_end_begin_ = sample_spare.elem_end_begin_ ∧
      d1.elem_end_end_ = sample_spare.elem_end_end_ ∧ d1.elem_end_last_ = sample_spare.elem_end_last_ ∧
      d1.blocks = sample_spare.blocks ∧
      d1.size (block_elements_v 256) = sample_spare.size (block_elements_v 256) ∧
      ∀ i, i < sample_spare.size (block_elements_v 256) →
        d1.index (block_elements_v 256) i = sample_spare.index (block_elements_v 256) i) ∧
    (∃ d2, sample_spare.align_elem_as_alloc_front_ = .ok d2 ∧
      d2.block_elem_end_ = d2.block_alloc_end_ ∧
      d2.block_alloc_begin_ = sample_spare.block_alloc_begin_ ∧
      d2.block_alloc_end_ = sample_spare.block_alloc_end_ ∧
      (alloc_blocks d2).Perm (alloc_blocks sample_spare) ∧ elem_blocks d2 = elem_blocks sample_spare ∧
      d2.block_elem_end_ - d2.block_elem_begin_ = sample_spare.block_elem_end_ - sample_spare.block_elem_begin_ ∧
      d2.elem_begin_first_ = sample_spare.elem_begin_first_ ∧ d2.elem_begin_begin_ = sample_spare.elem_begin_begin_ ∧
      d2.elem_begin_end_ = sample_spare.elem_begin_end_ ∧ d2.elem_end_begin_ = sample_spare.elem_end_begin_ ∧
      d2.elem_end_end_ = sample_spare.elem_end_end_ ∧ d2.elem_end_last_ = sample_spare.elem_end_last_ ∧
      d2.blocks = sample_spare.blocks ∧
      d2.size (block_elements_v 256) = sample_spare.size (block_elements_v 256) ∧
      ∀ i, i < sample_spare.size (block_elements_v 256) →
        d2.index (block_elements_v 256) i = sample_spare.index (block_elements_v 256) i)) :=
  ⟨sample_spare_reachable, by decide, rfl, rfl, rfl, ⟨_, rfl, rfl⟩, ⟨_, rfl, rfl⟩,
    C29_alignment_is_permutation 256 sample_spare sample_spare_reachable (by decide)⟩

end deque

end fast_io

namespace fast_io

namespace deque

variable {α : Type}

/-- C38: on every reachable deque, for a requested size `k` above the number of owned blocks,
as every call site requests it, the control array that `ctrl_alloc_` allocates has the least
multiple of 4 that is at least `k` slots; `replace_ctrl_back` completes with the owned blocks
in the slots from the start of the new array, the element blocks first, and
`replace_ctrl_front` with the owned blocks in the slots up to its end, the element blocks
last: the owned blocks are those before, each of them once, the element blocks are in their
order, the storage and `size()` are unchanged, and one slot at least is unused behind
`alloc_end`, respectively in front of `alloc_begin`. -/
theorem C38_control_array_reallocation (sizeofT : Nat) (d : deque α) (k : Nat)
    (hreach : Reachable (block_elements_v sizeofT) d) (hk : d.block_alloc_size_ < k) :
    (ctrl_alloc_ k).length % 4 = 0 ∧ k ≤ (ctrl_alloc_ k).length ∧
    (ctrl_alloc_ k).length < k + 4 ∧
    (∃ d1, d.replace_ctrl_back (ctrl_alloc_ k) = .ok d1 ∧
      d1.ctrl.length = (ctrl_alloc_ k).length ∧
      d1.block_alloc_begin_ = 0 ∧ d1.block_elem_begin_ = 0 ∧
      d1.block_alloc_size_ = d.block_alloc_size_ ∧
      d1.block_elem_size_ = d.block_elem_size_ ∧
      (alloc_blocks d1).Perm (alloc_blocks d) ∧ (alloc_blocks d1).Nodup ∧
      (alloc_blocks d1).length = d.block_alloc_size_ ∧
      elem_blocks d1 = elem_blocks d ∧
      d1.block_alloc_end_ < d1.block_ctrl_end_ ∧
      d1.blocks = d.blocks ∧
      d1.size (block_elements_v sizeofT) = d.size (block_elements_v sizeofT)) ∧
    (∃ d2, d.replace_ctrl_front (ctrl_alloc_ k) = .ok d2 ∧
      d2.ctrl.length = (ctrl_alloc_ k).length ∧
      d2.block_alloc_end_ = d2.block_ctrl_end_ ∧ d2.block_elem_end_ = d2.block_ctrl_end_ ∧
      d2.block_alloc_size_ = d.block_alloc_size_ ∧
      d2.block_elem_size_ = d.block_elem_size_ ∧
      (alloc_blocks d2).Perm (alloc_blocks d) ∧ (alloc_blocks d2).Nodup ∧
      (alloc_blocks d2).length = d.block_alloc_size_ ∧
      elem_blocks d2 = elem_blocks d ∧
      0 < d2.block_alloc_begin_ ∧
      d2.blocks = d.blocks ∧
      d2.size (block_elements_v sizeofT) = d.size (block_elements_v sizeofT)) := by
  have hB := block_elements_v_pos sizeofT
  obtain ⟨s, hr⟩ := hreach.rep_of_reachable hB
  have hc := hr.ctl
  have h1 := hc.ab_le
  have h2 := hc.be_le
  have h3 := hc.ee_le
  have hlen := ctrl_alloc_length k
  have hge := ctrl_alloc_ge k
  simp only [block_alloc_size_, block_elem_size_, block_ctrl_end_] at hk ⊢
  have ht : d.block_alloc_end_ - d.block_alloc_begin_ ≤ (ctrl_alloc_ k).length := by omega
  refine ⟨by rw [hlen]; omega, hge, by rw [hlen]; omega, ?_, ?_⟩
  · obtain ⟨d1, e1, c1, m1, e2, e3, e4, e5, e6⟩ := replace_ctrl_back_spec hc _ ht
    obtain ⟨s1, s2, _⟩ := replace_ctrl_back_shuffled hc _ ht e1
    have hp := s1.perm hc c1
    refine ⟨d1, e1, e6, e3, e2, by omega, by omega, hp, alloc_blocks_nodup c1,
      by rw [alloc_blocks_length c1]; omega, ?_, by omega, s2,
      by rw [(m1.rep_of_moved hr hB c1).size_eq, hr.size_eq]⟩
    unfold elem_blocks
    rw [m1.count]
    exact slot_blocks_congr (fun i hi => m1.slots i hi)
  · obtain ⟨d1, e1, c1, m1, e2, e3, e4, e5, e6⟩ := replace_ctrl_front_spec hc _ ht
    obtain ⟨s1, s2, _⟩ := replace_ctrl_front_shuffled hc _ ht e1
    have hp := s1.perm hc c1
    refine ⟨d1, e1, e6, by omega, by omega, by omega, by omega, hp, alloc_blocks_nodup c1,
      by rw [alloc_blocks_length c1]; omega, ?_, by omega, s2,
      by rw [(m1.rep_of_moved hr hB c1).size_eq, hr.size_eq]⟩
    unfold elem_blocks
    rw [m1.count]
    exact slot_blocks_congr (fun i hi => m1.slots i hi)

theorem C38_control_array_reallocation_witness :
    Reachable (block_elements_v 256) sample_12 ∧ sample_12.block_alloc_size_ < 3 ∧
    ((ctrl_alloc_ 3).length % 4 = 0 ∧ 3 ≤ (ctrl_alloc_ 3).length ∧
    (ctrl_alloc_ 3).length < 3 + 4 ∧
    (∃ d1, sample_12.replace_ctrl_back (ctrl_alloc_ 3) = .ok d1 ∧
      d1.ctrl.length = (ctrl_alloc_ 3).length ∧
      d1.block_alloc_begin_ = 0 ∧ d1.block_elem_begin_ = 0 ∧
      d1.block_alloc_size_ = sample_12.block_alloc_size_ ∧
      d1.block_elem_size_ = sample_12.block_elem_size_ ∧
      (alloc_blocks d1).Perm (alloc_blocks sample_12) ∧ (alloc_blocks d1).Nodup ∧
      (alloc_blocks d1).length = sample_12.block_alloc_size_ ∧
      elem_blocks d1 = elem_blocks sample_12 ∧
      d1.block_alloc_end_ < d1.block_ctrl_end_ ∧
      d1.blocks = sample_12.blocks ∧
      d1.size (block_elements_v 256) = sample_12.size (block_elements_v 256)) ∧
    (∃ d2, sample_12.replace_ctrl_front (ctrl_alloc_ 3) = .ok d2 ∧
      d2.ctrl.length = (ctrl_alloc_ 3).length ∧
      d2.block_alloc_end_ = d2.block_ctrl_end_ ∧ d2.block_elem_end_ = d2.block_ctrl_end_ ∧
      d2.block_alloc_size_ = sample_12.block_alloc_size_ ∧
      d2.block_elem_size_ = sample_12.block_elem_size_ ∧
      (alloc_blocks d2).Perm (alloc_blocks sample_12) ∧ (alloc_blocks d2).Nodup ∧
      (alloc_blocks d2).length = sample_12.block_alloc_size_ ∧
      elem_blocks d2 = elem_blocks sample_12 ∧
      0 < d2.block_alloc_begin_ ∧
      d2.blocks = sample_12.blocks ∧
      d2.size (block_elements_v 256) = sample_12.size (block_elements_v 256))) :=
  ⟨sample_12_reachable, by decide,
    C38_control_array_reallocation 256 sample_12 3 sample_12_reachable (by decide)⟩

/-- C40: on every reachable deque, for the iterator `it = begin() + i` at an index
`i ≤ size()`: if `i < size()`, `++it` and `it += 1` complete with the same four fields, and
if `0 < i`, `--it` and `it -= 1` complete with the same four fields. -/
theorem C40_step_agrees_with_arithmetic (sizeofT : Nat) (d : deque α) (i : Nat)
    (hreach : Reachable (block_elements_v sizeofT) d)
    (hi : i ≤ d.size (block_elements_v sizeofT)) :
    ∃ it, iterator_at (block_elements_v sizeofT) d i = .ok it ∧
      (i < d.size (block_elements_v sizeofT) →
        ∃ it1, it.inc (block_elements_v sizeofT) d = .ok it1 ∧
          it.plus_and_assign_ (block_elements_v sizeofT) d 1 = .ok it1) ∧
      (0 < i →
        ∃ it2, it.dec (block_elements_v sizeofT) d = .ok it2 ∧
          it.minus_assign (block_elements_v sizeofT) d 1 = .ok it2) := by
  have hB := block_elements_v_pos sizeofT
  obtain ⟨s, hr⟩ := hreach.rep_of_reachable hB
  rw [hr.size_eq] at hi ⊢
  rcases hr.shape with ⟨rfl, hn⟩ | ⟨lo, hi1, bf, bl, hl⟩
  · have ei : i = 0 := by simpa using hi
    subst ei
    obtain ⟨g1, _⟩ := hn.begin_end
    refine ⟨_, by rw [iterator_at_eq]; exact begin_plus_zero g1, fun h => ?_, fun h => ?_⟩
    · simp at h
    · omega
  · have hc := hr.ctl
    obtain ⟨it, e1, hit⟩ := hl.begin_plus_spec hc hB i hi
    refine ⟨it, by rw [iterator_at_eq]; exact e1, fun h => ?_, fun h => ?_⟩
    · obtain ⟨it1, g1, k1⟩ := hit.inc_spec hc hl hB h
      obtain ⟨it2, g2, k2⟩ := hit.advance_spec hc hl hB 1 (by omega) (by omega)
      have e : it2 = it1 := k2.iter_unique k1
      subst e
      exact ⟨it2, g1, by simpa using g2⟩
    · obtain ⟨i0, rfl⟩ : ∃ i0, i = i0 + 1 := ⟨i - 1, by omega⟩
      obtain ⟨it1, g1, k1⟩ := hit.dec_spec hc hl hB
      obtain ⟨it2, g2, k2⟩ := hit.retreat_spec hl hB hi 1 (by omega) (by omega)
      have e : it2 = it1 := k2.iter_unique (by simpa using k1)
      subst e
      exact ⟨it2, g1, by simpa [deque_iterator.minus_assign] using g2⟩

theorem C40_step_agrees_with_arithmetic_witness :
    Reachable (block_elements_v 256) sample_12 ∧
    1 ≤ sample_12.size (block_elements_v 256) ∧
    (∃ it, iterator_at (block_elements_v 256) sample_12 1 = .ok it ∧
      (1 < sample_12.size (block_elements_v 256) →
        ∃ it1, it.inc (block_elements_v 256) sample_12 = .ok it1 ∧
          it.plus_and_assign_ (block_elements_v 256) sample_12 1 = .ok it1) ∧
      (0 < 1 →
        ∃ it2, it.dec (block_elements_v 256) sample_12 = .ok it2 ∧
          it.minus_assign (block_elements_v 256) sample_12 1 = .ok it2)) :=
  ⟨sample_12_reachable, by decide,
    C40_step_agrees_with_arithmetic 256 sample_12 1 sample_12_reachable (by decide)⟩

end deque

end fast_io

namespace fast_io

namespace deque

variable {α : Type}

/-- C35: on every reachable deque that holds the sequence `s`, for the iterator at an interior
index `q`, whatever the number of blocks between the target and the end: with a free cell or
a spare block at the back, `back_emplace_` completes and leaves
`s[0..q] ++ s[q..)`, every index below `size()` on the cell it had, so each element from `q`
on is one cell further up, the elements in front of `q` are untouched and the cell of `q` is
the placeholder; with a free cell or a spare block at the front, `front_emplace_` completes
and leaves `s[0..q) ++ s[q-1..)` with the cell of the old index `i` now that of the index
`i + 1`, so each element in front of `q` is one cell further down, the elements from `q` on
are untouched and the cell in front of `q` is the placeholder. -/
theorem C35_relocation_crosses_blocks (sizeofT : Nat) (d : deque α) (q : Nat)
    (hreach : Reachable (block_elements_v sizeofT) d) (hq1 : 0 < q)
    (hq2 : q < d.size (block_elements_v sizeofT))
    (hfit : d.size (block_elements_v sizeofT) + 1 + block_elements_v sizeofT ≤ SIZE_RANGE) :
    ∃ s it k p, Holds (block_elements_v sizeofT) d s ∧
      iterator_at (block_elements_v sizeofT) d q = .ok it ∧
      it.block_elem_curr_ = some k ∧ it.elem_curr_ = some p ∧
      ((d.elem_end_end_ ≠ d.elem_end_last_ ∨ d.block_elem_end_ < d.block_alloc_end_) →
        ∃ d1, back_emplace_ (block_elements_v sizeofT) d k p = .ok d1 ∧
          Holds (block_elements_v sizeofT) d1 (s.take (q + 1) ++ s.drop q) ∧
          ∀ i, i < d.size (block_elements_v sizeofT) →
            ∃ r, d.index_ptr (block_elements_v sizeofT) i = .ok r ∧
              d1.index_ptr (block_elements_v sizeofT) i = .ok r) ∧
      ((d.elem_begin_begin_ ≠ d.elem_begin_first_ ∨
          d.block_alloc_begin_ < d.block_elem_begin_) →
        ∃ d2, front_emplace_ (block_elements_v sizeofT) d k p = .ok d2 ∧
          Holds (block_elements_v sizeofT) d2 (s.take q ++ s.drop (q - 1)) ∧
          ∀ i, i < d.size (block_elements_v sizeofT) →
            ∃ r, d.index_ptr (block_elements_v sizeofT) i = .ok r ∧
              d2.index_ptr (block_elements_v sizeofT) (i + 1) = .ok r) := by
  have hB := block_elements_v_pos sizeofT
  obtain ⟨s, hr⟩ := hreach.rep_of_reachable hB
  rw [hr.size_eq] at hq2 hfit ⊢
  rcases hr.shape with ⟨rfl, _⟩ | ⟨lo, hi, bf, bl, hl⟩
  · simp at hq2
  have hc := hr.ctl
  have hhi := hl.hi_le
  have hlo := hl.lo_lt
  obtain ⟨it, e1, hit⟩ := hl.begin_plus_spec hc hB q (by omega)
  obtain ⟨K, o, b, rfl, hk, hf, ho⟩ := hit.abs_of_lt hl hB hq2
  refine ⟨s, _, K, ⟨b, o⟩, ⟨hr.size_eq, fun i h => hr.index_eq hB (by omega) i h⟩,
    by rw [iterator_at_eq]; exact e1, rfl, rfl, fun hroom => ?_, fun hroom => ?_⟩
  · have hroom1 : hi < block_elements_v sizeofT ∨ d.block_elem_end_ < d.block_alloc_end_ := by
      rcases hroom with h | h
      · left
        rw [hl.bend, hl.blast] at h
        by_contra hn
        have : hi = block_elements_v sizeofT := by omega
        subst this
        exact h rfl
      · exact Or.inr h
    have hx : s[s.length - 1]? = some (s.get ⟨s.length - 1, by omega⟩) :=
      List.getElem?_eq_getElem (by omega)
    obtain ⟨d1, hi1, bl1, w, g1, hc1, hl1, g2, g3, hs⟩ :=
      back_emplace_live hB hc hl hroom1 hx hq2 hk hf ho
    have hw := hs.su_list_eq hx hq2
    subst hw
    have hr1 : Rep (block_elements_v sizeofT) d1 (s.take (q + 1) ++ s.drop q) :=
      ⟨hc1, Or.inr ⟨lo, hi1, bf, bl1, hl1⟩⟩
    have hlen1 : (s.take (q + 1) ++ s.drop q).length = s.length + 1 := by
      simp
      omega
    refine ⟨d1, g1, ⟨hr1.size_eq, fun i h => hr1.index_eq hB (by omega) i h⟩, fun i hi' => ?_⟩
    obtain ⟨K1, o1, b1, a1, a2, a3, _, _⟩ := hl.abs_of_index hB i hi'
    exact ⟨⟨b1, o1⟩, hl.index_ptr_abs hB (by omega) a1 a2 a3 hi',
      hl1.index_ptr_abs hB (by omega) (by rw [g2]; exact a1) (by rw [g3]; exact a2) a3
        (by omega)⟩
  · have hroom1 : 0 < lo ∨ d.block_alloc_begin_ < d.block_elem_begin_ := by
      rcases hroom with h | h
      · left
        rw [hl.fbegin, hl.first] at h
        by_contra hn
        have : lo = 0 := by omega
        subst this
        exact h rfl
      · exact Or.inr h
    have hx : s[0]? = some (s.get ⟨0, by omega⟩) := List.getElem?_eq_getElem (by omega)
    obtain ⟨d2, lo2, bf2, w, g1, hc2, hl2, g2, g3, g4, hs⟩ :=
      front_emplace_live hB hc hl hroom1 hx hq1 hq2 hk hf ho
    have hw := hs.sd_list_eq hx hq1 hq2
    have hdrop : s.drop (q - 1) = s[q - 1] :: s.drop q := by
      have e : q - 1 + 1 = q := by omega
      rw [List.drop_eq_getElem_cons (by omega : q - 1 < s.length)]
      simp only [e]
    rw [← hdrop] at hw
    subst hw
    have hr2 : Rep (block_elements_v sizeofT) d2 (s.take q ++ s.drop (q - 1)) :=
      ⟨hc2, Or.inr ⟨lo2, hi, bf2, bl, hl2⟩⟩
    have hlen2 : (s.take q ++ s.drop (q - 1)).length = s.length + 1 := by
      simp
      omega
    refine ⟨d2, g1, ⟨hr2.size_eq, fun i h => hr2.index_eq hB (by omega) i h⟩, fun i hi' => ?_⟩
    obtain ⟨K1, o1, b1, a1, a2, a3, _, _⟩ := hl.abs_of_index hB i hi'
    exact ⟨⟨b1, o1⟩, hl.index_ptr_abs hB (by omega) a1 a2 a3 hi',
      hl2.index_ptr_abs hB (by omega) (by rw [g2]; exact a1) (by omega) a3 (by omega)⟩

theorem C35_relocation_crosses_blocks_witness :
    Reachable (block_elements_v 256) sample_34 ∧ 0 < 20 ∧
    20 < sample_34.size (block_elements_v 256) ∧
    sample_34.size (block_elements_v 256) + 1 + block_elements_v 256 ≤ SIZE_RANGE ∧
    sample_34.size (block_elements_v 256) = 34 ∧ sample_34.block_elem_size_ = 4 ∧
    sample_34.index_ptr (block_elements_v 256) 20 = .ok ⟨0, 3⟩ ∧
    sample_34.index_ptr (block_elements_v 256) 32 = .ok ⟨0, 15⟩ ∧
    sample_34.index_ptr (block_elements_v 256) 33 = .ok ⟨1, 0⟩ ∧
    sample_34.index_ptr (block_elements_v 256) 0 = .ok ⟨3, 15⟩ ∧
    sample_34.index_ptr (block_elements_v 256) 1 = .ok ⟨2, 0⟩ ∧
    (∃ s it k p, Holds (block_elements_v 256) sample_34 s ∧
      iterator_at (block_elements_v 256) sample_34 20 = .ok it ∧
      it.block_elem_curr_ = some k ∧ it.elem_curr_ = some p ∧
      ((sample_34.elem_end_end_ ≠ sample_34.elem_end_last_ ∨ sample_34.block_elem_end_ < sample_34.block_alloc_end_) →
        ∃ d1, back_emplace_ (block_elements_v 256) sample_34 k p = .ok d1 ∧
          Holds (block_elements_v 256) d1 (s.take (20 + 1) ++ s.drop 20) ∧
          ∀ i, i < sample_34.size (block_elements_v 256) →
            ∃ r, sample_34.index_ptr (block_elements_v 256) i = .ok r ∧
              d1.index_ptr (block_elements_v 256) i = .ok r) ∧
      ((sample_34.elem_begin_begin_ ≠ sample_34.elem_begin_first_ ∨
          sample_34.block_alloc_begin_ < sample_34.block_elem_begin_) →
        ∃ d2, front_emplace_ (block_elements_v 256) sample_34 k p = .ok d2 ∧
          Holds (block_elements_v 256) d2 (s.take 20 ++ s.drop (20 - 1)) ∧
          ∀ i, i < sample_34.size (block_elements_v 256) →
            ∃ r, sample_34.index_ptr (block_elements_v 256) i = .ok r ∧
              d2.index_ptr (block_elements_v 256) (i + 1) = .ok r)) :=
  ⟨sample_34_reachable, by decide, by decide, by decide, rfl, rfl, rfl, rfl, rfl, rfl, rfl,
    C35_relocation_crosses_blocks 256 sample_34 20 sample_34_reachable (by decide) (by decide)
      (by decide)⟩

end deque

end fast_io

namespace fast_io

namespace deque

variable {α : Type}

end deque

end fast_io

namespace fast_io

namespace deque

/-- C21: with 16 elements per block, on the reachable deque built by `push_back(1)`, whose
control array has four slots and whose one block has 15 free cells at the back,
`reserve_back_(48)` reaches `fast_terminate()` and `reserve_back_(32)` writes past the end of
the control array, although every allocation succeeds; on a default-constructed deque
`reserve_back_(33)` writes past the end of its new control array, and `reserve_back_(17)`
returns with four blocks where two make up the capacity.  `reserve_front_` returns on the
same requests with the front capacity asked for, the element kept, and the blocks it
computed. -/
theorem C21_reserve_back_extends_twice :
    ∃ d : deque Nat, emplace_back (block_elements_v 256) {} 1 = .ok d ∧
      Reachable (block_elements_v 256) d ∧
      d.block_ctrl_end_ = 4 ∧ ptr_diff d.elem_end_last_ d.elem_end_end_ = 15 ∧
      reserve_back_ (block_elements_v 256) d 48 = .error .terminate ∧
      reserve_back_ (block_elements_v 256) d 32 = .error .undefined ∧
      reserve_back_ (block_elements_v 256) ({} : deque Nat) 33 = .error .undefined ∧
      (∃ d1, reserve_back_ (block_elements_v 256) ({} : deque Nat) 17 = .ok d1 ∧
        d1.blocks.length = 4) ∧
      (∃ d2, reserve_front_ (block_elements_v 256) ({} : deque Nat) 17 = .ok d2 ∧
        d2.blocks.length = 2 ∧
        (d2.block_elem_begin_ - d2.block_alloc_begin_) * block_elements_v 256
          + ptr_diff d2.elem_begin_begin_ d2.elem_begin_first_ = 32) ∧
      (∃ d3, reserve_front_ (block_elements_v 256) ({} : deque Nat) 33 = .ok d3 ∧
        d3.blocks.length = 3 ∧
        (d3.block_elem_begin_ - d3.block_alloc_begin_) * block_elements_v 256
          + ptr_diff d3.elem_begin_begin_ d3.elem_begin_first_ = 48) ∧
      (∃ d4, reserve_front_ (block_elements_v 256) d 48 = .ok d4 ∧
        d4.blocks.length = 4 ∧ d4.size (block_elements_v 256) = 1 ∧
        d4.index (block_elements_v 256) 0 = .ok 1 ∧
        (d4.block_elem_begin_ - d4.block_alloc_begin_) * block_elements_v 256
          + ptr_diff d4.elem_begin_begin_ d4.elem_begin_first_ = 48) :=
  ⟨state_of (emplace_back 16 {} 1), rfl, Reachable.emplace_back 1 Reachable.init rfl, rfl, rfl,
    rfl, rfl, rfl, ⟨_, rfl, rfl⟩, ⟨_, rfl, rfl, rfl⟩, ⟨_, rfl, rfl, rfl⟩,
    ⟨_, rfl, rfl, rfl, rfl, rfl⟩⟩

/-- C24: with 16 elements per block, on the reachable deque built by `push_back(1)`, a call
`push_front(5)` during which the allocator fails to hand out the block leaves the element
sequence `[1]` and the order of the cursors, but leaves `alloc_begin` on slot 2 of the control
array, which holds no block: `extent_block_front_uncond_` moves `alloc_begin` before it asks
for the block.  A later `push_front(7)` with a working allocator then leaves the defined
behaviour.  The failure at the back, on the deque built by `push_front(1)`, leaves every slot
of `[alloc_begin, alloc_end)` with its block, and with a working allocator both calls are the
calls of `emplace_front` and `emplace_back`. -/
theorem C24_failed_front_growth_leaves_unowned_slot :
    ∃ d d1 : deque Nat, emplace_back (block_elements_v 256) {} 1 = .ok d ∧
      Reachable (block_elements_v 256) d ∧
      emplace_front_try (block_elements_v 256) 0 d 5 = .bad_alloc d1 ∧
      d1.size (block_elements_v 256) = 1 ∧ d1.index (block_elements_v 256) 0 = .ok 1 ∧
      d1.block_alloc_begin_ = 2 ∧ d1.block_elem_begin_ = 3 ∧ d1.block_elem_end_ = 4 ∧
      d1.block_alloc_end_ = 4 ∧ d1.block_ctrl_end_ = 4 ∧
      d1.ctrl[2]? = some none ∧ d1.blocks.length = d.blocks.length ∧
      emplace_front (block_elements_v 256) d1 7 = .error .undefined ∧
      (∃ d2, emplace_front (block_elements_v 256) d 5 = .ok d2 ∧
        emplace_front_try (block_elements_v 256) 1 d 5 = .returned 0 d2) ∧
      ∃ e e1 : deque Nat, emplace_front (block_elements_v 256) {} 1 = .ok e ∧
        emplace_back_try (block_elements_v 256) 0 e 5 = .bad_alloc e1 ∧
        e1.size (block_elements_v 256) = 1 ∧ e1.index (block_elements_v 256) 0 = .ok 1 ∧
        e1.block_alloc_begin_ = 0 ∧ e1.block_alloc_end_ = 1 ∧ e1.ctrl[0]? = some (some 0) ∧
        ∃ e2, emplace_back (block_elements_v 256) e 5 = .ok e2 ∧
          emplace_back_try (block_elements_v 256) 1 e 5 = .returned 0 e2 :=
  ⟨state_of (emplace_back 16 {} 1), _, rfl, Reachable.emplace_back 1 Reachable.init rfl, rfl,
    rfl, rfl, rfl, rfl, rfl, rfl, rfl, rfl, rfl, rfl, ⟨_, rfl, rfl⟩,
    state_of (emplace_front 16 {} 1), _, rfl, rfl, rfl, rfl, rfl, rfl, rfl, _, rfl, rfl⟩

end deque

end fast_io

namespace fast_io

namespace deque

/-- C31: with 16 elements per block, the reachable deque built by `push_back(0)`, ...,
`push_back(16)` owns two blocks, both element blocks, with 15 free cells at the back and none
at the front.  `reserve_back_(16)` finds the move capacity 15, computes
`add_block_size = 1`, and returns with four owned blocks: `alloc_end - alloc_begin` grows by
two.  `reserve_front_(16)` computes `add_block_size = 1` as well and returns with three
owned blocks. -/
theorem C31_reserve_back_allocates_twice :
    ∃ d d1 d2 : deque Nat, push_back_range (block_elements_v 256) 17 {} = .ok d ∧
      Reachable (block_elements_v 256) d ∧
      d.block_elem_begin_ = d.block_alloc_begin_ ∧ d.block_alloc_end_ = d.block_elem_end_ ∧
      ptr_diff d.elem_end_last_ d.elem_end_end_ = 15 ∧
      ptr_diff d.elem_begin_begin_ d.elem_begin_first_ = 0 ∧
      (16 - 15 + block_elements_v 256 - 1) / block_elements_v 256 = 1 ∧
      (16 - 0 + block_elements_v 256 - 1) / block_elements_v 256 = 1 ∧
      d.block_alloc_size_ = 2 ∧
      reserve_back_ (block_elements_v 256) d 16 = .ok d1 ∧
      d1.block_alloc_size_ = d.block_alloc_size_ + 2 ∧
      d1.blocks.length = d.blocks.length + 2 ∧
      reserve_front_ (block_elements_v 256) d 16 = .ok d2 ∧
      d2.block_alloc_size_ = d.block_alloc_size_ + 1 ∧
      d2.blocks.length = d.blocks.length + 1 :=
  ⟨state_of (push_back_range 16 17 {}), _, _, rfl, push_back_range_reachable 17 Reachable.init rfl,
    rfl, rfl, rfl, rfl, rfl, rfl, rfl, rfl, rfl, rfl, rfl, rfl, rfl⟩

/-- C32: with 16 elements per block, on the reachable deque built by `push_back(0)`, ...,
`push_back(32)`, whose three blocks are full but for 15 cells and whose control array has one
unused slot, `reserve_back_(16)` reaches `fast_terminate()`; on the reachable deque built by
`push_back(1)`, `push_back(2)`, `reserve_back_(31)` stores a block pointer past the end of
the control array.  `reserve_front_` returns on both requests with `alloc_end` inside the
control array. -/
theorem C32_reserve_back_leaves_control_array :
    ∃ d d1 d2 : deque Nat, push_back_range (block_elements_v 256) 33 {} = .ok d ∧
      Reachable (block_elements_v 256) d ∧
      Reachable (block_elements_v 256) sample_12_back ∧
      d.block_alloc_end_ = 3 ∧ d.block_ctrl_end_ = 4 ∧
      reserve_back_ (block_elements_v 256) d 16 = .error .terminate ∧
      sample_12_back.block_alloc_end_ = 1 ∧ sample_12_back.block_ctrl_end_ = 4 ∧
      reserve_back_ (block_elements_v 256) sample_12_back 31 = .error .undefined ∧
      reserve_front_ (block_elements_v 256) d 16 = .ok d1 ∧
      d1.block_alloc_end_ ≤ d1.block_ctrl_end_ ∧ d1.size (block_elements_v 256) = 33 ∧
      reserve_front_ (block_elements_v 256) sample_12_back 31 = .ok d2 ∧
      d2.block_alloc_end_ ≤ d2.block_ctrl_end_ ∧ d2.size (block_elements_v 256) = 2 :=
  ⟨state_of (push_back_range 16 33 {}), _, _, rfl, push_back_range_reachable 33 Reachable.init rfl,
    Reachable.emplace_back 2 (Reachable.emplace_back 1 Reachable.init rfl) rfl,
    rfl, rfl, rfl, rfl, rfl, rfl, rfl, by decide, rfl, rfl, by decide, rfl⟩

/-- C33: with 16 elements per block, `push_front(5)` leaves the one owned block in the last
slot of a control array of four slots, and `clear()` leaves the reachable empty deque with
`elem_begin == elem_end == alloc_begin` on slot 3.  `extent_block_(2)` then returns with
`alloc_begin` on slot 0 and `alloc_end` on slot 2, but with `elem_begin == elem_end` still on
slot 3, beyond `alloc_end`: slot 3 holds the block that slot 0 holds, and the slot after it
lies outside the control array.  After `push_back(5)` and `clear()` the same call returns
with `elem_end == alloc_begin` and two owned blocks behind it. -/
theorem C33_extent_block_keeps_stale_elem_cursors :
    ∃ d d1 d2 : deque Nat, emplace_front (block_elements_v 256) {} 5 = .ok d ∧
      clear (block_elements_v 256) false d = .ok d1 ∧
      Reachable (block_elements_v 256) d1 ∧
      d1.empty = true ∧ d1.block_elem_begin_ = d1.block_alloc_begin_ ∧
      d1.block_elem_end_ = d1.block_alloc_begin_ ∧ d1.block_alloc_begin_ = 3 ∧
      extent_block_ (block_elements_v 256) d1 2 = .ok d2 ∧
      d2.block_alloc_begin_ = 0 ∧ d2.block_alloc_end_ = 2 ∧
      d2.block_elem_begin_ = 3 ∧ d2.block_elem_end_ = 3 ∧
      d2.block_alloc_end_ < d2.block_elem_end_ ∧
      d2.ctrl[d2.block_elem_end_]? = d2.ctrl[0]? ∧ d2.ctrl[d2.block_elem_end_ + 1]? = none ∧
      ∃ e e1 e2 : deque Nat, emplace_back (block_elements_v 256) {} 5 = .ok e ∧
        clear (block_elements_v 256) false e = .ok e1 ∧
        extent_block_ (block_elements_v 256) e1 2 = .ok e2 ∧
        e2.block_alloc_begin_ = 0 ∧ e2.block_elem_begin_ = 0 ∧ e2.block_elem_end_ = 0 ∧
        e2.block_alloc_end_ = 2 ∧ e2.ctrl = [some 0, some 1, none, none] :=
  ⟨state_of (emplace_front 16 {} 5), _, _, rfl, rfl,
    Reachable.clear false (Reachable.emplace_front 5 Reachable.init rfl) rfl,
    rfl, rfl, rfl, rfl, rfl, rfl, rfl, rfl, rfl, by decide, rfl, rfl,
    state_of (emplace_back 16 {} 5), _, _, rfl, rfl, rfl, rfl, rfl, rfl, rfl, rfl⟩

/-- C34: with 16 elements per block, on the reachable deque built by `push_back(0)`, ...,
`push_back(19)`, `resize_shrink_(20, 16)` leaves size 16 and the elements `0`, ..., `15` on
both paths, but the path for a trivially destructible element type leaves two element blocks,
the second one empty, where the path of `pop_back` calls leaves one: `back()` and a following
`pop_back()` leave the defined behaviour on the first and complete on the second. -/
theorem C34_trivial_shrink_keeps_empty_block :
    ∃ d d1 d2 : deque Nat, push_back_range (block_elements_v 256) 20 {} = .ok d ∧
      Reachable (block_elements_v 256) d ∧ d.size (block_elements_v 256) = 20 ∧
      resize_shrink_ (block_elements_v 256) true d 20 16 = .ok d1 ∧
      resize_shrink_ (block_elements_v 256) false d 20 16 = .ok d2 ∧
      d1.size (block_elements_v 256) = 16 ∧ d2.size (block_elements_v 256) = 16 ∧
      (List.range 16).map (fun i => d1.index (block_elements_v 256) i)
        = (List.range 16).map (fun i => .ok i) ∧
      (List.range 16).map (fun i => d2.index (block_elements_v 256) i)
        = (List.range 16).map (fun i => .ok i) ∧
      d1.block_elem_size_ = 2 ∧ d2.block_elem_size_ = 1 ∧
      d1.elem_end_end_ = d1.elem_end_begin_ ∧
      d1.back = .error .undefined ∧ d2.back = .ok 15 ∧
      pop_back (block_elements_v 256) d1 = .error .undefined ∧
      (∃ d3, pop_back (block_elements_v 256) d2 = .ok d3 ∧
        d3.size (block_elements_v 256) = 15) :=
  ⟨state_of (push_back_range 16 20 {}), _, _, rfl, push_back_range_reachable 20 Reachable.init rfl,
    rfl, rfl, rfl, rfl, rfl, rfl, rfl, rfl, rfl, rfl, rfl, rfl, rfl, ⟨_, rfl, rfl⟩⟩

/-- C37: with 16 elements per block, on the reachable deque built by `push_back(1)`,
`push_back(2)`, `back()` refers to the cell at offset 1 of the block, and `pop_back()` leaves
the sequence `[1]` but calls the destructor on the cell at offset 0, which holds the element
`1` that stays in the deque, and on no other cell: `destroy_at(elem_end_begin_)` stands where
`destroy_at(elem_end_end_)` is meant.  `pop_front()` calls the destructor on the cell
`front()` refers to. -/
theorem C37_pop_back_destroys_block_start :
    Reachable (block_elements_v 256) sample_12_back ∧
    sample_12_back.destroyed = [] ∧
    sample_12_back.back_ptr = .ok ⟨0, 1⟩ ∧ sample_12_back.back = .ok 2 ∧
    sample_12_back.elem_begin_begin_ = some ⟨0, 0⟩ ∧ sample_12_back.front = .ok 1 ∧
    (∃ d1, pop_back (block_elements_v 256) sample_12_back = .ok d1 ∧
      d1.destroyed = [⟨0, 0⟩] ∧ d1.size (block_elements_v 256) = 1 ∧
      d1.index (block_elements_v 256) 0 = .ok 1 ∧ d1.elem_begin_begin_ = some ⟨0, 0⟩) ∧
    (∃ d2, pop_front (block_elements_v 256) sample_12_back = .ok d2 ∧
      d2.destroyed = [⟨0, 0⟩] ∧ d2.size (block_elements_v 256) = 1 ∧
      d2.index (block_elements_v 256) 0 = .ok 2) :=
  ⟨Reachable.emplace_back 2 (Reachable.emplace_back 1 Reachable.init rfl) rfl, rfl, rfl, rfl,
    rfl, rfl, ⟨_, rfl, rfl, rfl, rfl, rfl⟩, ⟨_, rfl, rfl, rfl, rfl⟩⟩

end deque

end fast_io

namespace fast_io

namespace deque

/-! ## Evaluations on blocks that lie one behind the other

With 16 elements per block, `sample_adjacent_32` is built by sixteen `push_back` and sixteen
`push_front` on an allocator that hands out its second block right behind the first one.  The
last element block is full, so `end()` holds its one-past-the-end address, which is the
address of the first cell of the first element block. -/

/-- C39: on the reachable deque `sample_adjacent_32`, which holds 32 elements, the iterators
`a = begin()` at index 0 and `b = end()` at index 32 hold pointers into different blocks
that have one address, so `a == b` is true although the indices differ, while `b - a` is 32
and `a <=> b` is `less`: `operator==` compares `elem_curr_` only, where `operator<=>`
compares the block pointers first.  With the same blocks placed apart, `a == b` is false. -/
theorem C39_begin_equals_end_on_adjacent_blocks :
    Reachable (block_elements_v 256) sample_adjacent_32 ∧
    sample_adjacent_32.size (block_elements_v 256) = 32 ∧
    ∃ a b, iterator_at (block_elements_v 256) sample_adjacent_32 0 = .ok a ∧
      iterator_at (block_elements_v 256) sample_adjacent_32 32 = .ok b ∧
      sample_adjacent_32.begin_ = .ok a ∧ sample_adjacent_32.end_ = .ok b ∧
      a.elem_curr_ = some ⟨1, 0⟩ ∧ b.elem_curr_ = some ⟨0, 16⟩ ∧
      sample_adjacent_32.place 0 + 16 = sample_adjacent_32.place 1 ∧
      a.eq sample_adjacent_32 b = true ∧
      deque_iterator.diff (block_elements_v 256) b a = .ok 32 ∧
      a.cmp b = .ok .lt ∧
      a.eq { sample_adjacent_32 with placed := [] } b = false :=
  ⟨sample_adjacent_32_reachable, rfl, _, _, rfl, rfl, rfl, rfl, rfl, rfl, rfl, rfl, rfl, rfl,
    rfl⟩

/-- C17: on the reachable deque `sample_adjacent_32`, which holds 32 elements, the iterator
`begin()` equals `end()` before the first step, so a loop from `begin()` to `end()` visits no
element, although `begin()` refers to the element `d[0]` and the iterator after one
increment to `d[1]`.  With the same blocks placed apart, `begin()` differs from `end()`. -/
theorem C17_iteration_ends_before_first_step :
    Reachable (block_elements_v 256) sample_adjacent_32 ∧
    sample_adjacent_32.size (block_elements_v 256) = 32 ∧
    ∃ b e b1, sample_adjacent_32.begin_ = .ok b ∧ sample_adjacent_32.end_ = .ok e ∧
      b.eq sample_adjacent_32 e = true ∧
      b.deref (block_elements_v 256) sample_adjacent_32 = .ok 115 ∧
      sample_adjacent_32.index (block_elements_v 256) 0 = .ok 115 ∧
      b.inc (block_elements_v 256) sample_adjacent_32 = .ok b1 ∧
      b1.deref (block_elements_v 256) sample_adjacent_32 = .ok 114 ∧
      b1.eq sample_adjacent_32 e = false ∧
      b.eq { sample_adjacent_32 with placed := [] } e = false :=
  ⟨sample_adjacent_32_reachable, rfl, _, _, _, rfl, rfl, rfl, rfl, rfl, rfl, rfl, rfl, rfl⟩

/-- C10: the copy constructor and the constructor from the iterator pair
`(d.begin(), d.end())` on the reachable deque `sample_adjacent_32`, which holds 32 elements,
return an empty deque: `from_range_noguard_` finds `first == last` and constructs nothing.
With the same blocks placed apart, both return a deque of 32 elements. -/
theorem C10_copy_of_adjacent_blocks_is_empty :
    Reachable (block_elements_v 256) sample_adjacent_32 ∧
    sample_adjacent_32.size (block_elements_v 256) = 32 ∧
    sample_adjacent_32.empty = false ∧
    ∃ b e d2 d3 d4 d5, sample_adjacent_32.begin_ = .ok b ∧ sample_adjacent_32.end_ = .ok e ∧
      mk_copy (block_elements_v 256) sample_adjacent_32 = .ok d2 ∧
      d2.size (block_elements_v 256) = 0 ∧ d2.empty = true ∧
      mk_range (block_elements_v 256) sample_adjacent_32 b e = .ok d3 ∧
      d3.size (block_elements_v 256) = 0 ∧
      mk_copy (block_elements_v 256) { sample_adjacent_32 with placed := [] } = .ok d4 ∧
      d4.size (block_elements_v 256) = 32 ∧
      mk_range (block_elements_v 256) { sample_adjacent_32 with placed := [] } b e = .ok d5 ∧
      d5.size (block_elements_v 256) = 32 :=
  ⟨sample_adjacent_32_reachable, rfl, rfl, _, _, _, _, _, _, rfl, rfl, rfl, rfl, rfl, rfl, rfl,
    rfl, rfl, rfl, rfl⟩

theorem sample_adjacent_32b_reachable :
    Reachable (block_elements_v 256) sample_adjacent_32b :=
  Reachable.emplace_front 7 (d := state_of (pop_front 16 sample_adjacent_32))
    (Reachable.pop_front sample_adjacent_32_reachable rfl) rfl

/-- C22: the reachable deques `sample_adjacent_32` and `sample_adjacent_32b` hold 32 elements
each and differ in the first one, 115 against 7, and `operator==` returns `true` on them in
both orders: its loop finds `first == last` before the first comparison.  With the same
blocks placed apart it returns `false`. -/
theorem C22_adjacent_blocks_compare_equal :
    Reachable (block_elements_v 256) sample_adjacent_32 ∧
    Reachable (block_elements_v 256) sample_adjacent_32b ∧
    sample_adjacent_32.size (block_elements_v 256) = 32 ∧
    sample_adjacent_32b.size (block_elements_v 256) = 32 ∧
    sample_adjacent_32.index (block_elements_v 256) 0 = .ok 115 ∧
    sample_adjacent_32b.index (block_elements_v 256) 0 = .ok 7 ∧
    operator_eq (block_elements_v 256) 33 sample_adjacent_32 sample_adjacent_32b
      = some (.ok true) ∧
    operator_eq (block_elements_v 256) 33 sample_adjacent_32b sample_adjacent_32
      = some (.ok true) ∧
    operator_eq (block_elements_v 256) 33 { sample_adjacent_32 with placed := [] }
      { sample_adjacent_32b with placed := [] } = some (.ok false) :=
  ⟨sample_adjacent_32_reachable, sample_adjacent_32b_reachable, rfl, rfl, rfl, rfl, rfl, rfl,
    rfl⟩

/-- C11: on the reachable deque `sample_adjacent_48`, which holds 48 elements in three full
blocks of which the middle one begins where the last one ends, `erase(begin() + 15)` finds
`pos + 1 == end()` and calls `pop_back()`: the result has 47 elements, the elements at the
indices 14, 15, 16 and 46 are those before, and the last element is gone.  On the reachable deque built
by `push_back(0)`, ..., `push_back(3)`, `erase(begin() + 2)` leaves `0, 1, 3` and calls the
destructor on the cell of `d[0]`, an element that stays in the deque, and on no other
cell. -/
theorem C11_erase_removes_other_element :
    Reachable (block_elements_v 256) sample_adjacent_48 ∧
    sample_adjacent_48.size (block_elements_v 256) = 48 ∧
    (∃ pos pos1 e it d1, iterator_at (block_elements_v 256) sample_adjacent_48 15 = .ok pos ∧
      iterator_at (block_elements_v 256) sample_adjacent_48 16 = .ok pos1 ∧
      sample_adjacent_48.end_ = .ok e ∧ pos1.eq sample_adjacent_48 e = true ∧
      erase (block_elements_v 256) sample_adjacent_48 pos = .ok (it, d1) ∧
      d1.size (block_elements_v 256) = 47 ∧
      sample_adjacent_48.index (block_elements_v 256) 14 = .ok 117 ∧
      sample_adjacent_48.index (block_elements_v 256) 15 = .ok 116 ∧
      sample_adjacent_48.index (block_elements_v 256) 16 = .ok 115 ∧
      sample_adjacent_48.index (block_elements_v 256) 46 = .ok 14 ∧
      sample_adjacent_48.index (block_elements_v 256) 47 = .ok 15 ∧
      d1.index (block_elements_v 256) 14 = .ok 117 ∧
      d1.index (block_elements_v 256) 15 = .ok 116 ∧
      d1.index (block_elements_v 256) 16 = .ok 115 ∧
      d1.index (block_elements_v 256) 46 = .ok 14 ∧
      d1.end_ = .ok it) ∧
    (∃ d pos it d1, push_back_range (block_elements_v 256) 4 {} = .ok d ∧
      Reachable (block_elements_v 256) d ∧
      iterator_at (block_elements_v 256) d 2 = .ok pos ∧
      erase (block_elements_v 256) d pos = .ok (it, d1) ∧
      d1.size (block_elements_v 256) = 3 ∧
      (List.range 3).map (fun i => d1.index (block_elements_v 256) i) = [.ok 0, .ok 1, .ok 3] ∧
      d.destroyed = [] ∧ d1.destroyed = [⟨0, 0⟩] ∧
      d1.index_ptr (block_elements_v 256) 0 = .ok ⟨0, 0⟩) :=
  ⟨sample_adjacent_48_reachable, rfl,
    ⟨_, _, _, _, _, rfl, rfl, rfl, rfl, rfl, rfl, rfl, rfl, rfl, rfl, rfl, rfl, rfl, rfl, rfl,
      rfl⟩,
    ⟨state_of (push_back_range 16 4 {}), _, _, _, rfl,
      push_back_range_reachable 4 Reachable.init rfl, rfl, rfl, rfl, rfl, rfl, rfl, rfl⟩⟩

end deque

end fast_io

namespace fast_io

namespace deque

/-! ## Evaluations of `pop_back` and of the operations at the ends after a shrink -/

/-- C3: with 16 elements per block, on the reachable deque built by `push_back(1)`,
`push_back(2)` leaves `[1, 2]` in one block and `pop_back()` leaves size 1 and the value 1 at
index 0, but calls the destructor on the cell of `d[0]`, the element that stays, and on no
other cell: after `push_back(2); pop_back()` the element `d[0]` is a destroyed object.
`push_front(2); pop_front()` on the same deque calls the destructor on the cell of the
element it removes.  On the reachable deque built by `push_back(0)`, ..., `push_back(19)`,
`resize(16)` for a trivially destructible element type leaves 16 elements, and `pop_back()`
then leaves the defined behaviour instead of leaving 15 elements. -/
theorem C3_pop_back_destroys_kept_element :
    (∃ d a b, emplace_back (block_elements_v 256) ({} : deque Nat) 1 = .ok d ∧
      Reachable (block_elements_v 256) d ∧ d.destroyed = [] ∧
      d.index_ptr (block_elements_v 256) 0 = .ok ⟨0, 0⟩ ∧
      emplace_back (block_elements_v 256) d 2 = .ok a ∧
      a.index_ptr (block_elements_v 256) 1 = .ok ⟨0, 1⟩ ∧
      pop_back (block_elements_v 256) a = .ok b ∧
      b.size (block_elements_v 256) = 1 ∧ b.index (block_elements_v 256) 0 = .ok 1 ∧
      b.index_ptr (block_elements_v 256) 0 = .ok ⟨0, 0⟩ ∧ b.destroyed = [⟨0, 0⟩]) ∧
    (∃ d a b, emplace_back (block_elements_v 256) ({} : deque Nat) 1 = .ok d ∧
      emplace_front (block_elements_v 256) d 2 = .ok a ∧
      a.index_ptr (block_elements_v 256) 0 = .ok ⟨1, 15⟩ ∧
      pop_front (block_elements_v 256) a = .ok b ∧
      b.size (block_elements_v 256) = 1 ∧ b.index (block_elements_v 256) 0 = .ok 1 ∧
      b.index_ptr (block_elements_v 256) 0 = .ok ⟨0, 0⟩ ∧ b.destroyed = [⟨1, 15⟩]) ∧
    (∃ d d1, push_back_range (block_elements_v 256) 20 {} = .ok d ∧
      Reachable (block_elements_v 256) d ∧
      resize (block_elements_v 256) true d 16 = .ok d1 ∧
      d1.size (block_elements_v 256) = 16 ∧
      pop_back (block_elements_v 256) d1 = .error .undefined) :=
  ⟨⟨state_of (emplace_back 16 {} 1), _, _, rfl, Reachable.emplace_back 1 Reachable.init rfl,
      rfl, rfl, rfl, rfl, rfl, rfl, rfl, rfl, rfl⟩,
    ⟨state_of (emplace_back 16 {} 1), _, _, rfl, rfl, rfl, rfl, rfl, rfl, rfl, rfl⟩,
    ⟨state_of (push_back_range 16 20 {}), _, rfl,
      push_back_range_reachable 20 Reachable.init rfl, rfl, rfl, rfl⟩⟩

/-- C19: with 16 elements per block, on the reachable deque built by `push_back(0)`, ...,
`push_back(19)`, `resize(16)` for a trivially destructible element type returns a deque with
`size() == 16` that is not empty, on which `back()` and `pop_back()` leave the defined
behaviour where `d[15]` is 15, while `front()` and `pop_front()` complete: the last element
block is empty, and `back()` reads the cell in front of it.  After `resize(16)` by the path of
`pop_back` calls, `back()` is `d[15]` and `pop_back()` completes. -/
theorem C19_back_faults_after_trivial_shrink :
    ∃ d d1 d2 : deque Nat, push_back_range (block_elements_v 256) 20 {} = .ok d ∧
      Reachable (block_elements_v 256) d ∧
      resize (block_elements_v 256) true d 16 = .ok d1 ∧
      d1.size (block_elements_v 256) = 16 ∧ d1.empty = false ∧
      d1.index (block_elements_v 256) 15 = .ok 15 ∧
      d1.back = .error .undefined ∧
      pop_back (block_elements_v 256) d1 = .error .undefined ∧
      d1.front = .ok 0 ∧ d1.index (block_elements_v 256) 0 = .ok 0 ∧
      (∃ d3, pop_front (block_elements_v 256) d1 = .ok d3 ∧
        d3.size (block_elements_v 256) = 15) ∧
      d1.elem_end_end_ = d1.elem_end_begin_ ∧
      resize (block_elements_v 256) false d 16 = .ok d2 ∧
      d2.size (block_elements_v 256) = 16 ∧ d2.back = .ok 15 ∧
      (∃ d4, pop_back (block_elements_v 256) d2 = .ok d4 ∧
        d4.size (block_elements_v 256) = 15) :=
  ⟨state_of (push_back_range 16 20 {}), _, _, rfl,
    push_back_range_reachable 20 Reachable.init rfl, rfl, rfl, rfl, rfl, rfl, rfl, rfl, rfl,
    ⟨_, rfl, rfl⟩, rfl, rfl, rfl, rfl, ⟨_, rfl, rfl⟩⟩

end deque

end fast_io

